import Mathlib

/-!
# Neutron: failure registry and cron schedule wire codec

Shallow embedding of
* `x/contractmanager/keeper/failure.go` (the failure registry), and
* `x/cron/types/schedule.pb.go` (the generated wire codec of the scheduler records),
followed by the theorems proved about them.
-/

namespace Neutron

/-! ## Byte strings -/

/-- Go byte slice contents (also the contents of a Go string). -/
abbrev Bytes := List UInt8

/-- Lexicographic byte order used by the store to sort keys (Go bytes.Compare less-than). -/
def bytesLt : Bytes → Bytes → Bool
  | [], [] => false
  | [], _ :: _ => true
  | _ :: _, [] => false
  | a :: as, b :: bs =>
    if a.toNat < b.toNat then true
    else if b.toNat < a.toNat then false
    else bytesLt as bs

theorem bytesLt_irrefl (a : Bytes) : bytesLt a a = false := by
  induction a with
  | nil => rfl
  | cons x xs ih => simp [bytesLt, ih]

theorem bytesLt_trans {a b c : Bytes} (hab : bytesLt a b = true) (hbc : bytesLt b c = true) :
    bytesLt a c = true := by
  induction a generalizing b c with
  | nil =>
    cases b with
    | nil => simp [bytesLt] at hab
    | cons y ys =>
      cases c with
      | nil => simp [bytesLt] at hbc
      | cons z zs => simp [bytesLt]
  | cons x xs ih =>
    cases b with
    | nil => simp [bytesLt] at hab
    | cons y ys =>
      cases c with
      | nil => simp [bytesLt] at hbc
      | cons z zs =>
        simp only [bytesLt] at hab hbc ⊢
        by_cases h1 : x.toNat < y.toNat
        · by_cases h2 : y.toNat < z.toNat
          · have : x.toNat < z.toNat := by omega
            simp [this]
          · by_cases h3 : z.toNat < y.toNat
            · simp [h2, h3] at hbc
            · have : x.toNat < z.toNat := by omega
              simp [this]
        · by_cases h1b : y.toNat < x.toNat
          · simp [h1, h1b] at hab
          · simp only [h1, h1b, if_false] at hab
            by_cases h2 : y.toNat < z.toNat
            · have : x.toNat < z.toNat := by omega
              simp [this]
            · by_cases h3 : z.toNat < y.toNat
              · simp [h2, h3] at hbc
              · simp only [h2, h3, if_false] at hbc
                have e1 : ¬ x.toNat < z.toNat := by omega
                have e2 : ¬ z.toNat < x.toNat := by omega
                simp only [e1, e2, if_false]
                exact ih hab hbc

theorem bytesLt_asymm {a b : Bytes} (hab : bytesLt a b = true) : bytesLt b a = false := by
  cases h : bytesLt b a with
  | false => rfl
  | true =>
    have := bytesLt_trans hab h
    rw [bytesLt_irrefl] at this
    exact absurd this (by simp)

theorem bytesLt_connex {a b : Bytes} (hne : a ≠ b) : bytesLt a b = true ∨ bytesLt b a = true := by
  induction a generalizing b with
  | nil =>
    cases b with
    | nil => exact absurd rfl hne
    | cons y ys => left; simp [bytesLt]
  | cons x xs ih =>
    cases b with
    | nil => right; simp [bytesLt]
    | cons y ys =>
      simp only [bytesLt]
      by_cases h1 : x.toNat < y.toNat
      · left; simp [h1]
      · by_cases h2 : y.toNat < x.toNat
        · right; simp [h2]
        · have hxy : x = y := UInt8.ext (by omega)
          subst hxy
          have hne2 : xs ≠ ys := fun h => hne (by rw [h])
          simp only [h1, if_false]
          exact ih hne2

/-! ## The key-value store consumed by the keeper -/

/-- Point lookup in an association list of store entries. -/
def lookupKey : List (Bytes × Bytes) → Bytes → Option Bytes
  | [], _ => none
  | e :: rest, k => if e.1 = k then some e.2 else lookupKey rest k

/-- Write an entry, keeping the entries ordered by key; an existing key is overwritten. -/
def insertKey : List (Bytes × Bytes) → Bytes → Bytes → List (Bytes × Bytes)
  | [], k, v => [(k, v)]
  | e :: rest, k, v =>
    if e.1 = k then (k, v) :: rest
    else if bytesLt k e.1 then (k, v) :: e :: rest
    else e :: insertKey rest k v

/-- Remove the entry stored at a key, if any. -/
def deleteKey (l : List (Bytes × Bytes)) (k : Bytes) : List (Bytes × Bytes) :=
  l.filter (fun e => !decide (e.1 = k))

/-- Entries are strictly ascending by key (so keys are unique). -/
def KeysAscending (l : List (Bytes × Bytes)) : Prop :=
  l.Pairwise (fun x y => bytesLt x.1 y.1 = true)

theorem mem_insertKey {l : List (Bytes × Bytes)} {k v : Bytes} {x : Bytes × Bytes}
    (hx : x ∈ insertKey l k v) : x = (k, v) ∨ x ∈ l := by
  induction l with
  | nil => simp [insertKey] at hx; exact Or.inl hx
  | cons e rest ih =>
    simp only [insertKey] at hx
    split at hx
    · rcases List.mem_cons.mp hx with h | h
      · exact Or.inl h
      · exact Or.inr (List.mem_cons_of_mem _ h)
    · split at hx
      · rcases List.mem_cons.mp hx with h | h
        · exact Or.inl h
        · exact Or.inr h
      · rcases List.mem_cons.mp hx with h | h
        · exact Or.inr (h ▸ List.mem_cons_self _ _)
        · rcases ih h with h2 | h2
          · exact Or.inl h2
          · exact Or.inr (List.mem_cons_of_mem _ h2)

theorem insertKey_ascending {l : List (Bytes × Bytes)} (hl : KeysAscending l) (k v : Bytes) :
    KeysAscending (insertKey l k v) := by
  induction l with
  | nil => simp [insertKey, KeysAscending]
  | cons e rest ih =>
    have hl2 := List.pairwise_cons.mp hl
    simp only [insertKey]
    split
    · rename_i hek
      refine List.pairwise_cons.mpr ⟨?_, hl2.2⟩
      intro y hy
      have := hl2.1 y hy
      rw [hek] at this
      exact this
    · rename_i hek
      split
      · rename_i hlt
        refine List.pairwise_cons.mpr ⟨?_, hl⟩
        intro y hy
        rcases List.mem_cons.mp hy with h | h
        · rw [h]; exact hlt
        · exact bytesLt_trans hlt (hl2.1 y h)
      · rename_i hlt
        refine List.pairwise_cons.mpr ⟨?_, ih hl2.2⟩
        intro y hy
        rcases mem_insertKey hy with h | h
        · rw [h]
          rcases bytesLt_connex hek with h3 | h3
          · exact h3
          · exact absurd h3 hlt
        · exact hl2.1 y h

theorem deleteKey_ascending {l : List (Bytes × Bytes)} (hl : KeysAscending l) (k : Bytes) :
    KeysAscending (deleteKey l k) :=
  List.Pairwise.sublist (List.filter_sublist l) hl

/-- The module store: a finite map from byte keys to byte values, iterated in ascending key
order (the store interface the keeper consumes: point get/set/delete and ordered range
iteration). -/
structure KVStore where
  entries : List (Bytes × Bytes)
  ascending : KeysAscending entries

namespace KVStore

/-- The store with no entry. -/
def empty : KVStore := ⟨[], List.Pairwise.nil⟩

/-- Point read, store.Get: none stands for Go nil (no value at the key). -/
def Get (s : KVStore) (key : Bytes) : Option Bytes := lookupKey s.entries key

/-- Point write, store.Set. -/
def Set (s : KVStore) (key value : Bytes) : KVStore :=
  ⟨insertKey s.entries key value, insertKey_ascending s.ascending key value⟩

/-- Point delete, store.Delete. -/
def Delete (s : KVStore) (key : Bytes) : KVStore :=
  ⟨deleteKey s.entries key, deleteKey_ascending s.ascending key⟩

/-- Ascending iteration over the sub-store of keys starting with pfx
(prefix.NewStore followed by KVStorePrefixIterator with the empty start). -/
def PrefixIterator (s : KVStore) (pfx : Bytes) : List (Bytes × Bytes) :=
  s.entries.filter (fun e => pfx.isPrefixOf e.1)

/-- Descending iteration over the same sub-store (KVStoreReversePrefixIterator). -/
def ReversePrefixIterator (s : KVStore) (pfx : Bytes) : List (Bytes × Bytes) :=
  (s.PrefixIterator pfx).reverse

end KVStore

/-! ## The failure registry (x/contractmanager/keeper/failure.go) -/

/-- The record the keeper stores (types.Failure), with the four fields failure.go
assigns and reads. SudoPayload is a Go byte slice: none is the nil slice, some [] an empty
non-nil one. Id is a uint64. -/
structure Failure where
  Address : Bytes
  Id : Nat
  SudoPayload : Option Bytes
  Error : Bytes
deriving DecidableEq, Repr

/-- The contents of a payload slice, nil and empty both being the empty byte string. -/
def payloadBytes : Option Bytes → Bytes
  | none => []
  | some b => b

/-- The registered errors the keeper wraps. -/
inductive Sentinel where
  | ErrKeyNotFound
  | ErrIncorrectFailureToResubmit
  | ErrFailedToResubmitFailure
deriving DecidableEq, Repr

/-- An error built by errorsmod.Wrapf: the wrapped registered error and the arguments
formatted into its message. -/
inductive KeeperError where
  /-- Wrapf(ErrKeyNotFound, "no failure found for contractAddress = %s and failureId = %d"). -/
  | noFailureFound (contractAddr : Bytes) (id : Nat)
  /-- Wrapf(ErrIncorrectFailureToResubmit, "cannot resubmit failure without sudo payload; failureId = %d"). -/
  | withoutSudoPayload (failureId : Nat)
  /-- Wrapf(ErrFailedToResubmitFailure, "cannot resubmit failure; failureId = %d; err = %s"). -/
  | cannotResubmit (failureId : Nat) (err : Bytes)
deriving DecidableEq, Repr

/-- The registered error a wrapped error unwraps to (errors.Is). -/
def KeeperError.sentinel : KeeperError → Sentinel
  | .noFailureFound _ _ => .ErrKeyNotFound
  | .withoutSudoPayload _ => .ErrIncorrectFailureToResubmit
  | .cannotResubmit _ _ => .ErrFailedToResubmitFailure

/-- What the keeper is built from and does not define in failure.go: the codec
(k.cdc), the key layout of types/keys.go, the address rendering AccAddress.String, and
the contract Sudo handler behind k.wasmKeeper. MustUnmarshal returns none where the Go
call panics. The handler receives the store and may change it. -/
structure Keeper where
  MustMarshal : Failure → Bytes
  MustUnmarshal : Bytes → Option Failure
  ContractFailuresKey : Bytes
  GetFailureKeyPrefix : Bytes → Bytes
  GetFailureKey : Bytes → Nat → Bytes
  AccAddressString : Bytes → Bytes
  SudoHandler : KVStore → Bytes → Bytes → KVStore × Except Bytes Bytes

/-- The state a keeper call runs against: the module store reached through ctx, and the
log of the calls made to the contract Sudo handler (address, message). -/
structure Ctx where
  store : KVStore
  sudoCalls : List (Bytes × Bytes)

/-- The call k.wasmKeeper.Sudo(ctx, contractAddress, msg): runs the handler on the store and
records the call. -/
def Keeper.Sudo (k : Keeper) (ctx : Ctx) (contractAddress msg : Bytes) :
    Except Bytes Bytes × Ctx :=
  let r := k.SudoHandler ctx.store contractAddress msg
  (r.2, { store := r.1, sudoCalls := ctx.sudoCalls ++ [(contractAddress, msg)] })

/-- GetNextFailureIDKey: one more than the Id of the last failure under the address prefix,
0 when there is none. The result none is the panic of MustUnmarshal. -/
def Keeper.GetNextFailureIDKey (k : Keeper) (ctx : Ctx) (address : Bytes) : Option (Nat × Ctx) :=
  match ctx.store.ReversePrefixIterator (k.GetFailureKeyPrefix address) with
  | e :: _ =>
    match k.MustUnmarshal e.2 with
    | none => none
    | some val => some ((val.Id + 1) % 2 ^ 64, ctx)
  | [] => some (0, ctx)

/-- AddContractFailure: builds the failure, gives it the next id of its address and stores
its encoding at GetFailureKey(address, id). -/
def Keeper.AddContractFailure (k : Keeper) (ctx : Ctx) (address : Bytes)
    (sudoPayload : Option Bytes) (errMsg : Bytes) : Option (Failure × Ctx) :=
  let failure : Failure := { Address := address, Id := 0, SudoPayload := sudoPayload, Error := errMsg }
  match k.GetNextFailureIDKey ctx failure.Address with
  | none => none
  | some (nextFailureID, ctx1) =>
    let failure := { failure with Id := nextFailureID }
    let bz := k.MustMarshal failure
    some (failure,
      { ctx1 with store := ctx1.store.Set (k.GetFailureKey failure.Address nextFailureID) bz })

/-- The loop of GetAllFailures over the iterator items: decode and append each value. -/
def Keeper.decodeAll (k : Keeper) : List (Bytes × Bytes) → List Failure → Option (List Failure)
  | [], list => some list
  | e :: rest, list =>
    match k.MustUnmarshal e.2 with
    | none => none
    | some val => k.decodeAll rest (list ++ [val])

/-- GetAllFailures returns all failures. -/
def Keeper.GetAllFailures (k : Keeper) (ctx : Ctx) : Option (List Failure × Ctx) :=
  match k.decodeAll (ctx.store.PrefixIterator k.ContractFailuresKey) [] with
  | none => none
  | some list => some (list, ctx)

/-- GetFailure: the failure stored for (contractAddr, id), or the wrapped ErrKeyNotFound. -/
def Keeper.GetFailure (k : Keeper) (ctx : Ctx) (contractAddr : Bytes) (id : Nat) :
    Option (Except KeeperError Failure × Ctx) :=
  let key := k.GetFailureKey (k.AccAddressString contractAddr) id
  match ctx.store.Get key with
  | none => some (.error (.noFailureFound (k.AccAddressString contractAddr) id), ctx)
  | some bz =>
    match k.MustUnmarshal bz with
    | none => none
    | some res => some (.ok res, ctx)

/-- The helper removeFailure: deletes the entry of (contractAddr, id). -/
def Keeper.removeFailure (k : Keeper) (ctx : Ctx) (contractAddr : Bytes) (id : Nat) : Ctx :=
  let failureKey := k.GetFailureKey (k.AccAddressString contractAddr) id
  { ctx with store := ctx.store.Delete failureKey }

/-- ResubmitFailure tries to call the sudo handler for the contract with the same parameters
as initially; the returned option is the Go error (none is nil). -/
def Keeper.ResubmitFailure (k : Keeper) (ctx : Ctx) (contractAddr : Bytes) (failure : Failure) :
    Option KeeperError × Ctx :=
  match failure.SudoPayload with
  | none => (some (.withoutSudoPayload failure.Id), ctx)
  | some payload =>
    match k.Sudo ctx contractAddr payload with
    | (.error err, ctx1) => (some (.cannotResubmit failure.Id err), ctx1)
    | (.ok _, ctx1) =>
      -- Cleanup failure since we resubmitted it successfully
      (none, k.removeFailure ctx1 contractAddr failure.Id)

/-- A run of AddContractFailure calls, one per (address, sudoPayload, errMsg), each on the
state the previous one left; returns the failures in call order. -/
def Keeper.addAll (k : Keeper) : Ctx → List (Bytes × Option Bytes × Bytes) →
    Option (List Failure × Ctx)
  | ctx, [] => some ([], ctx)
  | ctx, c :: rest =>
    match k.AddContractFailure ctx c.1 c.2.1 c.2.2 with
    | none => none
    | some (f, ctx1) =>
      match k.addAll ctx1 rest with
      | none => none
      | some (fs, ctx2) => some (f :: fs, ctx2)

/-- Two failures carry the same record: equal address, id and error, and payloads with the
same bytes (a nil payload and an empty one are not told apart). -/
def Failure.sameRecord (g f : Failure) : Prop :=
  g.Address = f.Address ∧ g.Id = f.Id ∧
    payloadBytes g.SudoPayload = payloadBytes f.SudoPayload ∧ g.Error = f.Error

instance (g f : Failure) : Decidable (g.sameRecord f) := by
  unfold Failure.sameRecord; infer_instance

/-- The codec assumption: MustUnmarshal inverts MustMarshal (up to nil versus empty
payload). -/
def Keeper.CodecInverts (k : Keeper) : Prop :=
  ∀ f : Failure, ∃ g, k.MustUnmarshal (k.MustMarshal f) = some g ∧ g.sameRecord f

/-- The store entry AddContractFailure writes for a failure. -/
def Keeper.entryOf (k : Keeper) (f : Failure) : Bytes × Bytes :=
  (k.GetFailureKey f.Address f.Id, k.MustMarshal f)

/-- The failures of address a in store s are numbered 0..m-1: every entry under the key
range of the address sits at a key GetFailureKey(a, i) with i < m, and each of these keys
holds the encoding of a failure whose Id is i. -/
def Keeper.Numbered (k : Keeper) (s : KVStore) (a : Bytes) (m : Nat) : Prop :=
  (∀ e ∈ s.entries, (k.GetFailureKeyPrefix a).isPrefixOf e.1 = true →
      ∃ i, i < m ∧ e.1 = k.GetFailureKey a i) ∧
  (∀ i, i < m → ∃ f, s.Get (k.GetFailureKey a i) = some (k.MustMarshal f) ∧ f.Id = i)

/-- An operation of a run on the registry: a call of AddContractFailure or of
ResubmitFailure. -/
inductive FailureOp where
  | add (address : Bytes) (sudoPayload : Option Bytes) (errMsg : Bytes)
  | resubmit (contractAddr : Bytes) (failure : Failure)
deriving DecidableEq, Repr

/-- A run of AddContractFailure and successful ResubmitFailure calls, each on the state the
previous one left. Returns the address and id of the failures the additions returned, in
call order; none when MustUnmarshal panics or a resubmission returns an error. -/
def Keeper.runOps (k : Keeper) : Ctx → List FailureOp → Option (List (Bytes × Nat) × Ctx)
  | ctx, [] => some ([], ctx)
  | ctx, .add address sudoPayload errMsg :: rest =>
    match k.AddContractFailure ctx address sudoPayload errMsg with
    | none => none
    | some (f, ctx1) =>
      match k.runOps ctx1 rest with
      | none => none
      | some (ids, ctx2) => some ((f.Address, f.Id) :: ids, ctx2)
  | ctx, .resubmit contractAddr failure :: rest =>
    match k.ResubmitFailure ctx contractAddr failure with
    | (some _, _) => none
    | (none, ctx1) => k.runOps ctx1 rest

/-! ### A concrete keeper to evaluate the registry on -/

/-- The 8-byte big-endian rendering of a uint64. -/
def Uint64ToBigEndian (n : Nat) : Bytes :=
  [56, 48, 40, 32, 24, 16, 8, 0].map (fun sh => UInt8.ofNat (n >>> sh))

/-- A number in unary: n ones and a closing zero. -/
def encodeUnary (n : Nat) : Bytes := List.replicate n 1 ++ [0]

/-- Reads a unary number and returns it with the rest of the input. -/
def decodeUnary : Bytes → Option (Nat × Bytes)
  | [] => none
  | b :: rest =>
    if b = 0 then some (0, rest)
    else
      match decodeUnary rest with
      | none => none
      | some (n, r) => some (n + 1, r)

/-- A byte string behind its length. -/
def encodeBlock (b : Bytes) : Bytes := encodeUnary b.length ++ b

/-- Reads a length and that many bytes. -/
def decodeBlock (d : Bytes) : Option (Bytes × Bytes) :=
  match decodeUnary d with
  | none => none
  | some (n, r) => if n ≤ r.length then some (r.take n, r.drop n) else none

/-- A simple self-delimiting encoding of a failure, standing in for the codec. -/
def sampleMarshal (f : Failure) : Bytes :=
  encodeBlock f.Address ++ encodeUnary f.Id ++
    (match f.SudoPayload with
      | none => [0]
      | some p => 1 :: encodeBlock p) ++
    encodeBlock f.Error

/-- The decoder of sampleMarshal; none on malformed input. -/
def sampleUnmarshal (d : Bytes) : Option Failure :=
  match decodeBlock d with
  | none => none
  | some (addr, d1) =>
    match decodeUnary d1 with
    | none => none
    | some (id, d2) =>
      match d2 with
      | [] => none
      | tag :: d3 =>
        if tag = 0 then
          match decodeBlock d3 with
          | some (err, []) => some { Address := addr, Id := id, SudoPayload := none, Error := err }
          | _ => none
        else
          match decodeBlock d3 with
          | none => none
          | some (p, d4) =>
            match decodeBlock d4 with
            | some (err, []) =>
              some { Address := addr, Id := id, SudoPayload := some p, Error := err }
            | _ => none

/-- A keeper instance: the key of a failure is the byte 1, the address bytes and the
big-endian id; addresses render as themselves; the contract handler rejects the message
[0] and accepts every other, leaving the store alone. -/
def sampleKeeper : Keeper where
  MustMarshal := sampleMarshal
  MustUnmarshal := sampleUnmarshal
  ContractFailuresKey := [1]
  GetFailureKeyPrefix := fun address => [1] ++ address
  GetFailureKey := fun address id => [1] ++ address ++ Uint64ToBigEndian id
  AccAddressString := fun a => a
  SudoHandler := fun s _ msg => (s, if msg = [0] then .error [7] else .ok [])

/-- The state with an empty store and no call made. -/
def emptyCtx : Ctx := { store := KVStore.empty, sudoCalls := [] }

/-- The state after the failure ([97], 0, nil, "") was added to the empty store. -/
def sampleCtx1 : Ctx :=
  Ctx.mk (KVStore.empty.Set [1, 97, 0, 0, 0, 0, 0, 0, 0, 0] (sampleMarshal ⟨[97], 0, none, []⟩)) []

/-- The state after the failure ([97], 1, [5], [9]) was added to sampleCtx1. -/
def sampleCtx2 : Ctx :=
  Ctx.mk (sampleCtx1.store.Set [1, 97, 0, 0, 0, 0, 0, 0, 0, 1]
    (sampleMarshal ⟨[97], 1, some [5], [9]⟩)) []

/-- The state after the failures ([97], 0), ([97], 1) and ([97, 98], 0) were added to the
empty store of the sample keeper: the keys of address [97, 98] lie in the key range of
address [97]. -/
def sampleCtx3 : Ctx :=
  Ctx.mk (((KVStore.empty.Set [1, 97, 0, 0, 0, 0, 0, 0, 0, 0]
      (sampleMarshal ⟨[97], 0, some [5], [9]⟩)).Set [1, 97, 0, 0, 0, 0, 0, 0, 0, 1]
      (sampleMarshal ⟨[97], 1, none, [9]⟩)).Set [1, 97, 98, 0, 0, 0, 0, 0, 0, 0, 0]
      (sampleMarshal ⟨[97, 98], 0, some [], []⟩)) []

/-- The state whose store holds the single failure ([97, 98], 0) of the sample keeper: no
failure of address [97] is stored, yet the key of the entry lies in the key range of
[97]. -/
def sampleCtx4 : Ctx :=
  Ctx.mk (KVStore.empty.Set [1, 97, 98, 0, 0, 0, 0, 0, 0, 0, 0]
    (sampleMarshal ⟨[97, 98], 0, some [], []⟩)) []

/-- The number an 8-byte big-endian rendering stands for. -/
def Uint64FromBigEndian (b : Bytes) : Nat := b.foldl (fun acc x => acc * 256 + x.toNat) 0

/-- An encoding of a failure with the Id as a fixed-width uint64, standing in for the
codec where ids are large. -/
def fixedMarshal (f : Failure) : Bytes :=
  encodeBlock f.Address ++ Uint64ToBigEndian f.Id ++
    (match f.SudoPayload with
      | none => [0]
      | some p => 1 :: encodeBlock p) ++
    encodeBlock f.Error

/-- The decoder of fixedMarshal; none on malformed input. -/
def fixedUnmarshal (d : Bytes) : Option Failure :=
  match decodeBlock d with
  | none => none
  | some (addr, d1) =>
    if d1.length < 8 then none
    else
      match d1.drop 8 with
      | [] => none
      | tag :: d3 =>
        if tag = 0 then
          match decodeBlock d3 with
          | some (err, []) =>
            some { Address := addr, Id := Uint64FromBigEndian (d1.take 8), SudoPayload := none,
                   Error := err }
          | _ => none
        else
          match decodeBlock d3 with
          | none => none
          | some (p, d4) =>
            match decodeBlock d4 with
            | some (err, []) =>
              some { Address := addr, Id := Uint64FromBigEndian (d1.take 8),
                     SudoPayload := some p, Error := err }
            | _ => none

/-- The sample keeper with the fixed-width codec. -/
def fixedKeeper : Keeper :=
  { sampleKeeper with MustMarshal := fixedMarshal, MustUnmarshal := fixedUnmarshal }

/-- The state whose store holds the single failure ([97], 2^64 - 1) of fixedKeeper, at its
own key. -/
def maxIdCtx : Ctx :=
  Ctx.mk (KVStore.empty.Set [1, 97, 255, 255, 255, 255, 255, 255, 255, 255]
    (fixedMarshal ⟨[97], 2 ^ 64 - 1, none, []⟩)) []

/-- The state after the failures ([97], 0), ([97], 1) and ([98], 0) were added to the empty
store of the sample keeper: two addresses whose key prefixes are not prefixes of one
another, both with stored failures. -/
def sampleCtx5 : Ctx :=
  Ctx.mk (sampleCtx2.store.Set [1, 98, 0, 0, 0, 0, 0, 0, 0, 0]
    (sampleMarshal ⟨[98], 0, some [7], [3]⟩)) []

/-- Every stored value decodes to a failure that sits at the key of its own address and
Id: the Id field of a stored failure is the id in its key. -/
def Keeper.StoredAtOwnKey (k : Keeper) (s : KVStore) : Prop :=
  ∀ e ∈ s.entries, ∃ f, k.MustUnmarshal e.2 = some f ∧ e.1 = k.GetFailureKey f.Address f.Id

/-! ## The scheduler records and their wire codec (x/cron/types/schedule.pb.go) -/

/-- MsgExecuteContract: Contract and Msg are Go strings (byte strings). -/
structure MsgExecuteContract where
  Contract : Bytes
  Msg : Bytes
deriving DecidableEq, Repr

/-- Schedule: Period and LastExecuteHeight are uint64; a nil Msgs slice and an empty one are
both the empty list. -/
structure Schedule where
  Name : Bytes
  Period : Nat
  Msgs : List MsgExecuteContract
  LastExecuteHeight : Nat
deriving DecidableEq, Repr

/-- ScheduleCount: Count is an int32. -/
structure ScheduleCount where
  Count : Int
deriving DecidableEq, Repr

/-- The messages of the file, as named in its error texts. -/
inductive MsgKind where
  | Schedule
  | MsgExecuteContract
  | ScheduleCount
  | OldFailure
deriving DecidableEq, Repr

/-- The fields of the file, as named in its error texts. -/
inductive FieldName where
  | Name
  | Period
  | Msgs
  | LastExecuteHeight
  | Contract
  | Msg
  | Count
  | ChannelId
  | Address
  | Id
  | AckId
  | AckType
deriving DecidableEq, Repr

/-- The errors the decoders return. -/
inductive ProtoError where
  /-- ErrInvalidLengthSchedule, "proto: negative length found during unmarshaling". -/
  | ErrInvalidLengthSchedule
  /-- ErrIntOverflowSchedule, "proto: integer overflow". -/
  | ErrIntOverflowSchedule
  /-- ErrUnexpectedEndOfGroupSchedule, "proto: unexpected end of group". -/
  | ErrUnexpectedEndOfGroupSchedule
  /-- The error io.ErrUnexpectedEOF. -/
  | ErrUnexpectedEOF
  /-- The error "proto: M: wiretype end group for non-group". -/
  | wiretypeEndGroup (msg : MsgKind)
  /-- The error "proto: M: illegal tag %d (wire type %d)", with fieldNum and wire. -/
  | illegalTag (msg : MsgKind) (fieldNum : Int) (wire : Nat)
  /-- The error "proto: wrong wireType = %d for field F". -/
  | wrongWireType (wireType : Nat) (field : FieldName)
  /-- The error "proto: illegal wireType %d" of skipSchedule. -/
  | illegalWireType (wireType : Nat)
  /-- ErrInvalidLengthGenesis, "proto: negative length found during unmarshaling". -/
  | ErrInvalidLengthGenesis
  /-- ErrIntOverflowGenesis, "proto: integer overflow". -/
  | ErrIntOverflowGenesis
  /-- ErrUnexpectedEndOfGroupGenesis, "proto: unexpected end of group". -/
  | ErrUnexpectedEndOfGroupGenesis
deriving DecidableEq, Repr

/-! ### Sizes -/

/-- The loop behind bits.Len64: the number of binary digits of x. -/
def lenLoop : Nat → Nat → Nat
  | 0, _ => 0
  | fuel + 1, x => if x = 0 then 0 else lenLoop fuel (x / 2) + 1

/-- The function math/bits.Len64: the minimum number of bits needed to represent a uint64,
0 for 0. -/
def Len64 (x : Nat) : Nat := lenLoop 64 x

/-- sovSchedule: the number of bytes of the varint of x. -/
def sovSchedule (x : Nat) : Nat := (Len64 (x ||| 1) + 6) / 7

/-- MsgExecuteContract.Size. -/
def MsgExecuteContract.Size (m : MsgExecuteContract) : Nat :=
  let n := 0
  let l := m.Contract.length
  let n := if l > 0 then n + (1 + l + sovSchedule l) else n
  let l := m.Msg.length
  let n := if l > 0 then n + (1 + l + sovSchedule l) else n
  n

/-- Schedule.Size. -/
def Schedule.Size (m : Schedule) : Nat :=
  let n := 0
  let l := m.Name.length
  let n := if l > 0 then n + (1 + l + sovSchedule l) else n
  let n := if m.Period ≠ 0 then n + (1 + sovSchedule m.Period) else n
  let n := m.Msgs.foldl (fun n e => n + (1 + e.Size + sovSchedule e.Size)) n
  let n := if m.LastExecuteHeight ≠ 0 then n + (1 + sovSchedule m.LastExecuteHeight) else n
  n

/-- The conversion uint64(c) of an int32: sign extension to 64 bits. -/
def uint64OfInt32 (c : Int) : Nat := (c % 2 ^ 64).toNat

/-- The int32 with a given 32-bit pattern. -/
def int32OfBits (p : Nat) : Int := if p < 2 ^ 31 then (p : Int) else (p : Int) - 2 ^ 32

/-- ScheduleCount.Size. -/
def ScheduleCount.Size (m : ScheduleCount) : Nat :=
  if m.Count ≠ 0 then 1 + sovSchedule (uint64OfInt32 m.Count) else 0

/-! ### Marshalling into a sized buffer, back to front

The buffer is a list of bytes of fixed length; the result none is a Go panic (index or slice
bounds out of range). Indices are natural numbers: an index that would go negative panics
at the access that follows it in the Go code, and is a panic here. -/

/-- The assignment dAtA[i] = b. -/
def setByte (dAtA : Bytes) (i : Nat) (b : UInt8) : Option Bytes :=
  if i < dAtA.length then some (dAtA.set i b) else none

/-- The call copy(dAtA[i:], src): copies as many bytes of src as fit. -/
def copyAt (dAtA : Bytes) (i : Nat) (src : Bytes) : Option Bytes :=
  if i ≤ dAtA.length then
    some (dAtA.take i ++ src.take (dAtA.length - i) ++ dAtA.drop (i + src.length))
  else none

/-- The step i -= n (followed by an access at i). -/
def subIndex (i n : Nat) : Option Nat := if n ≤ i then some (i - n) else none

/-- The loop of encodeVarintSchedule: writes the 7-bit groups of v from offset on. A uint64
has at most ten groups. -/
def encodeVarintLoop : Nat → Bytes → Nat → Nat → Option Bytes
  | 0, _, _, _ => none
  | fuel + 1, dAtA, offset, v =>
    if v ≥ 1 <<< 7 then
      match setByte dAtA offset (UInt8.ofNat ((v &&& 0x7f) ||| 0x80)) with
      | none => none
      | some d => encodeVarintLoop fuel d (offset + 1) (v >>> 7)
    else setByte dAtA offset (UInt8.ofNat v)

/-- encodeVarintSchedule(dAtA, offset, v): writes the varint of v so that it ends before
offset and returns the buffer and the index of its first byte. -/
def encodeVarintSchedule (dAtA : Bytes) (offset : Nat) (v : Nat) : Option (Bytes × Nat) :=
  match subIndex offset (sovSchedule v) with
  | none => none
  | some base =>
    match encodeVarintLoop 10 dAtA base v with
    | none => none
    | some d => some (d, base)

/-- The statements writing a string field:
i -= len(s); copy(dAtA[i:], s); i = encodeVarintSchedule(dAtA, i, uint64(len(s))); i--;
dAtA[i] = tag. -/
def putStringField (dAtA : Bytes) (i : Nat) (s : Bytes) (tag : UInt8) : Option (Bytes × Nat) := do
  let i ← subIndex i s.length
  let dAtA ← copyAt dAtA i s
  let (dAtA, i) ← encodeVarintSchedule dAtA i s.length
  let i ← subIndex i 1
  let dAtA ← setByte dAtA i tag
  pure (dAtA, i)

/-- The statements writing a varint field:
i = encodeVarintSchedule(dAtA, i, v); i--; dAtA[i] = tag. -/
def putVarintField (dAtA : Bytes) (i : Nat) (v : Nat) (tag : UInt8) : Option (Bytes × Nat) := do
  let (dAtA, i) ← encodeVarintSchedule dAtA i v
  let i ← subIndex i 1
  let dAtA ← setByte dAtA i tag
  pure (dAtA, i)

/-- MsgExecuteContract.MarshalToSizedBuffer: returns the buffer and the number of bytes
written (the Go error result is nil on every path). -/
def MsgExecuteContract.MarshalToSizedBuffer (m : MsgExecuteContract) (dAtA : Bytes) :
    Option (Bytes × Nat) :=
  let i := dAtA.length
  match (if m.Msg.length > 0 then putStringField dAtA i m.Msg 0x12 else some (dAtA, i)) with
  | none => none
  | some (d1, i) =>
    match (if m.Contract.length > 0 then putStringField d1 i m.Contract 0xa
      else some (d1, i)) with
    | none => none
    | some (d2, i) => some (d2, dAtA.length - i)

/-- One round of the loop over m.Msgs in Schedule.MarshalToSizedBuffer: the element is
marshalled into dAtA[:i], which shares its memory with dAtA, then
i -= size; i = encodeVarintSchedule(dAtA, i, uint64(size)); i--; dAtA[i] = 0x1a. -/
def putMsg (dAtA : Bytes) (i : Nat) (e : MsgExecuteContract) : Option (Bytes × Nat) :=
  if i ≤ dAtA.length then
    match e.MarshalToSizedBuffer (dAtA.take i) with
    | none => none
    | some (sub, size) =>
      let dAtA := sub ++ dAtA.drop i
      match subIndex i size with
      | none => none
      | some i =>
        match encodeVarintSchedule dAtA i size with
        | none => none
        | some (d, i) =>
          match subIndex i 1 with
          | none => none
          | some i =>
            match setByte d i 0x1a with
            | none => none
            | some d => some (d, i)
  else none

/-- The loop for iNdEx := len(m.Msgs) - 1; iNdEx >= 0; iNdEx--, over the elements in
reverse order. -/
def putMsgs : List MsgExecuteContract → Bytes → Nat → Option (Bytes × Nat)
  | [], dAtA, i => some (dAtA, i)
  | e :: rest, dAtA, i =>
    match putMsg dAtA i e with
    | none => none
    | some (d, j) => putMsgs rest d j

/-- Schedule.MarshalToSizedBuffer. -/
def Schedule.MarshalToSizedBuffer (m : Schedule) (dAtA : Bytes) : Option (Bytes × Nat) :=
  let i := dAtA.length
  match (if m.LastExecuteHeight ≠ 0 then putVarintField dAtA i m.LastExecuteHeight 0x20
    else some (dAtA, i)) with
  | none => none
  | some (d1, i) =>
    match (if m.Msgs.length > 0 then putMsgs m.Msgs.reverse d1 i else some (d1, i)) with
    | none => none
    | some (d2, i) =>
      match (if m.Period ≠ 0 then putVarintField d2 i m.Period 0x10 else some (d2, i)) with
      | none => none
      | some (d3, i) =>
        match (if m.Name.length > 0 then putStringField d3 i m.Name 0xa else some (d3, i)) with
        | none => none
        | some (d4, i) => some (d4, dAtA.length - i)

/-- ScheduleCount.MarshalToSizedBuffer. -/
def ScheduleCount.MarshalToSizedBuffer (m : ScheduleCount) (dAtA : Bytes) :
    Option (Bytes × Nat) :=
  let i := dAtA.length
  match (if m.Count ≠ 0 then putVarintField dAtA i (uint64OfInt32 m.Count) 0x8
    else some (dAtA, i)) with
  | none => none
  | some (d1, i) => some (d1, dAtA.length - i)

/-- The tail of every Marshal method: the buffer of Size zero bytes is filled and cut to
the n bytes written, dAtA[:n]. -/
def marshalWith (size : Nat) (fill : Bytes → Option (Bytes × Nat)) : Option Bytes :=
  match fill (List.replicate size 0) with
  | none => none
  | some (dAtA, n) => if n ≤ dAtA.length then some (dAtA.take n) else none

/-- Schedule.Marshal. -/
def Schedule.Marshal (m : Schedule) : Option Bytes :=
  marshalWith m.Size m.MarshalToSizedBuffer

/-- MsgExecuteContract.Marshal. -/
def MsgExecuteContract.Marshal (m : MsgExecuteContract) : Option Bytes :=
  marshalWith m.Size m.MarshalToSizedBuffer

/-- ScheduleCount.Marshal. -/
def ScheduleCount.Marshal (m : ScheduleCount) : Option Bytes :=
  marshalWith m.Size m.MarshalToSizedBuffer

/-! ### Unmarshalling

A decoder takes the receiver and returns it as the call leaves it, with the Go error (none
is nil): the receiver keeps what was assigned before an error. -/

/-- The varint loop every decoder repeats,
for shift := uint(0); ; shift += 7, accumulating the low seven bits of each byte into a
variable of the given width until a byte below 0x80. Returns the accumulator, the index
reached and the error, if any. The tenth byte is read at shift 63; an eleventh round fails
the shift test. -/
def decodeVarintLoop (dAtA : Bytes) (bits : Nat) :
    Nat → Nat → Nat → Nat → Nat × Nat × Option ProtoError
  | 0, _, iNdEx, acc => (acc, iNdEx, some .ErrIntOverflowSchedule)
  | fuel + 1, shift, iNdEx, acc =>
    if shift ≥ 64 then (acc, iNdEx, some .ErrIntOverflowSchedule)
    else
      match dAtA[iNdEx]? with
      | none => (acc, iNdEx, some .ErrUnexpectedEOF)
      | some b =>
        let acc := acc ||| (((b.toNat &&& 0x7F) <<< shift) % 2 ^ bits)
        if b.toNat < 0x80 then (acc, iNdEx + 1, none)
        else decodeVarintLoop dAtA bits fuel (shift + 7) (iNdEx + 1) acc

/-- The varint loop started at shift 0 with a zero accumulator. -/
def decodeVarint (dAtA : Bytes) (bits : Nat) (iNdEx : Nat) : Nat × Nat × Option ProtoError :=
  decodeVarintLoop dAtA bits 10 0 iNdEx 0

/-- The slice dAtA[a:b]. -/
def slice (dAtA : Bytes) (a b : Nat) : Bytes := (dAtA.take b).drop a

/-- The statements reading a string field after its tag: the length varint, the checks
intStringLen < 0, postIndex < 0 (both on 64-bit ints) and postIndex > l, and the slice.
Returns the string and postIndex. -/
def readString (dAtA : Bytes) (iNdEx : Nat) : Except ProtoError (Bytes × Nat) :=
  match decodeVarint dAtA 64 iNdEx with
  | (_, _, some e) => .error e
  | (stringLen, iNdEx, none) =>
    if stringLen ≥ 2 ^ 63 then .error .ErrInvalidLengthSchedule
    else
      let postIndex := iNdEx + stringLen
      if postIndex ≥ 2 ^ 63 then .error .ErrInvalidLengthSchedule
      else if postIndex > dAtA.length then .error .ErrUnexpectedEOF
      else .ok (slice dAtA iNdEx postIndex, postIndex)

/-- The varint loop of wire type 0 in skipSchedule, which only looks for the last byte. -/
def skipVarintLoop (dAtA : Bytes) : Nat → Nat → Nat → Except ProtoError Nat
  | 0, _, _ => .error .ErrIntOverflowSchedule
  | fuel + 1, shift, iNdEx =>
    if shift ≥ 64 then .error .ErrIntOverflowSchedule
    else
      match dAtA[iNdEx]? with
      | none => .error .ErrUnexpectedEOF
      | some b =>
        if b.toNat < 0x80 then .ok (iNdEx + 1)
        else skipVarintLoop dAtA fuel (shift + 7) (iNdEx + 1)

/-- The loop of skipSchedule, for iNdEx < l, with the group depth. Each round reads at least
the tag byte, so len(dAtA) rounds are enough. -/
def skipLoop (dAtA : Bytes) : Nat → Nat → Nat → Except ProtoError Nat
  | 0, _, _ => .error .ErrUnexpectedEOF
  | fuel + 1, iNdEx, depth =>
    if iNdEx < dAtA.length then
      match decodeVarint dAtA 64 iNdEx with
      | (_, _, some e) => .error e
      | (wire, iNdEx, none) =>
        let wireType := wire &&& 0x7
        let next : Except ProtoError (Nat × Nat) :=
          if wireType = 0 then
            match skipVarintLoop dAtA 10 0 iNdEx with
            | .error e => .error e
            | .ok i => .ok (i, depth)
          else if wireType = 1 then .ok (iNdEx + 8, depth)
          else if wireType = 2 then
            match decodeVarint dAtA 64 iNdEx with
            | (_, _, some e) => .error e
            | (length, iNdEx, none) =>
              if length ≥ 2 ^ 63 then .error .ErrInvalidLengthSchedule
              else .ok (iNdEx + length, depth)
          else if wireType = 3 then .ok (iNdEx, depth + 1)
          else if wireType = 4 then
            if depth = 0 then .error .ErrUnexpectedEndOfGroupSchedule
            else .ok (iNdEx, depth - 1)
          else if wireType = 5 then .ok (iNdEx + 4, depth)
          else .error (.illegalWireType wireType)
        match next with
        | .error e => .error e
        | .ok (iNdEx, depth) =>
          if iNdEx ≥ 2 ^ 63 then .error .ErrInvalidLengthSchedule
          else if depth = 0 then .ok iNdEx
          else skipLoop dAtA fuel iNdEx depth
    else .error .ErrUnexpectedEOF

/-- skipSchedule: the length of the field dAtA starts with. -/
def skipSchedule (dAtA : Bytes) : Except ProtoError Nat :=
  skipLoop dAtA (dAtA.length + 1) 0 0

/-- The default case of every decoder: iNdEx = preIndex,
skippy from skipSchedule(dAtA[iNdEx:]), the checks skippy < 0, iNdEx + skippy < 0 and
iNdEx + skippy > l, then iNdEx += skippy. Returns the new index. -/
def skipField (dAtA : Bytes) (preIndex : Nat) : Except ProtoError Nat :=
  match skipSchedule (dAtA.drop preIndex) with
  | .error e => .error e
  | .ok skippy =>
    if preIndex + skippy ≥ 2 ^ 63 then .error .ErrInvalidLengthSchedule
    else if preIndex + skippy > dAtA.length then .error .ErrUnexpectedEOF
    else .ok (preIndex + skippy)

/-- The loop of MsgExecuteContract.Unmarshal, for iNdEx < l, followed by the closing
test iNdEx > l. Each round reads at least one byte, so len(dAtA) rounds are enough. -/
def MsgExecuteContract.unmarshalLoop (dAtA : Bytes) :
    Nat → Nat → MsgExecuteContract → MsgExecuteContract × Option ProtoError
  | 0, iNdEx, m => if iNdEx > dAtA.length then (m, some .ErrUnexpectedEOF) else (m, none)
  | fuel + 1, iNdEx, m =>
    if iNdEx < dAtA.length then
      let preIndex := iNdEx
      match decodeVarint dAtA 64 iNdEx with
      | (_, _, some e) => (m, some e)
      | (wire, iNdEx, none) =>
        let fieldNum := int32OfBits ((wire >>> 3) % 2 ^ 32)
        let wireType := wire &&& 0x7
        if wireType = 4 then (m, some (.wiretypeEndGroup .MsgExecuteContract))
        else if fieldNum ≤ 0 then (m, some (.illegalTag .MsgExecuteContract fieldNum wire))
        else if fieldNum = 1 then
          if wireType ≠ 2 then (m, some (.wrongWireType wireType .Contract))
          else
            match readString dAtA iNdEx with
            | .error e => (m, some e)
            | .ok (s, postIndex) =>
              MsgExecuteContract.unmarshalLoop dAtA fuel postIndex { m with Contract := s }
        else if fieldNum = 2 then
          if wireType ≠ 2 then (m, some (.wrongWireType wireType .Msg))
          else
            match readString dAtA iNdEx with
            | .error e => (m, some e)
            | .ok (s, postIndex) =>
              MsgExecuteContract.unmarshalLoop dAtA fuel postIndex { m with Msg := s }
        else
          match skipField dAtA preIndex with
          | .error e => (m, some e)
          | .ok iNdEx => MsgExecuteContract.unmarshalLoop dAtA fuel iNdEx m
    else if iNdEx > dAtA.length then (m, some .ErrUnexpectedEOF) else (m, none)

/-- MsgExecuteContract.Unmarshal, on the receiver m. -/
def MsgExecuteContract.Unmarshal (m : MsgExecuteContract) (dAtA : Bytes) :
    MsgExecuteContract × Option ProtoError :=
  MsgExecuteContract.unmarshalLoop dAtA dAtA.length 0 m

/-- The loop of Schedule.Unmarshal, for iNdEx < l, followed by the closing test
iNdEx > l. Each round reads at least one byte, so len(dAtA) rounds are enough. -/
def Schedule.unmarshalLoop (dAtA : Bytes) :
    Nat → Nat → Schedule → Schedule × Option ProtoError
  | 0, iNdEx, m => if iNdEx > dAtA.length then (m, some .ErrUnexpectedEOF) else (m, none)
  | fuel + 1, iNdEx, m =>
    if iNdEx < dAtA.length then
      let preIndex := iNdEx
      match decodeVarint dAtA 64 iNdEx with
      | (_, _, some e) => (m, some e)
      | (wire, iNdEx, none) =>
        let fieldNum := int32OfBits ((wire >>> 3) % 2 ^ 32)
        let wireType := wire &&& 0x7
        if wireType = 4 then (m, some (.wiretypeEndGroup .Schedule))
        else if fieldNum ≤ 0 then (m, some (.illegalTag .Schedule fieldNum wire))
        else if fieldNum = 1 then
          if wireType ≠ 2 then (m, some (.wrongWireType wireType .Name))
          else
            match readString dAtA iNdEx with
            | .error e => (m, some e)
            | .ok (s, postIndex) => Schedule.unmarshalLoop dAtA fuel postIndex { m with Name := s }
        else if fieldNum = 2 then
          if wireType ≠ 0 then (m, some (.wrongWireType wireType .Period))
          else
            -- m.Period = 0, then the varint loop on m.Period
            match decodeVarint dAtA 64 iNdEx with
            | (v, _, some e) => ({ m with Period := v }, some e)
            | (v, iNdEx, none) => Schedule.unmarshalLoop dAtA fuel iNdEx { m with Period := v }
        else if fieldNum = 3 then
          if wireType ≠ 2 then (m, some (.wrongWireType wireType .Msgs))
          else
            match decodeVarint dAtA 64 iNdEx with
            | (_, _, some e) => (m, some e)
            | (msglen, iNdEx, none) =>
              if msglen ≥ 2 ^ 63 then (m, some .ErrInvalidLengthSchedule)
              else
                let postIndex := iNdEx + msglen
                if postIndex ≥ 2 ^ 63 then (m, some .ErrInvalidLengthSchedule)
                else if postIndex > dAtA.length then (m, some .ErrUnexpectedEOF)
                else
                  -- m.Msgs = append(m.Msgs, MsgExecuteContract{}), decoded in place
                  match MsgExecuteContract.Unmarshal ⟨[], []⟩ (slice dAtA iNdEx postIndex) with
                  | (e, some err) => ({ m with Msgs := m.Msgs ++ [e] }, some err)
                  | (e, none) =>
                    Schedule.unmarshalLoop dAtA fuel postIndex { m with Msgs := m.Msgs ++ [e] }
        else if fieldNum = 4 then
          if wireType ≠ 0 then (m, some (.wrongWireType wireType .LastExecuteHeight))
          else
            -- m.LastExecuteHeight = 0, then the varint loop on m.LastExecuteHeight
            match decodeVarint dAtA 64 iNdEx with
            | (v, _, some e) => ({ m with LastExecuteHeight := v }, some e)
            | (v, iNdEx, none) =>
              Schedule.unmarshalLoop dAtA fuel iNdEx { m with LastExecuteHeight := v }
        else
          match skipField dAtA preIndex with
          | .error e => (m, some e)
          | .ok iNdEx => Schedule.unmarshalLoop dAtA fuel iNdEx m
    else if iNdEx > dAtA.length then (m, some .ErrUnexpectedEOF) else (m, none)

/-- Schedule.Unmarshal, on the receiver m. -/
def Schedule.Unmarshal (m : Schedule) (dAtA : Bytes) : Schedule × Option ProtoError :=
  Schedule.unmarshalLoop dAtA dAtA.length 0 m

/-- The loop of ScheduleCount.Unmarshal, for iNdEx < l, followed by the closing test
iNdEx > l. Count is accumulated as an int32, whose bit pattern the 32-bit varint loop
keeps. -/
def ScheduleCount.unmarshalLoop (dAtA : Bytes) :
    Nat → Nat → ScheduleCount → ScheduleCount × Option ProtoError
  | 0, iNdEx, m => if iNdEx > dAtA.length then (m, some .ErrUnexpectedEOF) else (m, none)
  | fuel + 1, iNdEx, m =>
    if iNdEx < dAtA.length then
      let preIndex := iNdEx
      match decodeVarint dAtA 64 iNdEx with
      | (_, _, some e) => (m, some e)
      | (wire, iNdEx, none) =>
        let fieldNum := int32OfBits ((wire >>> 3) % 2 ^ 32)
        let wireType := wire &&& 0x7
        if wireType = 4 then (m, some (.wiretypeEndGroup .ScheduleCount))
        else if fieldNum ≤ 0 then (m, some (.illegalTag .ScheduleCount fieldNum wire))
        else if fieldNum = 1 then
          if wireType ≠ 0 then (m, some (.wrongWireType wireType .Count))
          else
            -- m.Count = 0, then the varint loop on m.Count
            match decodeVarint dAtA 32 iNdEx with
            | (v, _, some e) => ({ m with Count := int32OfBits v }, some e)
            | (v, iNdEx, none) =>
              ScheduleCount.unmarshalLoop dAtA fuel iNdEx { m with Count := int32OfBits v }
        else
          match skipField dAtA preIndex with
          | .error e => (m, some e)
          | .ok iNdEx => ScheduleCount.unmarshalLoop dAtA fuel iNdEx m
    else if iNdEx > dAtA.length then (m, some .ErrUnexpectedEOF) else (m, none)

/-- ScheduleCount.Unmarshal, on the receiver m. -/
def ScheduleCount.Unmarshal (m : ScheduleCount) (dAtA : Bytes) :
    ScheduleCount × Option ProtoError :=
  ScheduleCount.unmarshalLoop dAtA dAtA.length 0 m

/-! ## The migration record and its wire codec (x/contractmanager/types/genesis.pb.go)

The helpers of genesis.pb.go (sovGenesis, encodeVarintGenesis, skipGenesis and the inlined
varint loops) are the statements of schedule.pb.go with the error variables
ErrInvalidLengthGenesis, ErrIntOverflowGenesis and ErrUnexpectedEndOfGroupGenesis. -/

/-- OldFailure, deprecated and used only for migration purposes: ChannelId, Address and
AckType are Go strings, Id and AckId are uint64. -/
structure OldFailure where
  ChannelId : Bytes
  Address : Bytes
  Id : Nat
  AckId : Nat
  AckType : Bytes
deriving DecidableEq, Repr

/-- sovGenesis: the number of bytes of the varint of x. -/
def sovGenesis (x : Nat) : Nat := (Len64 (x ||| 1) + 6) / 7

/-- encodeVarintGenesis(dAtA, offset, v). -/
def encodeVarintGenesis (dAtA : Bytes) (offset : Nat) (v : Nat) : Option (Bytes × Nat) :=
  match subIndex offset (sovGenesis v) with
  | none => none
  | some base =>
    match encodeVarintLoop 10 dAtA base v with
    | none => none
    | some d => some (d, base)

/-- The statements writing a string field in genesis.pb.go:
i -= len(s); copy(dAtA[i:], s); i = encodeVarintGenesis(dAtA, i, uint64(len(s))); i--;
dAtA[i] = tag. -/
def putStringFieldGenesis (dAtA : Bytes) (i : Nat) (s : Bytes) (tag : UInt8) :
    Option (Bytes × Nat) := do
  let i ← subIndex i s.length
  let dAtA ← copyAt dAtA i s
  let (dAtA, i) ← encodeVarintGenesis dAtA i s.length
  let i ← subIndex i 1
  let dAtA ← setByte dAtA i tag
  pure (dAtA, i)

/-- The statements writing a varint field in genesis.pb.go:
i = encodeVarintGenesis(dAtA, i, v); i--; dAtA[i] = tag. -/
def putVarintFieldGenesis (dAtA : Bytes) (i : Nat) (v : Nat) (tag : UInt8) :
    Option (Bytes × Nat) := do
  let (dAtA, i) ← encodeVarintGenesis dAtA i v
  let i ← subIndex i 1
  let dAtA ← setByte dAtA i tag
  pure (dAtA, i)

/-- OldFailure.Size. -/
def OldFailure.Size (m : OldFailure) : Nat :=
  let n := 0
  let l := m.ChannelId.length
  let n := if l > 0 then n + (1 + l + sovGenesis l) else n
  let l := m.Address.length
  let n := if l > 0 then n + (1 + l + sovGenesis l) else n
  let n := if m.Id ≠ 0 then n + (1 + sovGenesis m.Id) else n
  let n := if m.AckId ≠ 0 then n + (1 + sovGenesis m.AckId) else n
  let l := m.AckType.length
  let n := if l > 0 then n + (1 + l + sovGenesis l) else n
  n

/-- OldFailure.MarshalToSizedBuffer: returns the buffer and the number of bytes written
(the Go error result is nil on every path). -/
def OldFailure.MarshalToSizedBuffer (m : OldFailure) (dAtA : Bytes) : Option (Bytes × Nat) :=
  let i := dAtA.length
  match (if m.AckType.length > 0 then putStringFieldGenesis dAtA i m.AckType 0x2a
    else some (dAtA, i)) with
  | none => none
  | some (d1, i) =>
    match (if m.AckId ≠ 0 then putVarintFieldGenesis d1 i m.AckId 0x20 else some (d1, i)) with
    | none => none
    | some (d2, i) =>
      match (if m.Id ≠ 0 then putVarintFieldGenesis d2 i m.Id 0x18 else some (d2, i)) with
      | none => none
      | some (d3, i) =>
        match (if m.Address.length > 0 then putStringFieldGenesis d3 i m.Address 0x12
          else some (d3, i)) with
        | none => none
        | some (d4, i) =>
          match (if m.ChannelId.length > 0 then putStringFieldGenesis d4 i m.ChannelId 0xa
            else some (d4, i)) with
          | none => none
          | some (d5, i) => some (d5, dAtA.length - i)

/-- OldFailure.Marshal. -/
def OldFailure.Marshal (m : OldFailure) : Option Bytes :=
  marshalWith m.Size m.MarshalToSizedBuffer

/-- The error variable of genesis.pb.go standing where schedule.pb.go has its own. -/
def genesisError : ProtoError → ProtoError
  | .ErrInvalidLengthSchedule => .ErrInvalidLengthGenesis
  | .ErrIntOverflowSchedule => .ErrIntOverflowGenesis
  | .ErrUnexpectedEndOfGroupSchedule => .ErrUnexpectedEndOfGroupGenesis
  | e => e

/-- The varint loop as inlined in genesis.pb.go: it fails with ErrIntOverflowGenesis. -/
def decodeVarintGenesis (dAtA : Bytes) (bits : Nat) (iNdEx : Nat) :
    Nat × Nat × Option ProtoError :=
  match decodeVarint dAtA bits iNdEx with
  | (acc, i, err) => (acc, i, err.map genesisError)

/-- The statements reading a string field in genesis.pb.go. Returns the string and
postIndex. -/
def readStringGenesis (dAtA : Bytes) (iNdEx : Nat) : Except ProtoError (Bytes × Nat) :=
  match decodeVarintGenesis dAtA 64 iNdEx with
  | (_, _, some e) => .error e
  | (stringLen, iNdEx, none) =>
    if stringLen ≥ 2 ^ 63 then .error .ErrInvalidLengthGenesis
    else
      let postIndex := iNdEx + stringLen
      if postIndex ≥ 2 ^ 63 then .error .ErrInvalidLengthGenesis
      else if postIndex > dAtA.length then .error .ErrUnexpectedEOF
      else .ok (slice dAtA iNdEx postIndex, postIndex)

/-- skipGenesis: the length of the field dAtA starts with. -/
def skipGenesis (dAtA : Bytes) : Except ProtoError Nat :=
  match skipSchedule dAtA with
  | .error e => .error (genesisError e)
  | .ok n => .ok n

/-- The default case of the decoders of genesis.pb.go. Returns the new index. -/
def skipFieldGenesis (dAtA : Bytes) (preIndex : Nat) : Except ProtoError Nat :=
  match skipGenesis (dAtA.drop preIndex) with
  | .error e => .error e
  | .ok skippy =>
    if preIndex + skippy ≥ 2 ^ 63 then .error .ErrInvalidLengthGenesis
    else if preIndex + skippy > dAtA.length then .error .ErrUnexpectedEOF
    else .ok (preIndex + skippy)

/-- The loop of OldFailure.Unmarshal, for iNdEx < l, followed by the closing test
iNdEx > l. Each round reads at least one byte, so len(dAtA) rounds are enough. -/
def OldFailure.unmarshalLoop (dAtA : Bytes) :
    Nat → Nat → OldFailure → OldFailure × Option ProtoError
  | 0, iNdEx, m => if iNdEx > dAtA.length then (m, some .ErrUnexpectedEOF) else (m, none)
  | fuel + 1, iNdEx, m =>
    if iNdEx < dAtA.length then
      let preIndex := iNdEx
      match decodeVarintGenesis dAtA 64 iNdEx with
      | (_, _, some e) => (m, some e)
      | (wire, iNdEx, none) =>
        let fieldNum := int32OfBits ((wire >>> 3) % 2 ^ 32)
        let wireType := wire &&& 0x7
        if wireType = 4 then (m, some (.wiretypeEndGroup .OldFailure))
        else if fieldNum ≤ 0 then (m, some (.illegalTag .OldFailure fieldNum wire))
        else if fieldNum = 1 then
          if wireType ≠ 2 then (m, some (.wrongWireType wireType .ChannelId))
          else
            match readStringGenesis dAtA iNdEx with
            | .error e => (m, some e)
            | .ok (s, postIndex) =>
              OldFailure.unmarshalLoop dAtA fuel postIndex { m with ChannelId := s }
        else if fieldNum = 2 then
          if wireType ≠ 2 then (m, some (.wrongWireType wireType .Address))
          else
            match readStringGenesis dAtA iNdEx with
            | .error e => (m, some e)
            | .ok (s, postIndex) =>
              OldFailure.unmarshalLoop dAtA fuel postIndex { m with Address := s }
        else if fieldNum = 3 then
          if wireType ≠ 0 then (m, some (.wrongWireType wireType .Id))
          else
            -- m.Id = 0, then the varint loop on m.Id
            match decodeVarintGenesis dAtA 64 iNdEx with
            | (v, _, some e) => ({ m with Id := v }, some e)
            | (v, iNdEx, none) => OldFailure.unmarshalLoop dAtA fuel iNdEx { m with Id := v }
        else if fieldNum = 4 then
          if wireType ≠ 0 then (m, some (.wrongWireType wireType .AckId))
          else
            -- m.AckId = 0, then the varint loop on m.AckId
            match decodeVarintGenesis dAtA 64 iNdEx with
            | (v, _, some e) => ({ m with AckId := v }, some e)
            | (v, iNdEx, none) => OldFailure.unmarshalLoop dAtA fuel iNdEx { m with AckId := v }
        else if fieldNum = 5 then
          if wireType ≠ 2 then (m, some (.wrongWireType wireType .AckType))
          else
            match readStringGenesis dAtA iNdEx with
            | .error e => (m, some e)
            | .ok (s, postIndex) =>
              OldFailure.unmarshalLoop dAtA fuel postIndex { m with AckType := s }
        else
          match skipFieldGenesis dAtA preIndex with
          | .error e => (m, some e)
          | .ok iNdEx => OldFailure.unmarshalLoop dAtA fuel iNdEx m
    else if iNdEx > dAtA.length then (m, some .ErrUnexpectedEOF) else (m, none)

/-- OldFailure.Unmarshal, on the receiver m. -/
def OldFailure.Unmarshal (m : OldFailure) (dAtA : Bytes) : OldFailure × Option ProtoError :=
  OldFailure.unmarshalLoop dAtA dAtA.length 0 m

/-! ### The wire layout declared by the field tags

The forward layout of the protobuf wire format for these messages, against which the
back-to-front encoder and the decoders are compared. -/

/-- The base-128 groups of v, low group first, every byte but the last with its high bit
set. -/
def varintGroups : Nat → Nat → Bytes
  | 0, _ => []
  | fuel + 1, v =>
    if v < 128 then [UInt8.ofNat v]
    else UInt8.ofNat (v % 128 + 128) :: varintGroups fuel (v / 128)

/-- The varint of a uint64 (at most ten groups). -/
def varint (v : Nat) : Bytes := varintGroups 10 v

/-- A length-delimited field: tag, length, bytes; nothing when the string is empty. -/
def wireString (tag : UInt8) (s : Bytes) : Bytes :=
  if s.length > 0 then tag :: (varint s.length ++ s) else []

/-- A varint field: tag, varint; nothing when the value is zero. -/
def wireVarint (tag : UInt8) (v : Nat) : Bytes :=
  if v ≠ 0 then tag :: varint v else []

/-- The layout of a MsgExecuteContract: Contract (tag 0x0A), Msg (tag 0x12). -/
def MsgExecuteContract.wire (e : MsgExecuteContract) : Bytes :=
  wireString 0x0a e.Contract ++ wireString 0x12 e.Msg

/-- An element of Msgs as an embedded message: tag 0x1A, length, layout of the element. -/
def wireMsg (e : MsgExecuteContract) : Bytes :=
  0x1a :: (varint e.wire.length ++ e.wire)

/-- The elements of Msgs in list order. -/
def wireMsgs : List MsgExecuteContract → Bytes
  | [] => []
  | e :: rest => wireMsg e ++ wireMsgs rest

/-- The layout of a Schedule, in ascending field number: Name (0x0A), Period (0x10), the
elements of Msgs (0x1A each), LastExecuteHeight (0x20). -/
def Schedule.wire (m : Schedule) : Bytes :=
  wireString 0x0a m.Name ++ (wireVarint 0x10 m.Period ++
    (wireMsgs m.Msgs ++ wireVarint 0x20 m.LastExecuteHeight))

/-- The layout of a ScheduleCount: Count (tag 0x08), sign-extended to 64 bits. -/
def ScheduleCount.wire (m : ScheduleCount) : Bytes :=
  wireVarint 0x8 (uint64OfInt32 m.Count)

/-- The layout of an OldFailure, in ascending field number: ChannelId (0x0A), Address
(0x12), Id (0x18), AckId (0x20), AckType (0x2A). -/
def OldFailure.wire (m : OldFailure) : Bytes :=
  wireString 0xa m.ChannelId ++ (wireString 0x12 m.Address ++ (wireVarint 0x18 m.Id ++
    (wireVarint 0x20 m.AckId ++ wireString 0x2a m.AckType)))

/-- An OldFailure that exists as a Go value with an encoding that fits a Go slice: Id and
AckId are uint64 and the lengths involved fit an int. -/
def OldFailure.Representable (m : OldFailure) : Prop :=
  m.Id < 2 ^ 64 ∧ m.AckId < 2 ^ 64 ∧ m.ChannelId.length < 2 ^ 63 ∧
    m.Address.length < 2 ^ 63 ∧ m.AckType.length < 2 ^ 63 ∧ m.Size < 2 ^ 63

instance (m : OldFailure) : Decidable m.Representable := by
  unfold OldFailure.Representable; infer_instance

/-- A complete field on the wire, with wire type 0 (varint), 1 (fixed64),
2 (length-delimited) or 5 (fixed32): the field number and the payload. -/
inductive WireField where
  | varintField (num : Nat) (v : Nat)
  | fixed64 (num : Nat) (b : Bytes)
  | bytesField (num : Nat) (b : Bytes)
  | fixed32 (num : Nat) (b : Bytes)
deriving DecidableEq, Repr

/-- The field number of a field. -/
def WireField.num : WireField → Nat
  | .varintField n _ => n
  | .fixed64 n _ => n
  | .bytesField n _ => n
  | .fixed32 n _ => n

/-- The wire type of a field. -/
def WireField.wireType : WireField → Nat
  | .varintField _ _ => 0
  | .fixed64 _ _ => 1
  | .bytesField _ _ => 2
  | .fixed32 _ _ => 5

/-- The tag of a field: the field number shifted by three bits, with the wire type in the
low bits. -/
def WireField.tag (f : WireField) : Nat := f.num * 8 + f.wireType

/-- The bytes behind the tag: a varint, eight bytes, a length and that many bytes, or four
bytes. -/
def WireField.payload : WireField → Bytes
  | .varintField _ v => varint v
  | .fixed64 _ b => b
  | .bytesField _ b => varint b.length ++ b
  | .fixed32 _ b => b

/-- The encoding of a field: the varint of the tag, then the payload. -/
def WireField.encode (f : WireField) : Bytes := varint f.tag ++ f.payload

/-- The encoding of a field is complete: the tag is a uint64, a varint payload is a uint64,
a fixed64 payload has eight bytes and a fixed32 payload four. -/
def WireField.Complete : WireField → Prop
  | .varintField n v => n * 8 + 0 < 2 ^ 64 ∧ v < 2 ^ 64
  | .fixed64 n b => n * 8 + 1 < 2 ^ 64 ∧ b.length = 8
  | .bytesField n _ => n * 8 + 2 < 2 ^ 64
  | .fixed32 n b => n * 8 + 5 < 2 ^ 64 ∧ b.length = 4

instance (f : WireField) : Decidable f.Complete := by
  cases f <;> unfold WireField.Complete <;> infer_instance

/-- A concatenation of encoded fields. -/
def encodeFields : List WireField → Bytes
  | [] => []
  | f :: fs => f.encode ++ encodeFields fs

/-- The top-level fields of the layout of a Schedule, in order: the Name field if Name is
not empty, the Period field if Period is not 0, one field for each element of Msgs, the
LastExecuteHeight field if it is not 0. -/
def Schedule.topFields (m : Schedule) : List Bytes :=
  (if m.Name.length > 0 then [0x0a :: (varint m.Name.length ++ m.Name)] else []) ++
    ((if m.Period ≠ 0 then [0x10 :: varint m.Period] else []) ++
      (m.Msgs.map wireMsg ++
        (if m.LastExecuteHeight ≠ 0 then [0x20 :: varint m.LastExecuteHeight] else [])))

/-- The bytes F are read by the loop of Schedule.Unmarshal as one field: wherever F stands
whole in an input, one round consumes exactly F without error, and where the input ends
strictly inside F the round returns io.ErrUnexpectedEOF. -/
def Schedule.ReadsField (F : Bytes) : Prop :=
  F ≠ [] ∧
  (∃ g : Schedule → Schedule, ∀ (A C : Bytes) (m : Schedule) (fuel : Nat),
    (A ++ F ++ C).length < 2 ^ 63 →
    Schedule.unmarshalLoop (A ++ F ++ C) (fuel + 1) A.length m
      = Schedule.unmarshalLoop (A ++ F ++ C) fuel (A.length + F.length) (g m)) ∧
  (∀ (A q : Bytes) (m : Schedule) (fuel : Nat), q ≠ [] → q <+: F → q ≠ F →
    (A ++ F).length < 2 ^ 63 →
    (Schedule.unmarshalLoop (A ++ q) (fuel + 1) A.length m).2 = some .ErrUnexpectedEOF)

/-- The bytes p end on a top-level field boundary of the layout of m: p is the
concatenation of the first k top-level fields, for some k. -/
def Schedule.AtFieldBoundary (m : Schedule) (p : Bytes) : Prop :=
  ∃ k, k ≤ m.topFields.length ∧ p = (m.topFields.take k).flatten

instance (m : Schedule) (p : Bytes) : Decidable (m.AtFieldBoundary p) := by
  unfold Schedule.AtFieldBoundary; infer_instance

/-- A MsgExecuteContract that exists as a Go value: its strings have lengths that fit an
int. -/
def MsgExecuteContract.Representable (e : MsgExecuteContract) : Prop :=
  e.Contract.length < 2 ^ 63 ∧ e.Msg.length < 2 ^ 63 ∧ e.Size < 2 ^ 63

/-- A Schedule that exists as a Go value with an encoding that fits a Go slice: Period and
LastExecuteHeight are uint64, and the lengths involved fit an int. -/
def Schedule.Representable (m : Schedule) : Prop :=
  m.Period < 2 ^ 64 ∧ m.LastExecuteHeight < 2 ^ 64 ∧ m.Name.length < 2 ^ 63 ∧
    (∀ e ∈ m.Msgs, e.Representable) ∧ m.Size < 2 ^ 63

instance (e : MsgExecuteContract) : Decidable e.Representable := by
  unfold MsgExecuteContract.Representable; infer_instance

instance (m : Schedule) : Decidable m.Representable := by
  unfold Schedule.Representable; infer_instance

/-- A ScheduleCount that exists as a Go value: Count is an int32. -/
def ScheduleCount.Representable (m : ScheduleCount) : Prop :=
  -(2 ^ 31) ≤ m.Count ∧ m.Count < 2 ^ 31

instance (m : ScheduleCount) : Decidable m.Representable := by
  unfold ScheduleCount.Representable; infer_instance

/-- The merge of a decoded Schedule m into a receiver r: a string or number of m replaces
that of r when it is not the default value, and the messages of m follow those of r. -/
def Schedule.merge (r m : Schedule) : Schedule :=
  { Name := if m.Name.length > 0 then m.Name else r.Name
    Period := if m.Period ≠ 0 then m.Period else r.Period
    Msgs := r.Msgs ++ m.Msgs
    LastExecuteHeight := if m.LastExecuteHeight ≠ 0 then m.LastExecuteHeight
      else r.LastExecuteHeight }

/-! ## The tick key scheme of the liquidity ledger

src/x/dex/types/tick_liquidity_key.go declares the interface TickLiquidityKey with
KeyMarshal and Price; the key types behind it are not part of the sources at hand. The
definitions of this section follow the description of the key scheme: a canonical key built
from (pair, tick, feeTier, kind, trancheSeq), two disjoint key prefixes for the two trade
directions, the tick stored after a transformation (maxTick - tick on the reversed side)
so that one ascending scan of the bytes visits the ticks in the order of the direction. -/

/-- The n low bytes of a number, most significant first. -/
def bigEndian : Nat → Nat → Bytes
  | 0, _ => []
  | w + 1, n => UInt8.ofNat (n / 256 ^ w) :: bigEndian w (n % 256 ^ w)

/-- The number written by a string of bytes, most significant first. -/
def fromBigEndian (d : Bytes) : Nat := d.foldl (fun acc b => acc * 256 + b.toNat) 0

/-- Reads a number of w bytes and returns it with the rest of the input. -/
def readBigEndian (w : Nat) (d : Bytes) : Option (Nat × Bytes) :=
  if d.length < w then none else some (fromBigEndian (d.take w), d.drop w)

/-- A denomination behind its length on eight bytes. -/
def encodeDenom (t : Bytes) : Bytes := bigEndian 8 t.length ++ t

/-- Reads a length on eight bytes and that many bytes. -/
def readDenom (d : Bytes) : Option (Bytes × Bytes) :=
  match readBigEndian 8 d with
  | none => none
  | some (n, r) => if r.length < n then none else some (r.take n, r.drop n)

/-- Modelled from the spec: the configured tick bound [minTick, maxTick] of the
configuration struct. -/
structure TickBounds where
  minTick : Int
  maxTick : Int
deriving DecidableEq, Repr

/-- Modelled from the spec: the side of the book a key lives on, one per trade direction.
On the ascending side the scan visits ticks in increasing order, on the descending side in
decreasing order. -/
inductive Side where
  | ascending
  | descending
deriving DecidableEq, Repr

/-- Modelled from the spec: the two liquidity kinds, pooled liquidity and an order
tranche with its sequence number. -/
inductive LiquidityKind where
  | pooled
  | tranche (trancheSeq : Nat)
deriving DecidableEq, Repr

/-- Modelled from the spec: what a TickLiquidityKey is made of, the pair in its canonical
order (tokenA, tokenB), the side, the tick, the fee tier and the kind. -/
structure TickLiquidityKey where
  tokenA : Bytes
  tokenB : Bytes
  side : Side
  tick : Int
  feeTier : Nat
  kind : LiquidityKind
deriving DecidableEq, Repr

/-- Modelled from the spec: the error kinds of the key scheme and the price codec. -/
inductive KeyError where
  | MalformedKey
  | InvalidTick
deriving DecidableEq, Repr

/-- Modelled from the spec: a key whose tick lies in the configured bound and whose
numbers fit the eight bytes they are written on. -/
def TickLiquidityKey.Valid (cfg : TickBounds) (k : TickLiquidityKey) : Prop :=
  cfg.minTick ≤ k.tick ∧ k.tick ≤ cfg.maxTick ∧ cfg.maxTick - cfg.minTick < 2 ^ 64 ∧
    k.feeTier < 2 ^ 64 ∧ k.tokenA.length < 2 ^ 64 ∧ k.tokenB.length < 2 ^ 64 ∧
    (match k.kind with
      | .pooled => True
      | .tranche seq => seq < 2 ^ 64)

instance (cfg : TickBounds) (k : TickLiquidityKey) : Decidable (k.Valid cfg) := by
  unfold TickLiquidityKey.Valid
  cases k.kind <;> infer_instance

/-- Modelled from the spec: the traversal order of the ticks of a side, numeric order on
the ascending side and its reverse on the descending side. -/
def Side.precedes : Side → Int → Int → Prop
  | .ascending, t1, t2 => t1 < t2
  | .descending, t1, t2 => t2 < t1

instance (s : Side) (t1 t2 : Int) : Decidable (s.precedes t1 t2) := by
  cases s <;> unfold Side.precedes <;> infer_instance

/-- Modelled from the spec: the key prefix of a side; the two sides have disjoint
prefixes. -/
def Side.keyPrefix : Side → UInt8
  | .ascending => 1
  | .descending => 2

/-- Modelled from the spec: the transformation of the tick, tick - minTick on the
ascending side and maxTick - tick on the reversed side. -/
def tickOffset (cfg : TickBounds) : Side → Int → Nat
  | .ascending, tick => (tick - cfg.minTick).toNat
  | .descending, tick => (cfg.maxTick - tick).toNat

/-- Modelled from the spec: the tick behind a transformed tick. -/
def tickOfOffset (cfg : TickBounds) : Side → Nat → Int
  | .ascending, x => cfg.minTick + x
  | .descending, x => cfg.maxTick - x

/-- Modelled from the spec: the kind discriminator and, for a tranche, its sequence
number. -/
def LiquidityKind.encode : LiquidityKind → Bytes
  | .pooled => [0]
  | .tranche seq => 1 :: bigEndian 8 seq

/-- Modelled from the spec: encode(pair, tick, feeTier, kind, trancheSeq), the canonical
key. The side prefix and the pair come first, then the transformed tick, the fee tier and
the kind, each number on eight bytes, most significant first. -/
def TickLiquidityKey.KeyMarshal (cfg : TickBounds) (k : TickLiquidityKey) : Bytes :=
  k.side.keyPrefix :: (encodeDenom k.tokenA ++ (encodeDenom k.tokenB ++
    (bigEndian 8 (tickOffset cfg k.side k.tick) ++ (bigEndian 8 k.feeTier ++ k.kind.encode))))

/-- Modelled from the spec: decoding of the kind; an unknown discriminator or truncated
bytes are a MalformedKey. -/
def LiquidityKind.decode : Bytes → Except KeyError LiquidityKind
  | [] => .error .MalformedKey
  | b :: d =>
    if b = 0 then
      if d = [] then .ok .pooled else .error .MalformedKey
    else if b = 1 then
      match readBigEndian 8 d with
      | none => .error .MalformedKey
      | some (seq, r) => if r = [] then .ok (.tranche seq) else .error .MalformedKey
    else .error .MalformedKey

/-- Modelled from the spec: decoding of a key; fails with MalformedKey on an unknown
prefix or kind discriminator, on truncated bytes and on a tick outside the bound. -/
def KeyUnmarshal (cfg : TickBounds) (d : Bytes) : Except KeyError TickLiquidityKey :=
  match d with
  | [] => .error .MalformedKey
  | p :: d =>
    if p ≠ 1 ∧ p ≠ 2 then .error .MalformedKey
    else
      let side := if p = 1 then Side.ascending else Side.descending
      match readDenom d with
      | none => .error .MalformedKey
      | some (tokenA, d) =>
        match readDenom d with
        | none => .error .MalformedKey
        | some (tokenB, d) =>
          match readBigEndian 8 d with
          | none => .error .MalformedKey
          | some (x, d) =>
            match readBigEndian 8 d with
            | none => .error .MalformedKey
            | some (feeTier, d) =>
              match LiquidityKind.decode d with
              | .error e => .error e
              | .ok kind =>
                if (cfg.maxTick - cfg.minTick < (x : Int)) then .error .MalformedKey
                else .ok ⟨tokenA, tokenB, side, tickOfOffset cfg side x, feeTier, kind⟩

/-! ## The price codec of the liquidity ledger

The interface TickLiquidityKey exposes the price of a tick through Price; no source of the
price computation is at hand. The definitions follow the description of the codec: the
price of a tick is the power base^tick of a fixed base above 1, rounded half to even at a
fixed number of significant digits, and a tick outside the configured bound is an
InvalidTick. -/

/-- Modelled from the spec: the configuration of the price codec, the base of the tick
spacing, the number of significant digits kept, and the tick bound. -/
structure PriceConfig where
  base : ℚ
  digits : Nat
  bounds : TickBounds
deriving DecidableEq

/-- Modelled from the spec: rounding to the nearest integer, a half going to the even
neighbour. -/
def roundHalfEven (x : ℚ) : Int :=
  if x - ⌊x⌋ < 1 / 2 then ⌊x⌋
  else if 1 / 2 < x - ⌊x⌋ then ⌊x⌋ + 1
  else if ⌊x⌋ % 2 = 0 then ⌊x⌋ else ⌊x⌋ + 1

/-- Modelled from the spec: the unit of the last significant digit of a positive value,
10^(e - digits + 1) where 10^e is the greatest power of ten not above the value. -/
def lastDigitUnit (digits : Nat) (x : ℚ) : ℚ := 10 ^ (Int.log 10 x - (digits : Int) + 1)

/-- Modelled from the spec: rounding of a positive value at a fixed number of significant
digits, half to even. -/
def roundSignificant (digits : Nat) (x : ℚ) : ℚ :=
  roundHalfEven (x / lastDigitUnit digits x) * lastDigitUnit digits x

/-- Modelled from the spec: priceFromTick, the power base^tick rounded at the configured
number of significant digits; fails with InvalidTick outside [minTick, maxTick]. -/
def priceFromTick (cfg : PriceConfig) (tick : Int) : Except KeyError ℚ :=
  if tick < cfg.bounds.minTick ∨ cfg.bounds.maxTick < tick then .error .InvalidTick
  else .ok (roundSignificant cfg.digits (cfg.base ^ tick))

/-- Modelled from the spec: a configuration of the codec: a base above 1, at least one
significant digit, and a precision that resolves one tick step, the base exceeding 1 by
more than one unit of the last significant digit kept, (base - 1) * 10^(digits - 1) > 1.
The price is required to be strictly increasing in tick, which a rounding coarser than
the tick step does not give. -/
def PriceConfig.Valid (cfg : PriceConfig) : Prop :=
  1 < cfg.base ∧ 1 ≤ cfg.digits ∧ 1 < (cfg.base - 1) * (10 : ℚ) ^ (cfg.digits - 1)

/-- A price configuration used in the examples: base 1.0001 and eight significant
digits. -/
def samplePriceConfig : PriceConfig := ⟨10001 / 10000, 8, ⟨-100, 100⟩⟩

/-! ## The swap router of the liquidity ledger

No source of the router is at hand; the definitions follow the state machine of the swap
call: remaining input R and accumulated output O, a scan of the ticks of the pair and side
in key order, and at each visited tick a full or a partial drain. Amounts and prices are
exact rationals. -/

/-- Modelled from the spec: a record of the ledger as the router reads it, the key and the
liquidity available at the tick, in the asset the taker receives. -/
structure TickRecord where
  key : TickLiquidityKey
  available : ℚ
deriving DecidableEq

/-- Modelled from the spec: the configuration the router is constructed with. The price of
a key is oriented taker to maker, the amount received for one unit of input; the fee rate
is the fraction of the output of a tick taken at its fee tier; withinImpactBound says
whether a record lies within the configured max-price-impact bound, given the ledger the
swap starts from. -/
structure RouterConfig where
  price : TickLiquidityKey → ℚ
  feeRate : Nat → ℚ
  withinImpactBound : List TickRecord → TickRecord → Bool

/-- Modelled from the spec: the error kind of a swap that cannot be filled. -/
inductive SwapError where
  | InsufficientLiquidity
deriving DecidableEq, Repr

/-- Modelled from the spec: what a swap returns, the realized output O, the leftover input
R and the updated ledger. -/
structure SwapResult where
  output : ℚ
  leftover : ℚ
  ledger : List TickRecord
deriving DecidableEq

/-- Modelled from the spec: the ticks the scan visits, those of the pair and side that lie
within the max-price-impact bound. -/
def RouterConfig.eligible (cfg : RouterConfig) (start : List TickRecord) (tokenA tokenB : Bytes)
    (side : Side) (t : TickRecord) : Bool :=
  decide (t.key.tokenA = tokenA) && decide (t.key.tokenB = tokenB) && decide (t.key.side = side)
    && cfg.withinImpactBound start t

/-- Modelled from the spec: the output credited for an amount drained from a tick, after
the fee of its fee tier has been taken. -/
def RouterConfig.credited (cfg : RouterConfig) (t : TickRecord) (out : ℚ) : ℚ :=
  out - cfg.feeRate t.key.feeTier * out

/-- Modelled from the spec: the maximum input the available liquidity of a tick can absorb
at its price. -/
def RouterConfig.maxInput (cfg : RouterConfig) (t : TickRecord) : ℚ :=
  t.available / cfg.price t.key

/-- Modelled from the spec: scan and consume. The records are in key order; a record that
is not eligible is passed over. At an eligible record, when R exceeds the maximum input the
record is fully drained and deleted, its full output is credited and the scan continues;
otherwise exactly R is consumed, the corresponding output is credited, R becomes 0 and the
scan stops. A record left without liquidity is deleted. -/
def RouterConfig.swapWalk (cfg : RouterConfig) (elig : TickRecord → Bool) :
    List TickRecord → ℚ → ℚ → SwapResult
  | [], R, O => ⟨O, R, []⟩
  | t :: ts, R, O =>
    if R = 0 then ⟨O, 0, t :: ts⟩
    else if elig t then
      if R > cfg.maxInput t then
        cfg.swapWalk elig ts (R - cfg.maxInput t) (O + cfg.credited t t.available)
      else
        let out := R * cfg.price t.key
        ⟨O + cfg.credited t out, 0,
          if t.available - out = 0 then ts else { t with available := t.available - out } :: ts⟩
    else
      let r := cfg.swapWalk elig ts R O
      ⟨r.output, r.leftover, t :: r.ledger⟩

/-- Modelled from the spec: swap of one pair. Fails with InsufficientLiquidity when input
is left after all eligible ticks and the caller required exact-input fulfilment; otherwise
returns the fill, partial or not. -/
def RouterConfig.swap (cfg : RouterConfig) (ledger : List TickRecord) (tokenA tokenB : Bytes)
    (side : Side) (exactInput : Bool) (input : ℚ) : Except SwapError SwapResult :=
  let r := cfg.swapWalk (cfg.eligible ledger tokenA tokenB side) ledger input 0
  if r.leftover > 0 ∧ exactInput = true then .error .InsufficientLiquidity else .ok r

/-- Modelled from the spec: a ledger state the router can meet, every record has a
positive price, liquidity that is not negative and a fee rate between 0 and 1. -/
def RouterConfig.LedgerOK (cfg : RouterConfig) (ledger : List TickRecord) : Prop :=
  ∀ t ∈ ledger, 0 < cfg.price t.key ∧ 0 ≤ t.available ∧ 0 ≤ cfg.feeRate t.key.feeTier ∧
    cfg.feeRate t.key.feeTier ≤ 1

/-- Tick bounds used in the examples. -/
def sampleBounds : TickBounds := ⟨-100, 100⟩

/-- A pooled key at tick 0 with fee tier 0 on the ascending side. -/
def sampleKeyA : TickLiquidityKey := ⟨[97], [98], .ascending, 0, 0, .pooled⟩

/-- The key of the same pair, side and tick with fee tier 1. -/
def sampleKeyB : TickLiquidityKey := ⟨[97], [98], .ascending, 0, 1, .pooled⟩

/-- A tranche key of the same pair on the descending side, at a negative tick. -/
def sampleKeyC : TickLiquidityKey := ⟨[97], [98], .descending, -3, 5, .tranche 7⟩

/-- A pooled key of the same pair on the descending side, at a greater tick. -/
def sampleKeyD : TickLiquidityKey := ⟨[97], [98], .descending, 4, 0, .pooled⟩

/-- A router configuration used in the examples: the price is 2 at tick 0 and 1 elsewhere,
fee tier n takes n hundredths of the output, every record is within the bound. -/
def sampleRouter : RouterConfig :=
  ⟨fun k => if k.tick = 0 then 2 else 1, fun n => (n : ℚ) / 100, fun _ _ => true⟩

/-- A ledger used in the examples: 10 units of pooled liquidity at tick 0 with fee tier 1,
and 5 units at tick 1 with fee tier 0, both on the ascending side. -/
def sampleLedger : List TickRecord :=
  [⟨sampleKeyB, 10⟩, ⟨⟨[97], [98], .ascending, 1, 0, .pooled⟩, 5⟩]

/-! # Theorems -/

/-! ## Store laws -/

theorem lookupKey_insertKey_self (l : List (Bytes × Bytes)) (k v : Bytes) :
    lookupKey (insertKey l k v) k = some v := by
  induction l with
  | nil => simp [insertKey, lookupKey]
  | cons e rest ih =>
    simp only [insertKey]
    split
    · simp [lookupKey]
    · rename_i hek
      split
      · simp [lookupKey]
      · simp [lookupKey, hek, ih]

theorem lookupKey_insertKey_ne (l : List (Bytes × Bytes)) {k k' : Bytes} (v : Bytes)
    (hne : k' ≠ k) : lookupKey (insertKey l k v) k' = lookupKey l k' := by
  induction l with
  | nil => simp [insertKey, lookupKey, Ne.symm hne]
  | cons e rest ih =>
    simp only [insertKey]
    split
    · rename_i hek
      have : ¬ e.1 = k' := fun h => hne (h ▸ hek)
      simp [lookupKey, Ne.symm hne, this]
    · split
      · simp [lookupKey, Ne.symm hne]
      · simp [lookupKey, ih]

theorem lookupKey_deleteKey_self (l : List (Bytes × Bytes)) (k : Bytes) :
    lookupKey (deleteKey l k) k = none := by
  induction l with
  | nil => simp [deleteKey, lookupKey]
  | cons e rest ih =>
    unfold deleteKey at ih ⊢
    by_cases h : e.1 = k
    · simpa [List.filter_cons, h] using ih
    · simpa [List.filter_cons, h, lookupKey] using ih

theorem lookupKey_deleteKey_ne (l : List (Bytes × Bytes)) {k k' : Bytes} (hne : k' ≠ k) :
    lookupKey (deleteKey l k) k' = lookupKey l k' := by
  induction l with
  | nil => simp [deleteKey, lookupKey]
  | cons e rest ih =>
    unfold deleteKey at ih ⊢
    by_cases h : e.1 = k
    · have h3 : ¬ e.1 = k' := fun h2 => hne (h2 ▸ h)
      rw [List.filter_cons]
      simp only [h, decide_True, Bool.not_true, Bool.false_eq_true, if_false, lookupKey]
      rw [if_neg (h ▸ h3)]
      exact ih
    · rw [List.filter_cons]
      simp only [h, decide_False, Bool.not_false, if_true, lookupKey]
      rw [ih]

theorem KVStore.get_set_self (s : KVStore) (k v : Bytes) : (s.Set k v).Get k = some v :=
  lookupKey_insertKey_self s.entries k v

theorem KVStore.get_set_ne (s : KVStore) {k k' : Bytes} (v : Bytes) (hne : k' ≠ k) :
    (s.Set k v).Get k' = s.Get k' :=
  lookupKey_insertKey_ne s.entries v hne

theorem KVStore.get_delete_self (s : KVStore) (k : Bytes) : (s.Delete k).Get k = none :=
  lookupKey_deleteKey_self s.entries k

theorem KVStore.get_delete_ne (s : KVStore) {k k' : Bytes} (hne : k' ≠ k) :
    (s.Delete k).Get k' = s.Get k' :=
  lookupKey_deleteKey_ne s.entries hne

theorem GetNextFailureIDKey_ctx {k : Keeper} {ctx : Ctx} {a : Bytes} {id : Nat} {c : Ctx}
    (h : k.GetNextFailureIDKey ctx a = some (id, c)) : c = ctx := by
  unfold Keeper.GetNextFailureIDKey at h
  split at h
  · split at h
    · exact absurd h (by simp)
    · simp at h; exact h.2.symm
  · simp at h; exact h.2.symm

/-- What AddContractFailure does in terms of the next id. -/
theorem AddContractFailure_eq (k : Keeper) (ctx : Ctx) (a : Bytes) (p : Option Bytes) (e : Bytes) :
    k.AddContractFailure ctx a p e =
      match k.GetNextFailureIDKey ctx a with
      | none => none
      | some (id, _) =>
        some ({ Address := a, Id := id, SudoPayload := p, Error := e },
          { ctx with store := (ctx.store.Set (k.GetFailureKey a id)
              (k.MustMarshal { Address := a, Id := id, SudoPayload := p, Error := e })) }) := by
  cases h : k.GetNextFailureIDKey ctx a with
  | none => simp [Keeper.AddContractFailure, h]
  | some r =>
    obtain ⟨id, c⟩ := r
    have hc := GetNextFailureIDKey_ctx h
    subst hc
    simp [Keeper.AddContractFailure, h]


/-! ## The sample codec is a codec -/

theorem decodeUnary_encodeUnary (n : Nat) (r : Bytes) :
    decodeUnary (encodeUnary n ++ r) = some (n, r) := by
  induction n with
  | zero => simp [encodeUnary, decodeUnary]
  | succ n ih =>
    have h : encodeUnary (n + 1) ++ r = 1 :: (encodeUnary n ++ r) := by
      simp [encodeUnary, List.replicate_succ]
    rw [h, decodeUnary, ih]
    simp

theorem decodeBlock_encodeBlock (b r : Bytes) :
    decodeBlock (encodeBlock b ++ r) = some (b, r) := by
  unfold decodeBlock encodeBlock
  rw [List.append_assoc, decodeUnary_encodeUnary]
  simp

theorem sampleUnmarshal_sampleMarshal (f : Failure) :
    sampleUnmarshal (sampleMarshal f) = some f := by
  obtain ⟨a, id, p, e⟩ := f
  cases p with
  | none =>
    have h : sampleMarshal ⟨a, id, none, e⟩
        = encodeBlock a ++ (encodeUnary id ++ (0 :: (encodeBlock e ++ []))) := by
      simp [sampleMarshal]
    rw [h]
    unfold sampleUnmarshal
    rw [decodeBlock_encodeBlock]
    simp only [decodeUnary_encodeUnary, decodeBlock_encodeBlock, if_true]
  | some p =>
    have h : sampleMarshal ⟨a, id, some p, e⟩
        = encodeBlock a ++ (encodeUnary id ++ (1 :: (encodeBlock p ++ (encodeBlock e ++ [])))) := by
      simp [sampleMarshal]
    rw [h]
    unfold sampleUnmarshal
    rw [decodeBlock_encodeBlock]
    simp only [decodeUnary_encodeUnary, decodeBlock_encodeBlock]
    simp

theorem sampleKeeper_codecInverts : sampleKeeper.CodecInverts := by
  intro f
  exact ⟨f, sampleUnmarshal_sampleMarshal f, rfl, rfl, rfl, rfl⟩

/-! ## The failure registry -/

/-- C1: add-then-get round trip. Whenever AddContractFailure returns a failure f for
the string form of an address A, payload p and error message e, and the codec decodes what
it encodes, GetFailure for (A, f.Id) on the resulting state returns a failure with a nil
error whose address is that string, whose id is f.Id, whose payload has the bytes of p and
whose error is e; the state is left as it was. -/
theorem C1_add_then_get (k : Keeper) (ctx : Ctx) (A : Bytes) (p : Option Bytes) (e : Bytes)
    (hcodec : k.CodecInverts) (f : Failure) (ctx1 : Ctx)
    (hadd : k.AddContractFailure ctx (k.AccAddressString A) p e = some (f, ctx1)) :
    ∃ g, k.GetFailure ctx1 A f.Id = some (.ok g, ctx1) ∧
      g.Address = k.AccAddressString A ∧ g.Id = f.Id ∧
      payloadBytes g.SudoPayload = payloadBytes p ∧ g.Error = e := by
  rw [AddContractFailure_eq] at hadd
  cases hn : k.GetNextFailureIDKey ctx (k.AccAddressString A) with
  | none => rw [hn] at hadd; exact absurd hadd (by simp)
  | some r =>
    obtain ⟨id, c⟩ := r
    rw [hn] at hadd
    simp only [Option.some.injEq, Prod.mk.injEq] at hadd
    obtain ⟨hf, hc⟩ := hadd
    subst hf hc
    obtain ⟨g, hg, h1, h2, h3, h4⟩ := hcodec ⟨k.AccAddressString A, id, p, e⟩
    refine ⟨g, ?_, h1, h2, h3, h4⟩
    unfold Keeper.GetFailure
    simp only [KVStore.get_set_self, hg]

/-- C1 witness: on the sample keeper, the second failure of address [97] is read back. -/
theorem C1_add_then_get_witness :
    sampleKeeper.CodecInverts ∧
    sampleKeeper.AddContractFailure sampleCtx1 (sampleKeeper.AccAddressString [97]) (some [5]) [9]
      = some (⟨[97], 1, some [5], [9]⟩, sampleCtx2) ∧
    ∃ g, sampleKeeper.GetFailure sampleCtx2 [97] (Failure.mk [97] 1 (some [5]) [9]).Id
        = some (.ok g, sampleCtx2) ∧
      g.Address = sampleKeeper.AccAddressString [97] ∧
      g.Id = (Failure.mk [97] 1 (some [5]) [9]).Id ∧
      payloadBytes g.SudoPayload = payloadBytes (some [5]) ∧ g.Error = [9] :=
  ⟨sampleKeeper_codecInverts, rfl,
    C1_add_then_get sampleKeeper sampleCtx1 [97] (some [5]) [9] sampleKeeper_codecInverts
      ⟨[97], 1, some [5], [9]⟩ sampleCtx2 rfl⟩

/-- C2: given the next id of the address on the state before the call, AddContractFailure
returns the failure made of the address, that id, the payload and the error message, and
its only effect is one store write: the key GetFailureKey(address, id) now holds the
encoding of the returned failure, every other key reads as before, and no contract call is
made. -/
theorem C2_add_writes_one_entry (k : Keeper) (ctx : Ctx) (a : Bytes) (p : Option Bytes)
    (e : Bytes) (id : Nat) (c : Ctx) (hid : k.GetNextFailureIDKey ctx a = some (id, c)) :
    ∃ ctx1, k.AddContractFailure ctx a p e
        = some ({ Address := a, Id := id, SudoPayload := p, Error := e }, ctx1) ∧
      ctx1.store = ctx.store.Set (k.GetFailureKey a id)
        (k.MustMarshal { Address := a, Id := id, SudoPayload := p, Error := e }) ∧
      ctx1.store.Get (k.GetFailureKey a id)
        = some (k.MustMarshal { Address := a, Id := id, SudoPayload := p, Error := e }) ∧
      (∀ key, key ≠ k.GetFailureKey a id → ctx1.store.Get key = ctx.store.Get key) ∧
      ctx1.sudoCalls = ctx.sudoCalls := by
  rw [AddContractFailure_eq, hid]
  refine ⟨_, rfl, rfl, ?_, ?_, rfl⟩
  · exact KVStore.get_set_self _ _ _
  · intro key hkey
    exact KVStore.get_set_ne _ _ hkey

/-- C2 witness: the first failure of address [97] on the empty store gets id 0. -/
theorem C2_add_writes_one_entry_witness :
    sampleKeeper.GetNextFailureIDKey emptyCtx [97] = some (0, emptyCtx) ∧
    ∃ ctx1, sampleKeeper.AddContractFailure emptyCtx [97] (some [5]) [9]
        = some ({ Address := [97], Id := 0, SudoPayload := some [5], Error := [9] }, ctx1) ∧
      ctx1.store = emptyCtx.store.Set (sampleKeeper.GetFailureKey [97] 0)
        (sampleKeeper.MustMarshal { Address := [97], Id := 0, SudoPayload := some [5], Error := [9] }) ∧
      ctx1.store.Get (sampleKeeper.GetFailureKey [97] 0)
        = some (sampleKeeper.MustMarshal { Address := [97], Id := 0, SudoPayload := some [5], Error := [9] }) ∧
      (∀ key, key ≠ sampleKeeper.GetFailureKey [97] 0 → ctx1.store.Get key = emptyCtx.store.Get key) ∧
      ctx1.sudoCalls = emptyCtx.sudoCalls :=
  ⟨rfl, C2_add_writes_one_entry sampleKeeper emptyCtx [97] (some [5]) [9] 0 emptyCtx rfl⟩

theorem GetFailure_of_get_none {k : Keeper} {ctx : Ctx} {A : Bytes} {id : Nat}
    (h : ctx.store.Get (k.GetFailureKey (k.AccAddressString A) id) = none) :
    k.GetFailure ctx A id
      = some (.error (.noFailureFound (k.AccAddressString A) id), ctx) := by
  simp [Keeper.GetFailure, h]

theorem GetFailure_of_get_some {k : Keeper} {ctx : Ctx} {A : Bytes} {id : Nat} {bz : Bytes}
    (h : ctx.store.Get (k.GetFailureKey (k.AccAddressString A) id) = some bz) :
    k.GetFailure ctx A id = (k.MustUnmarshal bz).map (fun res => (.ok res, ctx)) := by
  simp only [Keeper.GetFailure, h]
  cases k.MustUnmarshal bz <;> rfl

/-- C4: GetFailure returns an error exactly when the store holds no value at
GetFailureKey(A.String(), id), and that error wraps ErrKeyNotFound; when a value bz is
stored it returns the failure MustUnmarshal decodes from bz, with a nil error (and panics
where MustUnmarshal does). Whatever it returns, the state is the one it was called on. -/
theorem C4_get_failure (k : Keeper) (ctx : Ctx) (A : Bytes) (id : Nat) :
    ((∃ err c, k.GetFailure ctx A id = some (.error err, c)) ↔
        ctx.store.Get (k.GetFailureKey (k.AccAddressString A) id) = none) ∧
    (∀ err c, k.GetFailure ctx A id = some (.error err, c) →
        err.sentinel = Sentinel.ErrKeyNotFound) ∧
    (∀ bz, ctx.store.Get (k.GetFailureKey (k.AccAddressString A) id) = some bz →
        k.GetFailure ctx A id = (k.MustUnmarshal bz).map (fun res => (.ok res, ctx))) ∧
    (∀ r c, k.GetFailure ctx A id = some (r, c) → c = ctx) := by
  cases hget : ctx.store.Get (k.GetFailureKey (k.AccAddressString A) id) with
  | none =>
    rw [GetFailure_of_get_none hget]
    refine ⟨⟨fun _ => rfl, fun _ => ⟨_, _, rfl⟩⟩, ?_, ?_, ?_⟩
    · intro err c h
      simp only [Option.some.injEq, Prod.mk.injEq, Except.error.injEq] at h
      rw [← h.1]; rfl
    · intro bz h; exact absurd h (by simp)
    · intro r c h
      simp only [Option.some.injEq, Prod.mk.injEq] at h
      exact h.2.symm
  | some bz =>
    rw [GetFailure_of_get_some hget]
    cases hdec : k.MustUnmarshal bz with
    | none =>
      refine ⟨⟨?_, fun h => absurd h (by simp)⟩, ?_, ?_, ?_⟩
      · rintro ⟨err, c, h⟩; simp at h
      · intro err c h; simp at h
      · intro bz2 h
        simp only [Option.some.injEq] at h
        subst h
        simp [hdec]
      · intro r c h; simp at h
    | some res =>
      refine ⟨⟨?_, fun h => absurd h (by simp)⟩, ?_, ?_, ?_⟩
      · rintro ⟨err, c, h⟩; simp at h
      · intro err c h; simp at h
      · intro bz2 h
        simp only [Option.some.injEq] at h
        subst h
        simp [hdec]
      · intro r c h
        simp only [Option.map_some', Option.some.injEq, Prod.mk.injEq] at h
        exact h.2.symm

/-- C5: for a failure with a payload, when the contract handler accepts the call,
ResubmitFailure calls the handler once, with the address and the stored payload, returns a
nil error, deletes the entry of (A, failure.Id) from the store the handler left, and
GetFailure for (A, failure.Id) then returns an error wrapping ErrKeyNotFound. -/
theorem C5_resubmit_success (k : Keeper) (ctx : Ctx) (A : Bytes) (f : Failure)
    (payload result : Bytes) (hp : f.SudoPayload = some payload)
    (hok : (k.SudoHandler ctx.store A payload).2 = .ok result) :
    (k.ResubmitFailure ctx A f).1 = none ∧
    (k.ResubmitFailure ctx A f).2.sudoCalls = ctx.sudoCalls ++ [(A, payload)] ∧
    (k.ResubmitFailure ctx A f).2.store
      = (k.SudoHandler ctx.store A payload).1.Delete (k.GetFailureKey (k.AccAddressString A) f.Id) ∧
    ∃ err, k.GetFailure (k.ResubmitFailure ctx A f).2 A f.Id
        = some (.error err, (k.ResubmitFailure ctx A f).2) ∧
      err.sentinel = Sentinel.ErrKeyNotFound := by
  have hres : k.ResubmitFailure ctx A f
      = (none, k.removeFailure
          { store := (k.SudoHandler ctx.store A payload).1,
            sudoCalls := ctx.sudoCalls ++ [(A, payload)] } A f.Id) := by
    simp [Keeper.ResubmitFailure, hp, Keeper.Sudo, hok]
  rw [hres]
  refine ⟨rfl, rfl, rfl, ⟨.noFailureFound (k.AccAddressString A) f.Id, ?_, rfl⟩⟩
  simp [Keeper.GetFailure, Keeper.removeFailure, KVStore.get_delete_self]

/-- C5 witness: resubmitting the stored failure ([97], 1, [5], [9]) on the sample keeper. -/
theorem C5_resubmit_success_witness :
    (Failure.mk [97] 1 (some [5]) [9]).SudoPayload = some [5] ∧
    (sampleKeeper.SudoHandler sampleCtx2.store [97] [5]).2 = .ok [] ∧
    (sampleKeeper.ResubmitFailure sampleCtx2 [97] ⟨[97], 1, some [5], [9]⟩).1 = none ∧
    (sampleKeeper.ResubmitFailure sampleCtx2 [97] ⟨[97], 1, some [5], [9]⟩).2.sudoCalls
      = sampleCtx2.sudoCalls ++ [([97], [5])] ∧
    (sampleKeeper.ResubmitFailure sampleCtx2 [97] ⟨[97], 1, some [5], [9]⟩).2.store
      = (sampleKeeper.SudoHandler sampleCtx2.store [97] [5]).1.Delete
          (sampleKeeper.GetFailureKey (sampleKeeper.AccAddressString [97])
            (Failure.mk [97] 1 (some [5]) [9]).Id) ∧
    ∃ err, sampleKeeper.GetFailure
          (sampleKeeper.ResubmitFailure sampleCtx2 [97] ⟨[97], 1, some [5], [9]⟩).2 [97]
          (Failure.mk [97] 1 (some [5]) [9]).Id
        = some (.error err, (sampleKeeper.ResubmitFailure sampleCtx2 [97] ⟨[97], 1, some [5], [9]⟩).2) ∧
      err.sentinel = Sentinel.ErrKeyNotFound :=
  ⟨rfl, rfl, C5_resubmit_success sampleKeeper sampleCtx2 [97] ⟨[97], 1, some [5], [9]⟩ [5] [] rfl rfl⟩

/-- C6: for a failure with a payload, when the contract handler returns an error,
ResubmitFailure returns an error wrapping ErrFailedToResubmitFailure after that one handler
call and does not itself write to or delete from the store: the store is the one the
handler left. When the handler left the store as it was, GetFailure answers for
(A, failure.Id) as before the call, and a second ResubmitFailure reaches the handler again
with the same arguments. -/
theorem C6_resubmit_failure_kept (k : Keeper) (ctx : Ctx) (A : Bytes) (f : Failure)
    (payload e : Bytes) (hp : f.SudoPayload = some payload)
    (herr : (k.SudoHandler ctx.store A payload).2 = .error e) :
    (k.ResubmitFailure ctx A f).1 = some (KeeperError.cannotResubmit f.Id e) ∧
    (KeeperError.cannotResubmit f.Id e).sentinel = Sentinel.ErrFailedToResubmitFailure ∧
    (k.ResubmitFailure ctx A f).2.store = (k.SudoHandler ctx.store A payload).1 ∧
    (k.ResubmitFailure ctx A f).2.sudoCalls = ctx.sudoCalls ++ [(A, payload)] ∧
    ((k.SudoHandler ctx.store A payload).1 = ctx.store →
      (k.GetFailure (k.ResubmitFailure ctx A f).2 A f.Id).map Prod.fst
        = (k.GetFailure ctx A f.Id).map Prod.fst ∧
      (k.ResubmitFailure (k.ResubmitFailure ctx A f).2 A f).2.sudoCalls
        = ctx.sudoCalls ++ [(A, payload), (A, payload)]) := by
  have hres : k.ResubmitFailure ctx A f
      = (some (.cannotResubmit f.Id e),
          { store := (k.SudoHandler ctx.store A payload).1,
            sudoCalls := ctx.sudoCalls ++ [(A, payload)] }) := by
    simp [Keeper.ResubmitFailure, hp, Keeper.Sudo, herr]
  rw [hres]
  refine ⟨rfl, rfl, rfl, rfl, ?_⟩
  intro hframe
  constructor
  · simp only [Keeper.GetFailure, hframe]
    cases hg : ctx.store.Get (k.GetFailureKey (k.AccAddressString A) f.Id) with
    | none => simp
    | some bz => cases hd : k.MustUnmarshal bz <;> simp [hd]
  · simp only [Keeper.ResubmitFailure, hp, Keeper.Sudo, hframe]
    cases h2 : (k.SudoHandler ctx.store A payload).2 with
    | error e2 => simp [h2]
    | ok r2 => simp [h2, Keeper.removeFailure]

/-- C6 witness: the sample handler rejects the payload [0]; the failure stays. -/
theorem C6_resubmit_failure_kept_witness :
    (Failure.mk [97] 1 (some [0]) [9]).SudoPayload = some [0] ∧
    (sampleKeeper.SudoHandler sampleCtx2.store [97] [0]).2 = .error [7] ∧
    (sampleKeeper.ResubmitFailure sampleCtx2 [97] ⟨[97], 1, some [0], [9]⟩).1
      = some (KeeperError.cannotResubmit 1 [7]) ∧
    (sampleKeeper.GetFailure (sampleKeeper.ResubmitFailure sampleCtx2 [97]
        ⟨[97], 1, some [0], [9]⟩).2 [97] 1).map Prod.fst
      = some (.ok ⟨[97], 1, some [5], [9]⟩) :=
  ⟨rfl, rfl,
    (C6_resubmit_failure_kept sampleKeeper sampleCtx2 [97] ⟨[97], 1, some [0], [9]⟩ [0] [7]
      rfl rfl).1, rfl⟩

/-- C7: a failure whose SudoPayload is nil is rejected: ResubmitFailure returns an error
wrapping ErrIncorrectFailureToResubmit and the state is unchanged, so the store is
untouched and no call reached the contract handler. -/
theorem C7_resubmit_without_payload (k : Keeper) (ctx : Ctx) (A : Bytes) (f : Failure)
    (hp : f.SudoPayload = none) :
    k.ResubmitFailure ctx A f = (some (KeeperError.withoutSudoPayload f.Id), ctx) ∧
    (KeeperError.withoutSudoPayload f.Id).sentinel = Sentinel.ErrIncorrectFailureToResubmit ∧
    (k.ResubmitFailure ctx A f).2.store = ctx.store ∧
    (k.ResubmitFailure ctx A f).2.sudoCalls = ctx.sudoCalls := by
  have hres : k.ResubmitFailure ctx A f = (some (.withoutSudoPayload f.Id), ctx) := by
    simp [Keeper.ResubmitFailure, hp]
  rw [hres]
  exact ⟨rfl, rfl, rfl, rfl⟩

/-- C7 witness: the stored failure ([97], 0, nil, "") cannot be resubmitted. -/
theorem C7_resubmit_without_payload_witness :
    (Failure.mk [97] 0 none []).SudoPayload = none ∧
    sampleKeeper.ResubmitFailure sampleCtx2 [97] ⟨[97], 0, none, []⟩
      = (some (KeeperError.withoutSudoPayload 0), sampleCtx2) :=
  ⟨rfl, (C7_resubmit_without_payload sampleKeeper sampleCtx2 [97] ⟨[97], 0, none, []⟩ rfl).1⟩

/-! ## Iteration over a key range -/

theorem mem_of_lookupKey {l : List (Bytes × Bytes)} {k v : Bytes}
    (h : lookupKey l k = some v) : (k, v) ∈ l := by
  induction l with
  | nil => simp [lookupKey] at h
  | cons e rest ih =>
    simp only [lookupKey] at h
    split at h
    · rename_i hek
      simp only [Option.some.injEq] at h
      have : e = (k, v) := by rw [← hek, ← h]
      rw [this]; exact List.mem_cons_self _ _
    · exact List.mem_cons_of_mem _ (ih h)

theorem lookupKey_of_mem {l : List (Bytes × Bytes)} (hl : KeysAscending l) {k v : Bytes}
    (h : (k, v) ∈ l) : lookupKey l k = some v := by
  induction l with
  | nil => simp at h
  | cons e rest ih =>
    have hl2 := List.pairwise_cons.mp hl
    simp only [lookupKey]
    rcases List.mem_cons.mp h with h1 | h1
    · rw [← h1]; simp
    · have hlt := hl2.1 _ h1
      have hne : ¬ e.1 = k := by
        intro he
        rw [he] at hlt
        simp [bytesLt_irrefl] at hlt
      rw [if_neg hne]
      exact ih hl2.2 h1

theorem KVStore.mem_entries_iff (s : KVStore) (k v : Bytes) :
    (k, v) ∈ s.entries ↔ s.Get k = some v :=
  ⟨lookupKey_of_mem s.ascending, mem_of_lookupKey⟩

theorem KVStore.get_none_iff (s : KVStore) (k : Bytes) :
    s.Get k = none ↔ ∀ e ∈ s.entries, e.1 ≠ k := by
  constructor
  · intro h e he hk
    have := (s.mem_entries_iff e.1 e.2).mp he
    rw [hk, h] at this
    exact absurd this (by simp)
  · intro h
    cases hg : s.Get k with
    | none => rfl
    | some v => exact absurd rfl (h _ ((s.mem_entries_iff k v).mpr hg))

theorem KVStore.mem_prefixIterator (s : KVStore) (pfx : Bytes) (e : Bytes × Bytes) :
    e ∈ s.PrefixIterator pfx ↔ e ∈ s.entries ∧ pfx.isPrefixOf e.1 = true := by
  simp [KVStore.PrefixIterator, List.mem_filter]

theorem KVStore.prefixIterator_ascending (s : KVStore) (pfx : Bytes) :
    KeysAscending (s.PrefixIterator pfx) :=
  List.Pairwise.sublist (List.filter_sublist _) s.ascending

/-- The first item of the descending iteration is the entry with the greatest key in the
range. -/
theorem KVStore.reversePrefixIterator_head (s : KVStore) (pfx : Bytes) (e : Bytes × Bytes)
    (rest : List (Bytes × Bytes)) (h : s.ReversePrefixIterator pfx = e :: rest) :
    e ∈ s.entries ∧ pfx.isPrefixOf e.1 = true ∧
      ∀ x ∈ s.entries, pfx.isPrefixOf x.1 = true → x = e ∨ bytesLt x.1 e.1 = true := by
  have hl : s.PrefixIterator pfx = rest.reverse ++ [e] := by
    have := congrArg List.reverse h
    simpa [KVStore.ReversePrefixIterator] using this
  have hmem : e ∈ s.PrefixIterator pfx := by rw [hl]; simp
  have hasc := s.prefixIterator_ascending pfx
  rw [hl] at hasc
  have hp := (List.pairwise_append.mp hasc).2.2
  refine ⟨((s.mem_prefixIterator pfx e).mp hmem).1, ((s.mem_prefixIterator pfx e).mp hmem).2, ?_⟩
  intro x hx hxp
  have hxm : x ∈ s.PrefixIterator pfx := (s.mem_prefixIterator pfx x).mpr ⟨hx, hxp⟩
  rw [hl] at hxm
  rcases List.mem_append.mp hxm with h1 | h1
  · exact Or.inr (hp x h1 e (by simp))
  · exact Or.inl (by simpa using h1)

theorem KVStore.reversePrefixIterator_nil (s : KVStore) (pfx : Bytes) :
    s.ReversePrefixIterator pfx = [] ↔ ∀ e ∈ s.entries, pfx.isPrefixOf e.1 = false := by
  simp only [KVStore.ReversePrefixIterator, List.reverse_eq_nil_iff, KVStore.PrefixIterator,
    List.filter_eq_nil_iff]
  constructor
  · intro h e he
    exact Bool.eq_false_iff.mpr (h e he)
  · intro h e he
    exact Bool.eq_false_iff.mp (h e he)

/-- The next id on a range without entry is 0. -/
theorem GetNextFailureIDKey_of_no_entry (k : Keeper) (ctx : Ctx) (a : Bytes)
    (h : ∀ e ∈ ctx.store.entries, (k.GetFailureKeyPrefix a).isPrefixOf e.1 = false) :
    k.GetNextFailureIDKey ctx a = some (0, ctx) := by
  have := (ctx.store.reversePrefixIterator_nil (k.GetFailureKeyPrefix a)).mpr h
  simp [Keeper.GetNextFailureIDKey, this]

/-- The next id is decoded from the entry with the greatest key of the range. -/
theorem GetNextFailureIDKey_of_greatest (k : Keeper) (ctx : Ctx) (a : Bytes) (e : Bytes × Bytes)
    (he : e ∈ ctx.store.entries) (hp : (k.GetFailureKeyPrefix a).isPrefixOf e.1 = true)
    (hmax : ∀ x ∈ ctx.store.entries, (k.GetFailureKeyPrefix a).isPrefixOf x.1 = true →
      x = e ∨ bytesLt x.1 e.1 = true) :
    k.GetNextFailureIDKey ctx a
      = (k.MustUnmarshal e.2).map (fun val => ((val.Id + 1) % 2 ^ 64, ctx)) := by
  cases hit : ctx.store.ReversePrefixIterator (k.GetFailureKeyPrefix a) with
  | nil =>
    have := (ctx.store.reversePrefixIterator_nil _).mp hit e he
    rw [hp] at this
    exact absurd this (by simp)
  | cons x rest =>
    obtain ⟨hx, hxp, hxmax⟩ := ctx.store.reversePrefixIterator_head _ x rest hit
    have hxe : x = e := by
      rcases hmax x hx hxp with h1 | h1
      · exact h1
      · rcases hxmax e he hp with h2 | h2
        · exact h2.symm
        · have := bytesLt_asymm h1
          rw [h2] at this
          exact absurd this (by simp)
    subst hxe
    simp only [Keeper.GetNextFailureIDKey, hit]
    cases k.MustUnmarshal x.2 <;> rfl

/-! ## Numbering of the failures of an address -/

theorem mem_set_entries {s : KVStore} {key v : Bytes} {x : Bytes × Bytes}
    (hx : x ∈ (s.Set key v).entries) : x = (key, v) ∨ x ∈ s.entries :=
  mem_insertKey hx

theorem ne_of_bytesLt {a b : Bytes} (h : bytesLt a b = true) : a ≠ b := by
  intro hab
  rw [hab, bytesLt_irrefl] at h
  exact absurd h (by simp)

/-- One AddContractFailure on an address whose failures are numbered 0..m-1 returns id m,
writes a fresh key and leaves the failures numbered 0..m. -/
theorem add_step (k : Keeper) (hcodec : k.CodecInverts) (ctx : Ctx) (a : Bytes)
    (p : Option Bytes) (e : Bytes) (m N : Nat) (hm : m < N) (hN : N ≤ 2 ^ 64)
    (hpfx : ∀ i, i < N → (k.GetFailureKeyPrefix a).isPrefixOf (k.GetFailureKey a i) = true)
    (hord : ∀ j, j < N → ∀ i, i < j →
      bytesLt (k.GetFailureKey a i) (k.GetFailureKey a j) = true)
    (hinv : k.Numbered ctx.store a m) :
    k.AddContractFailure ctx a p e
      = some (⟨a, m, p, e⟩,
          Ctx.mk (ctx.store.Set (k.GetFailureKey a m) (k.MustMarshal ⟨a, m, p, e⟩))
            ctx.sudoCalls) ∧
    k.Numbered (ctx.store.Set (k.GetFailureKey a m) (k.MustMarshal ⟨a, m, p, e⟩)) a (m + 1) ∧
    ctx.store.Get (k.GetFailureKey a m) = none := by
  obtain ⟨hin, hget⟩ := hinv
  have hnext : k.GetNextFailureIDKey ctx a = some (m, ctx) := by
    cases m with
    | zero =>
      apply GetNextFailureIDKey_of_no_entry
      intro x hx
      cases hb : (k.GetFailureKeyPrefix a).isPrefixOf x.1 with
      | false => rfl
      | true =>
        obtain ⟨i, hi, _⟩ := hin x hx hb
        exact absurd hi (Nat.not_lt_zero i)
    | succ m =>
      obtain ⟨f, hf, hfid⟩ := hget m (Nat.lt_succ_self m)
      have hmem : (k.GetFailureKey a m, k.MustMarshal f) ∈ ctx.store.entries :=
        (ctx.store.mem_entries_iff _ _).mpr hf
      have hmax : ∀ x ∈ ctx.store.entries, (k.GetFailureKeyPrefix a).isPrefixOf x.1 = true →
          x = (k.GetFailureKey a m, k.MustMarshal f)
            ∨ bytesLt x.1 (k.GetFailureKey a m, k.MustMarshal f).1 = true := by
        intro x hx hxp
        obtain ⟨i, hi, hxi⟩ := hin x hx hxp
        rcases Nat.lt_or_ge i m with h1 | h1
        · right
          rw [hxi]
          exact hord m (by omega) i h1
        · left
          have him : i = m := by omega
          subst him
          have hx2 : ctx.store.Get x.1 = some x.2 := (ctx.store.mem_entries_iff _ _).mp hx
          rw [hxi, hf] at hx2
          simp only [Option.some.injEq] at hx2
          exact Prod.ext hxi hx2.symm
      rw [GetNextFailureIDKey_of_greatest k ctx a _ hmem (hpfx m (by omega)) hmax]
      obtain ⟨g, hg, _, hgid, _, _⟩ := hcodec f
      simp only [hg, Option.map_some', Option.some.injEq, Prod.mk.injEq, and_true]
      rw [hgid, hfid]
      exact Nat.mod_eq_of_lt (by omega)
  refine ⟨?_, ⟨?_, ?_⟩, ?_⟩
  · rw [AddContractFailure_eq, hnext]
  · intro x hx hxp
    rcases mem_set_entries hx with h1 | h1
    · exact ⟨m, Nat.lt_succ_self m, by rw [h1]⟩
    · obtain ⟨i, hi, hxi⟩ := hin x h1 hxp
      exact ⟨i, by omega, hxi⟩
  · intro i hi
    rcases Nat.lt_or_ge i m with h1 | h1
    · obtain ⟨f, hf, hfid⟩ := hget i h1
      refine ⟨f, ?_, hfid⟩
      rw [KVStore.get_set_ne _ _ (ne_of_bytesLt (hord m hm i h1))]
      exact hf
    · have him : i = m := by omega
      subst him
      exact ⟨⟨a, i, p, e⟩, KVStore.get_set_self _ _ _, rfl⟩
  · rw [KVStore.get_none_iff]
    intro x hx hxk
    obtain ⟨i, hi, hxi⟩ := hin x hx (by rw [hxk]; exact hpfx m hm)
    rw [hxk] at hxi
    exact ne_of_bytesLt (hord m hm i hi) hxi.symm

/-- A write outside the key range of an address keeps its numbering. -/
theorem numbered_set_other (k : Keeper) (s : KVStore) (b : Bytes) (m : Nat) (key v : Bytes)
    (hnp : (k.GetFailureKeyPrefix b).isPrefixOf key = false)
    (hpfx : ∀ i, i < m → (k.GetFailureKeyPrefix b).isPrefixOf (k.GetFailureKey b i) = true)
    (h : k.Numbered s b m) : k.Numbered (s.Set key v) b m := by
  obtain ⟨hin, hget⟩ := h
  refine ⟨?_, ?_⟩
  · intro x hx hxp
    rcases mem_set_entries hx with h1 | h1
    · rw [h1] at hxp
      simp only at hxp
      rw [hnp] at hxp
      exact absurd hxp (by simp)
    · exact hin x h1 hxp
  · intro i hi
    obtain ⟨f, hf, hfid⟩ := hget i hi
    refine ⟨f, ?_, hfid⟩
    have hne : k.GetFailureKey b i ≠ key := by
      intro heq
      have := hpfx i hi
      rw [heq, hnp] at this
      exact absurd this (by simp)
    rw [KVStore.get_set_ne _ _ hne]
    exact hf

/-- Successive additions for one address, from m stored failures on, return the ids
m, m+1, ... in call order. -/
theorem addAll_same_address (k : Keeper) (hcodec : k.CodecInverts) (a : Bytes) (N : Nat)
    (hN : N ≤ 2 ^ 64)
    (hpfx : ∀ i, i < N → (k.GetFailureKeyPrefix a).isPrefixOf (k.GetFailureKey a i) = true)
    (hord : ∀ j, j < N → ∀ i, i < j →
      bytesLt (k.GetFailureKey a i) (k.GetFailureKey a j) = true)
    (calls : List (Option Bytes × Bytes)) :
    ∀ (ctx : Ctx) (m : Nat), m + calls.length ≤ N → k.Numbered ctx.store a m →
      ∃ fs ctx1, k.addAll ctx (calls.map (fun c => (a, c.1, c.2))) = some (fs, ctx1) ∧
        fs.map (fun f => f.Id) = List.range' m calls.length ∧
        List.Forall₂ (fun f c => f.Address = a ∧ f.SudoPayload = c.1 ∧ f.Error = c.2)
          fs calls := by
  induction calls with
  | nil =>
    intro ctx m _ _
    exact ⟨[], ctx, rfl, rfl, List.Forall₂.nil⟩
  | cons c rest ih =>
    intro ctx m hmN hinv
    simp only [List.length_cons] at hmN
    obtain ⟨hadd, hinv1, _⟩ :=
      add_step k hcodec ctx a c.1 c.2 m N (by omega) hN hpfx hord hinv
    obtain ⟨fs, ctx1, hfs, hids, hall⟩ := ih
      (Ctx.mk (ctx.store.Set (k.GetFailureKey a m) (k.MustMarshal ⟨a, m, c.1, c.2⟩))
        ctx.sudoCalls) (m + 1) (by omega) hinv1
    refine ⟨⟨a, m, c.1, c.2⟩ :: fs, ctx1, ?_, ?_, ?_⟩
    · simp only [List.map_cons, Keeper.addAll, hadd, hfs]
    · simp only [List.map_cons, List.length_cons, List.range'_succ, hids]
    · exact List.Forall₂.cons ⟨rfl, rfl, rfl⟩ hall

/-! ## Runs of additions and GetAllFailures -/

theorem insertKey_perm {l : List (Bytes × Bytes)} {k v : Bytes} (h : ∀ e ∈ l, e.1 ≠ k) :
    (insertKey l k v).Perm ((k, v) :: l) := by
  induction l with
  | nil => simp [insertKey]
  | cons e rest ih =>
    have he : ¬ e.1 = k := h e (List.mem_cons_self _ _)
    simp only [insertKey, if_neg he]
    split
    · exact List.Perm.refl _
    · exact ((ih (fun x hx => h x (List.mem_cons_of_mem _ hx))).cons e).trans (List.Perm.swap _ _ _)

theorem decodeAll_of_forall₂ (k : Keeper) {l : List (Bytes × Bytes)} {result : List Failure}
    (h : List.Forall₂ (fun e g => k.MustUnmarshal e.2 = some g) l result) (acc : List Failure) :
    k.decodeAll l acc = some (acc ++ result) := by
  induction h generalizing acc with
  | nil => simp [Keeper.decodeAll]
  | cons hd _ ih =>
    simp only [Keeper.decodeAll, hd]
    rw [ih]
    simp

theorem forall₂_of_decodeAll (k : Keeper) (l : List (Bytes × Bytes)) :
    ∀ (acc r : List Failure), k.decodeAll l acc = some r →
      ∃ result, r = acc ++ result ∧
        List.Forall₂ (fun e g => k.MustUnmarshal e.2 = some g) l result := by
  induction l with
  | nil =>
    intro acc r h
    simp only [Keeper.decodeAll, Option.some.injEq] at h
    exact ⟨[], by simp [h], List.Forall₂.nil⟩
  | cons e rest ih =>
    intro acc r h
    simp only [Keeper.decodeAll] at h
    cases hd : k.MustUnmarshal e.2 with
    | none => rw [hd] at h; exact absurd h (by simp)
    | some val =>
      rw [hd] at h
      obtain ⟨result, hr, hall⟩ := ih _ _ h
      exact ⟨val :: result, by simp [hr], List.Forall₂.cons hd hall⟩

theorem exists_decoded (k : Keeper) (hcodec : k.CodecInverts) (fs : List Failure) :
    ∃ gs, List.Forall₂ (fun e g => k.MustUnmarshal e.2 = some g) (fs.map k.entryOf) gs ∧
      List.Forall₂ Failure.sameRecord gs fs := by
  induction fs with
  | nil => exact ⟨[], List.Forall₂.nil, List.Forall₂.nil⟩
  | cons f rest ih =>
    obtain ⟨gs, h1, h2⟩ := ih
    obtain ⟨g, hg, hsame⟩ := hcodec f
    exact ⟨g :: gs, List.Forall₂.cons hg h1, List.Forall₂.cons hsame h2⟩

/-- A run of additions from a state in which the failures of every address used are
numbered: no call panics, every call writes a fresh entry. -/
theorem addAll_spec (k : Keeper) (hcodec : k.CodecInverts) (addrs : List Bytes) (N : Nat)
    (hN : N ≤ 2 ^ 64)
    (hpfx : ∀ a ∈ addrs, ∀ i, i < N →
      (k.GetFailureKeyPrefix a).isPrefixOf (k.GetFailureKey a i) = true)
    (hord : ∀ a ∈ addrs, ∀ j, j < N → ∀ i, i < j →
      bytesLt (k.GetFailureKey a i) (k.GetFailureKey a j) = true)
    (hfree : ∀ a ∈ addrs, ∀ b ∈ addrs, a ≠ b → ∀ j, j < N →
      (k.GetFailureKeyPrefix a).isPrefixOf (k.GetFailureKey b j) = false)
    (calls : List (Bytes × Option Bytes × Bytes)) :
    ∀ (ctx : Ctx) (cnt : Bytes → Nat) (d : Nat), (∀ c ∈ calls, c.1 ∈ addrs) →
      d + calls.length ≤ N →
      (∀ a ∈ addrs, k.Numbered ctx.store a (cnt a) ∧ cnt a ≤ d) →
      ∃ fs ctx1, k.addAll ctx calls = some (fs, ctx1) ∧
        ctx1.store.entries.Perm (fs.map k.entryOf ++ ctx.store.entries) ∧
        (∀ f ∈ fs, f.Address ∈ addrs ∧ f.Id < N) ∧
        List.Forall₂ (fun f c => f.Address = c.1 ∧ f.SudoPayload = c.2.1 ∧ f.Error = c.2.2)
          fs calls := by
  induction calls with
  | nil =>
    intro ctx cnt d _ _ _
    exact ⟨[], ctx, rfl, by simp, by simp, List.Forall₂.nil⟩
  | cons c rest ih =>
    intro ctx cnt d hmem hdN hinv
    simp only [List.length_cons] at hdN
    have ha : c.1 ∈ addrs := hmem c (List.mem_cons_self _ _)
    obtain ⟨hnum, hcnt⟩ := hinv c.1 ha
    obtain ⟨hadd, hinv1, hfresh⟩ :=
      add_step k hcodec ctx c.1 c.2.1 c.2.2 (cnt c.1) N (by omega) hN (hpfx c.1 ha)
        (hord c.1 ha) hnum
    obtain ⟨fs, ctx1, hfs, hperm, hfsmem, hall⟩ := ih
      (Ctx.mk (ctx.store.Set (k.GetFailureKey c.1 (cnt c.1))
        (k.MustMarshal ⟨c.1, cnt c.1, c.2.1, c.2.2⟩)) ctx.sudoCalls)
      (Function.update cnt c.1 (cnt c.1 + 1)) (d + 1)
      (fun x hx => hmem x (List.mem_cons_of_mem _ hx)) (by omega)
      (by
        intro b hb
        by_cases hbc : b = c.1
        · subst hbc
          simp only [Function.update_same]
          exact ⟨hinv1, by omega⟩
        · rw [Function.update_noteq hbc]
          obtain ⟨hnb, hcb⟩ := hinv b hb
          refine ⟨numbered_set_other k ctx.store b (cnt b) _ _
            (hfree b hb c.1 ha hbc (cnt c.1) (by omega))
            (fun i hi => hpfx b hb i (by omega)) hnb, by omega⟩)
    refine ⟨⟨c.1, cnt c.1, c.2.1, c.2.2⟩ :: fs, ctx1, ?_, ?_, ?_, ?_⟩
    · simp only [Keeper.addAll, hadd, hfs]
    · have hins : (ctx.store.Set (k.GetFailureKey c.1 (cnt c.1))
          (k.MustMarshal ⟨c.1, cnt c.1, c.2.1, c.2.2⟩)).entries.Perm
          ((k.GetFailureKey c.1 (cnt c.1), k.MustMarshal ⟨c.1, cnt c.1, c.2.1, c.2.2⟩)
            :: ctx.store.entries) :=
        insertKey_perm ((ctx.store.get_none_iff _).mp hfresh)
      refine hperm.trans ?_
      refine (List.Perm.append_left _ hins).trans ?_
      simp only [List.map_cons, List.cons_append]
      exact List.perm_middle
    · intro f hf
      rcases List.mem_cons.mp hf with h1 | h1
      · rw [h1]; exact ⟨ha, by simp only; omega⟩
      · exact hfsmem f h1
    · exact List.Forall₂.cons ⟨rfl, rfl, rfl⟩ hall

/-- C3 (amended): the next failure id of an address. GetNextFailureIDKey returns 0 when no
entry, of whatever address, lies under the key prefix of the address; otherwise, for the
entry with the greatest key under that prefix, whichever address it belongs to, it returns
(Id + 1) mod 2^64 for the Id of the failure decoded from it. Consequently, on a store with
no entry of any address under the prefix of the address, and with the keys of the address
lying under its prefix and sorted by id and a codec that decodes what it encodes, n
successive AddContractFailure calls for the address (n at most 2^64, ids being uint64) all
return, with the ids 0, 1, ..., n-1 in call order. -/
theorem C3_next_failure_id (k : Keeper) (ctx : Ctx) (a : Bytes) :
    ((∀ e ∈ ctx.store.entries, (k.GetFailureKeyPrefix a).isPrefixOf e.1 = false) →
      k.GetNextFailureIDKey ctx a = some (0, ctx)) ∧
    (∀ e ∈ ctx.store.entries, (k.GetFailureKeyPrefix a).isPrefixOf e.1 = true →
      (∀ x ∈ ctx.store.entries, (k.GetFailureKeyPrefix a).isPrefixOf x.1 = true →
        x = e ∨ bytesLt x.1 e.1 = true) →
      k.GetNextFailureIDKey ctx a
        = (k.MustUnmarshal e.2).map (fun val => ((val.Id + 1) % 2 ^ 64, ctx))) ∧
    (∀ calls : List (Option Bytes × Bytes),
      k.CodecInverts → calls.length ≤ 2 ^ 64 →
      (∀ e ∈ ctx.store.entries, (k.GetFailureKeyPrefix a).isPrefixOf e.1 = false) →
      (∀ i, i < calls.length →
        (k.GetFailureKeyPrefix a).isPrefixOf (k.GetFailureKey a i) = true) →
      (∀ j, j < calls.length → ∀ i, i < j →
        bytesLt (k.GetFailureKey a i) (k.GetFailureKey a j) = true) →
      ∃ fs ctx1, k.addAll ctx (calls.map (fun c => (a, c.1, c.2))) = some (fs, ctx1) ∧
        fs.map (fun f => f.Id) = List.range calls.length) := by
  refine ⟨GetNextFailureIDKey_of_no_entry k ctx a, ?_, ?_⟩
  · intro e he hp hmax
    exact GetNextFailureIDKey_of_greatest k ctx a e he hp hmax
  · intro calls hcodec hlen hempty hpfx hord
    have hnum : k.Numbered ctx.store a 0 := by
      refine ⟨?_, fun i hi => absurd hi (Nat.not_lt_zero i)⟩
      intro e he hp
      rw [hempty e he] at hp
      exact absurd hp (by simp)
    obtain ⟨fs, ctx1, h1, h2, _⟩ :=
      addAll_same_address k hcodec a calls.length hlen hpfx hord calls ctx 0 (by omega) hnum
    refine ⟨fs, ctx1, h1, ?_⟩
    rw [h2, List.range_eq_range']

/-- C3 witness: three additions for address [97] on the empty store of the sample keeper
return the ids 0, 1, 2. -/
theorem C3_next_failure_id_witness :
    ∃ fs ctx1, sampleKeeper.addAll emptyCtx
        ([(some [5], [9]), (none, []), (some [], [3])].map (fun c => ([97], c.1, c.2)))
        = some (fs, ctx1) ∧
      fs.map (fun f => f.Id) = List.range 3 :=
  (C3_next_failure_id sampleKeeper emptyCtx [97]).2.2
    [(some [5], [9]), (none, []), (some [], [3])] sampleKeeper_codecInverts (by decide)
    (by intro e he; cases he) (by decide) (by decide)

theorem uint64ToBigEndian_length (n : Nat) : (Uint64ToBigEndian n).length = 8 := by
  simp [Uint64ToBigEndian]

/-- C3 counterexample. (1) The store of sampleCtx4 holds one failure, of address [97, 98]:
no failure of address [97] is stored (GetFailure finds none at any id), yet two successive
additions for [97] return the ids 1 and 1, not 0 and 1: the key of ([97, 98], 0) lies
under the key prefix of [97] and is the greatest there. (2) With the failure
([97], 2^64 - 1) stored at its key, GetNextFailureIDKey returns 0, not 1 + Id: the Id is a
uint64. -/
theorem C3_counterexample :
    (sampleCtx4.store.entries.map
        (fun e => (sampleKeeper.MustUnmarshal e.2).map (fun f => (f.Address, f.Id)))
      = [some ([97, 98], 0)] ∧
    (∀ i, sampleKeeper.GetFailure sampleCtx4 [97] i
      = some (.error (.noFailureFound [97] i), sampleCtx4)) ∧
    (sampleKeeper.addAll sampleCtx4 [([97], none, []), ([97], none, [])]).map
        (fun r => r.1.map (fun f => (f.Address, f.Id))) = some [([97], 1), ([97], 1)]) ∧
    (maxIdCtx.store.entries.map
        (fun e => (e.1, (fixedKeeper.MustUnmarshal e.2).map (fun f => (f.Address, f.Id))))
      = [(fixedKeeper.GetFailureKey [97] (2 ^ 64 - 1), some ([97], 2 ^ 64 - 1))] ∧
    fixedKeeper.GetNextFailureIDKey maxIdCtx [97] = some (0, maxIdCtx)) := by
  refine ⟨⟨rfl, ?_, rfl⟩, rfl, rfl⟩
  intro i
  have hnone : sampleCtx4.store.Get (sampleKeeper.GetFailureKey [97] i) = none := by
    rw [KVStore.get_none_iff]
    intro e he hk
    have hent : sampleCtx4.store.entries
        = [([1, 97, 98, 0, 0, 0, 0, 0, 0, 0, 0], sampleMarshal ⟨[97, 98], 0, some [], []⟩)] := rfl
    rw [hent] at he
    simp only [List.mem_singleton] at he
    rw [he] at hk
    have hlen := congrArg List.length hk
    simp [sampleKeeper, uint64ToBigEndian_length] at hlen
  unfold Keeper.GetFailure
  simp only
  have hacc : sampleKeeper.AccAddressString [97] = [97] := rfl
  rw [hacc, hnone]

/-- C8 counterexample: on the sample keeper (key: byte 1, address, big-endian id; codec
inverting), four additions on the empty store, for the addresses [97], [97], [97, 98],
[97], return the failures of the first list and leave GetAllFailures with the three of
the second: the key range of [97] contains the keys of [97, 98], so the fourth call gets
id 1 again and overwrites the second failure. -/
theorem C8_counterexample :
    sampleKeeper.CodecInverts ∧
    ([([97], some [5], [9]), ([97], none, [9]), ([97, 98], some [], []),
        ([97], some [1], [])] : List (Bytes × Option Bytes × Bytes)).length = 4 ∧
    ((sampleKeeper.addAll emptyCtx
        [([97], some [5], [9]), ([97], none, [9]), ([97, 98], some [], []),
          ([97], some [1], [])]).bind
      (fun r => (sampleKeeper.GetAllFailures r.2).map (fun q => (r.1, q.1))))
      = some
        ([⟨[97], 0, some [5], [9]⟩, ⟨[97], 1, none, [9]⟩, ⟨[97, 98], 0, some [], []⟩,
            ⟨[97], 1, some [1], []⟩],
          [⟨[97], 0, some [5], [9]⟩, ⟨[97], 1, some [1], []⟩, ⟨[97, 98], 0, some [], []⟩]) ∧
    ([⟨[97], 0, some [5], [9]⟩, ⟨[97], 1, some [1], []⟩, ⟨[97, 98], 0, some [], []⟩] :
        List Failure).length ≠ 4 :=
  ⟨sampleKeeper_codecInverts, rfl, by decide, by decide⟩

/-- C8 (amended): GetAllFailures returns the decoded values of the store entries under the
ContractFailuresKey prefix, each entry once, in ascending key order, and leaves the state
as it was (it panics when a value does not decode). After n calls of AddContractFailure on
the empty store (n at most 2^64), for addresses whose keys lie under ContractFailuresKey
and under the prefix of their address, are sorted by id, and lie under the prefix of no
other address used, with a codec that decodes what it encodes: no call panics, and
GetAllFailures returns exactly n failures, which are, up to order and up to nil versus
empty payload, the n failures the calls returned. -/
theorem C8_get_all_failures (k : Keeper) :
    (∀ ctx : Ctx,
      (∀ e, e ∈ ctx.store.PrefixIterator k.ContractFailuresKey ↔
        e ∈ ctx.store.entries ∧ k.ContractFailuresKey.isPrefixOf e.1 = true) ∧
      KeysAscending (ctx.store.PrefixIterator k.ContractFailuresKey) ∧
      (∀ result c, k.GetAllFailures ctx = some (result, c) →
        c = ctx ∧ List.Forall₂ (fun e g => k.MustUnmarshal e.2 = some g)
          (ctx.store.PrefixIterator k.ContractFailuresKey) result) ∧
      (∀ result, List.Forall₂ (fun e g => k.MustUnmarshal e.2 = some g)
          (ctx.store.PrefixIterator k.ContractFailuresKey) result →
        k.GetAllFailures ctx = some (result, ctx))) ∧
    (∀ (calls : List (Bytes × Option Bytes × Bytes)) (addrs : List Bytes),
      k.CodecInverts → calls.length ≤ 2 ^ 64 → (∀ c ∈ calls, c.1 ∈ addrs) →
      (∀ a ∈ addrs, ∀ i, i < calls.length →
        k.ContractFailuresKey.isPrefixOf (k.GetFailureKey a i) = true) →
      (∀ a ∈ addrs, ∀ i, i < calls.length →
        (k.GetFailureKeyPrefix a).isPrefixOf (k.GetFailureKey a i) = true) →
      (∀ a ∈ addrs, ∀ j, j < calls.length → ∀ i, i < j →
        bytesLt (k.GetFailureKey a i) (k.GetFailureKey a j) = true) →
      (∀ a ∈ addrs, ∀ b ∈ addrs, a ≠ b → ∀ j, j < calls.length →
        (k.GetFailureKeyPrefix a).isPrefixOf (k.GetFailureKey b j) = false) →
      ∃ fs ctx1 result gs, k.addAll emptyCtx calls = some (fs, ctx1) ∧
        k.GetAllFailures ctx1 = some (result, ctx1) ∧
        result.length = calls.length ∧ fs.length = calls.length ∧
        result.Perm gs ∧ List.Forall₂ Failure.sameRecord gs fs) := by
  constructor
  · intro ctx
    refine ⟨ctx.store.mem_prefixIterator _, ctx.store.prefixIterator_ascending _, ?_, ?_⟩
    · intro result c h
      unfold Keeper.GetAllFailures at h
      cases hd : k.decodeAll (ctx.store.PrefixIterator k.ContractFailuresKey) [] with
      | none => rw [hd] at h; exact absurd h (by simp)
      | some r =>
        rw [hd] at h
        simp only [Option.some.injEq, Prod.mk.injEq] at h
        obtain ⟨res, hr, hall⟩ := forall₂_of_decodeAll k _ _ _ hd
        refine ⟨h.2.symm, ?_⟩
        rw [← h.1, hr]
        simpa using hall
    · intro result h
      unfold Keeper.GetAllFailures
      rw [decodeAll_of_forall₂ k h []]
      rfl
  · intro calls addrs hcodec hlen hmem hcfk hpfx hord hfree
    obtain ⟨fs, ctx1, hadd, hperm, hfsmem, hall⟩ :=
      addAll_spec k hcodec addrs calls.length hlen hpfx hord hfree calls emptyCtx
        (fun _ => 0) 0 hmem (by omega)
        (fun a _ => ⟨⟨fun e he => absurd he (List.not_mem_nil e),
          fun i hi => absurd hi (Nat.not_lt_zero i)⟩,
          Nat.le_refl 0⟩)
    have hperm2 : ctx1.store.entries.Perm (fs.map k.entryOf) := by
      have : emptyCtx.store.entries = [] := rfl
      rw [this, List.append_nil] at hperm
      exact hperm
    have hiter : ctx1.store.PrefixIterator k.ContractFailuresKey = ctx1.store.entries := by
      unfold KVStore.PrefixIterator
      rw [List.filter_eq_self]
      intro e he
      have he2 := hperm2.mem_iff.mp he
      obtain ⟨f, hf, hfe⟩ := List.mem_map.mp he2
      rw [← hfe]
      exact hcfk f.Address (hfsmem f hf).1 f.Id (hfsmem f hf).2
    obtain ⟨gs, hdec, hsame⟩ := exists_decoded k hcodec fs
    obtain ⟨result, hres, hrperm⟩ := List.perm_comp_forall₂ hperm2 hdec
    have hlen2 : fs.length = calls.length := hall.length_eq
    refine ⟨fs, ctx1, result, gs, hadd, ?_, ?_, hlen2, hrperm, hsame⟩
    · unfold Keeper.GetAllFailures
      rw [hiter, decodeAll_of_forall₂ k hres []]
      rfl
    · rw [hrperm.length_eq, hsame.length_eq, hlen2]

/-- C8 witness: three additions for the addresses [97], [98], [97] on the sample keeper. -/
theorem C8_get_all_failures_witness :
    ∃ fs ctx1 result gs, sampleKeeper.addAll emptyCtx
          [([97], some [5], [9]), ([98], none, [9]), ([97], some [1], [])] = some (fs, ctx1) ∧
      sampleKeeper.GetAllFailures ctx1 = some (result, ctx1) ∧
      result.length = 3 ∧ fs.length = 3 ∧
      result.Perm gs ∧ List.Forall₂ Failure.sameRecord gs fs :=
  (C8_get_all_failures sampleKeeper).2
    [([97], some [5], [9]), ([98], none, [9]), ([97], some [1], [])] [[97], [98]]
    sampleKeeper_codecInverts (by decide) (by decide) (by decide) (by decide) (by decide)
    (by decide)

/-! ## Varints: sizes -/

theorem u8_toNat_ofNat (n : Nat) : (UInt8.ofNat n).toNat = n % 256 := rfl

theorem lenLoop_le_iff (fuel : Nat) : ∀ (x n : Nat), x < 2 ^ fuel →
    (lenLoop fuel x ≤ n ↔ x < 2 ^ n) := by
  induction fuel with
  | zero =>
    intro x n hx
    have hx0 : x = 0 := by simpa using hx
    subst hx0
    simp [lenLoop]
  | succ fuel ih =>
    intro x n hx
    simp only [lenLoop]
    by_cases h0 : x = 0
    · subst h0; simp
    · rw [if_neg h0]
      have hx2 : x / 2 < 2 ^ fuel := by
        rw [Nat.div_lt_iff_lt_mul (by decide : 0 < 2)]
        rw [Nat.pow_succ] at hx
        exact hx
      cases n with
      | zero =>
        simp only [Nat.pow_zero]
        omega
      | succ n =>
        have := ih (x / 2) n hx2
        rw [Nat.add_le_add_iff_right, this, Nat.div_lt_iff_lt_mul (by decide : 0 < 2),
          Nat.pow_succ]

theorem or_one_eq (v : Nat) : v ||| 1 = 2 * (v / 2) + 1 := by
  have h1 : v = 2 ^ 1 * (v / 2) + v % 2 := by
    simp only [Nat.pow_one]; omega
  have h2 : v % 2 < 2 ^ 1 := by simp only [Nat.pow_one]; omega
  have h3 := Nat.mul_add_lt_is_or h2 (v / 2)
  have h4 : v % 2 ||| 1 = 1 := by
    rcases Nat.mod_two_eq_zero_or_one v with h | h <;> rw [h] <;> rfl
  have h5 := Nat.mul_add_lt_is_or (by decide : 1 < 2 ^ 1) (v / 2)
  calc v ||| 1 = (2 ^ 1 * (v / 2) + v % 2) ||| 1 := by rw [← h1]
    _ = (2 ^ 1 * (v / 2) ||| v % 2) ||| 1 := by rw [h3]
    _ = 2 ^ 1 * (v / 2) ||| (v % 2 ||| 1) := by rw [Nat.lor_assoc]
    _ = 2 ^ 1 * (v / 2) ||| 1 := by rw [h4]
    _ = 2 ^ 1 * (v / 2) + 1 := by rw [h5]
    _ = 2 * (v / 2) + 1 := by rw [Nat.pow_one]

theorem Len64_or_one_le_iff (v n : Nat) (hv : v < 2 ^ 64) :
    Len64 (v ||| 1) ≤ n ↔ (1 ≤ n ∧ v < 2 ^ n) := by
  have hlt : v ||| 1 < 2 ^ 64 := Nat.or_lt_two_pow hv (by decide)
  unfold Len64
  rw [lenLoop_le_iff 64 _ n hlt, or_one_eq]
  cases n with
  | zero => simp
  | succ n =>
    rw [Nat.pow_succ]
    omega

theorem sovSchedule_small (v : Nat) (hv : v < 128) : sovSchedule v = 1 := by
  have hv64 : v < 2 ^ 64 := by
    have : (128 : Nat) < 2 ^ 64 := by decide
    omega
  have h7 := (Len64_or_one_le_iff v 7 hv64).mpr ⟨by decide, by simpa using hv⟩
  have h0 : ¬ Len64 (v ||| 1) ≤ 0 := by
    rw [Len64_or_one_le_iff v 0 hv64]; omega
  unfold sovSchedule
  omega

theorem sovSchedule_step (v : Nat) (hv : 128 ≤ v) (hv64 : v < 2 ^ 64) :
    sovSchedule v = sovSchedule (v / 128) + 1 := by
  have hd64 : v / 128 < 2 ^ 64 := lt_of_le_of_lt (Nat.div_le_self _ _) hv64
  have key : ∀ n, 1 ≤ n → (Len64 (v ||| 1) ≤ n + 7 ↔ Len64 (v / 128 ||| 1) ≤ n) := by
    intro n hn
    rw [Len64_or_one_le_iff v (n + 7) hv64, Len64_or_one_le_iff (v / 128) n hd64,
      Nat.div_lt_iff_lt_mul (by decide : 0 < 128), Nat.pow_add]
    have : (2 : Nat) ^ 7 = 128 := by decide
    rw [this]
    omega
  have hL8 : ¬ Len64 (v ||| 1) ≤ 7 := by
    rw [Len64_or_one_le_iff v 7 hv64]
    have : (2 : Nat) ^ 7 = 128 := by decide
    omega
  have hL1 : ¬ Len64 (v / 128 ||| 1) ≤ 0 := by
    rw [Len64_or_one_le_iff _ 0 hd64]; omega
  have h1 := (key (Len64 (v / 128 ||| 1)) (by omega)).mpr (Nat.le_refl _)
  have h2 := (key (Len64 (v ||| 1) - 7) (by omega)).mp (by omega)
  unfold sovSchedule
  omega

theorem varintGroups_length (fuel : Nat) : ∀ v, v < 2 ^ (7 * fuel) → v < 2 ^ 64 → 1 ≤ fuel →
    (varintGroups fuel v).length = sovSchedule v := by
  induction fuel with
  | zero => intro v _ _ h; omega
  | succ fuel ih =>
    intro v hv hv64 _
    simp only [varintGroups]
    by_cases h : v < 128
    · rw [if_pos h, sovSchedule_small v h]; rfl
    · rw [if_neg h, List.length_cons, sovSchedule_step v (by omega) hv64]
      have hd : v / 128 < 2 ^ (7 * fuel) := by
        rw [Nat.div_lt_iff_lt_mul (by decide : 0 < 128)]
        have : 2 ^ (7 * (fuel + 1)) = 2 ^ (7 * fuel) * 128 := by
          rw [Nat.mul_succ, Nat.pow_add]
        omega
      have hf : 1 ≤ fuel := by
        rcases Nat.eq_zero_or_pos fuel with h0 | h0
        · subst h0
          simp only [Nat.mul_zero, Nat.pow_zero] at hd
          omega
        · exact h0
      rw [ih (v / 128) hd (lt_of_le_of_lt (Nat.div_le_self _ _) hv64) hf]

theorem varint_length (v : Nat) (hv : v < 2 ^ 64) : (varint v).length = sovSchedule v :=
  varintGroups_length 10 v (lt_of_lt_of_le hv (by decide)) hv (by decide)

theorem varint_length_pos (v : Nat) : 1 ≤ (varint v).length := by
  unfold varint
  simp only [varintGroups]
  split <;> simp

/-! ## Varints: writing -/

theorem setByte_append (A C : Bytes) (g b : UInt8) :
    setByte (A ++ g :: C) A.length b = some (A ++ b :: C) := by
  unfold setByte
  rw [if_pos (by simp)]
  simp

theorem group_byte (v : Nat) : (v &&& 0x7f) ||| 0x80 = v % 128 + 128 := by
  have h1 : v &&& 0x7f = v % 128 := Nat.and_pow_two_sub_one_eq_mod v 7
  rw [h1]
  have h2 : v % 128 < 2 ^ 7 := Nat.mod_lt _ (by decide)
  have h3 : 2 ^ 7 * 1 + v % 128 = 2 ^ 7 * 1 ||| v % 128 := Nat.mul_add_lt_is_or h2 1
  have h4 : (2 : Nat) ^ 7 * 1 = 128 := by decide
  rw [h4] at h3
  rw [Nat.lor_comm, ← h3]
  omega

theorem div128_lt {v fuel : Nat} (hv : v < 2 ^ (7 * (fuel + 1))) : v / 128 < 2 ^ (7 * fuel) := by
  rw [Nat.div_lt_iff_lt_mul (by decide : 0 < 128)]
  have : 2 ^ (7 * (fuel + 1)) = 2 ^ (7 * fuel) * 128 := by
    rw [Nat.mul_succ, Nat.pow_add]
  omega

theorem encodeVarintLoop_spec (fuel : Nat) : ∀ (v : Nat) (A G C : Bytes),
    v < 2 ^ (7 * (fuel + 1)) → G.length = (varintGroups (fuel + 1) v).length →
    encodeVarintLoop (fuel + 1) (A ++ G ++ C) A.length v
      = some (A ++ varintGroups (fuel + 1) v ++ C) := by
  induction fuel with
  | zero =>
    intro v A G C hv hG
    have h : v < 128 := by simpa using hv
    have h128 : (1 <<< 7 : Nat) = 128 := by decide
    simp only [varintGroups, if_pos h] at hG ⊢
    simp only [encodeVarintLoop, h128]
    rw [if_neg (by omega)]
    match G, hG with
    | [g], _ =>
      simp only [List.append_assoc, List.singleton_append]
      exact setByte_append A C g _
  | succ fuel ih =>
    intro v A G C hv hG
    have h128 : (1 <<< 7 : Nat) = 128 := by decide
    rw [varintGroups] at hG ⊢
    rw [encodeVarintLoop, h128]
    by_cases h : v < 128
    · rw [if_pos h] at hG ⊢
      rw [if_neg (by omega)]
      match G, hG with
      | [g], _ =>
        simp only [List.append_assoc, List.singleton_append]
        exact setByte_append A C g _
    · rw [if_neg h] at hG ⊢
      rw [if_pos (by omega)]
      match G, hG with
      | g :: G', hG' =>
        simp only [List.length_cons, Nat.add_right_cancel_iff] at hG'
        have hset : setByte (A ++ g :: G' ++ C) A.length (UInt8.ofNat ((v &&& 0x7f) ||| 0x80))
            = some (A ++ UInt8.ofNat (v % 128 + 128) :: (G' ++ C)) := by
          rw [group_byte]
          simpa using setByte_append A (G' ++ C) g (UInt8.ofNat (v % 128 + 128))
        rw [hset]
        simp only
        have hsh : v >>> 7 = v / 128 := by
          rw [Nat.shiftRight_eq_div_pow]
        have := ih (v / 128) (A ++ [UInt8.ofNat (v % 128 + 128)]) G' C (div128_lt hv) hG'
        rw [hsh]
        simpa using this

theorem subIndex_add (a n : Nat) : subIndex (a + n) n = some a := by
  simp [subIndex]

theorem encodeVarintSchedule_spec (v : Nat) (hv : v < 2 ^ 64) (A G C : Bytes)
    (hG : G.length = (varint v).length) :
    encodeVarintSchedule (A ++ G ++ C) (A.length + G.length) v
      = some (A ++ varint v ++ C, A.length) := by
  unfold encodeVarintSchedule
  rw [hG, varint_length v hv, subIndex_add]
  simp only
  have := encodeVarintLoop_spec 9 v A G C (lt_of_lt_of_le hv (by decide)) hG
  unfold varint
  rw [this]

/-- Writing a varint field fills the 1 + len(varint) bytes before i with tag and varint. -/
theorem putVarintField_spec (v : Nat) (hv : v < 2 ^ 64) (tag : UInt8) (A G C : Bytes)
    (hG : G.length = 1 + (varint v).length) :
    putVarintField (A ++ G ++ C) (A.length + G.length) v tag
      = some (A ++ tag :: varint v ++ C, A.length) := by
  cases G with
  | nil => simp only [List.length_nil] at hG; omega
  | cons g G' =>
    have hG2 : G'.length = (varint v).length := by
      simp only [List.length_cons] at hG; omega
    have h1 := encodeVarintSchedule_spec v hv (A ++ [g]) G' C hG2
    have e1 : A ++ g :: G' ++ C = A ++ [g] ++ G' ++ C := by simp
    have e2 : A.length + (g :: G').length = (A ++ [g]).length + G'.length := by
      simp only [List.length_cons, List.length_append, List.length_nil]; omega
    unfold putVarintField
    rw [e1, e2, h1]
    simp only [Option.bind_eq_bind, Option.some_bind, List.length_append, List.length_cons,
      List.length_nil]
    rw [subIndex_add A.length (0 + 1)]
    simp only [Option.some_bind]
    have h2 := setByte_append A (varint v ++ C) g tag
    have e3 : A ++ [g] ++ varint v ++ C = A ++ g :: (varint v ++ C) := by simp
    rw [e3, h2]
    simp

theorem copyAt_spec (A G C s : Bytes) (hG : G.length = s.length) :
    copyAt (A ++ G ++ C) A.length s = some (A ++ s ++ C) := by
  unfold copyAt
  rw [if_pos (by simp)]
  have h1 : List.take A.length (A ++ G ++ C) = A := by
    rw [List.append_assoc]; exact List.take_left' rfl
  have h2 : List.take ((A ++ G ++ C).length - A.length) s = s := by
    apply List.take_of_length_le
    simp only [List.length_append]; omega
  have h3 : List.drop (A.length + s.length) (A ++ G ++ C) = C := by
    exact List.drop_left' (by simp only [List.length_append]; omega)
  rw [h1, h2, h3]

/-- Writing a string field fills the 1 + len(varint) + len(s) bytes before i with tag,
length and string. -/
theorem putStringField_spec (s : Bytes) (hs : s.length < 2 ^ 64) (tag : UInt8) (A G C : Bytes)
    (hG : G.length = 1 + (varint s.length).length + s.length) :
    putStringField (A ++ G ++ C) (A.length + G.length) s tag
      = some (A ++ tag :: (varint s.length ++ s) ++ C, A.length) := by
  have hsplit : G = G.take (1 + (varint s.length).length) ++ G.drop (1 + (varint s.length).length) :=
    (List.take_append_drop _ _).symm
  have hl1 : (G.take (1 + (varint s.length).length)).length = 1 + (varint s.length).length := by
    rw [List.length_take]; omega
  have hl2 : (G.drop (1 + (varint s.length).length)).length = s.length := by
    rw [List.length_drop]; omega
  generalize G.take (1 + (varint s.length).length) = G1 at hsplit hl1
  generalize G.drop (1 + (varint s.length).length) = G2 at hsplit hl2
  subst hsplit
  cases G1 with
  | nil => simp only [List.length_nil] at hl1; omega
  | cons g G1' =>
    have hG1 : G1'.length = (varint s.length).length := by
      simp only [List.length_cons] at hl1; omega
    unfold putStringField
    have e0 : A.length + (g :: G1' ++ G2).length = (A ++ g :: G1').length + s.length := by
      simp only [List.length_cons, List.length_append]; omega
    rw [e0, subIndex_add]
    simp only [Option.bind_eq_bind, Option.some_bind]
    have h1 := copyAt_spec (A ++ g :: G1') G2 C s hl2
    have e1 : A ++ (g :: G1' ++ G2) ++ C = A ++ g :: G1' ++ G2 ++ C := by simp
    rw [e1, h1]
    simp only [Option.some_bind]
    have h2 := encodeVarintSchedule_spec s.length hs (A ++ [g]) G1' (s ++ C) hG1
    have e2 : A ++ g :: G1' ++ s ++ C = A ++ [g] ++ G1' ++ (s ++ C) := by simp
    have e3 : (A ++ g :: G1').length = (A ++ [g]).length + G1'.length := by
      simp only [List.length_cons, List.length_append, List.length_nil]; omega
    rw [e2, e3, h2]
    simp only [Option.some_bind, List.length_append, List.length_cons, List.length_nil]
    rw [subIndex_add A.length (0 + 1)]
    simp only [Option.some_bind]
    have h3 := setByte_append A (varint s.length ++ (s ++ C)) g tag
    have e4 : A ++ [g] ++ varint s.length ++ (s ++ C) = A ++ g :: (varint s.length ++ (s ++ C)) := by
      simp
    rw [e4, h3]
    simp

/-! ## The encoder writes the wire layout -/

theorem putStringOpt_spec (s : Bytes) (hs : s.length < 2 ^ 64) (tag : UInt8) (A G C : Bytes)
    (hG : G.length = (wireString tag s).length) :
    (if s.length > 0 then putStringField (A ++ G ++ C) (A.length + G.length) s tag
      else some (A ++ G ++ C, A.length + G.length))
      = some (A ++ wireString tag s ++ C, A.length) := by
  unfold wireString at hG ⊢
  by_cases h : s.length > 0
  · rw [if_pos h] at hG ⊢
    rw [if_pos h]
    exact putStringField_spec s hs tag A G C (by
      rw [hG]; simp only [List.length_cons, List.length_append]; omega)
  · rw [if_neg h] at hG ⊢
    rw [if_neg h]
    have : G = [] := List.length_eq_zero.mp hG
    subst this
    simp

theorem putVarintOpt_spec (v : Nat) (hv : v < 2 ^ 64) (tag : UInt8) (A G C : Bytes)
    (hG : G.length = (wireVarint tag v).length) :
    (if v ≠ 0 then putVarintField (A ++ G ++ C) (A.length + G.length) v tag
      else some (A ++ G ++ C, A.length + G.length))
      = some (A ++ wireVarint tag v ++ C, A.length) := by
  unfold wireVarint at hG ⊢
  by_cases h : v ≠ 0
  · rw [if_pos h] at hG ⊢
    rw [if_pos h]
    exact putVarintField_spec v hv tag A G C (by
      rw [hG]; simp only [List.length_cons]; omega)
  · rw [if_neg h] at hG ⊢
    rw [if_neg h]
    have : G = [] := List.length_eq_zero.mp hG
    subst this
    simp

/-- Splitting a region of known total length in two. -/
theorem split_region (G : Bytes) (a b : Nat) (hG : G.length = a + b) :
    ∃ G1 G2, G = G1 ++ G2 ∧ G1.length = a ∧ G2.length = b :=
  ⟨G.take a, G.drop a, (List.take_append_drop a G).symm,
    by rw [List.length_take]; omega, by rw [List.length_drop]; omega⟩

theorem MsgExecuteContract.msgMarshalToSizedBuffer_spec (e : MsgExecuteContract)
    (hc : e.Contract.length < 2 ^ 64) (hm : e.Msg.length < 2 ^ 64) (A G : Bytes)
    (hG : G.length = e.wire.length) :
    e.MarshalToSizedBuffer (A ++ G) = some (A ++ e.wire, e.wire.length) := by
  unfold MsgExecuteContract.wire at hG
  rw [List.length_append] at hG
  obtain ⟨G1, G2, hsplit, h1, h2⟩ := split_region G _ _ hG
  subst hsplit
  unfold MsgExecuteContract.MarshalToSizedBuffer
  have s1 := putStringOpt_spec e.Msg hm 0x12 (A ++ G1) G2 [] h2
  have e1 : A ++ (G1 ++ G2) = A ++ G1 ++ G2 ++ [] := by simp
  have e2 : (A ++ G1 ++ G2 ++ []).length = (A ++ G1).length + G2.length := by
    simp only [List.length_append, List.length_nil]; omega
  rw [e1]
  simp only
  rw [e2, s1]
  simp only
  have s2 := putStringOpt_spec e.Contract hc 0xa A G1 (wireString 0x12 e.Msg ++ []) h1
  have e3 : A ++ G1 ++ wireString 0x12 e.Msg ++ [] = A ++ G1 ++ (wireString 0x12 e.Msg ++ []) := by
    simp
  have e4 : (A ++ G1).length = A.length + G1.length := by simp
  rw [e3, e4, s2]
  simp only [MsgExecuteContract.wire, List.append_nil, List.append_assoc,
    List.length_append, Option.some.injEq, Prod.mk.injEq, true_and]
  omega

/-! ## Size agrees with the wire layout -/

theorem wireString_length (tag : UInt8) (s : Bytes) (hs : s.length < 2 ^ 64) :
    (wireString tag s).length = if s.length > 0 then 1 + s.length + sovSchedule s.length else 0 := by
  unfold wireString
  split
  · simp only [List.length_cons, List.length_append, varint_length _ hs]; omega
  · rfl

theorem wireVarint_length (tag : UInt8) (v : Nat) (hv : v < 2 ^ 64) :
    (wireVarint tag v).length = if v ≠ 0 then 1 + sovSchedule v else 0 := by
  unfold wireVarint
  split
  · simp only [List.length_cons, varint_length _ hv]; omega
  · rfl

theorem MsgExecuteContract.msgSize_eq (e : MsgExecuteContract)
    (hc : e.Contract.length < 2 ^ 64) (hm : e.Msg.length < 2 ^ 64) :
    e.Size = e.wire.length := by
  unfold MsgExecuteContract.Size MsgExecuteContract.wire
  rw [List.length_append, wireString_length _ _ hc, wireString_length _ _ hm]
  simp only [Nat.zero_add]
  split <;> split <;> omega

theorem MsgExecuteContract.Representable.bounds {e : MsgExecuteContract} (h : e.Representable) :
    e.Contract.length < 2 ^ 64 ∧ e.Msg.length < 2 ^ 64 ∧ e.wire.length < 2 ^ 63 := by
  obtain ⟨h1, h2, h3⟩ := h
  have hlt : (2 : Nat) ^ 63 < 2 ^ 64 := by decide
  have hc : e.Contract.length < 2 ^ 64 := by omega
  have hm : e.Msg.length < 2 ^ 64 := by omega
  exact ⟨hc, hm, by rw [← MsgExecuteContract.msgSize_eq e hc hm]; exact h3⟩

theorem wireMsg_length (e : MsgExecuteContract) (h : e.Representable) :
    (wireMsg e).length = 1 + e.Size + sovSchedule e.Size := by
  obtain ⟨hc, hm, hw⟩ := h.bounds
  have hlt : (2 : Nat) ^ 63 < 2 ^ 64 := by decide
  unfold wireMsg
  rw [List.length_cons, List.length_append, MsgExecuteContract.msgSize_eq e hc hm,
    varint_length _ (by omega)]
  omega

theorem foldl_size (msgs : List MsgExecuteContract) (h : ∀ e ∈ msgs, e.Representable) :
    ∀ n, msgs.foldl (fun n e => n + (1 + e.Size + sovSchedule e.Size)) n
      = n + (wireMsgs msgs).length := by
  induction msgs with
  | nil => intro n; simp [wireMsgs]
  | cons e rest ih =>
    intro n
    simp only [List.foldl_cons, wireMsgs, List.length_append]
    rw [ih (fun x hx => h x (List.mem_cons_of_mem _ hx)),
      wireMsg_length e (h e (List.mem_cons_self _ _))]
    omega

theorem Schedule.scheduleSize_eq (m : Schedule) (h : m.Representable) : m.Size = m.wire.length := by
  obtain ⟨hp, hl, hn, hmsgs, _⟩ := h
  have hlt : (2 : Nat) ^ 63 < 2 ^ 64 := by decide
  unfold Schedule.Size Schedule.wire
  simp only [List.length_append, Nat.zero_add]
  rw [wireString_length _ _ (by omega), wireVarint_length _ _ hp, wireVarint_length _ _ hl,
    foldl_size m.Msgs hmsgs]
  split <;> split <;> split <;> omega

/-! ## The encoder writes the wire layout: Schedule -/

theorem wireMsgs_append (l1 l2 : List MsgExecuteContract) :
    wireMsgs (l1 ++ l2) = wireMsgs l1 ++ wireMsgs l2 := by
  induction l1 with
  | nil => simp [wireMsgs]
  | cons e rest ih => simp [wireMsgs, ih]

theorem putMsg_spec (e : MsgExecuteContract) (h : e.Representable) (A G C : Bytes)
    (hG : G.length = (wireMsg e).length) :
    putMsg (A ++ G ++ C) (A.length + G.length) e = some (A ++ wireMsg e ++ C, A.length) := by
  obtain ⟨hc, hm, hw⟩ := h.bounds
  have hlt : (2 : Nat) ^ 63 < 2 ^ 64 := by decide
  unfold wireMsg at hG ⊢
  simp only [List.length_cons, List.length_append] at hG
  obtain ⟨G1, G2, hsplit, h1, h2⟩ := split_region G ((varint e.wire.length).length + 1)
    e.wire.length (by omega)
  subst hsplit
  cases G1 with
  | nil => simp at h1
  | cons g G1' =>
    simp only [List.length_cons, Nat.add_right_cancel_iff] at h1
    unfold putMsg
    rw [if_pos (by simp)]
    have htake : List.take (A.length + (g :: G1' ++ G2).length) (A ++ (g :: G1' ++ G2) ++ C)
        = (A ++ g :: G1') ++ G2 := by
      have : A.length + (g :: G1' ++ G2).length = (A ++ (g :: G1' ++ G2)).length := by simp
      rw [this, List.take_left' rfl]
      simp
    have hdrop : List.drop (A.length + (g :: G1' ++ G2).length) (A ++ (g :: G1' ++ G2) ++ C)
        = C := by
      have : A.length + (g :: G1' ++ G2).length = (A ++ (g :: G1' ++ G2)).length := by simp
      rw [this, List.drop_left' rfl]
    rw [htake, MsgExecuteContract.msgMarshalToSizedBuffer_spec e hc hm (A ++ g :: G1') G2 h2]
    simp only [hdrop]
    have e0 : A.length + (g :: G1' ++ G2).length = (A ++ g :: G1').length + e.wire.length := by
      simp only [List.length_cons, List.length_append]; omega
    rw [e0, subIndex_add]
    simp only
    have hv := encodeVarintSchedule_spec e.wire.length (by omega) (A ++ [g]) G1' (e.wire ++ C) h1
    have e1 : A ++ g :: G1' ++ e.wire ++ C = A ++ [g] ++ G1' ++ (e.wire ++ C) := by simp
    have e2 : (A ++ g :: G1').length = (A ++ [g]).length + G1'.length := by
      simp only [List.length_cons, List.length_append, List.length_nil]; omega
    rw [e1, e2, hv]
    simp only [List.length_append, List.length_cons, List.length_nil]
    rw [subIndex_add A.length (0 + 1)]
    simp only
    have h3 := setByte_append A (varint e.wire.length ++ (e.wire ++ C)) g 0x1a
    have e4 : A ++ [g] ++ varint e.wire.length ++ (e.wire ++ C)
        = A ++ g :: (varint e.wire.length ++ (e.wire ++ C)) := by simp
    rw [e4, h3]
    simp

theorem putMsgs_spec (l : List MsgExecuteContract) :
    (∀ e ∈ l, e.Representable) → ∀ (A G C : Bytes), G.length = (wireMsgs l.reverse).length →
    putMsgs l (A ++ G ++ C) (A.length + G.length) = some (A ++ wireMsgs l.reverse ++ C, A.length) := by
  induction l with
  | nil =>
    intro _ A G C hG
    have : G = [] := List.length_eq_zero.mp (by simpa [wireMsgs] using hG)
    subst this
    simp [putMsgs, wireMsgs]
  | cons e rest ih =>
    intro h A G C hG
    rw [List.reverse_cons, wireMsgs_append] at hG ⊢
    have hw1 : wireMsgs [e] = wireMsg e := by simp [wireMsgs]
    rw [hw1] at hG ⊢
    rw [List.length_append] at hG
    obtain ⟨G1, G2, hsplit, h1, h2⟩ := split_region G _ _ hG
    subst hsplit
    unfold putMsgs
    have hp := putMsg_spec e (h e (List.mem_cons_self _ _)) (A ++ G1) G2 C h2
    have e1 : A ++ (G1 ++ G2) ++ C = A ++ G1 ++ G2 ++ C := by simp
    have e2 : A.length + (G1 ++ G2).length = (A ++ G1).length + G2.length := by
      simp only [List.length_append]; omega
    rw [e1, e2, hp]
    simp only
    have hi := ih (fun x hx => h x (List.mem_cons_of_mem _ hx)) A G1 (wireMsg e ++ C) h1
    have e3 : A ++ G1 ++ wireMsg e ++ C = A ++ G1 ++ (wireMsg e ++ C) := by simp
    have e4 : (A ++ G1).length = A.length + G1.length := by simp
    rw [e3, e4, hi]
    simp

theorem putMsgsOpt_spec (msgs : List MsgExecuteContract) (h : ∀ e ∈ msgs, e.Representable)
    (A G C : Bytes) (hG : G.length = (wireMsgs msgs).length) :
    (if msgs.length > 0 then putMsgs msgs.reverse (A ++ G ++ C) (A.length + G.length)
      else some (A ++ G ++ C, A.length + G.length))
      = some (A ++ wireMsgs msgs ++ C, A.length) := by
  by_cases hl : msgs.length > 0
  · rw [if_pos hl]
    have := putMsgs_spec msgs.reverse (fun e he => h e (List.mem_reverse.mp he)) A G C
      (by rw [List.reverse_reverse]; exact hG)
    rw [List.reverse_reverse] at this
    exact this
  · rw [if_neg hl]
    have hnil : msgs = [] := List.length_eq_zero.mp (by omega)
    subst hnil
    have : G = [] := List.length_eq_zero.mp (by simpa [wireMsgs] using hG)
    subst this
    simp [wireMsgs]

theorem Schedule.scheduleMarshalToSizedBuffer_spec (m : Schedule) (h : m.Representable) (A G : Bytes)
    (hG : G.length = m.wire.length) :
    m.MarshalToSizedBuffer (A ++ G) = some (A ++ m.wire, m.wire.length) := by
  obtain ⟨hp, hl, hn, hmsgs, _⟩ := h
  have hlt : (2 : Nat) ^ 63 < 2 ^ 64 := by decide
  unfold Schedule.wire at hG
  simp only [List.length_append] at hG
  obtain ⟨G1, G234, hs1, h1, h234⟩ := split_region G _ _ hG
  obtain ⟨G2, G34, hs2, h2, h34⟩ := split_region G234 _ _ h234
  obtain ⟨G3, G4, hs3, h3, h4⟩ := split_region G34 _ _ h34
  subst hs1 hs2 hs3
  unfold Schedule.MarshalToSizedBuffer
  -- LastExecuteHeight
  have s4 := putVarintOpt_spec m.LastExecuteHeight hl 0x20 (A ++ G1 ++ G2 ++ G3) G4 [] h4
  have e1 : A ++ (G1 ++ (G2 ++ (G3 ++ G4))) = A ++ G1 ++ G2 ++ G3 ++ G4 ++ [] := by simp
  have e2 : (A ++ G1 ++ G2 ++ G3 ++ G4 ++ []).length = (A ++ G1 ++ G2 ++ G3).length + G4.length := by
    simp only [List.length_append, List.length_nil]; omega
  rw [e1]
  simp only
  rw [e2, s4]
  simp only
  -- Msgs
  have s3 := putMsgsOpt_spec m.Msgs hmsgs (A ++ G1 ++ G2) G3
    (wireVarint 0x20 m.LastExecuteHeight ++ []) h3
  have e3 : A ++ G1 ++ G2 ++ G3 ++ wireVarint 0x20 m.LastExecuteHeight ++ []
      = A ++ G1 ++ G2 ++ G3 ++ (wireVarint 0x20 m.LastExecuteHeight ++ []) := by simp
  have e4 : (A ++ G1 ++ G2 ++ G3).length = (A ++ G1 ++ G2).length + G3.length := by
    simp only [List.length_append]
  rw [e3, e4, s3]
  simp only
  -- Period
  have s2 := putVarintOpt_spec m.Period hp 0x10 (A ++ G1) G2
    (wireMsgs m.Msgs ++ (wireVarint 0x20 m.LastExecuteHeight ++ [])) h2
  have e5 : A ++ G1 ++ G2 ++ wireMsgs m.Msgs ++ (wireVarint 0x20 m.LastExecuteHeight ++ [])
      = A ++ G1 ++ G2 ++ (wireMsgs m.Msgs ++ (wireVarint 0x20 m.LastExecuteHeight ++ [])) := by
    simp
  have e6 : (A ++ G1 ++ G2).length = (A ++ G1).length + G2.length := by
    simp only [List.length_append]
  rw [e5, e6, s2]
  simp only
  -- Name
  have s1 := putStringOpt_spec m.Name (by omega) 0xa A G1
    (wireVarint 0x10 m.Period ++ (wireMsgs m.Msgs ++ (wireVarint 0x20 m.LastExecuteHeight ++ [])))
    h1
  have e7 : A ++ G1 ++ wireVarint 0x10 m.Period
        ++ (wireMsgs m.Msgs ++ (wireVarint 0x20 m.LastExecuteHeight ++ []))
      = A ++ G1 ++ (wireVarint 0x10 m.Period
        ++ (wireMsgs m.Msgs ++ (wireVarint 0x20 m.LastExecuteHeight ++ []))) := by
    simp
  have e8 : (A ++ G1).length = A.length + G1.length := by simp only [List.length_append]
  rw [e7, e8, s1]
  simp only [Schedule.wire, List.append_nil, List.append_assoc, List.length_append,
    Option.some.injEq, Prod.mk.injEq, true_and]
  omega

theorem marshalWith_spec (size : Nat) (fill : Bytes → Option (Bytes × Nat)) (w : Bytes)
    (hsize : size = w.length)
    (hfill : ∀ G : Bytes, G.length = w.length → fill ([] ++ G) = some ([] ++ w, w.length)) :
    marshalWith size fill = some w := by
  unfold marshalWith
  have := hfill (List.replicate size 0) (by simp [hsize])
  simp only [List.nil_append] at this
  rw [this]
  simp

/-- Marshal of a representable Schedule returns the wire layout. -/
theorem Schedule.scheduleMarshal_eq_wire (m : Schedule) (h : m.Representable) :
    m.Marshal = some m.wire :=
  marshalWith_spec m.Size m.MarshalToSizedBuffer m.wire (Schedule.scheduleSize_eq m h)
    (fun G hG => Schedule.scheduleMarshalToSizedBuffer_spec m h [] G hG)

theorem uint64OfInt32_lt (c : Int) : uint64OfInt32 c < 2 ^ 64 := by
  unfold uint64OfInt32
  have h1 : 0 ≤ c % 2 ^ 64 := Int.emod_nonneg _ (by decide)
  have h2 : c % 2 ^ 64 < 2 ^ 64 := Int.emod_lt_of_pos _ (by decide)
  omega

theorem uint64OfInt32_ne_zero (m : ScheduleCount) (h : m.Representable) :
    m.Count ≠ 0 ↔ uint64OfInt32 m.Count ≠ 0 := by
  obtain ⟨h1, h2⟩ := h
  unfold uint64OfInt32
  constructor
  · intro hne h0
    have h3 : 0 ≤ m.Count % 2 ^ 64 := Int.emod_nonneg _ (by decide)
    have h4 : m.Count % 2 ^ 64 = 0 := by omega
    omega
  · intro hne h0
    rw [h0] at hne
    exact hne rfl

theorem ScheduleCount.countSize_eq (m : ScheduleCount) (h : m.Representable) :
    m.Size = m.wire.length := by
  unfold ScheduleCount.Size ScheduleCount.wire
  rw [wireVarint_length _ _ (uint64OfInt32_lt _)]
  have hz := uint64OfInt32_ne_zero m h
  by_cases hc : m.Count ≠ 0
  · rw [if_pos hc, if_pos (hz.mp hc)]
  · rw [if_neg hc, if_neg (fun h => hc (hz.mpr h))]

theorem ScheduleCount.countMarshalToSizedBuffer_spec (m : ScheduleCount) (h : m.Representable)
    (A G : Bytes) (hG : G.length = m.wire.length) :
    m.MarshalToSizedBuffer (A ++ G) = some (A ++ m.wire, m.wire.length) := by
  unfold ScheduleCount.wire at hG
  unfold ScheduleCount.MarshalToSizedBuffer
  have hz := uint64OfInt32_ne_zero m h
  have s1 := putVarintOpt_spec (uint64OfInt32 m.Count) (uint64OfInt32_lt _) 0x8 A G [] hG
  have e1 : A ++ G = A ++ G ++ [] := by simp
  have e2 : (A ++ G ++ []).length = A.length + G.length := by simp
  have hif : (if m.Count ≠ 0 then
        putVarintField (A ++ G ++ []) (A.length + G.length) (uint64OfInt32 m.Count) 0x8
      else some (A ++ G ++ [], A.length + G.length))
      = (if uint64OfInt32 m.Count ≠ 0 then
        putVarintField (A ++ G ++ []) (A.length + G.length) (uint64OfInt32 m.Count) 0x8
      else some (A ++ G ++ [], A.length + G.length)) := by
    by_cases hc : m.Count ≠ 0
    · rw [if_pos hc, if_pos (hz.mp hc)]
    · rw [if_neg hc, if_neg (fun h => hc (hz.mpr h))]
  rw [e1]
  simp only
  rw [e2, hif, s1]
  simp only [ScheduleCount.wire, List.append_nil, List.length_append, Option.some.injEq,
    Prod.mk.injEq, true_and]
  omega

/-- Marshal of a ScheduleCount returns the wire layout. -/
theorem ScheduleCount.countMarshal_eq_wire (m : ScheduleCount) (h : m.Representable) :
    m.Marshal = some m.wire :=
  marshalWith_spec m.Size m.MarshalToSizedBuffer m.wire (ScheduleCount.countSize_eq m h)
    (fun G hG => ScheduleCount.countMarshalToSizedBuffer_spec m h [] G hG)

/-! ## Varints: reading -/

theorem lor_mod_eq (X c shift bits : Nat) (hX : X < 2 ^ shift) :
    (X % 2 ^ bits) ||| ((c * 2 ^ shift) % 2 ^ bits) = (X + c * 2 ^ shift) % 2 ^ bits := by
  have h1 : X + c * 2 ^ shift = 2 ^ shift * c ||| X := by
    rw [← Nat.mul_add_lt_is_or hX c]; rw [Nat.mul_comm]; omega
  rw [h1]
  apply Nat.eq_of_testBit_eq
  intro i
  simp only [Nat.testBit_or, Nat.testBit_mod_two_pow, Nat.mul_comm c]
  cases decide (i < bits) <;> simp [Bool.or_comm]

theorem getElem?_mid (A C : Bytes) (b : UInt8) : (A ++ b :: C)[A.length]? = some b := by
  rw [List.getElem?_append_right (Nat.le_refl _)]
  simp

theorem decodeVarintLoop_spec (bits : Nat) (fuel : Nat) :
    ∀ (v shift X : Nat) (A C : Bytes), v < 2 ^ (7 * (fuel + 1)) → shift + 7 * (fuel + 1) ≤ 70 →
      X < 2 ^ shift →
      decodeVarintLoop (A ++ varintGroups (fuel + 1) v ++ C) bits (fuel + 1) shift A.length
          (X % 2 ^ bits)
        = ((X + v * 2 ^ shift) % 2 ^ bits, A.length + (varintGroups (fuel + 1) v).length,
            none) := by
  induction fuel with
  | zero =>
    intro v shift X A C hv hs hX
    have h : v < 128 := by simpa using hv
    simp only [varintGroups, if_pos h]
    rw [decodeVarintLoop, if_neg (by omega)]
    have hget : (A ++ [UInt8.ofNat v] ++ C)[A.length]? = some (UInt8.ofNat v) := by
      simpa using getElem?_mid A C (UInt8.ofNat v)
    rw [hget]
    have hb : (UInt8.ofNat v).toNat = v := by
      rw [u8_toNat_ofNat]; omega
    have hand : v &&& 0x7F = v := by
      rw [Nat.and_pow_two_sub_one_eq_mod v 7]; exact Nat.mod_eq_of_lt (by simpa using h)
    simp only [hb, hand, Nat.shiftLeft_eq, lor_mod_eq X v shift bits hX]
    rw [if_pos (by omega)]
    simp
  | succ fuel ih =>
    intro v shift X A C hv hs hX
    rw [varintGroups]
    by_cases h : v < 128
    · rw [if_pos h]
      rw [decodeVarintLoop, if_neg (by omega)]
      have hget : (A ++ [UInt8.ofNat v] ++ C)[A.length]? = some (UInt8.ofNat v) := by
        simpa using getElem?_mid A C (UInt8.ofNat v)
      rw [hget]
      have hb : (UInt8.ofNat v).toNat = v := by
        rw [u8_toNat_ofNat]; omega
      have hand : v &&& 0x7F = v := by
        rw [Nat.and_pow_two_sub_one_eq_mod v 7]; exact Nat.mod_eq_of_lt (by simpa using h)
      simp only [hb, hand, Nat.shiftLeft_eq, lor_mod_eq X v shift bits hX]
      rw [if_pos (by omega)]
      simp
    · rw [if_neg h]
      rw [decodeVarintLoop, if_neg (by omega)]
      have hget : (A ++ UInt8.ofNat (v % 128 + 128) :: varintGroups (fuel + 1) (v / 128) ++ C)[A.length]?
          = some (UInt8.ofNat (v % 128 + 128)) := by
        simpa using getElem?_mid A (varintGroups (fuel + 1) (v / 128) ++ C)
          (UInt8.ofNat (v % 128 + 128))
      rw [hget]
      have hb : (UInt8.ofNat (v % 128 + 128)).toNat = v % 128 + 128 := by
        rw [u8_toNat_ofNat]; omega
      have hand : (v % 128 + 128) &&& 0x7F = v % 128 := by
        rw [Nat.and_pow_two_sub_one_eq_mod _ 7]
        have : (2 : Nat) ^ 7 = 128 := by decide
        rw [this]; omega
      simp only [hb, hand, Nat.shiftLeft_eq, lor_mod_eq X (v % 128) shift bits hX]
      rw [if_neg (by omega)]
      have hX' : X + v % 128 * 2 ^ shift < 2 ^ (shift + 7) := by
        rw [Nat.pow_add]
        have : (2 : Nat) ^ 7 = 128 := by decide
        rw [this]
        have h1 : v % 128 < 128 := Nat.mod_lt _ (by decide)
        have h2 : v % 128 * 2 ^ shift ≤ 127 * 2 ^ shift := Nat.mul_le_mul_right _ (by omega)
        omega
      have := ih (v / 128) (shift + 7) (X + v % 128 * 2 ^ shift)
        (A ++ [UInt8.ofNat (v % 128 + 128)]) C (div128_lt hv) (by omega) hX'
      have e1 : A ++ UInt8.ofNat (v % 128 + 128) :: varintGroups (fuel + 1) (v / 128) ++ C
          = A ++ [UInt8.ofNat (v % 128 + 128)] ++ varintGroups (fuel + 1) (v / 128) ++ C := by
        simp
      have e2 : A.length + 1 = (A ++ [UInt8.ofNat (v % 128 + 128)]).length := by simp
      rw [e1, e2, this]
      have e3 : X + v % 128 * 2 ^ shift + v / 128 * 2 ^ (shift + 7) = X + v * 2 ^ shift := by
        rw [Nat.pow_add]
        have : (2 : Nat) ^ 7 = 128 := by decide
        rw [this]
        have hv' : v = 128 * (v / 128) + v % 128 := by omega
        conv => rhs; rw [hv']
        ring
      rw [e3]
      simp only [List.length_append, List.length_cons, List.length_nil]
      congr 2
      omega

theorem decodeVarint_spec (bits : Nat) (v : Nat) (hv : v < 2 ^ 64) (A C : Bytes) :
    decodeVarint (A ++ varint v ++ C) bits A.length
      = (v % 2 ^ bits, A.length + (varint v).length, none) := by
  have := decodeVarintLoop_spec bits 9 v 0 0 A C (lt_of_lt_of_le hv (by decide)) (by decide)
    (by decide)
  simp only [Nat.zero_mod, Nat.pow_zero, Nat.mul_one, Nat.zero_add] at this
  exact this

theorem slice_mid (A s C : Bytes) : slice (A ++ s ++ C) A.length (A.length + s.length) = s := by
  unfold slice
  have h1 : List.take (A.length + s.length) (A ++ s ++ C) = A ++ s :=
    List.take_left' (by simp)
  rw [h1, List.drop_left' rfl]

theorem readString_spec (s A C : Bytes)
    (hlen : (A ++ varint s.length ++ s ++ C).length < 2 ^ 63) :
    readString (A ++ varint s.length ++ s ++ C) A.length
      = .ok (s, A.length + (varint s.length).length + s.length) := by
  simp only [List.length_append] at hlen
  have hlt : (2 : Nat) ^ 63 < 2 ^ 64 := by decide
  have hs : s.length < 2 ^ 64 := by omega
  unfold readString
  have e1 : A ++ varint s.length ++ s ++ C = A ++ varint s.length ++ (s ++ C) := by simp
  have hd := decodeVarint_spec 64 s.length hs A (s ++ C)
  rw [Nat.mod_eq_of_lt hs] at hd
  rw [e1, hd]
  simp only
  rw [if_neg (by omega), if_neg (by omega), if_neg (by simp only [List.length_append]; omega)]
  have e2 : A ++ varint s.length ++ (s ++ C) = (A ++ varint s.length) ++ s ++ C := by simp
  have e3 : A.length + (varint s.length).length = (A ++ varint s.length).length := by simp
  rw [e2, e3, slice_mid]

/-! ## Decoding the wire layout: MsgExecuteContract -/

/-- Reading a one-byte tag. -/
theorem decodeVarint_tag (t : Nat) (ht : t < 128) (A C : Bytes) :
    decodeVarint (A ++ UInt8.ofNat t :: C) 64 A.length = (t, A.length + 1, none) := by
  have hv : varint t = [UInt8.ofNat t] := by
    simp only [varint, varintGroups, if_pos ht]
  have h64 : t < 2 ^ 64 := lt_of_lt_of_le ht (by decide)
  have := decodeVarint_spec 64 t h64 A C
  rw [hv, Nat.mod_eq_of_lt h64] at this
  simpa using this

theorem string_field_length (tag : UInt8) (s A C : Bytes) :
    (A ++ tag :: (varint s.length ++ s) ++ C).length
      = A.length + 1 + (varint s.length).length + s.length + C.length := by
  simp only [List.length_append, List.length_cons]; omega

/-- The tag read in front of a string field. -/
theorem tag_of_string_field (t : Nat) (ht : t < 128) (s A C : Bytes) :
    decodeVarint (A ++ UInt8.ofNat t :: (varint s.length ++ s) ++ C) 64 A.length
      = (t, A.length + 1, none) := by
  have := decodeVarint_tag t ht A (varint s.length ++ s ++ C)
  have e1 : A ++ UInt8.ofNat t :: (varint s.length ++ s) ++ C
      = A ++ UInt8.ofNat t :: (varint s.length ++ s ++ C) := by
    simp only [List.append_assoc, List.cons_append]
  rw [e1]; exact this

/-- The string read behind the tag of a string field. -/
theorem string_of_string_field (tag : UInt8) (s A C : Bytes)
    (hlen : (A ++ tag :: (varint s.length ++ s) ++ C).length < 2 ^ 63) :
    readString (A ++ tag :: (varint s.length ++ s) ++ C) (A.length + 1)
      = .ok (s, A.length + 1 + (varint s.length).length + s.length) := by
  have e2 : A ++ [tag] ++ varint s.length ++ s ++ C
      = A ++ tag :: (varint s.length ++ s) ++ C := by simp
  have := readString_spec s (A ++ [tag]) C (by rw [e2]; exact hlen)
  have e3 : (A ++ [tag]).length = A.length + 1 := by simp
  rw [e2, e3] at this
  exact this

/-- One round of the loop on a Contract field. -/
theorem MsgExecuteContract.loop_contract (s A C : Bytes) (m : MsgExecuteContract) (fuel : Nat)
    (hlen : (A ++ 0xa :: (varint s.length ++ s) ++ C).length < 2 ^ 63) :
    MsgExecuteContract.unmarshalLoop (A ++ 0xa :: (varint s.length ++ s) ++ C) (fuel + 1)
        A.length m
      = MsgExecuteContract.unmarshalLoop (A ++ 0xa :: (varint s.length ++ s) ++ C) fuel
          (A.length + (1 + (varint s.length).length + s.length)) { m with Contract := s } := by
  have hl := string_field_length 0xa s A C
  rw [MsgExecuteContract.unmarshalLoop, if_pos (by omega)]
  have htag := tag_of_string_field 10 (by decide) s A C
  have hrd := string_of_string_field 0xa s A C hlen
  have hu : UInt8.ofNat 10 = 0xa := rfl
  rw [hu] at htag
  simp only [htag]
  have hf : int32OfBits ((10 >>> 3) % 2 ^ 32) = 1 := by decide
  have hw : (10 : Nat) &&& 0x7 = 2 := by decide
  rw [hf, hw, if_neg (by decide), if_neg (by decide), if_pos rfl, if_neg (by decide), hrd]
  simp only
  congr 1
  omega

/-- One round of the loop on a Msg field. -/
theorem MsgExecuteContract.loop_msgField (s A C : Bytes) (m : MsgExecuteContract) (fuel : Nat)
    (hlen : (A ++ 0x12 :: (varint s.length ++ s) ++ C).length < 2 ^ 63) :
    MsgExecuteContract.unmarshalLoop (A ++ 0x12 :: (varint s.length ++ s) ++ C) (fuel + 1)
        A.length m
      = MsgExecuteContract.unmarshalLoop (A ++ 0x12 :: (varint s.length ++ s) ++ C) fuel
          (A.length + (1 + (varint s.length).length + s.length)) { m with Msg := s } := by
  have hl := string_field_length 0x12 s A C
  rw [MsgExecuteContract.unmarshalLoop, if_pos (by omega)]
  have htag := tag_of_string_field 18 (by decide) s A C
  have hrd := string_of_string_field 0x12 s A C hlen
  have hu : UInt8.ofNat 18 = 0x12 := rfl
  rw [hu] at htag
  simp only [htag]
  have hf : int32OfBits ((18 >>> 3) % 2 ^ 32) = 2 := by decide
  have hw : (18 : Nat) &&& 0x7 = 2 := by decide
  rw [hf, hw, if_neg (by decide), if_neg (by decide), if_neg (by decide), if_pos rfl,
    if_neg (by decide), hrd]
  simp only
  congr 1
  omega

/-- The loop stops at the end of the input. -/
theorem MsgExecuteContract.msgLoop_end (D : Bytes) (fuel : Nat) (m : MsgExecuteContract) :
    MsgExecuteContract.unmarshalLoop D fuel D.length m = (m, none) := by
  cases fuel with
  | zero => simp [MsgExecuteContract.unmarshalLoop]
  | succ fuel => simp [MsgExecuteContract.unmarshalLoop]

/-- The loop on an optional Contract field, with enough rounds left. -/
theorem MsgExecuteContract.loop_contract_opt (s A C : Bytes) (m : MsgExecuteContract)
    (fuel : Nat) (hm : m.Contract = [])
    (hlen : (A ++ wireString 0xa s ++ C).length < 2 ^ 63)
    (hfuel : (A ++ wireString 0xa s ++ C).length - A.length ≤ fuel) :
    ∃ fuel1, (A ++ wireString 0xa s ++ C).length - (A.length + (wireString 0xa s).length) ≤ fuel1 ∧
      MsgExecuteContract.unmarshalLoop (A ++ wireString 0xa s ++ C) fuel A.length m
        = MsgExecuteContract.unmarshalLoop (A ++ wireString 0xa s ++ C) fuel1
            (A.length + (wireString 0xa s).length) { m with Contract := s } := by
  unfold wireString at hlen hfuel ⊢
  by_cases h : s.length > 0
  · simp only [if_pos h] at hlen hfuel ⊢
    have hl := string_field_length 0xa s A C
    cases fuel with
    | zero => omega
    | succ fuel =>
      refine ⟨fuel, ?_, ?_⟩
      · simp only [List.length_cons, List.length_append]
        omega
      · rw [MsgExecuteContract.loop_contract s A C m fuel hlen]
        simp only [List.length_cons, List.length_append]
        congr 1
        omega
  · simp only [if_neg h] at hlen hfuel ⊢
    have hs : s = [] := List.length_eq_zero.mp (by omega)
    subst hs
    refine ⟨fuel, by simpa using hfuel, ?_⟩
    simp only [List.length_nil, Nat.add_zero]
    congr 1
    cases m
    simp only at hm
    rw [hm]

/-- The loop on an optional Msg field, with enough rounds left. -/
theorem MsgExecuteContract.loop_msg_opt (s A C : Bytes) (m : MsgExecuteContract)
    (fuel : Nat) (hm : m.Msg = [])
    (hlen : (A ++ wireString 0x12 s ++ C).length < 2 ^ 63)
    (hfuel : (A ++ wireString 0x12 s ++ C).length - A.length ≤ fuel) :
    ∃ fuel1, (A ++ wireString 0x12 s ++ C).length - (A.length + (wireString 0x12 s).length) ≤ fuel1 ∧
      MsgExecuteContract.unmarshalLoop (A ++ wireString 0x12 s ++ C) fuel A.length m
        = MsgExecuteContract.unmarshalLoop (A ++ wireString 0x12 s ++ C) fuel1
            (A.length + (wireString 0x12 s).length) { m with Msg := s } := by
  unfold wireString at hlen hfuel ⊢
  by_cases h : s.length > 0
  · simp only [if_pos h] at hlen hfuel ⊢
    have hl := string_field_length 0x12 s A C
    cases fuel with
    | zero => omega
    | succ fuel =>
      refine ⟨fuel, ?_, ?_⟩
      · simp only [List.length_cons, List.length_append]
        omega
      · rw [MsgExecuteContract.loop_msgField s A C m fuel hlen]
        simp only [List.length_cons, List.length_append]
        congr 1
        omega
  · simp only [if_neg h] at hlen hfuel ⊢
    have hs : s = [] := List.length_eq_zero.mp (by omega)
    subst hs
    refine ⟨fuel, by simpa using hfuel, ?_⟩
    simp only [List.length_nil, Nat.add_zero]
    congr 1
    cases m
    simp only at hm
    rw [hm]

/-- Decoding the layout of a MsgExecuteContract into a zero value gives it back. -/
theorem MsgExecuteContract.msgUnmarshal_wire (e : MsgExecuteContract)
    (hlen : e.wire.length < 2 ^ 63) :
    MsgExecuteContract.Unmarshal ⟨[], []⟩ e.wire = (e, none) := by
  unfold MsgExecuteContract.Unmarshal
  unfold MsgExecuteContract.wire at hlen ⊢
  have e0 : wireString 0xa e.Contract ++ wireString 0x12 e.Msg
      = [] ++ wireString 0xa e.Contract ++ wireString 0x12 e.Msg := by simp
  obtain ⟨f1, hf1, h1⟩ := MsgExecuteContract.loop_contract_opt e.Contract []
    (wireString 0x12 e.Msg) ⟨[], []⟩
    ([] ++ wireString 0xa e.Contract ++ wireString 0x12 e.Msg).length rfl
    (by rw [← e0]; exact hlen) (by simp)
  have e1 : [] ++ wireString 0xa e.Contract ++ wireString 0x12 e.Msg
      = wireString 0xa e.Contract ++ wireString 0x12 e.Msg ++ [] := by simp
  obtain ⟨f2, hf2, h2⟩ := MsgExecuteContract.loop_msg_opt e.Msg (wireString 0xa e.Contract) []
    ⟨e.Contract, []⟩ f1 rfl (by rw [← e1, ← e0]; exact hlen)
    (by rw [← e1]; simpa using hf1)
  rw [e0]
  simp only [List.length_nil] at h1
  rw [h1]
  simp only [Nat.zero_add]
  rw [e1, h2]
  have e2 : (wireString 0xa e.Contract).length + (wireString 0x12 e.Msg).length
      = (wireString 0xa e.Contract ++ wireString 0x12 e.Msg ++ []).length := by simp
  rw [e2, MsgExecuteContract.msgLoop_end]

/-! ## Decoding the wire layout: Schedule -/

theorem varint_field_length (tag : UInt8) (v : Nat) (A C : Bytes) :
    (A ++ tag :: varint v ++ C).length = A.length + 1 + (varint v).length + C.length := by
  simp only [List.length_append, List.length_cons]; omega

/-- The tag read in front of a varint field. -/
theorem tag_of_varint_field (t : Nat) (ht : t < 128) (v : Nat) (A C : Bytes) :
    decodeVarint (A ++ UInt8.ofNat t :: varint v ++ C) 64 A.length = (t, A.length + 1, none) := by
  have := decodeVarint_tag t ht A (varint v ++ C)
  have e1 : A ++ UInt8.ofNat t :: varint v ++ C = A ++ UInt8.ofNat t :: (varint v ++ C) := by
    simp only [List.append_assoc, List.cons_append]
  rw [e1]; exact this

/-- The value read behind the tag of a varint field. -/
theorem value_of_varint_field (bits : Nat) (tag : UInt8) (v : Nat) (hv : v < 2 ^ 64)
    (A C : Bytes) :
    decodeVarint (A ++ tag :: varint v ++ C) bits (A.length + 1)
      = (v % 2 ^ bits, A.length + 1 + (varint v).length, none) := by
  have := decodeVarint_spec bits v hv (A ++ [tag]) C
  have e1 : A ++ [tag] ++ varint v ++ C = A ++ tag :: varint v ++ C := by simp
  have e2 : (A ++ [tag]).length = A.length + 1 := by simp
  rw [e1, e2] at this
  exact this

/-- One round of the loop on a Name field. -/
theorem Schedule.loop_name (s A C : Bytes) (m : Schedule) (fuel : Nat)
    (hlen : (A ++ 0xa :: (varint s.length ++ s) ++ C).length < 2 ^ 63) :
    Schedule.unmarshalLoop (A ++ 0xa :: (varint s.length ++ s) ++ C) (fuel + 1) A.length m
      = Schedule.unmarshalLoop (A ++ 0xa :: (varint s.length ++ s) ++ C) fuel
          (A.length + (1 + (varint s.length).length + s.length)) { m with Name := s } := by
  have hl := string_field_length 0xa s A C
  rw [Schedule.unmarshalLoop, if_pos (by omega)]
  have htag := tag_of_string_field 10 (by decide) s A C
  have hrd := string_of_string_field 0xa s A C hlen
  have hu : UInt8.ofNat 10 = 0xa := rfl
  rw [hu] at htag
  simp only [htag]
  have hf : int32OfBits ((10 >>> 3) % 2 ^ 32) = 1 := by decide
  have hw : (10 : Nat) &&& 0x7 = 2 := by decide
  rw [hf, hw, if_neg (by decide), if_neg (by decide), if_pos rfl, if_neg (by decide), hrd]
  simp only
  congr 1
  omega

/-- One round of the loop on a Period field. -/
theorem Schedule.loop_period (v : Nat) (hv : v < 2 ^ 64) (A C : Bytes) (m : Schedule)
    (fuel : Nat) :
    Schedule.unmarshalLoop (A ++ 0x10 :: varint v ++ C) (fuel + 1) A.length m
      = Schedule.unmarshalLoop (A ++ 0x10 :: varint v ++ C) fuel
          (A.length + (1 + (varint v).length)) { m with Period := v } := by
  have hl := varint_field_length 0x10 v A C
  rw [Schedule.unmarshalLoop, if_pos (by omega)]
  have htag := tag_of_varint_field 16 (by decide) v A C
  have hval := value_of_varint_field 64 0x10 v hv A C
  rw [Nat.mod_eq_of_lt hv] at hval
  have hu : UInt8.ofNat 16 = 0x10 := rfl
  rw [hu] at htag
  simp only [htag]
  have hf : int32OfBits ((16 >>> 3) % 2 ^ 32) = 2 := by decide
  have hw : (16 : Nat) &&& 0x7 = 0 := by decide
  rw [hf, hw, if_neg (by decide), if_neg (by decide), if_neg (by decide), if_pos rfl,
    if_neg (by decide), hval]
  simp only
  congr 1
  omega

/-- One round of the loop on a LastExecuteHeight field. -/
theorem Schedule.loop_height (v : Nat) (hv : v < 2 ^ 64) (A C : Bytes) (m : Schedule)
    (fuel : Nat) :
    Schedule.unmarshalLoop (A ++ 0x20 :: varint v ++ C) (fuel + 1) A.length m
      = Schedule.unmarshalLoop (A ++ 0x20 :: varint v ++ C) fuel
          (A.length + (1 + (varint v).length)) { m with LastExecuteHeight := v } := by
  have hl := varint_field_length 0x20 v A C
  rw [Schedule.unmarshalLoop, if_pos (by omega)]
  have htag := tag_of_varint_field 32 (by decide) v A C
  have hval := value_of_varint_field 64 0x20 v hv A C
  rw [Nat.mod_eq_of_lt hv] at hval
  have hu : UInt8.ofNat 32 = 0x20 := rfl
  rw [hu] at htag
  simp only [htag]
  have hf : int32OfBits ((32 >>> 3) % 2 ^ 32) = 4 := by decide
  have hw : (32 : Nat) &&& 0x7 = 0 := by decide
  rw [hf, hw, if_neg (by decide), if_neg (by decide), if_neg (by decide), if_neg (by decide),
    if_neg (by decide), if_pos rfl, if_neg (by decide), hval]
  simp only
  congr 1
  omega

/-- One round of the loop on an element of Msgs. -/
theorem Schedule.loop_element (e : MsgExecuteContract) (A C : Bytes) (m : Schedule) (fuel : Nat)
    (hlen : (A ++ wireMsg e ++ C).length < 2 ^ 63) :
    Schedule.unmarshalLoop (A ++ wireMsg e ++ C) (fuel + 1) A.length m
      = Schedule.unmarshalLoop (A ++ wireMsg e ++ C) fuel
          (A.length + (wireMsg e).length) { m with Msgs := m.Msgs ++ [e] } := by
  unfold wireMsg at hlen ⊢
  have hl := string_field_length 0x1a e.wire A C
  have hlt : (2 : Nat) ^ 63 < 2 ^ 64 := by decide
  rw [Schedule.unmarshalLoop, if_pos (by omega)]
  have htag := tag_of_string_field 26 (by decide) e.wire A C
  have hu : UInt8.ofNat 26 = 0x1a := rfl
  rw [hu] at htag
  have hval : decodeVarint (A ++ 0x1a :: (varint e.wire.length ++ e.wire) ++ C) 64 (A.length + 1)
      = (e.wire.length, A.length + 1 + (varint e.wire.length).length, none) := by
    have := decodeVarint_spec 64 e.wire.length (by omega) (A ++ [0x1a]) (e.wire ++ C)
    have e1 : A ++ [0x1a] ++ varint e.wire.length ++ (e.wire ++ C)
        = A ++ 0x1a :: (varint e.wire.length ++ e.wire) ++ C := by simp
    have e2 : (A ++ [(0x1a : UInt8)]).length = A.length + 1 := by simp
    rw [e1, e2, Nat.mod_eq_of_lt (by omega)] at this
    exact this
  have hslice : slice (A ++ 0x1a :: (varint e.wire.length ++ e.wire) ++ C)
      (A.length + 1 + (varint e.wire.length).length)
      (A.length + 1 + (varint e.wire.length).length + e.wire.length) = e.wire := by
    have := slice_mid (A ++ 0x1a :: varint e.wire.length) e.wire C
    have e1 : A ++ 0x1a :: varint e.wire.length ++ e.wire ++ C
        = A ++ 0x1a :: (varint e.wire.length ++ e.wire) ++ C := by simp
    have e2 : (A ++ 0x1a :: varint e.wire.length).length
        = A.length + 1 + (varint e.wire.length).length := by
      simp only [List.length_append, List.length_cons]; omega
    rw [e1, e2] at this
    exact this
  simp only [htag]
  have hf : int32OfBits ((26 >>> 3) % 2 ^ 32) = 3 := by decide
  have hw : (26 : Nat) &&& 0x7 = 2 := by decide
  rw [hf, hw, if_neg (by decide), if_neg (by decide), if_neg (by decide), if_neg (by decide),
    if_pos rfl, if_neg (by decide), hval]
  simp only
  rw [if_neg (by omega), if_neg (by omega), if_neg (by omega), hslice,
    MsgExecuteContract.msgUnmarshal_wire e (by omega)]
  simp only [List.length_cons, List.length_append]
  congr 1
  omega

/-- The loop stops at the end of the input. -/
theorem Schedule.scheduleLoop_end (D : Bytes) (fuel : Nat) (m : Schedule) :
    Schedule.unmarshalLoop D fuel D.length m = (m, none) := by
  cases fuel with
  | zero => simp [Schedule.unmarshalLoop]
  | succ fuel => simp [Schedule.unmarshalLoop]

/-- The loop on an optional Name field, with enough rounds left. -/
theorem Schedule.loop_name_opt (D s A C : Bytes) (m : Schedule) (fuel : Nat)
    (hD : D = A ++ wireString 0xa s ++ C) (hm : m.Name = []) (hlen : D.length < 2 ^ 63)
    (hfuel : D.length - A.length ≤ fuel) :
    ∃ fuel1, D.length - (A.length + (wireString 0xa s).length) ≤ fuel1 ∧
      Schedule.unmarshalLoop D fuel A.length m
        = Schedule.unmarshalLoop D fuel1 (A.length + (wireString 0xa s).length)
            { m with Name := s } := by
  subst hD
  unfold wireString at hlen hfuel ⊢
  by_cases h : s.length > 0
  · simp only [if_pos h] at hlen hfuel ⊢
    have hl := string_field_length 0xa s A C
    cases fuel with
    | zero => omega
    | succ fuel =>
      refine ⟨fuel, ?_, ?_⟩
      · simp only [List.length_cons, List.length_append]
        omega
      · rw [Schedule.loop_name s A C m fuel hlen]
        simp only [List.length_cons, List.length_append]
        congr 1
        omega
  · simp only [if_neg h] at hlen hfuel ⊢
    have hs : s = [] := List.length_eq_zero.mp (by omega)
    subst hs
    refine ⟨fuel, by simpa using hfuel, ?_⟩
    simp only [List.length_nil, Nat.add_zero]
    congr 1
    cases m
    simp only at hm
    rw [hm]

/-- The loop on an optional Period field, with enough rounds left. -/
theorem Schedule.loop_period_opt (D : Bytes) (v : Nat) (hv : v < 2 ^ 64) (A C : Bytes)
    (m : Schedule) (fuel : Nat) (hD : D = A ++ wireVarint 0x10 v ++ C) (hm : m.Period = 0)
    (hfuel : D.length - A.length ≤ fuel) :
    ∃ fuel1, D.length - (A.length + (wireVarint 0x10 v).length) ≤ fuel1 ∧
      Schedule.unmarshalLoop D fuel A.length m
        = Schedule.unmarshalLoop D fuel1 (A.length + (wireVarint 0x10 v).length)
            { m with Period := v } := by
  subst hD
  unfold wireVarint at hfuel ⊢
  by_cases h : v ≠ 0
  · simp only [if_pos h] at hfuel ⊢
    have hl := varint_field_length 0x10 v A C
    cases fuel with
    | zero => omega
    | succ fuel =>
      refine ⟨fuel, ?_, ?_⟩
      · simp only [List.length_cons, List.length_append]
        omega
      · rw [Schedule.loop_period v hv A C m fuel]
        simp only [List.length_cons]
        congr 1
        omega
  · simp only [if_neg h] at hfuel ⊢
    have hs : v = 0 := by omega
    subst hs
    refine ⟨fuel, by simpa using hfuel, ?_⟩
    simp only [List.length_nil, Nat.add_zero]
    congr 1
    cases m
    simp only at hm
    rw [hm]

/-- The loop on an optional LastExecuteHeight field, with enough rounds left. -/
theorem Schedule.loop_height_opt (D : Bytes) (v : Nat) (hv : v < 2 ^ 64) (A C : Bytes)
    (m : Schedule) (fuel : Nat) (hD : D = A ++ wireVarint 0x20 v ++ C)
    (hm : m.LastExecuteHeight = 0) (hfuel : D.length - A.length ≤ fuel) :
    ∃ fuel1, D.length - (A.length + (wireVarint 0x20 v).length) ≤ fuel1 ∧
      Schedule.unmarshalLoop D fuel A.length m
        = Schedule.unmarshalLoop D fuel1 (A.length + (wireVarint 0x20 v).length)
            { m with LastExecuteHeight := v } := by
  subst hD
  unfold wireVarint at hfuel ⊢
  by_cases h : v ≠ 0
  · simp only [if_pos h] at hfuel ⊢
    have hl := varint_field_length 0x20 v A C
    cases fuel with
    | zero => omega
    | succ fuel =>
      refine ⟨fuel, ?_, ?_⟩
      · simp only [List.length_cons, List.length_append]
        omega
      · rw [Schedule.loop_height v hv A C m fuel]
        simp only [List.length_cons]
        congr 1
        omega
  · simp only [if_neg h] at hfuel ⊢
    have hs : v = 0 := by omega
    subst hs
    refine ⟨fuel, by simpa using hfuel, ?_⟩
    simp only [List.length_nil, Nat.add_zero]
    congr 1
    cases m
    simp only at hm
    rw [hm]

theorem wireMsg_length_pos (e : MsgExecuteContract) : 1 ≤ (wireMsg e).length := by
  unfold wireMsg
  simp

/-- The loop on the elements of Msgs, with enough rounds left. -/
theorem Schedule.loop_msgs (D : Bytes) (msgs : List MsgExecuteContract) :
    ∀ (A C : Bytes) (m : Schedule) (fuel : Nat), D = A ++ wireMsgs msgs ++ C →
      D.length < 2 ^ 63 → D.length - A.length ≤ fuel →
      ∃ fuel1, D.length - (A.length + (wireMsgs msgs).length) ≤ fuel1 ∧
        Schedule.unmarshalLoop D fuel A.length m
          = Schedule.unmarshalLoop D fuel1 (A.length + (wireMsgs msgs).length)
              { m with Msgs := m.Msgs ++ msgs } := by
  induction msgs with
  | nil =>
    intro A C m fuel _ _ hfuel
    refine ⟨fuel, by simpa [wireMsgs] using hfuel, ?_⟩
    simp [wireMsgs]
  | cons e rest ih =>
    intro A C m fuel hD hlen hfuel
    have hD1 : D = A ++ wireMsg e ++ (wireMsgs rest ++ C) := by
      rw [hD]; simp [wireMsgs]
    have hpos := wireMsg_length_pos e
    have hDl : D.length = A.length + (wireMsg e).length + (wireMsgs rest ++ C).length := by
      rw [hD1]; simp only [List.length_append]
    cases fuel with
    | zero => omega
    | succ fuel =>
      have hstep := Schedule.loop_element e A (wireMsgs rest ++ C) m fuel (by rw [← hD1]; exact hlen)
      rw [← hD1] at hstep
      have hD2 : D = (A ++ wireMsg e) ++ wireMsgs rest ++ C := by
        rw [hD1]; simp
      obtain ⟨fuel1, hf1, h1⟩ := ih (A ++ wireMsg e) C { m with Msgs := m.Msgs ++ [e] } fuel hD2
        hlen (by simp only [List.length_append]; omega)
      refine ⟨fuel1, ?_, ?_⟩
      · simp only [wireMsgs, List.length_append] at hf1 ⊢
        omega
      · rw [hstep]
        simp only [List.length_append] at h1
        rw [h1]
        simp only [wireMsgs, List.length_append, List.append_assoc, List.singleton_append]
        congr 1
        omega

/-- Decoding the layout of a representable Schedule into a zero value gives it back. -/
theorem Schedule.scheduleUnmarshal_wire (m : Schedule) (h : m.Representable) :
    Schedule.Unmarshal ⟨[], 0, [], 0⟩ m.wire = (m, none) := by
  have hlen : m.wire.length < 2 ^ 63 := by
    rw [← Schedule.scheduleSize_eq m h]; exact h.2.2.2.2
  obtain ⟨hp, hl, _, _, _⟩ := h
  unfold Schedule.Unmarshal
  obtain ⟨f1, hf1, h1⟩ := Schedule.loop_name_opt m.wire m.Name []
    (wireVarint 0x10 m.Period ++ (wireMsgs m.Msgs ++ wireVarint 0x20 m.LastExecuteHeight))
    ⟨[], 0, [], 0⟩ m.wire.length (by simp [Schedule.wire]) rfl hlen (by simp)
  obtain ⟨f2, hf2, h2⟩ := Schedule.loop_period_opt m.wire m.Period hp (wireString 0xa m.Name)
    (wireMsgs m.Msgs ++ wireVarint 0x20 m.LastExecuteHeight)
    ⟨m.Name, 0, [], 0⟩ f1 (by simp [Schedule.wire]) rfl (by simpa using hf1)
  obtain ⟨f3, hf3, h3⟩ := Schedule.loop_msgs m.wire m.Msgs
    (wireString 0xa m.Name ++ wireVarint 0x10 m.Period) (wireVarint 0x20 m.LastExecuteHeight)
    ⟨m.Name, m.Period, [], 0⟩ f2 (by simp [Schedule.wire]) hlen
    (by simp only [List.length_append]; exact hf2)
  obtain ⟨f4, hf4, h4⟩ := Schedule.loop_height_opt m.wire m.LastExecuteHeight hl
    (wireString 0xa m.Name ++ wireVarint 0x10 m.Period ++ wireMsgs m.Msgs) []
    ⟨m.Name, m.Period, m.Msgs, 0⟩ f3 (by simp [Schedule.wire]) rfl
    (by simp only [List.length_append] at hf3 ⊢; exact hf3)
  simp only [List.length_nil, Nat.zero_add] at h1
  simp only [List.length_append, List.nil_append] at h3 h4
  rw [h1, h2, h3, h4]
  have e2 : (wireString 0xa m.Name).length + (wireVarint 0x10 m.Period).length
      + (wireMsgs m.Msgs).length + (wireVarint 0x20 m.LastExecuteHeight).length
      = m.wire.length := by
    simp only [Schedule.wire, List.length_append]; omega
  rw [e2, Schedule.scheduleLoop_end]

/-! ## Decoding the wire layout: ScheduleCount -/

/-- One round of the loop on a Count field. -/
theorem ScheduleCount.loop_count (v : Nat) (hv : v < 2 ^ 64) (A C : Bytes) (m : ScheduleCount)
    (fuel : Nat) :
    ScheduleCount.unmarshalLoop (A ++ 0x8 :: varint v ++ C) (fuel + 1) A.length m
      = ScheduleCount.unmarshalLoop (A ++ 0x8 :: varint v ++ C) fuel
          (A.length + (1 + (varint v).length)) { m with Count := int32OfBits (v % 2 ^ 32) } := by
  have hl := varint_field_length 0x8 v A C
  rw [ScheduleCount.unmarshalLoop, if_pos (by omega)]
  have htag := tag_of_varint_field 8 (by decide) v A C
  have hval := value_of_varint_field 32 0x8 v hv A C
  have hu : UInt8.ofNat 8 = 0x8 := rfl
  rw [hu] at htag
  simp only [htag]
  have hf : int32OfBits ((8 >>> 3) % 2 ^ 32) = 1 := by decide
  have hw : (8 : Nat) &&& 0x7 = 0 := by decide
  rw [hf, hw, if_neg (by decide), if_neg (by decide), if_pos rfl, if_neg (by decide), hval]
  simp only
  congr 1
  omega

/-- The loop stops at the end of the input. -/
theorem ScheduleCount.countLoop_end (D : Bytes) (fuel : Nat) (m : ScheduleCount) :
    ScheduleCount.unmarshalLoop D fuel D.length m = (m, none) := by
  cases fuel with
  | zero => simp [ScheduleCount.unmarshalLoop]
  | succ fuel => simp [ScheduleCount.unmarshalLoop]

/-- Truncating the sign extension of an int32 to 32 bits gives the int32 back. -/
theorem int32OfBits_uint64OfInt32 (c : Int) (h1 : -(2 ^ 31) ≤ c) (h2 : c < 2 ^ 31) :
    int32OfBits (uint64OfInt32 c % 2 ^ 32) = c := by
  unfold int32OfBits uint64OfInt32
  have h3 : 0 ≤ c % 2 ^ 64 := Int.emod_nonneg _ (by decide)
  have h4 : c % 2 ^ 64 < 2 ^ 64 := Int.emod_lt_of_pos _ (by decide)
  have hcast : (((c % 2 ^ 64).toNat % 2 ^ 32 : Nat) : Int) = (c % 2 ^ 64) % 2 ^ 32 := by
    rw [Int.ofNat_emod, Int.toNat_of_nonneg h3]
    rfl
  by_cases hc : 0 ≤ c
  · have e1 : c % 2 ^ 64 = c := Int.emod_eq_of_lt hc (by omega)
    have e2 : c % 2 ^ 32 = c := Int.emod_eq_of_lt hc (by omega)
    rw [e1] at hcast ⊢
    rw [e2] at hcast
    have hn : c.toNat % 2 ^ 32 < 2 ^ 31 := by omega
    rw [if_pos hn]
    omega
  · have e1 : c % 2 ^ 64 = c + 2 ^ 64 := by
      rw [← Int.add_mul_emod_self (a := c) (b := 1) (c := 2 ^ 64)]
      simp only [Int.one_mul]
      exact Int.emod_eq_of_lt (by omega) (by omega)
    have e2 : (c + 2 ^ 64) % 2 ^ 32 = c + 2 ^ 32 := by
      have : c + 2 ^ 64 = (c + 2 ^ 32) + (2 ^ 32 - 1) * 2 ^ 32 := by ring
      rw [this, Int.add_mul_emod_self]
      exact Int.emod_eq_of_lt (by omega) (by omega)
    rw [e1] at hcast ⊢
    rw [e2] at hcast
    have hn : ¬ (c + 2 ^ 64).toNat % 2 ^ 32 < 2 ^ 31 := by omega
    rw [if_neg hn]
    omega

/-- Decoding the layout of a ScheduleCount into a zero value gives it back. -/
theorem ScheduleCount.countUnmarshal_wire (m : ScheduleCount) (h : m.Representable) :
    ScheduleCount.Unmarshal ⟨0⟩ m.wire = (m, none) := by
  unfold ScheduleCount.Unmarshal ScheduleCount.wire wireVarint
  have hz := uint64OfInt32_ne_zero m h
  by_cases hc : m.Count ≠ 0
  · rw [if_pos (hz.mp hc)]
    have hstep := ScheduleCount.loop_count (uint64OfInt32 m.Count) (uint64OfInt32_lt _) [] []
      ⟨0⟩ (varint (uint64OfInt32 m.Count)).length
    simp only [List.nil_append, List.append_nil, List.length_nil, Nat.zero_add] at hstep
    simp only [List.length_cons]
    rw [hstep, int32OfBits_uint64OfInt32 m.Count h.1 h.2]
    have e1 : 1 + (varint (uint64OfInt32 m.Count)).length
        = (0x8 :: varint (uint64OfInt32 m.Count)).length := by
      simp only [List.length_cons]; omega
    rw [e1, ScheduleCount.countLoop_end]
  · rw [if_neg (fun h => hc (hz.mpr h))]
    have : m.Count = 0 := by
      by_contra h0; exact hc h0
    simp only [List.length_nil, ScheduleCount.unmarshalLoop]
    cases m
    simp only at this
    subst this
    rfl

/-- The varint of a value with bit 63 set has ten bytes. -/
theorem varint_length_of_top_bit (v : Nat) (h1 : 2 ^ 63 ≤ v) (h2 : v < 2 ^ 64) :
    (varint v).length = 10 := by
  rw [varint_length v h2]
  have a := (Len64_or_one_le_iff v 64 h2).mpr ⟨by decide, h2⟩
  have b : ¬ Len64 (v ||| 1) ≤ 63 := by
    rw [Len64_or_one_le_iff v 63 h2]; omega
  unfold sovSchedule
  omega

/-! ## Round trips of the scheduler records -/

/-- C9: Schedule encoding round-trips exactly. For every Schedule that exists as a Go value
(Name any byte string, Period and LastExecuteHeight any uint64, Msgs any list of
MsgExecuteContract with any Contract and Msg strings, lengths fitting an int), Marshal
succeeds, and Unmarshal of its bytes into a zero-value Schedule returns a nil error and
leaves the receiver equal to the Schedule, field by field. -/
theorem C9_schedule_roundtrip (m : Schedule) (h : m.Representable) :
    ∃ bz, m.Marshal = some bz ∧ Schedule.Unmarshal ⟨[], 0, [], 0⟩ bz = (m, none) :=
  ⟨m.wire, Schedule.scheduleMarshal_eq_wire m h, Schedule.scheduleUnmarshal_wire m h⟩

/-- C9 witness: a schedule with a name, a two-byte period, three messages (one of them
empty) and the greatest uint64 as last execution height. -/
theorem C9_schedule_roundtrip_witness :
    (Schedule.mk [110, 97] 300 [⟨[99], [123, 125]⟩, ⟨[], []⟩, ⟨[], [1]⟩]
        18446744073709551615).Representable ∧
    ∃ bz, (Schedule.mk [110, 97] 300 [⟨[99], [123, 125]⟩, ⟨[], []⟩, ⟨[], [1]⟩]
          18446744073709551615).Marshal = some bz ∧
      Schedule.Unmarshal ⟨[], 0, [], 0⟩ bz
        = (Schedule.mk [110, 97] 300 [⟨[99], [123, 125]⟩, ⟨[], []⟩, ⟨[], [1]⟩]
            18446744073709551615, none) :=
  ⟨by decide, C9_schedule_roundtrip _ (by decide)⟩

/-- C10: ScheduleCount round-trips for every int32, negative values included: Marshal
succeeds and Unmarshal of its bytes into a zero value returns a nil error with the same
Count. A negative Count is sign-extended to 64 bits, so its encoding is the tag 0x08
followed by a ten-byte varint, eleven bytes in all, and decoding truncates it back to the
same int32. -/
theorem C10_schedule_count_roundtrip (m : ScheduleCount) (h : m.Representable) :
    ∃ bz, m.Marshal = some bz ∧ ScheduleCount.Unmarshal ⟨0⟩ bz = (m, none) ∧
      (m.Count < 0 →
        bz = 0x8 :: varint (uint64OfInt32 m.Count) ∧
        (varint (uint64OfInt32 m.Count)).length = 10 ∧ bz.length = 11 ∧
        2 ^ 63 ≤ uint64OfInt32 m.Count) := by
  refine ⟨m.wire, ScheduleCount.countMarshal_eq_wire m h, ScheduleCount.countUnmarshal_wire m h, ?_⟩
  intro hneg
  have hz := (uint64OfInt32_ne_zero m h).mp (by omega)
  have hbig : 2 ^ 63 ≤ uint64OfInt32 m.Count := by
    obtain ⟨h1, h2⟩ := h
    unfold uint64OfInt32
    have e1 : m.Count % 2 ^ 64 = m.Count + 2 ^ 64 := by
      rw [← Int.add_mul_emod_self (a := m.Count) (b := 1) (c := 2 ^ 64)]
      simp only [Int.one_mul]
      exact Int.emod_eq_of_lt (by omega) (by omega)
    rw [e1]
    omega
  have hlen := varint_length_of_top_bit _ hbig (uint64OfInt32_lt _)
  refine ⟨?_, hlen, ?_, hbig⟩
  · simp only [ScheduleCount.wire, wireVarint, if_pos hz]
  · simp only [ScheduleCount.wire, wireVarint, if_pos hz, List.length_cons, hlen]

/-- C10 witness: the least int32. -/
theorem C10_schedule_count_roundtrip_witness :
    (ScheduleCount.mk (-2147483648)).Representable ∧
    ∃ bz, (ScheduleCount.mk (-2147483648)).Marshal = some bz ∧
      ScheduleCount.Unmarshal ⟨0⟩ bz = (ScheduleCount.mk (-2147483648), none) ∧
      ((ScheduleCount.mk (-2147483648)).Count < 0 →
        bz = 0x8 :: varint (uint64OfInt32 (ScheduleCount.mk (-2147483648)).Count) ∧
        (varint (uint64OfInt32 (ScheduleCount.mk (-2147483648)).Count)).length = 10 ∧
        bz.length = 11 ∧
        2 ^ 63 ≤ uint64OfInt32 (ScheduleCount.mk (-2147483648)).Count) :=
  ⟨by decide, C10_schedule_count_roundtrip _ (by decide)⟩

/-! ## AddContractFailure and existing entries -/

/-- C20 counterexample: in the store of sampleCtx3 every stored failure sits at the key of
its own address and Id, yet the next id of address [97] is 1 (read from the failure of
address [97, 98], whose key is the greatest in the range of [97]) and the key of ([97], 1)
already holds a value, which AddContractFailure overwrites. -/
theorem C20_counterexample :
    sampleKeeper.StoredAtOwnKey sampleCtx3.store ∧
    sampleKeeper.GetNextFailureIDKey sampleCtx3 [97] = some (1, sampleCtx3) ∧
    sampleCtx3.store.Get (sampleKeeper.GetFailureKey [97] 1)
      = some (sampleMarshal ⟨[97], 1, none, [9]⟩) ∧
    (sampleKeeper.AddContractFailure sampleCtx3 [97] (some [1]) []).map
        (fun r => r.2.store.entries.length) = some sampleCtx3.store.entries.length := by
  refine ⟨?_, rfl, rfl, rfl⟩
  intro e he
  have hent : sampleCtx3.store.entries
      = [([1, 97, 0, 0, 0, 0, 0, 0, 0, 0], sampleMarshal ⟨[97], 0, some [5], [9]⟩),
         ([1, 97, 0, 0, 0, 0, 0, 0, 0, 1], sampleMarshal ⟨[97], 1, none, [9]⟩),
         ([1, 97, 98, 0, 0, 0, 0, 0, 0, 0, 0], sampleMarshal ⟨[97, 98], 0, some [], []⟩)] := by
    rfl
  rw [hent] at he
  simp only [List.mem_cons, List.mem_singleton, List.not_mem_nil, or_false] at he
  rcases he with h | h | h
  · exact ⟨⟨[97], 0, some [5], [9]⟩, by rw [h]; rfl, by rw [h]; rfl⟩
  · exact ⟨⟨[97], 1, none, [9]⟩, by rw [h]; rfl, by rw [h]; rfl⟩
  · exact ⟨⟨[97, 98], 0, some [], []⟩, by rw [h]; rfl, by rw [h]; rfl⟩

/-- C20 (amended): when every entry in the key range of the address decodes to a failure
stored at the key of that address and its own Id, with Id + 1 below a bound N of at most
2^64, and the keys of the address for ids below N lie in its range and are sorted by id,
then GetNextFailureIDKey returns an id whose key holds no value before the call, so the
write of AddContractFailure creates a new entry and keeps every entry there was. -/
theorem C20_add_never_overwrites (k : Keeper) (ctx : Ctx) (a : Bytes) (N : Nat)
    (hN0 : 0 < N) (hN : N ≤ 2 ^ 64)
    (hown : ∀ e ∈ ctx.store.entries, (k.GetFailureKeyPrefix a).isPrefixOf e.1 = true →
      ∃ f, k.MustUnmarshal e.2 = some f ∧ e.1 = k.GetFailureKey a f.Id ∧ f.Id + 1 < N)
    (hpfx : ∀ i, i < N → (k.GetFailureKeyPrefix a).isPrefixOf (k.GetFailureKey a i) = true)
    (hord : ∀ j, j < N → ∀ i, i < j →
      bytesLt (k.GetFailureKey a i) (k.GetFailureKey a j) = true)
    (p : Option Bytes) (e : Bytes) :
    ∃ id, k.GetNextFailureIDKey ctx a = some (id, ctx) ∧
      ctx.store.Get (k.GetFailureKey a id) = none ∧
      ∃ ctx1, k.AddContractFailure ctx a p e = some (⟨a, id, p, e⟩, ctx1) ∧
        ctx1.store.entries.Perm
          ((k.GetFailureKey a id, k.MustMarshal ⟨a, id, p, e⟩) :: ctx.store.entries) := by
  have hmain : ∃ id, k.GetNextFailureIDKey ctx a = some (id, ctx) ∧
      ctx.store.Get (k.GetFailureKey a id) = none := by
    cases hit : ctx.store.ReversePrefixIterator (k.GetFailureKeyPrefix a) with
    | nil =>
      have hno := (ctx.store.reversePrefixIterator_nil _).mp hit
      refine ⟨0, GetNextFailureIDKey_of_no_entry k ctx a hno, ?_⟩
      rw [KVStore.get_none_iff]
      intro x hx hxk
      have := hno x hx
      rw [hxk, hpfx 0 hN0] at this
      exact absurd this (by simp)
    | cons x rest =>
      obtain ⟨hx, hxp, hxmax⟩ := ctx.store.reversePrefixIterator_head _ x rest hit
      obtain ⟨f, hf, hkey, hid⟩ := hown x hx hxp
      refine ⟨f.Id + 1, ?_, ?_⟩
      · rw [GetNextFailureIDKey_of_greatest k ctx a x hx hxp hxmax, hf]
        simp only [Option.map_some', Option.some.injEq, Prod.mk.injEq, and_true]
        exact Nat.mod_eq_of_lt (by omega)
      · rw [KVStore.get_none_iff]
        intro y hy hyk
        have hlt := hord (f.Id + 1) hid f.Id (Nat.lt_succ_self _)
        rcases hxmax y hy (by rw [hyk]; exact hpfx _ hid) with h1 | h1
        · rw [h1, hkey] at hyk
          exact ne_of_bytesLt hlt hyk
        · rw [hyk, hkey] at h1
          have := bytesLt_asymm hlt
          rw [h1] at this
          exact absurd this (by simp)
  obtain ⟨id, hnext, hfree⟩ := hmain
  refine ⟨id, hnext, hfree, ?_⟩
  rw [AddContractFailure_eq, hnext]
  exact ⟨_, rfl, insertKey_perm ((ctx.store.get_none_iff _).mp hfree)⟩

/-- C20 witness: address [97] in sampleCtx2, which holds its failures 0 and 1 and nothing
else in its key range. -/
theorem C20_add_never_overwrites_witness :
    ∃ id, sampleKeeper.GetNextFailureIDKey sampleCtx2 [97] = some (id, sampleCtx2) ∧
      sampleCtx2.store.Get (sampleKeeper.GetFailureKey [97] id) = none ∧
      ∃ ctx1, sampleKeeper.AddContractFailure sampleCtx2 [97] none []
          = some (⟨[97], id, none, []⟩, ctx1) ∧
        ctx1.store.entries.Perm
          ((sampleKeeper.GetFailureKey [97] id, sampleKeeper.MustMarshal ⟨[97], id, none, []⟩)
            :: sampleCtx2.store.entries) :=
  C20_add_never_overwrites sampleKeeper sampleCtx2 [97] 3 (by decide) (by decide)
    (by
      intro e he _
      have hent : sampleCtx2.store.entries
          = [([1, 97, 0, 0, 0, 0, 0, 0, 0, 0], sampleMarshal ⟨[97], 0, none, []⟩),
             ([1, 97, 0, 0, 0, 0, 0, 0, 0, 1], sampleMarshal ⟨[97], 1, some [5], [9]⟩)] := by
        rfl
      rw [hent] at he
      simp only [List.mem_cons, List.mem_singleton, List.not_mem_nil, or_false] at he
      rcases he with h | h
      · exact ⟨⟨[97], 0, none, []⟩, by rw [h]; rfl, by rw [h]; rfl, by decide⟩
      · exact ⟨⟨[97], 1, some [5], [9]⟩, by rw [h]; rfl, by rw [h]; rfl, by decide⟩)
    (by decide) (by decide) none []

/-! ## Size and the encoder -/

/-- C12: Size and Marshal agree. For every Schedule that exists as a Go value,
MarshalToSizedBuffer on a buffer of exactly Size bytes makes no out-of-range access (it
does not panic), returns Size, and fills every byte of the buffer: the buffer it leaves has
Size bytes and is the same whatever the buffer held before. Hence Marshal does not fail and
returns Size bytes. -/
theorem C12_size_marshal_agree (m : Schedule) (h : m.Representable) :
    (∀ buf : Bytes, buf.length = m.Size →
      ∃ out, m.MarshalToSizedBuffer buf = some (out, m.Size) ∧ out.length = m.Size) ∧
    (∀ buf1 buf2 : Bytes, buf1.length = m.Size → buf2.length = m.Size →
      m.MarshalToSizedBuffer buf1 = m.MarshalToSizedBuffer buf2) ∧
    ∃ bz, m.Marshal = some bz ∧ bz.length = m.Size := by
  have hsize := Schedule.scheduleSize_eq m h
  have hspec : ∀ buf : Bytes, buf.length = m.Size →
      m.MarshalToSizedBuffer buf = some (m.wire, m.Size) := by
    intro buf hbuf
    have := Schedule.scheduleMarshalToSizedBuffer_spec m h [] buf (by rw [hbuf, hsize])
    simpa [hsize] using this
  refine ⟨?_, ?_, ?_⟩
  · intro buf hbuf
    exact ⟨m.wire, hspec buf hbuf, hsize.symm⟩
  · intro buf1 buf2 h1 h2
    rw [hspec buf1 h1, hspec buf2 h2]
  · exact ⟨m.wire, Schedule.scheduleMarshal_eq_wire m h, hsize.symm⟩

/-- C12 witness: a schedule of 34 encoded bytes. -/
theorem C12_size_marshal_agree_witness :
    (Schedule.mk [110, 97] 300 [⟨[99], [123, 125]⟩, ⟨[], []⟩, ⟨[], [1]⟩]
        18446744073709551615).Representable ∧
    ∃ bz, (Schedule.mk [110, 97] 300 [⟨[99], [123, 125]⟩, ⟨[], []⟩, ⟨[], [1]⟩]
          18446744073709551615).Marshal = some bz ∧
      bz.length = (Schedule.mk [110, 97] 300 [⟨[99], [123, 125]⟩, ⟨[], []⟩, ⟨[], [1]⟩]
          18446744073709551615).Size :=
  ⟨by decide, (C12_size_marshal_agree _ (by decide)).2.2⟩

/-! ## Decoding into a receiver that is not zero -/

/-- The loop over the layout of a Schedule m merges it into the receiver. -/
theorem Schedule.loop_wire (D A C : Bytes) (r m : Schedule) (fuel : Nat)
    (hD : D = A ++ m.wire ++ C) (hm : m.Representable) (hlen : D.length < 2 ^ 63)
    (hfuel : D.length - A.length ≤ fuel) :
    ∃ fuel1, D.length - (A.length + m.wire.length) ≤ fuel1 ∧
      Schedule.unmarshalLoop D fuel A.length r
        = Schedule.unmarshalLoop D fuel1 (A.length + m.wire.length) (r.merge m) := by
  obtain ⟨hp, hl, _, _, _⟩ := hm
  have hDl : D.length = A.length + m.wire.length + C.length := by
    rw [hD]; simp only [List.length_append]
  have hwl : m.wire.length = (wireString 0xa m.Name).length + (wireVarint 0x10 m.Period).length
      + (wireMsgs m.Msgs).length + (wireVarint 0x20 m.LastExecuteHeight).length := by
    simp only [Schedule.wire, List.length_append]; omega
  -- Name
  have step1 : ∃ fuel1, D.length - (A.length + (wireString 0xa m.Name).length) ≤ fuel1 ∧
      Schedule.unmarshalLoop D fuel A.length r
        = Schedule.unmarshalLoop D fuel1 (A.length + (wireString 0xa m.Name).length)
            { r with Name := if m.Name.length > 0 then m.Name else r.Name } := by
    by_cases hn : m.Name.length > 0
    · have hD1 : D = A ++ 0xa :: (varint m.Name.length ++ m.Name)
          ++ (wireVarint 0x10 m.Period ++ (wireMsgs m.Msgs
            ++ wireVarint 0x20 m.LastExecuteHeight) ++ C) := by
        rw [hD]; simp [Schedule.wire, wireString, hn]
      have hw : (wireString 0xa m.Name).length = 1 + (varint m.Name.length).length + m.Name.length := by
        simp only [wireString, if_pos hn, List.length_cons, List.length_append]; omega
      cases fuel with
      | zero =>
        exfalso
        have := varint_length_pos m.Name.length
        omega
      | succ fuel =>
        refine ⟨fuel, by omega, ?_⟩
        have := Schedule.loop_name m.Name A (wireVarint 0x10 m.Period ++ (wireMsgs m.Msgs
            ++ wireVarint 0x20 m.LastExecuteHeight) ++ C) r fuel (by rw [← hD1]; exact hlen)
        rw [← hD1] at this
        rw [this, if_pos hn, hw]
    · have hn0 : m.Name = [] := List.length_eq_zero.mp (by omega)
      refine ⟨fuel, by simp [wireString, hn]; omega, ?_⟩
      simp only [wireString, if_neg hn, List.length_nil, Nat.add_zero]
  -- Period
  have step2 : ∀ (r1 : Schedule) (f : Nat),
      D.length - (A.length + (wireString 0xa m.Name).length) ≤ f →
      ∃ fuel1, D.length - (A.length + (wireString 0xa m.Name).length
          + (wireVarint 0x10 m.Period).length) ≤ fuel1 ∧
        Schedule.unmarshalLoop D f (A.length + (wireString 0xa m.Name).length) r1
          = Schedule.unmarshalLoop D fuel1 (A.length + (wireString 0xa m.Name).length
              + (wireVarint 0x10 m.Period).length)
              { r1 with Period := if m.Period ≠ 0 then m.Period else r1.Period } := by
    intro r1 f hf
    by_cases hn : m.Period ≠ 0
    · have hD1 : D = (A ++ wireString 0xa m.Name) ++ 0x10 :: varint m.Period
          ++ (wireMsgs m.Msgs ++ wireVarint 0x20 m.LastExecuteHeight ++ C) := by
        rw [hD]; simp [Schedule.wire, wireVarint, hn]
      have hw : (wireVarint 0x10 m.Period).length = 1 + (varint m.Period).length := by
        simp only [wireVarint, if_pos hn, List.length_cons]; omega
      have hA : (A ++ wireString 0xa m.Name).length = A.length + (wireString 0xa m.Name).length := by
        simp
      cases f with
      | zero =>
        exfalso
        have := varint_length_pos m.Period
        omega
      | succ f =>
        refine ⟨f, by omega, ?_⟩
        have := Schedule.loop_period m.Period hp (A ++ wireString 0xa m.Name)
          (wireMsgs m.Msgs ++ wireVarint 0x20 m.LastExecuteHeight ++ C) r1 f
        rw [← hD1, hA] at this
        rw [this, if_pos hn, hw]
    · refine ⟨f, by simp [wireVarint, hn]; omega, ?_⟩
      simp only [wireVarint, if_neg hn, List.length_nil, Nat.add_zero]
  -- Msgs
  have step3 : ∀ (r2 : Schedule) (f : Nat),
      D.length - (A.length + (wireString 0xa m.Name).length
          + (wireVarint 0x10 m.Period).length) ≤ f →
      ∃ fuel1, D.length - (A.length + (wireString 0xa m.Name).length
          + (wireVarint 0x10 m.Period).length + (wireMsgs m.Msgs).length) ≤ fuel1 ∧
        Schedule.unmarshalLoop D f (A.length + (wireString 0xa m.Name).length
              + (wireVarint 0x10 m.Period).length) r2
          = Schedule.unmarshalLoop D fuel1 (A.length + (wireString 0xa m.Name).length
              + (wireVarint 0x10 m.Period).length + (wireMsgs m.Msgs).length)
              { r2 with Msgs := r2.Msgs ++ m.Msgs } := by
    intro r2 f hf
    have hD1 : D = (A ++ wireString 0xa m.Name ++ wireVarint 0x10 m.Period) ++ wireMsgs m.Msgs
        ++ (wireVarint 0x20 m.LastExecuteHeight ++ C) := by
      rw [hD]; simp [Schedule.wire]
    have hA : (A ++ wireString 0xa m.Name ++ wireVarint 0x10 m.Period).length
        = A.length + (wireString 0xa m.Name).length + (wireVarint 0x10 m.Period).length := by
      simp only [List.length_append]
    have := Schedule.loop_msgs D m.Msgs _ _ r2 f hD1 hlen (by rw [hA]; exact hf)
    rw [hA] at this
    exact this
  -- LastExecuteHeight
  have step4 : ∀ (r3 : Schedule) (f : Nat),
      D.length - (A.length + (wireString 0xa m.Name).length
          + (wireVarint 0x10 m.Period).length + (wireMsgs m.Msgs).length) ≤ f →
      ∃ fuel1, D.length - (A.length + m.wire.length) ≤ fuel1 ∧
        Schedule.unmarshalLoop D f (A.length + (wireString 0xa m.Name).length
              + (wireVarint 0x10 m.Period).length + (wireMsgs m.Msgs).length) r3
          = Schedule.unmarshalLoop D fuel1 (A.length + m.wire.length)
              { r3 with LastExecuteHeight :=
                  if m.LastExecuteHeight ≠ 0 then m.LastExecuteHeight
                  else r3.LastExecuteHeight } := by
    intro r3 f hf
    by_cases hn : m.LastExecuteHeight ≠ 0
    · have hD1 : D = (A ++ wireString 0xa m.Name ++ wireVarint 0x10 m.Period
            ++ wireMsgs m.Msgs) ++ 0x20 :: varint m.LastExecuteHeight ++ C := by
        rw [hD]; simp [Schedule.wire, wireVarint, hn]
      have hw : (wireVarint 0x20 m.LastExecuteHeight).length
          = 1 + (varint m.LastExecuteHeight).length := by
        simp only [wireVarint, if_pos hn, List.length_cons]; omega
      have hA : (A ++ wireString 0xa m.Name ++ wireVarint 0x10 m.Period
            ++ wireMsgs m.Msgs).length
          = A.length + (wireString 0xa m.Name).length + (wireVarint 0x10 m.Period).length
            + (wireMsgs m.Msgs).length := by
        simp only [List.length_append]
      cases f with
      | zero =>
        exfalso
        have := varint_length_pos m.LastExecuteHeight
        omega
      | succ f =>
        refine ⟨f, by omega, ?_⟩
        have := Schedule.loop_height m.LastExecuteHeight hl (A ++ wireString 0xa m.Name
          ++ wireVarint 0x10 m.Period ++ wireMsgs m.Msgs) C r3 f
        rw [← hD1, hA] at this
        rw [this, if_pos hn]
        congr 1
        omega
    · have hw : (wireVarint 0x20 m.LastExecuteHeight).length = 0 := by
        simp [wireVarint, hn]
      refine ⟨f, by omega, ?_⟩
      rw [if_neg hn]
      congr 1
      omega
  obtain ⟨f1, hf1, h1⟩ := step1
  obtain ⟨f2, hf2, h2⟩ := step2 _ f1 hf1
  obtain ⟨f3, hf3, h3⟩ := step3 _ f2 hf2
  obtain ⟨f4, hf4, h4⟩ := step4 _ f3 hf3
  refine ⟨f4, hf4, ?_⟩
  rw [h1, h2, h3, h4]
  rfl

theorem Schedule.merge_zero (r : Schedule) : Schedule.merge ⟨[], 0, [], 0⟩ r = r := by
  obtain ⟨n, p, ms, l⟩ := r
  simp only [Schedule.merge, List.nil_append]
  congr 1
  · by_cases h : n.length > 0
    · rw [if_pos h]
    · rw [if_neg h]; exact (List.length_eq_zero.mp (by omega)).symm
  · by_cases h : p ≠ 0
    · rw [if_pos h]
    · rw [if_neg h]; omega
  · by_cases h : l ≠ 0
    · rw [if_pos h]
    · rw [if_neg h]; omega

/-- C14: Unmarshal merges rather than resets. For a Schedule m that exists as a Go value
and any receiver r, Unmarshal of the bytes of Marshal(m) into r returns nil and leaves
Name = m.Name if m.Name is not empty else r.Name, Period = m.Period if not zero else
r.Period, LastExecuteHeight likewise, and Msgs = r.Msgs followed by m.Msgs. When r too is
a Go value and both encodings fit one slice, decoding Marshal(r) followed by Marshal(m)
into a zero value gives the same merged Schedule. -/
theorem C14_unmarshal_merges (r m : Schedule) (hm : m.Representable) :
    (∃ bz, m.Marshal = some bz ∧ Schedule.Unmarshal r bz = (r.merge m, none)) ∧
    (r.Representable → r.Size + m.Size < 2 ^ 63 →
      ∃ br bm, r.Marshal = some br ∧ m.Marshal = some bm ∧
        Schedule.Unmarshal ⟨[], 0, [], 0⟩ (br ++ bm) = (r.merge m, none)) := by
  have hmlen : m.wire.length < 2 ^ 63 := by
    rw [← Schedule.scheduleSize_eq m hm]; exact hm.2.2.2.2
  constructor
  · refine ⟨m.wire, Schedule.scheduleMarshal_eq_wire m hm, ?_⟩
    unfold Schedule.Unmarshal
    obtain ⟨f1, _, h1⟩ := Schedule.loop_wire m.wire [] [] r m m.wire.length (by simp) hm hmlen
      (by simp)
    simp only [List.length_nil, Nat.zero_add] at h1
    rw [h1, Schedule.scheduleLoop_end]
  · intro hr hsum
    refine ⟨r.wire, m.wire, Schedule.scheduleMarshal_eq_wire r hr,
      Schedule.scheduleMarshal_eq_wire m hm, ?_⟩
    have hlen : (r.wire ++ m.wire).length < 2 ^ 63 := by
      rw [List.length_append, ← Schedule.scheduleSize_eq r hr, ← Schedule.scheduleSize_eq m hm]
      exact hsum
    unfold Schedule.Unmarshal
    obtain ⟨f1, hf1, h1⟩ := Schedule.loop_wire (r.wire ++ m.wire) [] m.wire ⟨[], 0, [], 0⟩ r
      (r.wire ++ m.wire).length (by simp) hr hlen (by simp)
    simp only [List.length_nil, Nat.zero_add] at h1 hf1
    obtain ⟨f2, _, h2⟩ := Schedule.loop_wire (r.wire ++ m.wire) r.wire [] r m f1 (by simp) hm
      hlen hf1
    rw [h1, Schedule.merge_zero, h2]
    have e : r.wire.length + m.wire.length = (r.wire ++ m.wire).length := by simp
    rw [e, Schedule.scheduleLoop_end]

/-- C14 witness: a schedule with a name and a message decoded into a receiver holding a
name, a period and a message. -/
theorem C14_unmarshal_merges_witness :
    (Schedule.mk [110] 0 [⟨[99], []⟩] 7).Representable ∧
    ∃ bz, (Schedule.mk [110] 0 [⟨[99], []⟩] 7).Marshal = some bz ∧
      Schedule.Unmarshal (Schedule.mk [111, 108, 100] 5 [⟨[], [1]⟩] 0) bz
        = ((Schedule.mk [111, 108, 100] 5 [⟨[], [1]⟩] 0).merge
            (Schedule.mk [110] 0 [⟨[99], []⟩] 7), none) :=
  ⟨by decide, (C14_unmarshal_merges (Schedule.mk [111, 108, 100] 5 [⟨[], [1]⟩] 0)
    (Schedule.mk [110] 0 [⟨[99], []⟩] 7) (by decide)).1⟩

/-! ## The migration record: the encoder writes the wire layout -/

theorem sovGenesis_eq : sovGenesis = sovSchedule := rfl

theorem putStringFieldGenesis_eq : putStringFieldGenesis = putStringField := rfl

theorem putVarintFieldGenesis_eq : putVarintFieldGenesis = putVarintField := rfl

theorem OldFailure.oldFailureSize_eq (m : OldFailure) (h : m.Representable) :
    m.Size = m.wire.length := by
  obtain ⟨hi, ha, hc, hd, ht, _⟩ := h
  have hlt : (2 : Nat) ^ 63 < 2 ^ 64 := by decide
  unfold OldFailure.Size OldFailure.wire
  simp only [List.length_append, Nat.zero_add, sovGenesis_eq]
  rw [wireString_length _ _ (by omega), wireString_length _ _ (by omega),
    wireString_length _ _ (by omega), wireVarint_length _ _ hi, wireVarint_length _ _ ha]
  split <;> split <;> split <;> split <;> split <;> omega

theorem OldFailure.oldFailureMarshalToSizedBuffer_spec (m : OldFailure) (h : m.Representable)
    (A G : Bytes) (hG : G.length = m.wire.length) :
    m.MarshalToSizedBuffer (A ++ G) = some (A ++ m.wire, m.wire.length) := by
  obtain ⟨hi, ha, hc, hd, ht, _⟩ := h
  have hlt : (2 : Nat) ^ 63 < 2 ^ 64 := by decide
  unfold OldFailure.wire at hG
  simp only [List.length_append] at hG
  obtain ⟨G1, G2345, hs1, h1, h2345⟩ := split_region G _ _ hG
  obtain ⟨G2, G345, hs2, h2, h345⟩ := split_region G2345 _ _ h2345
  obtain ⟨G3, G45, hs3, h3, h45⟩ := split_region G345 _ _ h345
  obtain ⟨G4, G5, hs4, h4, h5⟩ := split_region G45 _ _ h45
  subst hs1 hs2 hs3 hs4
  unfold OldFailure.MarshalToSizedBuffer
  rw [putStringFieldGenesis_eq, putVarintFieldGenesis_eq]
  -- AckType
  have s5 := putStringOpt_spec m.AckType (by omega) 0x2a (A ++ G1 ++ G2 ++ G3 ++ G4) G5 [] h5
  have e1 : A ++ (G1 ++ (G2 ++ (G3 ++ (G4 ++ G5)))) = A ++ G1 ++ G2 ++ G3 ++ G4 ++ G5 ++ [] := by
    simp
  have e2 : (A ++ G1 ++ G2 ++ G3 ++ G4 ++ G5 ++ []).length
      = (A ++ G1 ++ G2 ++ G3 ++ G4).length + G5.length := by
    simp only [List.length_append, List.length_nil]; omega
  rw [e1]
  simp only
  rw [e2, s5]
  simp only
  -- AckId
  have s4 := putVarintOpt_spec m.AckId ha 0x20 (A ++ G1 ++ G2 ++ G3) G4
    (wireString 0x2a m.AckType ++ []) h4
  have e3 : A ++ G1 ++ G2 ++ G3 ++ G4 ++ wireString 0x2a m.AckType ++ []
      = A ++ G1 ++ G2 ++ G3 ++ G4 ++ (wireString 0x2a m.AckType ++ []) := by simp
  have e4 : (A ++ G1 ++ G2 ++ G3 ++ G4).length = (A ++ G1 ++ G2 ++ G3).length + G4.length := by
    simp only [List.length_append]
  rw [e3, e4, s4]
  simp only
  -- Id
  have s3 := putVarintOpt_spec m.Id hi 0x18 (A ++ G1 ++ G2) G3
    (wireVarint 0x20 m.AckId ++ (wireString 0x2a m.AckType ++ [])) h3
  have e5 : A ++ G1 ++ G2 ++ G3 ++ wireVarint 0x20 m.AckId ++ (wireString 0x2a m.AckType ++ [])
      = A ++ G1 ++ G2 ++ G3 ++ (wireVarint 0x20 m.AckId ++ (wireString 0x2a m.AckType ++ [])) := by
    simp
  have e6 : (A ++ G1 ++ G2 ++ G3).length = (A ++ G1 ++ G2).length + G3.length := by
    simp only [List.length_append]
  rw [e5, e6, s3]
  simp only
  -- Address
  have s2 := putStringOpt_spec m.Address (by omega) 0x12 (A ++ G1) G2
    (wireVarint 0x18 m.Id ++ (wireVarint 0x20 m.AckId ++ (wireString 0x2a m.AckType ++ []))) h2
  have e7 : A ++ G1 ++ G2 ++ wireVarint 0x18 m.Id
        ++ (wireVarint 0x20 m.AckId ++ (wireString 0x2a m.AckType ++ []))
      = A ++ G1 ++ G2 ++ (wireVarint 0x18 m.Id
        ++ (wireVarint 0x20 m.AckId ++ (wireString 0x2a m.AckType ++ []))) := by
    simp
  have e8 : (A ++ G1 ++ G2).length = (A ++ G1).length + G2.length := by
    simp only [List.length_append]
  rw [e7, e8, s2]
  simp only
  -- ChannelId
  have s1 := putStringOpt_spec m.ChannelId (by omega) 0xa A G1
    (wireString 0x12 m.Address ++ (wireVarint 0x18 m.Id
      ++ (wireVarint 0x20 m.AckId ++ (wireString 0x2a m.AckType ++ [])))) h1
  have e9 : A ++ G1 ++ wireString 0x12 m.Address ++ (wireVarint 0x18 m.Id
        ++ (wireVarint 0x20 m.AckId ++ (wireString 0x2a m.AckType ++ [])))
      = A ++ G1 ++ (wireString 0x12 m.Address ++ (wireVarint 0x18 m.Id
        ++ (wireVarint 0x20 m.AckId ++ (wireString 0x2a m.AckType ++ [])))) := by
    simp
  have e10 : (A ++ G1).length = A.length + G1.length := by simp only [List.length_append]
  rw [e9, e10, s1]
  simp only [OldFailure.wire, List.append_nil, List.append_assoc, List.length_append,
    Option.some.injEq, Prod.mk.injEq, true_and]
  omega

/-- Marshal of a representable OldFailure returns the wire layout. -/
theorem OldFailure.oldFailureMarshal_eq_wire (m : OldFailure) (h : m.Representable) :
    m.Marshal = some m.wire :=
  marshalWith_spec m.Size m.MarshalToSizedBuffer m.wire (OldFailure.oldFailureSize_eq m h)
    (fun G hG => OldFailure.oldFailureMarshalToSizedBuffer_spec m h [] G hG)

/-! ## The migration record: decoding the wire layout -/

theorem decodeVarintGenesis_of_ok {D : Bytes} {bits i v j : Nat}
    (h : decodeVarint D bits i = (v, j, none)) : decodeVarintGenesis D bits i = (v, j, none) := by
  unfold decodeVarintGenesis
  rw [h]
  rfl

theorem readStringGenesis_of_ok {D : Bytes} {i : Nat} {r : Bytes × Nat}
    (h : readString D i = .ok r) : readStringGenesis D i = .ok r := by
  unfold readString at h
  unfold readStringGenesis decodeVarintGenesis
  rcases hd : decodeVarint D 64 i with ⟨v, j, e⟩
  rw [hd] at h
  cases e with
  | some e => simp at h
  | none =>
    simp only [Option.map_none'] at h ⊢
    split_ifs at h ⊢
    exact h

/-- One round of the loop on a ChannelId field. -/
theorem OldFailure.loop_channelId (s A C : Bytes) (m : OldFailure) (fuel : Nat)
    (hlen : (A ++ 0xa :: (varint s.length ++ s) ++ C).length < 2 ^ 63) :
    OldFailure.unmarshalLoop (A ++ 0xa :: (varint s.length ++ s) ++ C) (fuel + 1) A.length m
      = OldFailure.unmarshalLoop (A ++ 0xa :: (varint s.length ++ s) ++ C) fuel
          (A.length + (1 + (varint s.length).length + s.length)) { m with ChannelId := s } := by
  have hl := string_field_length 0xa s A C
  rw [OldFailure.unmarshalLoop, if_pos (by omega)]
  have htag := decodeVarintGenesis_of_ok (tag_of_string_field 10 (by decide) s A C)
  have hrd := readStringGenesis_of_ok (string_of_string_field 0xa s A C hlen)
  have hu : UInt8.ofNat 10 = 0xa := rfl
  rw [hu] at htag
  simp only [htag]
  have hf : int32OfBits ((10 >>> 3) % 2 ^ 32) = 1 := by decide
  have hw : (10 : Nat) &&& 0x7 = 2 := by decide
  rw [hf, hw, if_neg (by decide), if_neg (by decide), if_pos rfl, if_neg (by decide), hrd]
  simp only
  congr 1
  omega

/-- One round of the loop on an Address field. -/
theorem OldFailure.loop_address (s A C : Bytes) (m : OldFailure) (fuel : Nat)
    (hlen : (A ++ 0x12 :: (varint s.length ++ s) ++ C).length < 2 ^ 63) :
    OldFailure.unmarshalLoop (A ++ 0x12 :: (varint s.length ++ s) ++ C) (fuel + 1) A.length m
      = OldFailure.unmarshalLoop (A ++ 0x12 :: (varint s.length ++ s) ++ C) fuel
          (A.length + (1 + (varint s.length).length + s.length)) { m with Address := s } := by
  have hl := string_field_length 0x12 s A C
  rw [OldFailure.unmarshalLoop, if_pos (by omega)]
  have htag := decodeVarintGenesis_of_ok (tag_of_string_field 18 (by decide) s A C)
  have hrd := readStringGenesis_of_ok (string_of_string_field 0x12 s A C hlen)
  have hu : UInt8.ofNat 18 = 0x12 := rfl
  rw [hu] at htag
  simp only [htag]
  have hf : int32OfBits ((18 >>> 3) % 2 ^ 32) = 2 := by decide
  have hw : (18 : Nat) &&& 0x7 = 2 := by decide
  rw [hf, hw, if_neg (by decide), if_neg (by decide), if_neg (by decide), if_pos rfl,
    if_neg (by decide), hrd]
  simp only
  congr 1
  omega

/-- One round of the loop on an Id field. -/
theorem OldFailure.loop_id (v : Nat) (hv : v < 2 ^ 64) (A C : Bytes) (m : OldFailure)
    (fuel : Nat) :
    OldFailure.unmarshalLoop (A ++ 0x18 :: varint v ++ C) (fuel + 1) A.length m
      = OldFailure.unmarshalLoop (A ++ 0x18 :: varint v ++ C) fuel
          (A.length + (1 + (varint v).length)) { m with Id := v } := by
  have hl := varint_field_length 0x18 v A C
  rw [OldFailure.unmarshalLoop, if_pos (by omega)]
  have htag := decodeVarintGenesis_of_ok (tag_of_varint_field 24 (by decide) v A C)
  have hval := value_of_varint_field 64 0x18 v hv A C
  rw [Nat.mod_eq_of_lt hv] at hval
  have hval := decodeVarintGenesis_of_ok hval
  have hu : UInt8.ofNat 24 = 0x18 := rfl
  rw [hu] at htag
  simp only [htag]
  have hf : int32OfBits ((24 >>> 3) % 2 ^ 32) = 3 := by decide
  have hw : (24 : Nat) &&& 0x7 = 0 := by decide
  rw [hf, hw, if_neg (by decide), if_neg (by decide), if_neg (by decide), if_neg (by decide),
    if_pos rfl, if_neg (by decide), hval]
  simp only
  congr 1
  omega

/-- One round of the loop on an AckId field. -/
theorem OldFailure.loop_ackId (v : Nat) (hv : v < 2 ^ 64) (A C : Bytes) (m : OldFailure)
    (fuel : Nat) :
    OldFailure.unmarshalLoop (A ++ 0x20 :: varint v ++ C) (fuel + 1) A.length m
      = OldFailure.unmarshalLoop (A ++ 0x20 :: varint v ++ C) fuel
          (A.length + (1 + (varint v).length)) { m with AckId := v } := by
  have hl := varint_field_length 0x20 v A C
  rw [OldFailure.unmarshalLoop, if_pos (by omega)]
  have htag := decodeVarintGenesis_of_ok (tag_of_varint_field 32 (by decide) v A C)
  have hval := value_of_varint_field 64 0x20 v hv A C
  rw [Nat.mod_eq_of_lt hv] at hval
  have hval := decodeVarintGenesis_of_ok hval
  have hu : UInt8.ofNat 32 = 0x20 := rfl
  rw [hu] at htag
  simp only [htag]
  have hf : int32OfBits ((32 >>> 3) % 2 ^ 32) = 4 := by decide
  have hw : (32 : Nat) &&& 0x7 = 0 := by decide
  rw [hf, hw, if_neg (by decide), if_neg (by decide), if_neg (by decide), if_neg (by decide),
    if_neg (by decide), if_pos rfl, if_neg (by decide), hval]
  simp only
  congr 1
  omega

/-- One round of the loop on an AckType field. -/
theorem OldFailure.loop_ackType (s A C : Bytes) (m : OldFailure) (fuel : Nat)
    (hlen : (A ++ 0x2a :: (varint s.length ++ s) ++ C).length < 2 ^ 63) :
    OldFailure.unmarshalLoop (A ++ 0x2a :: (varint s.length ++ s) ++ C) (fuel + 1) A.length m
      = OldFailure.unmarshalLoop (A ++ 0x2a :: (varint s.length ++ s) ++ C) fuel
          (A.length + (1 + (varint s.length).length + s.length)) { m with AckType := s } := by
  have hl := string_field_length 0x2a s A C
  rw [OldFailure.unmarshalLoop, if_pos (by omega)]
  have htag := decodeVarintGenesis_of_ok (tag_of_string_field 42 (by decide) s A C)
  have hrd := readStringGenesis_of_ok (string_of_string_field 0x2a s A C hlen)
  have hu : UInt8.ofNat 42 = 0x2a := rfl
  rw [hu] at htag
  simp only [htag]
  have hf : int32OfBits ((42 >>> 3) % 2 ^ 32) = 5 := by decide
  have hw : (42 : Nat) &&& 0x7 = 2 := by decide
  rw [hf, hw, if_neg (by decide), if_neg (by decide), if_neg (by decide), if_neg (by decide),
    if_neg (by decide), if_neg (by decide), if_pos rfl, if_neg (by decide), hrd]
  simp only
  congr 1
  omega

/-- The loop stops at the end of the input. -/
theorem OldFailure.oldFailureLoop_end (D : Bytes) (fuel : Nat) (m : OldFailure) :
    OldFailure.unmarshalLoop D fuel D.length m = (m, none) := by
  cases fuel with
  | zero => simp [OldFailure.unmarshalLoop]
  | succ fuel => simp [OldFailure.unmarshalLoop]

/-- The loop on an optional ChannelId field, with enough rounds left. -/
theorem OldFailure.loop_channelId_opt (D s A C : Bytes) (m : OldFailure) (fuel : Nat)
    (hD : D = A ++ wireString 0xa s ++ C) (hm : m.ChannelId = []) (hlen : D.length < 2 ^ 63)
    (hfuel : D.length - A.length ≤ fuel) :
    ∃ fuel1, D.length - (A.length + (wireString 0xa s).length) ≤ fuel1 ∧
      OldFailure.unmarshalLoop D fuel A.length m
        = OldFailure.unmarshalLoop D fuel1 (A.length + (wireString 0xa s).length)
            { m with ChannelId := s } := by
  subst hD
  unfold wireString at hlen hfuel ⊢
  by_cases h : s.length > 0
  · simp only [if_pos h] at hlen hfuel ⊢
    have hl := string_field_length 0xa s A C
    cases fuel with
    | zero => omega
    | succ fuel =>
      refine ⟨fuel, ?_, ?_⟩
      · simp only [List.length_cons, List.length_append]
        omega
      · rw [OldFailure.loop_channelId s A C m fuel hlen]
        simp only [List.length_cons, List.length_append]
        congr 1
        omega
  · simp only [if_neg h] at hlen hfuel ⊢
    have hs : s = [] := List.length_eq_zero.mp (by omega)
    subst hs
    refine ⟨fuel, by simpa using hfuel, ?_⟩
    simp only [List.length_nil, Nat.add_zero]
    congr 1
    cases m
    simp only at hm
    rw [hm]

/-- The loop on an optional Address field, with enough rounds left. -/
theorem OldFailure.loop_address_opt (D s A C : Bytes) (m : OldFailure) (fuel : Nat)
    (hD : D = A ++ wireString 0x12 s ++ C) (hm : m.Address = []) (hlen : D.length < 2 ^ 63)
    (hfuel : D.length - A.length ≤ fuel) :
    ∃ fuel1, D.length - (A.length + (wireString 0x12 s).length) ≤ fuel1 ∧
      OldFailure.unmarshalLoop D fuel A.length m
        = OldFailure.unmarshalLoop D fuel1 (A.length + (wireString 0x12 s).length)
            { m with Address := s } := by
  subst hD
  unfold wireString at hlen hfuel ⊢
  by_cases h : s.length > 0
  · simp only [if_pos h] at hlen hfuel ⊢
    have hl := string_field_length 0x12 s A C
    cases fuel with
    | zero => omega
    | succ fuel =>
      refine ⟨fuel, ?_, ?_⟩
      · simp only [List.length_cons, List.length_append]
        omega
      · rw [OldFailure.loop_address s A C m fuel hlen]
        simp only [List.length_cons, List.length_append]
        congr 1
        omega
  · simp only [if_neg h] at hlen hfuel ⊢
    have hs : s = [] := List.length_eq_zero.mp (by omega)
    subst hs
    refine ⟨fuel, by simpa using hfuel, ?_⟩
    simp only [List.length_nil, Nat.add_zero]
    congr 1
    cases m
    simp only at hm
    rw [hm]

/-- The loop on an optional Id field, with enough rounds left. -/
theorem OldFailure.loop_id_opt (D : Bytes) (v : Nat) (hv : v < 2 ^ 64) (A C : Bytes)
    (m : OldFailure) (fuel : Nat) (hD : D = A ++ wireVarint 0x18 v ++ C) (hm : m.Id = 0)
    (hfuel : D.length - A.length ≤ fuel) :
    ∃ fuel1, D.length - (A.length + (wireVarint 0x18 v).length) ≤ fuel1 ∧
      OldFailure.unmarshalLoop D fuel A.length m
        = OldFailure.unmarshalLoop D fuel1 (A.length + (wireVarint 0x18 v).length)
            { m with Id := v } := by
  subst hD
  unfold wireVarint at hfuel ⊢
  by_cases h : v ≠ 0
  · simp only [if_pos h] at hfuel ⊢
    have hl := varint_field_length 0x18 v A C
    cases fuel with
    | zero => omega
    | succ fuel =>
      refine ⟨fuel, ?_, ?_⟩
      · simp only [List.length_cons, List.length_append]
        omega
      · rw [OldFailure.loop_id v hv A C m fuel]
        simp only [List.length_cons]
        congr 1
        omega
  · simp only [if_neg h] at hfuel ⊢
    have hs : v = 0 := by omega
    subst hs
    refine ⟨fuel, by simpa using hfuel, ?_⟩
    simp only [List.length_nil, Nat.add_zero]
    congr 1
    cases m
    simp only at hm
    rw [hm]

/-- The loop on an optional AckId field, with enough rounds left. -/
theorem OldFailure.loop_ackId_opt (D : Bytes) (v : Nat) (hv : v < 2 ^ 64) (A C : Bytes)
    (m : OldFailure) (fuel : Nat) (hD : D = A ++ wireVarint 0x20 v ++ C) (hm : m.AckId = 0)
    (hfuel : D.length - A.length ≤ fuel) :
    ∃ fuel1, D.length - (A.length + (wireVarint 0x20 v).length) ≤ fuel1 ∧
      OldFailure.unmarshalLoop D fuel A.length m
        = OldFailure.unmarshalLoop D fuel1 (A.length + (wireVarint 0x20 v).length)
            { m with AckId := v } := by
  subst hD
  unfold wireVarint at hfuel ⊢
  by_cases h : v ≠ 0
  · simp only [if_pos h] at hfuel ⊢
    have hl := varint_field_length 0x20 v A C
    cases fuel with
    | zero => omega
    | succ fuel =>
      refine ⟨fuel, ?_, ?_⟩
      · simp only [List.length_cons, List.length_append]
        omega
      · rw [OldFailure.loop_ackId v hv A C m fuel]
        simp only [List.length_cons]
        congr 1
        omega
  · simp only [if_neg h] at hfuel ⊢
    have hs : v = 0 := by omega
    subst hs
    refine ⟨fuel, by simpa using hfuel, ?_⟩
    simp only [List.length_nil, Nat.add_zero]
    congr 1
    cases m
    simp only at hm
    rw [hm]

/-- The loop on an optional AckType field, with enough rounds left. -/
theorem OldFailure.loop_ackType_opt (D s A C : Bytes) (m : OldFailure) (fuel : Nat)
    (hD : D = A ++ wireString 0x2a s ++ C) (hm : m.AckType = []) (hlen : D.length < 2 ^ 63)
    (hfuel : D.length - A.length ≤ fuel) :
    ∃ fuel1, D.length - (A.length + (wireString 0x2a s).length) ≤ fuel1 ∧
      OldFailure.unmarshalLoop D fuel A.length m
        = OldFailure.unmarshalLoop D fuel1 (A.length + (wireString 0x2a s).length)
            { m with AckType := s } := by
  subst hD
  unfold wireString at hlen hfuel ⊢
  by_cases h : s.length > 0
  · simp only [if_pos h] at hlen hfuel ⊢
    have hl := string_field_length 0x2a s A C
    cases fuel with
    | zero => omega
    | succ fuel =>
      refine ⟨fuel, ?_, ?_⟩
      · simp only [List.length_cons, List.length_append]
        omega
      · rw [OldFailure.loop_ackType s A C m fuel hlen]
        simp only [List.length_cons, List.length_append]
        congr 1
        omega
  · simp only [if_neg h] at hlen hfuel ⊢
    have hs : s = [] := List.length_eq_zero.mp (by omega)
    subst hs
    refine ⟨fuel, by simpa using hfuel, ?_⟩
    simp only [List.length_nil, Nat.add_zero]
    congr 1
    cases m
    simp only at hm
    rw [hm]

/-- Decoding the layout of a representable OldFailure into a zero value gives it back. -/
theorem OldFailure.oldFailureUnmarshal_wire (m : OldFailure) (h : m.Representable) :
    OldFailure.Unmarshal ⟨[], [], 0, 0, []⟩ m.wire = (m, none) := by
  have hlen : m.wire.length < 2 ^ 63 := by
    rw [← OldFailure.oldFailureSize_eq m h]; exact h.2.2.2.2.2
  obtain ⟨hi, ha, _, _, _, _⟩ := h
  unfold OldFailure.Unmarshal
  obtain ⟨f1, hf1, h1⟩ := OldFailure.loop_channelId_opt m.wire m.ChannelId []
    (wireString 0x12 m.Address ++ (wireVarint 0x18 m.Id ++ (wireVarint 0x20 m.AckId
      ++ wireString 0x2a m.AckType)))
    ⟨[], [], 0, 0, []⟩ m.wire.length (by simp [OldFailure.wire]) rfl hlen (by simp)
  obtain ⟨f2, hf2, h2⟩ := OldFailure.loop_address_opt m.wire m.Address
    (wireString 0xa m.ChannelId)
    (wireVarint 0x18 m.Id ++ (wireVarint 0x20 m.AckId ++ wireString 0x2a m.AckType))
    ⟨m.ChannelId, [], 0, 0, []⟩ f1 (by simp [OldFailure.wire]) rfl hlen (by simpa using hf1)
  obtain ⟨f3, hf3, h3⟩ := OldFailure.loop_id_opt m.wire m.Id hi
    (wireString 0xa m.ChannelId ++ wireString 0x12 m.Address)
    (wireVarint 0x20 m.AckId ++ wireString 0x2a m.AckType)
    ⟨m.ChannelId, m.Address, 0, 0, []⟩ f2 (by simp [OldFailure.wire]) rfl
    (by simp only [List.length_append]; exact hf2)
  obtain ⟨f4, hf4, h4⟩ := OldFailure.loop_ackId_opt m.wire m.AckId ha
    (wireString 0xa m.ChannelId ++ wireString 0x12 m.Address ++ wireVarint 0x18 m.Id)
    (wireString 0x2a m.AckType)
    ⟨m.ChannelId, m.Address, m.Id, 0, []⟩ f3 (by simp [OldFailure.wire]) rfl
    (by simp only [List.length_append] at hf3 ⊢; exact hf3)
  obtain ⟨f5, hf5, h5⟩ := OldFailure.loop_ackType_opt m.wire m.AckType
    (wireString 0xa m.ChannelId ++ wireString 0x12 m.Address ++ wireVarint 0x18 m.Id
      ++ wireVarint 0x20 m.AckId) []
    ⟨m.ChannelId, m.Address, m.Id, m.AckId, []⟩ f4 (by simp [OldFailure.wire]) rfl hlen
    (by simp only [List.length_append] at hf4 ⊢; exact hf4)
  simp only [List.length_nil, Nat.zero_add] at h1
  simp only [List.length_append, List.nil_append] at h3 h4 h5
  rw [h1, h2, h3, h4, h5]
  have e2 : (wireString 0xa m.ChannelId).length + (wireString 0x12 m.Address).length
      + (wireVarint 0x18 m.Id).length + (wireVarint 0x20 m.AckId).length
      + (wireString 0x2a m.AckType).length = m.wire.length := by
    simp only [OldFailure.wire, List.length_append]; omega
  rw [e2]
  exact OldFailure.oldFailureLoop_end m.wire f5 m

/-! ## Round trip of the migration record -/

/-- C11: OldFailure round-trips exactly. For every OldFailure that exists as a Go value
(ChannelId, Address and AckType any byte strings, Id and AckId any uint64, lengths fitting
an int), Marshal succeeds and Unmarshal of its bytes into a zero-value OldFailure returns a
nil error and leaves the receiver equal to the record; hence Marshal is injective: two such
records with the same encoding are equal. -/
theorem C11_old_failure_roundtrip (m : OldFailure) (h : m.Representable) :
    (∃ bz, m.Marshal = some bz ∧ OldFailure.Unmarshal ⟨[], [], 0, 0, []⟩ bz = (m, none)) ∧
      ∀ m2 : OldFailure, m2.Representable → m2.Marshal = m.Marshal → m2 = m := by
  refine ⟨⟨m.wire, OldFailure.oldFailureMarshal_eq_wire m h,
    OldFailure.oldFailureUnmarshal_wire m h⟩, ?_⟩
  intro m2 h2 heq
  rw [OldFailure.oldFailureMarshal_eq_wire m h, OldFailure.oldFailureMarshal_eq_wire m2 h2] at heq
  have hw : m2.wire = m.wire := Option.some.inj heq
  have hu := OldFailure.oldFailureUnmarshal_wire m2 h2
  rw [hw, OldFailure.oldFailureUnmarshal_wire m h] at hu
  exact (Prod.mk.inj hu).1.symm

/-- C11 witness: a record with a channel, no address, a two-byte Id, the greatest uint64 as
AckId and an acknowledgement type. -/
theorem C11_old_failure_roundtrip_witness :
    (OldFailure.mk [99, 45, 49] [] 300 18446744073709551615 [97, 99, 107]).Representable ∧
    ((∃ bz, (OldFailure.mk [99, 45, 49] [] 300 18446744073709551615 [97, 99, 107]).Marshal
          = some bz ∧
        OldFailure.Unmarshal ⟨[], [], 0, 0, []⟩ bz
          = (OldFailure.mk [99, 45, 49] [] 300 18446744073709551615 [97, 99, 107], none)) ∧
      ∀ m2 : OldFailure, m2.Representable →
        m2.Marshal = (OldFailure.mk [99, 45, 49] [] 300 18446744073709551615 [97, 99, 107]).Marshal
          → m2 = OldFailure.mk [99, 45, 49] [] 300 18446744073709551615 [97, 99, 107]) :=
  ⟨by decide, C11_old_failure_roundtrip _ (by decide)⟩

/-! ## Skipping a complete field -/

theorem tag_wireType (n w : Nat) (hw : w < 8) : (n * 8 + w) &&& 0x7 = w := by
  have := Nat.and_pow_two_sub_one_eq_mod (n * 8 + w) 3
  have e : (2 : Nat) ^ 3 - 1 = 0x7 := by decide
  rw [e] at this
  rw [this]
  have : (2 : Nat) ^ 3 = 8 := by decide
  omega

theorem tag_fieldNum (n w : Nat) (hw : w < 8) : (n * 8 + w) >>> 3 = n := by
  rw [Nat.shiftRight_eq_div_pow]
  have : (2 : Nat) ^ 3 = 8 := by decide
  omega

theorem skipVarintLoop_spec (fuel : Nat) :
    ∀ (v shift : Nat) (A C : Bytes), v < 2 ^ (7 * (fuel + 1)) → shift + 7 * (fuel + 1) ≤ 70 →
      skipVarintLoop (A ++ varintGroups (fuel + 1) v ++ C) (fuel + 1) shift A.length
        = .ok (A.length + (varintGroups (fuel + 1) v).length) := by
  induction fuel with
  | zero =>
    intro v shift A C hv hs
    have h : v < 128 := by simpa using hv
    simp only [varintGroups, if_pos h]
    rw [skipVarintLoop, if_neg (by omega)]
    have hget : (A ++ [UInt8.ofNat v] ++ C)[A.length]? = some (UInt8.ofNat v) := by
      simpa using getElem?_mid A C (UInt8.ofNat v)
    rw [hget]
    have hb : (UInt8.ofNat v).toNat = v := by
      rw [u8_toNat_ofNat]; omega
    simp only [hb]
    rw [if_pos (by omega)]
    simp
  | succ fuel ih =>
    intro v shift A C hv hs
    rw [varintGroups]
    by_cases h : v < 128
    · rw [if_pos h]
      rw [skipVarintLoop, if_neg (by omega)]
      have hget : (A ++ [UInt8.ofNat v] ++ C)[A.length]? = some (UInt8.ofNat v) := by
        simpa using getElem?_mid A C (UInt8.ofNat v)
      rw [hget]
      have hb : (UInt8.ofNat v).toNat = v := by
        rw [u8_toNat_ofNat]; omega
      simp only [hb]
      rw [if_pos (by omega)]
      simp
    · rw [if_neg h]
      rw [skipVarintLoop, if_neg (by omega)]
      have hget : (A ++ UInt8.ofNat (v % 128 + 128) :: varintGroups (fuel + 1) (v / 128) ++ C)[A.length]?
          = some (UInt8.ofNat (v % 128 + 128)) := by
        simpa using getElem?_mid A (varintGroups (fuel + 1) (v / 128) ++ C)
          (UInt8.ofNat (v % 128 + 128))
      rw [hget]
      have hb : (UInt8.ofNat (v % 128 + 128)).toNat = v % 128 + 128 := by
        rw [u8_toNat_ofNat]; omega
      simp only [hb]
      rw [if_neg (by omega)]
      have := ih (v / 128) (shift + 7) (A ++ [UInt8.ofNat (v % 128 + 128)]) C (div128_lt hv)
        (by omega)
      have e1 : A ++ UInt8.ofNat (v % 128 + 128) :: varintGroups (fuel + 1) (v / 128) ++ C
          = A ++ [UInt8.ofNat (v % 128 + 128)] ++ varintGroups (fuel + 1) (v / 128) ++ C := by
        simp
      have e2 : A.length + 1 = (A ++ [UInt8.ofNat (v % 128 + 128)]).length := by simp
      rw [e1, e2, this]
      simp only [List.length_append, List.length_cons, List.length_nil]
      congr 1
      omega

theorem skipVarint_spec (v : Nat) (hv : v < 2 ^ 64) (A C : Bytes) :
    skipVarintLoop (A ++ varint v ++ C) 10 0 A.length = .ok (A.length + (varint v).length) :=
  skipVarintLoop_spec 9 v 0 A C (lt_of_lt_of_le hv (by decide)) (by decide)

theorem WireField.wireType_lt (f : WireField) : f.wireType < 8 := by
  cases f <;> simp [WireField.wireType]

theorem WireField.tag_lt {f : WireField} (h : f.Complete) : f.tag < 2 ^ 64 := by
  cases f <;> simp only [WireField.Complete] at h <;>
    simp only [WireField.tag, WireField.num, WireField.wireType] <;> omega

/-- The tag read in front of a complete field. -/
theorem tag_of_field (f : WireField) (h : f.Complete) (A C : Bytes) :
    decodeVarint (A ++ f.encode ++ C) 64 A.length
      = (f.tag, A.length + (varint f.tag).length, none) := by
  have := decodeVarint_spec 64 f.tag (WireField.tag_lt h) A (f.payload ++ C)
  rw [Nat.mod_eq_of_lt (WireField.tag_lt h)] at this
  have e1 : A ++ f.encode ++ C = A ++ varint f.tag ++ (f.payload ++ C) := by
    simp [WireField.encode]
  rw [e1]; exact this

theorem skipSchedule_spec (f : WireField) (h : f.Complete) (C : Bytes)
    (hlen : (f.encode ++ C).length < 2 ^ 63) :
    skipSchedule (f.encode ++ C) = .ok f.encode.length := by
  unfold skipSchedule
  rw [skipLoop, if_pos (by
    have := varint_length_pos f.tag
    simp only [WireField.encode, List.length_append] at hlen ⊢; omega)]
  have htag := tag_of_field f h [] C
  simp only [List.nil_append, List.length_nil, Nat.zero_add] at htag
  rw [htag]
  simp only
  have hlt : (2 : Nat) ^ 63 < 2 ^ 64 := by decide
  cases f with
  | varintField n v =>
    obtain ⟨_, hv⟩ := h
    have hw : WireField.tag (.varintField n v) &&& 0x7 = 0 := tag_wireType n 0 (by decide)
    rw [hw]
    have hs := skipVarint_spec v hv (varint (WireField.tag (.varintField n v))) C
    have e1 : (WireField.varintField n v).encode ++ C
        = varint (WireField.tag (.varintField n v)) ++ varint v ++ C := by
      simp [WireField.encode, WireField.payload]
    rw [e1] at hlen ⊢
    rw [if_pos rfl, hs]
    simp only [List.length_append] at hlen
    have h63 : ¬ ((varint (WireField.tag (.varintField n v))).length + (varint v).length
        ≥ 2 ^ 63) := by omega
    simp only [h63, if_false, if_true, WireField.encode, WireField.payload, List.length_append]
  | fixed64 n b =>
    obtain ⟨_, hb⟩ := h
    have hw : WireField.tag (.fixed64 n b) &&& 0x7 = 1 := tag_wireType n 1 (by decide)
    rw [hw]
    simp only [WireField.encode, WireField.payload, List.length_append] at hlen
    have h63 : ¬ ((varint (WireField.tag (.fixed64 n b))).length + 8 ≥ 2 ^ 63) := by omega
    rw [if_neg (by decide), if_pos rfl]
    simp only [h63, if_false, if_true, WireField.encode, WireField.payload, List.length_append, hb]
  | bytesField n b =>
    have hw : WireField.tag (.bytesField n b) &&& 0x7 = 2 := tag_wireType n 2 (by decide)
    rw [hw]
    simp only [WireField.encode, WireField.payload, List.length_append] at hlen
    have hd := decodeVarint_spec 64 b.length (by omega)
      (varint (WireField.tag (.bytesField n b))) (b ++ C)
    rw [Nat.mod_eq_of_lt (by omega)] at hd
    have e1 : (WireField.bytesField n b).encode ++ C
        = varint (WireField.tag (.bytesField n b)) ++ varint b.length ++ (b ++ C) := by
      simp [WireField.encode, WireField.payload]
    rw [e1, if_neg (by decide), if_neg (by decide), if_pos rfl, hd]
    have h63a : ¬ (b.length ≥ 2 ^ 63) := by omega
    have h63 : ¬ ((varint (WireField.tag (.bytesField n b))).length + (varint b.length).length
        + b.length ≥ 2 ^ 63) := by omega
    simp only [h63a, h63, if_false, if_true, WireField.encode, WireField.payload,
      List.length_append]
    congr 1
    omega
  | fixed32 n b =>
    obtain ⟨_, hb⟩ := h
    have hw : WireField.tag (.fixed32 n b) &&& 0x7 = 5 := tag_wireType n 5 (by decide)
    rw [hw]
    simp only [WireField.encode, WireField.payload, List.length_append] at hlen
    have h63 : ¬ ((varint (WireField.tag (.fixed32 n b))).length + 4 ≥ 2 ^ 63) := by omega
    rw [if_neg (by decide), if_neg (by decide), if_neg (by decide), if_neg (by decide),
      if_neg (by decide), if_pos rfl]
    simp only [h63, if_false, if_true, WireField.encode, WireField.payload, List.length_append, hb]

theorem skipField_spec (f : WireField) (h : f.Complete) (A C : Bytes)
    (hlen : (A ++ f.encode ++ C).length < 2 ^ 63) :
    skipField (A ++ f.encode ++ C) A.length = .ok (A.length + f.encode.length) := by
  unfold skipField
  have e1 : List.drop A.length (A ++ f.encode ++ C) = f.encode ++ C := by
    rw [List.append_assoc, List.drop_left' rfl]
  simp only [List.length_append] at hlen
  rw [e1, skipSchedule_spec f h C (by simp only [List.length_append]; omega)]
  simp only
  rw [if_neg (by omega), if_neg (by simp only [List.length_append]; omega)]

/-! ## One round of the loop on a complete field -/

theorem field_tag_wireType (f : WireField) : f.tag &&& 0x7 = f.wireType :=
  tag_wireType f.num f.wireType f.wireType_lt

theorem field_encode_pos (f : WireField) (A C : Bytes) :
    A.length < (A ++ f.encode ++ C).length := by
  have := varint_length_pos f.tag
  simp only [WireField.encode, List.length_append]; omega

/-- The bytes read behind the tag of a length-delimited field. -/
theorem string_of_bytesField (n : Nat) (b A C : Bytes)
    (hlen : (A ++ (WireField.bytesField n b).encode ++ C).length < 2 ^ 63) :
    readString (A ++ (WireField.bytesField n b).encode ++ C)
        (A.length + (varint (WireField.bytesField n b).tag).length)
      = .ok (b, A.length + (WireField.bytesField n b).encode.length) := by
  have e1 : A ++ (WireField.bytesField n b).encode ++ C
      = A ++ varint (WireField.bytesField n b).tag ++ varint b.length ++ b ++ C := by
    simp [WireField.encode, WireField.payload]
  have := readString_spec b (A ++ varint (WireField.bytesField n b).tag) C
    (by rw [← e1]; exact hlen)
  rw [e1]
  simp only [List.length_append] at this
  rw [this]
  simp only [WireField.encode, WireField.payload, List.length_append]
  congr 2
  omega

/-- The value read behind the tag of a varint field. -/
theorem value_of_varintField (n v : Nat) (hv : v < 2 ^ 64) (A C : Bytes) :
    decodeVarint (A ++ (WireField.varintField n v).encode ++ C) 64
        (A.length + (varint (WireField.varintField n v).tag).length)
      = (v, A.length + (WireField.varintField n v).encode.length, none) := by
  have e1 : A ++ (WireField.varintField n v).encode ++ C
      = A ++ varint (WireField.varintField n v).tag ++ varint v ++ C := by
    simp [WireField.encode, WireField.payload]
  have := decodeVarint_spec 64 v hv (A ++ varint (WireField.varintField n v).tag) C
  rw [Nat.mod_eq_of_lt hv] at this
  rw [e1]
  simp only [List.length_append] at this
  rw [this]
  simp only [WireField.encode, WireField.payload, List.length_append]
  congr 2
  omega

/-- A field whose number is none of the four known ones is skipped. -/
theorem Schedule.round_skip (f : WireField) (h : f.Complete) (F : Int)
    (hF : int32OfBits ((f.tag >>> 3) % 2 ^ 32) = F) (h0 : ¬ F ≤ 0) (h1 : F ≠ 1) (h2 : F ≠ 2)
    (h3 : F ≠ 3) (h4 : F ≠ 4) (A C : Bytes) (m : Schedule) (fuel : Nat)
    (hlen : (A ++ f.encode ++ C).length < 2 ^ 63) :
    Schedule.unmarshalLoop (A ++ f.encode ++ C) (fuel + 1) A.length m
      = Schedule.unmarshalLoop (A ++ f.encode ++ C) fuel (A.length + f.encode.length) m := by
  rw [Schedule.unmarshalLoop, if_pos (field_encode_pos f A C)]
  simp only [tag_of_field f h A C]
  have hw4 : f.wireType ≠ 4 := by cases f <;> simp [WireField.wireType]
  rw [hF, field_tag_wireType, if_neg hw4, if_neg h0, if_neg h1, if_neg h2, if_neg h3, if_neg h4,
    skipField_spec f h A C hlen]

/-- A field with a number that is not positive as an int32 is an error. -/
theorem Schedule.round_illegal (f : WireField) (h : f.Complete) (F : Int)
    (hF : int32OfBits ((f.tag >>> 3) % 2 ^ 32) = F) (h0 : F ≤ 0) (A C : Bytes) (m : Schedule)
    (fuel : Nat) :
    Schedule.unmarshalLoop (A ++ f.encode ++ C) (fuel + 1) A.length m
      = (m, some (.illegalTag .Schedule F f.tag)) := by
  rw [Schedule.unmarshalLoop, if_pos (field_encode_pos f A C)]
  simp only [tag_of_field f h A C]
  have hw4 : f.wireType ≠ 4 := by cases f <;> simp [WireField.wireType]
  rw [hF, field_tag_wireType, if_neg hw4, if_pos h0]

/-- One round of the loop on a length-delimited field numbered as Name. -/
theorem Schedule.round_name (n : Nat) (b : Bytes) (h : (WireField.bytesField n b).Complete)
    (hF : int32OfBits (((WireField.bytesField n b).tag >>> 3) % 2 ^ 32) = 1) (A C : Bytes)
    (m : Schedule) (fuel : Nat)
    (hlen : (A ++ (WireField.bytesField n b).encode ++ C).length < 2 ^ 63) :
    Schedule.unmarshalLoop (A ++ (WireField.bytesField n b).encode ++ C) (fuel + 1) A.length m
      = Schedule.unmarshalLoop (A ++ (WireField.bytesField n b).encode ++ C) fuel
          (A.length + (WireField.bytesField n b).encode.length) { m with Name := b } := by
  rw [Schedule.unmarshalLoop, if_pos (field_encode_pos _ A C)]
  simp only [tag_of_field _ h A C]
  have hw : (WireField.bytesField n b).wireType = 2 := rfl
  rw [hF, field_tag_wireType, hw, if_neg (by decide), if_neg (by decide), if_pos rfl,
    if_neg (by decide), string_of_bytesField n b A C hlen]

/-- A Name field with another wire type is an error. -/
theorem Schedule.round_name_wrong (f : WireField) (h : f.Complete)
    (hF : int32OfBits ((f.tag >>> 3) % 2 ^ 32) = 1) (hw : f.wireType ≠ 2) (A C : Bytes)
    (m : Schedule) (fuel : Nat) :
    Schedule.unmarshalLoop (A ++ f.encode ++ C) (fuel + 1) A.length m
      = (m, some (.wrongWireType f.wireType .Name)) := by
  rw [Schedule.unmarshalLoop, if_pos (field_encode_pos f A C)]
  simp only [tag_of_field f h A C]
  have hw4 : f.wireType ≠ 4 := by cases f <;> simp [WireField.wireType]
  rw [hF, field_tag_wireType, if_neg hw4, if_neg (by decide), if_pos rfl, if_pos hw]

/-- One round of the loop on a varint field numbered as Period. -/
theorem Schedule.round_period (n v : Nat) (h : (WireField.varintField n v).Complete)
    (hF : int32OfBits (((WireField.varintField n v).tag >>> 3) % 2 ^ 32) = 2) (A C : Bytes)
    (m : Schedule) (fuel : Nat) :
    Schedule.unmarshalLoop (A ++ (WireField.varintField n v).encode ++ C) (fuel + 1) A.length m
      = Schedule.unmarshalLoop (A ++ (WireField.varintField n v).encode ++ C) fuel
          (A.length + (WireField.varintField n v).encode.length) { m with Period := v } := by
  rw [Schedule.unmarshalLoop, if_pos (field_encode_pos _ A C)]
  simp only [tag_of_field _ h A C]
  have hw : (WireField.varintField n v).wireType = 0 := rfl
  rw [hF, field_tag_wireType, hw, if_neg (by decide), if_neg (by decide), if_neg (by decide), if_pos rfl,
    if_neg (by decide), value_of_varintField n v h.2 A C]

/-- A Period field with another wire type is an error. -/
theorem Schedule.round_period_wrong (f : WireField) (h : f.Complete)
    (hF : int32OfBits ((f.tag >>> 3) % 2 ^ 32) = 2) (hw : f.wireType ≠ 0) (A C : Bytes)
    (m : Schedule) (fuel : Nat) :
    Schedule.unmarshalLoop (A ++ f.encode ++ C) (fuel + 1) A.length m
      = (m, some (.wrongWireType f.wireType .Period)) := by
  rw [Schedule.unmarshalLoop, if_pos (field_encode_pos f A C)]
  simp only [tag_of_field f h A C]
  have hw4 : f.wireType ≠ 4 := by cases f <;> simp [WireField.wireType]
  rw [hF, field_tag_wireType, if_neg hw4, if_neg (by decide), if_neg (by decide), if_pos rfl, if_pos hw]

/-- A Msgs field with another wire type is an error. -/
theorem Schedule.round_msgs_wrong (f : WireField) (h : f.Complete)
    (hF : int32OfBits ((f.tag >>> 3) % 2 ^ 32) = 3) (hw : f.wireType ≠ 2) (A C : Bytes)
    (m : Schedule) (fuel : Nat) :
    Schedule.unmarshalLoop (A ++ f.encode ++ C) (fuel + 1) A.length m
      = (m, some (.wrongWireType f.wireType .Msgs)) := by
  rw [Schedule.unmarshalLoop, if_pos (field_encode_pos f A C)]
  simp only [tag_of_field f h A C]
  have hw4 : f.wireType ≠ 4 := by cases f <;> simp [WireField.wireType]
  rw [hF, field_tag_wireType, if_neg hw4, if_neg (by decide), if_neg (by decide), if_neg (by decide), if_pos rfl, if_pos hw]

/-- One round of the loop on a varint field numbered as LastExecuteHeight. -/
theorem Schedule.round_height (n v : Nat) (h : (WireField.varintField n v).Complete)
    (hF : int32OfBits (((WireField.varintField n v).tag >>> 3) % 2 ^ 32) = 4) (A C : Bytes)
    (m : Schedule) (fuel : Nat) :
    Schedule.unmarshalLoop (A ++ (WireField.varintField n v).encode ++ C) (fuel + 1) A.length m
      = Schedule.unmarshalLoop (A ++ (WireField.varintField n v).encode ++ C) fuel
          (A.length + (WireField.varintField n v).encode.length) { m with LastExecuteHeight := v } := by
  rw [Schedule.unmarshalLoop, if_pos (field_encode_pos _ A C)]
  simp only [tag_of_field _ h A C]
  have hw : (WireField.varintField n v).wireType = 0 := rfl
  rw [hF, field_tag_wireType, hw, if_neg (by decide), if_neg (by decide), if_neg (by decide), if_neg (by decide), if_neg (by decide), if_pos rfl,
    if_neg (by decide), value_of_varintField n v h.2 A C]

/-- A LastExecuteHeight field with another wire type is an error. -/
theorem Schedule.round_height_wrong (f : WireField) (h : f.Complete)
    (hF : int32OfBits ((f.tag >>> 3) % 2 ^ 32) = 4) (hw : f.wireType ≠ 0) (A C : Bytes)
    (m : Schedule) (fuel : Nat) :
    Schedule.unmarshalLoop (A ++ f.encode ++ C) (fuel + 1) A.length m
      = (m, some (.wrongWireType f.wireType .LastExecuteHeight)) := by
  rw [Schedule.unmarshalLoop, if_pos (field_encode_pos f A C)]
  simp only [tag_of_field f h A C]
  have hw4 : f.wireType ≠ 4 := by cases f <;> simp [WireField.wireType]
  rw [hF, field_tag_wireType, if_neg hw4, if_neg (by decide), if_neg (by decide), if_neg (by decide), if_neg (by decide), if_pos rfl, if_pos hw]

/-- One round of the loop on a length-delimited field numbered as Msgs: the bytes are
decoded as a MsgExecuteContract, which is appended whether or not its decoding fails. -/
theorem Schedule.round_msgs (n : Nat) (b : Bytes) (h : (WireField.bytesField n b).Complete)
    (hF : int32OfBits (((WireField.bytesField n b).tag >>> 3) % 2 ^ 32) = 3) (A C : Bytes)
    (m : Schedule) (fuel : Nat)
    (hlen : (A ++ (WireField.bytesField n b).encode ++ C).length < 2 ^ 63) :
    Schedule.unmarshalLoop (A ++ (WireField.bytesField n b).encode ++ C) (fuel + 1) A.length m
      = if (MsgExecuteContract.Unmarshal ⟨[], []⟩ b).2.isNone then
          Schedule.unmarshalLoop (A ++ (WireField.bytesField n b).encode ++ C) fuel
            (A.length + (WireField.bytesField n b).encode.length)
            { m with Msgs := m.Msgs ++ [(MsgExecuteContract.Unmarshal ⟨[], []⟩ b).1] }
        else ({ m with Msgs := m.Msgs ++ [(MsgExecuteContract.Unmarshal ⟨[], []⟩ b).1] },
          (MsgExecuteContract.Unmarshal ⟨[], []⟩ b).2) := by
  rw [Schedule.unmarshalLoop, if_pos (field_encode_pos _ A C)]
  simp only [tag_of_field _ h A C]
  have hw : (WireField.bytesField n b).wireType = 2 := rfl
  rw [hF, field_tag_wireType, hw, if_neg (by decide), if_neg (by decide), if_neg (by decide),
    if_neg (by decide), if_pos rfl, if_neg (by decide)]
  have hlt : (2 : Nat) ^ 63 < 2 ^ 64 := by decide
  have e1 : A ++ (WireField.bytesField n b).encode ++ C
      = A ++ varint (WireField.bytesField n b).tag ++ varint b.length ++ (b ++ C) := by
    simp [WireField.encode, WireField.payload]
  have hl : (A ++ (WireField.bytesField n b).encode ++ C).length
      = A.length + (varint (WireField.bytesField n b).tag).length + (varint b.length).length
        + b.length + C.length := by
    rw [e1]; simp only [List.length_append]; omega
  have hel : (WireField.bytesField n b).encode.length
      = (varint (WireField.bytesField n b).tag).length + (varint b.length).length + b.length := by
    simp only [WireField.encode, WireField.payload, List.length_append]; omega
  have hval : decodeVarint (A ++ (WireField.bytesField n b).encode ++ C) 64
        (A.length + (varint (WireField.bytesField n b).tag).length)
      = (b.length, A.length + (varint (WireField.bytesField n b).tag).length
          + (varint b.length).length, none) := by
    have := decodeVarint_spec 64 b.length (by omega)
      (A ++ varint (WireField.bytesField n b).tag) (b ++ C)
    rw [Nat.mod_eq_of_lt (by omega)] at this
    simp only [List.length_append] at this
    rw [e1]; exact this
  have hslice : slice (A ++ (WireField.bytesField n b).encode ++ C)
      (A.length + (varint (WireField.bytesField n b).tag).length + (varint b.length).length)
      (A.length + (varint (WireField.bytesField n b).tag).length + (varint b.length).length
        + b.length) = b := by
    have := slice_mid (A ++ varint (WireField.bytesField n b).tag ++ varint b.length) b C
    have e2 : A ++ varint (WireField.bytesField n b).tag ++ varint b.length ++ b ++ C
        = A ++ (WireField.bytesField n b).encode ++ C := by
      rw [e1]; simp
    simp only [List.length_append] at this
    rw [e2] at this
    exact this
  rw [hval]
  simp only
  rw [if_neg (by omega), if_neg (by omega), if_neg (by omega), hslice]
  have hidx : A.length + (varint (WireField.bytesField n b).tag).length + (varint b.length).length
      + b.length = A.length + (WireField.bytesField n b).encode.length := by omega
  rw [hidx]
  rcases hr : MsgExecuteContract.Unmarshal ⟨[], []⟩ b with ⟨e, err⟩
  cases err with
  | none => simp
  | some err => simp

/-- One round of the loop on a complete field: either an error, or the field is consumed;
which of the two, and the receiver left, do not depend on the bytes around the field. -/
theorem Schedule.round_field (f : WireField) (h : f.Complete) :
    ∃ eff : Schedule → Schedule × Option ProtoError,
      ∀ (A C : Bytes) (m : Schedule) (fuel : Nat), (A ++ f.encode ++ C).length < 2 ^ 63 →
        Schedule.unmarshalLoop (A ++ f.encode ++ C) (fuel + 1) A.length m
          = if (eff m).2.isNone then
              Schedule.unmarshalLoop (A ++ f.encode ++ C) fuel (A.length + f.encode.length)
                (eff m).1
            else eff m := by
  obtain ⟨F, hF⟩ : ∃ F, int32OfBits ((f.tag >>> 3) % 2 ^ 32) = F := ⟨_, rfl⟩
  by_cases h0 : F ≤ 0
  · exact ⟨fun m => (m, some (.illegalTag .Schedule F f.tag)), fun A C m fuel _ => by
      rw [Schedule.round_illegal f h F hF h0]; rfl⟩
  by_cases h1 : F = 1
  · subst h1
    by_cases hw : f.wireType = 2
    · cases f with
      | bytesField n b =>
        exact ⟨fun m => ({ m with Name := b }, none), fun A C m fuel hlen => by
          rw [Schedule.round_name n b h hF A C m fuel hlen]; rfl⟩
      | varintField n v => exact absurd hw (by simp [WireField.wireType])
      | fixed64 n b => exact absurd hw (by simp [WireField.wireType])
      | fixed32 n b => exact absurd hw (by simp [WireField.wireType])
    · exact ⟨fun m => (m, some (.wrongWireType f.wireType .Name)), fun A C m fuel _ => by
        rw [Schedule.round_name_wrong f h hF hw]; rfl⟩
  by_cases h2 : F = 2
  · subst h2
    by_cases hw : f.wireType = 0
    · cases f with
      | varintField n v =>
        exact ⟨fun m => ({ m with Period := v }, none), fun A C m fuel _ => by
          rw [Schedule.round_period n v h hF A C m fuel]; rfl⟩
      | bytesField n b => exact absurd hw (by simp [WireField.wireType])
      | fixed64 n b => exact absurd hw (by simp [WireField.wireType])
      | fixed32 n b => exact absurd hw (by simp [WireField.wireType])
    · exact ⟨fun m => (m, some (.wrongWireType f.wireType .Period)), fun A C m fuel _ => by
        rw [Schedule.round_period_wrong f h hF hw]; rfl⟩
  by_cases h3 : F = 3
  · subst h3
    by_cases hw : f.wireType = 2
    · cases f with
      | bytesField n b =>
        exact ⟨fun m => ({ m with Msgs := m.Msgs ++ [(MsgExecuteContract.Unmarshal ⟨[], []⟩ b).1] },
            (MsgExecuteContract.Unmarshal ⟨[], []⟩ b).2), fun A C m fuel hlen => by
          rw [Schedule.round_msgs n b h hF A C m fuel hlen]⟩
      | varintField n v => exact absurd hw (by simp [WireField.wireType])
      | fixed64 n b => exact absurd hw (by simp [WireField.wireType])
      | fixed32 n b => exact absurd hw (by simp [WireField.wireType])
    · exact ⟨fun m => (m, some (.wrongWireType f.wireType .Msgs)), fun A C m fuel _ => by
        rw [Schedule.round_msgs_wrong f h hF hw]; rfl⟩
  by_cases h4 : F = 4
  · subst h4
    by_cases hw : f.wireType = 0
    · cases f with
      | varintField n v =>
        exact ⟨fun m => ({ m with LastExecuteHeight := v }, none), fun A C m fuel _ => by
          rw [Schedule.round_height n v h hF A C m fuel]; rfl⟩
      | bytesField n b => exact absurd hw (by simp [WireField.wireType])
      | fixed64 n b => exact absurd hw (by simp [WireField.wireType])
      | fixed32 n b => exact absurd hw (by simp [WireField.wireType])
    · exact ⟨fun m => (m, some (.wrongWireType f.wireType .LastExecuteHeight)),
        fun A C m fuel _ => by rw [Schedule.round_height_wrong f h hF hw]; rfl⟩
  exact ⟨fun m => (m, none), fun A C m fuel hlen => by
    rw [Schedule.round_skip f h F hF h0 h1 h2 h3 h4 A C m fuel hlen]; rfl⟩

/-- All fields of a list are complete. -/
theorem encodeFields_append (fs gs : List WireField) :
    encodeFields (fs ++ gs) = encodeFields fs ++ encodeFields gs := by
  induction fs with
  | nil => rfl
  | cons f fs ih => simp [encodeFields, ih]

theorem field_encode_length_pos (f : WireField) : 1 ≤ f.encode.length := by
  have := varint_length_pos f.tag
  simp only [WireField.encode, List.length_append]; omega

/-- The loop on a concatenation of complete fields, with enough rounds left: either an
error, or the fields are consumed; which of the two, and the receiver left, do not depend
on the bytes around the fields. -/
theorem Schedule.loop_fields (fs : List WireField) (h : ∀ f ∈ fs, f.Complete) :
    ∃ eff : Schedule → Schedule × Option ProtoError,
      ∀ (A C : Bytes) (m : Schedule) (fuel : Nat),
        (A ++ encodeFields fs ++ C).length < 2 ^ 63 →
        (A ++ encodeFields fs ++ C).length - A.length ≤ fuel →
        ∃ fuel1, (A ++ encodeFields fs ++ C).length - (A.length + (encodeFields fs).length)
            ≤ fuel1 ∧
          Schedule.unmarshalLoop (A ++ encodeFields fs ++ C) fuel A.length m
            = if (eff m).2.isNone then
                Schedule.unmarshalLoop (A ++ encodeFields fs ++ C) fuel1
                  (A.length + (encodeFields fs).length) (eff m).1
              else eff m := by
  induction fs with
  | nil =>
    refine ⟨fun m => (m, none), fun A C m fuel _ hfuel => ⟨fuel, ?_, ?_⟩⟩
    · simpa [encodeFields] using hfuel
    · simp [encodeFields]
  | cons f fs ih =>
    obtain ⟨eff1, h1⟩ := Schedule.round_field f (h f (List.mem_cons_self _ _))
    obtain ⟨eff2, h2⟩ := ih (fun g hg => h g (List.mem_cons_of_mem _ hg))
    refine ⟨fun m => if (eff1 m).2.isNone then eff2 (eff1 m).1 else eff1 m, ?_⟩
    intro A C m fuel hlen hfuel
    have hD1 : A ++ encodeFields (f :: fs) ++ C = A ++ f.encode ++ (encodeFields fs ++ C) := by
      simp [encodeFields]
    have hD2 : A ++ encodeFields (f :: fs) ++ C = (A ++ f.encode) ++ encodeFields fs ++ C := by
      simp [encodeFields]
    have hpos := field_encode_length_pos f
    have hl : (A ++ encodeFields (f :: fs) ++ C).length
        = A.length + f.encode.length + (encodeFields fs).length + C.length := by
      simp only [encodeFields, List.length_append]; omega
    have hl2 : (encodeFields (f :: fs)).length = f.encode.length + (encodeFields fs).length := by
      simp only [encodeFields, List.length_append]
    cases fuel with
    | zero => omega
    | succ fuel =>
      have s1 := h1 A (encodeFields fs ++ C) m fuel (by rw [← hD1]; exact hlen)
      rw [← hD1] at s1
      obtain ⟨fuel1, hf1, s2⟩ := h2 (A ++ f.encode) C (eff1 m).1 fuel (by rw [← hD2]; exact hlen)
        (by rw [← hD2, hl]; simp only [List.length_append]; omega)
      rw [← hD2] at s2 hf1
      simp only [List.length_append] at s2 hf1
      refine ⟨fuel1, by rw [hl2]; omega, ?_⟩
      rw [s1]
      by_cases he : (eff1 m).2.isNone
      · rw [if_pos he, s2]
        simp only [he, if_true]
        rw [hl2, Nat.add_assoc]
      · simp only [if_neg he]

/-- The field number the decoder computes for a field numbered below 2^29. -/
theorem fieldNum_of_field (f : WireField) (h29 : f.num < 2 ^ 29) :
    int32OfBits ((f.tag >>> 3) % 2 ^ 32) = (f.num : Int) := by
  have h1 : f.tag >>> 3 = f.num := tag_fieldNum f.num f.wireType f.wireType_lt
  have h2 : (2 : Nat) ^ 29 < 2 ^ 31 := by decide
  have h3 : (2 : Nat) ^ 31 < 2 ^ 32 := by decide
  rw [h1, Nat.mod_eq_of_lt (by omega)]
  unfold int32OfBits
  rw [if_pos (by omega)]

/-- One round of the loop on a complete field numbered 5 or more: the field is skipped. -/
theorem Schedule.round_unknown (u : WireField) (hu : u.Complete) (h5 : 5 ≤ u.num)
    (h29 : u.num < 2 ^ 29) (A C : Bytes) (m : Schedule) (fuel : Nat)
    (hlen : (A ++ u.encode ++ C).length < 2 ^ 63) :
    Schedule.unmarshalLoop (A ++ u.encode ++ C) (fuel + 1) A.length m
      = Schedule.unmarshalLoop (A ++ u.encode ++ C) fuel (A.length + u.encode.length) m :=
  Schedule.round_skip u hu (u.num : Int) (fieldNum_of_field u h29) (by omega) (by omega)
    (by omega) (by omega) (by omega) A C m fuel hlen

/-- The loop on a concatenation of complete fields that ends the input. -/
theorem Schedule.loop_fields_to_end (fs : List WireField) (h : ∀ f ∈ fs, f.Complete) :
    ∃ eff : Schedule → Schedule × Option ProtoError,
      ∀ (A : Bytes) (m : Schedule) (fuel : Nat),
        (A ++ encodeFields fs).length < 2 ^ 63 →
        (A ++ encodeFields fs).length - A.length ≤ fuel →
        Schedule.unmarshalLoop (A ++ encodeFields fs) fuel A.length m
          = if (eff m).2.isNone then ((eff m).1, none) else eff m := by
  obtain ⟨eff, he⟩ := Schedule.loop_fields fs h
  refine ⟨eff, fun A m fuel hlen hfuel => ?_⟩
  have e1 : A ++ encodeFields fs ++ [] = A ++ encodeFields fs := by simp
  obtain ⟨fuel1, _, hs⟩ := he A [] m fuel (by rw [e1]; exact hlen) (by rw [e1]; exact hfuel)
  rw [e1] at hs
  rw [hs]
  have e2 : A.length + (encodeFields fs).length = (A ++ encodeFields fs).length := by simp
  rw [e2, Schedule.scheduleLoop_end]

/-! ## Fields the decoder does not know -/

/-- C13: unknown fields are skipped without effect. For all byte strings x and y that are
concatenations of complete encoded fields (any field number, wire type 0, 1, 2 or 5), and
every complete encoding u of a field whose number is in 5..2^29-1 with wire type 0, 1, 2
or 5, Schedule.Unmarshal of x ++ u ++ y into a zero value returns what
Schedule.Unmarshal of x ++ y returns: the same error result, nil or not, and the same
Schedule. The input is a Go slice, shorter than 2^63 bytes. -/
theorem C13_unknown_fields_skipped (xs ys : List WireField) (u : WireField)
    (hx : ∀ f ∈ xs, f.Complete) (hy : ∀ f ∈ ys, f.Complete) (hu : u.Complete)
    (h5 : 5 ≤ u.num) (h29 : u.num < 2 ^ 29)
    (hlen : (encodeFields xs ++ u.encode ++ encodeFields ys).length < 2 ^ 63) :
    Schedule.Unmarshal ⟨[], 0, [], 0⟩ (encodeFields xs ++ u.encode ++ encodeFields ys)
      = Schedule.Unmarshal ⟨[], 0, [], 0⟩ (encodeFields xs ++ encodeFields ys) := by
  obtain ⟨effX, hX⟩ := Schedule.loop_fields xs hx
  obtain ⟨effY, hY⟩ := Schedule.loop_fields_to_end ys hy
  have hupos := field_encode_length_pos u
  have hl1 : (encodeFields xs ++ u.encode ++ encodeFields ys).length
      = (encodeFields xs).length + u.encode.length + (encodeFields ys).length := by
    simp only [List.length_append]
  have hl2 : (encodeFields xs ++ encodeFields ys).length
      = (encodeFields xs).length + (encodeFields ys).length := by
    simp only [List.length_append]
  unfold Schedule.Unmarshal
  -- the input with u
  have a1 : [] ++ encodeFields xs ++ (u.encode ++ encodeFields ys)
      = encodeFields xs ++ u.encode ++ encodeFields ys := by simp
  obtain ⟨f1, hf1, s1⟩ := hX [] (u.encode ++ encodeFields ys) ⟨[], 0, [], 0⟩
    (encodeFields xs ++ u.encode ++ encodeFields ys).length (by rw [a1]; exact hlen)
    (by rw [a1]; simp)
  rw [a1] at s1 hf1
  simp only [List.length_nil, Nat.zero_add] at s1 hf1
  -- the input without u
  have b1 : [] ++ encodeFields xs ++ encodeFields ys = encodeFields xs ++ encodeFields ys := by
    simp
  obtain ⟨g1, hg1, t1⟩ := hX [] (encodeFields ys) ⟨[], 0, [], 0⟩
    (encodeFields xs ++ encodeFields ys).length (by rw [b1, hl2]; omega) (by rw [b1]; simp)
  rw [b1] at t1 hg1
  simp only [List.length_nil, Nat.zero_add] at t1 hg1
  rw [s1, t1]
  by_cases he : (effX ⟨[], 0, [], 0⟩).2.isNone
  · rw [if_pos he, if_pos he]
    cases f1 with
    | zero => omega
    | succ f1 =>
      rw [Schedule.round_unknown u hu h5 h29 (encodeFields xs) (encodeFields ys) _ f1 hlen]
      have a2 : (encodeFields xs).length + u.encode.length
          = (encodeFields xs ++ u.encode).length := by simp
      rw [a2, hY (encodeFields xs ++ u.encode) _ f1 hlen
        (by simp only [List.length_append] at hf1 ⊢; omega),
        hY (encodeFields xs) _ g1 (by rw [hl2]; omega) (by rw [hl2] at hg1 ⊢; omega)]
  · rw [if_neg he, if_neg he]

/-- C13 witness: a Name and a Period in front, an unknown length-delimited field numbered
7, and a LastExecuteHeight behind. -/
theorem C13_unknown_fields_skipped_witness :
    Schedule.Unmarshal ⟨[], 0, [], 0⟩
        (encodeFields [.bytesField 1 [110], .varintField 2 300]
          ++ (WireField.bytesField 7 [1, 2, 3]).encode ++ encodeFields [.varintField 4 9])
      = Schedule.Unmarshal ⟨[], 0, [], 0⟩
        (encodeFields [.bytesField 1 [110], .varintField 2 300]
          ++ encodeFields [.varintField 4 9]) :=
  C13_unknown_fields_skipped [.bytesField 1 [110], .varintField 2 300] [.varintField 4 9]
    (.bytesField 7 [1, 2, 3]) (by decide) (by decide) (by decide) (by decide) (by decide)
    (by decide)

/-! ## Numbers on a fixed number of bytes -/

theorem bigEndian_length (w : Nat) : ∀ n, (bigEndian w n).length = w := by
  induction w with
  | zero => intro n; rfl
  | succ w ih => intro n; simp [bigEndian, ih]

theorem fromBigEndian_foldl (d : Bytes) : ∀ acc : Nat,
    d.foldl (fun acc b => acc * 256 + b.toNat) acc = acc * 256 ^ d.length + fromBigEndian d := by
  induction d with
  | nil => intro acc; simp [fromBigEndian]
  | cons b d ih =>
    intro acc
    simp only [fromBigEndian, List.foldl_cons, List.length_cons]
    rw [ih (acc * 256 + b.toNat), ih (0 * 256 + b.toNat)]
    ring

theorem fromBigEndian_cons (b : UInt8) (d : Bytes) :
    fromBigEndian (b :: d) = b.toNat * 256 ^ d.length + fromBigEndian d := by
  have := fromBigEndian_foldl d (0 * 256 + b.toNat)
  simp only [fromBigEndian, List.foldl_cons] at this ⊢
  rw [this]
  simp

theorem fromBigEndian_bigEndian (w : Nat) : ∀ n, n < 256 ^ w →
    fromBigEndian (bigEndian w n) = n := by
  induction w with
  | zero => intro n hn; simp at hn; subst hn; rfl
  | succ w ih =>
    intro n hn
    have hpos : 0 < 256 ^ w := Nat.pow_pos (by decide)
    have hq : n / 256 ^ w < 256 := by
      rw [Nat.div_lt_iff_lt_mul hpos]
      rw [Nat.pow_succ] at hn
      omega
    rw [bigEndian, fromBigEndian_cons, bigEndian_length, ih _ (Nat.mod_lt _ hpos),
      u8_toNat_ofNat, Nat.mod_eq_of_lt hq]
    exact Nat.div_add_mod' n (256 ^ w)

theorem readBigEndian_append (w n : Nat) (hn : n < 256 ^ w) (r : Bytes) :
    readBigEndian w (bigEndian w n ++ r) = some (n, r) := by
  unfold readBigEndian
  have hl := bigEndian_length w n
  rw [if_neg (by simp only [List.length_append]; omega), List.take_left' hl, List.drop_left' hl,
    fromBigEndian_bigEndian w n hn]

theorem readDenom_append (t : Bytes) (ht : t.length < 2 ^ 64) (r : Bytes) :
    readDenom (encodeDenom t ++ r) = some (t, r) := by
  unfold readDenom encodeDenom
  rw [List.append_assoc, readBigEndian_append 8 t.length (by
    have : (256 : Nat) ^ 8 = 2 ^ 64 := by decide
    omega)]
  simp only
  rw [if_neg (by simp only [List.length_append]; omega), List.take_left' rfl, List.drop_left' rfl]

/-! ## The byte order on strings with a common part -/

theorem bytesLt_cons_self (b : UInt8) (x y : Bytes) : bytesLt (b :: x) (b :: y) = bytesLt x y := by
  simp [bytesLt]

theorem bytesLt_append_left (p x y : Bytes) : bytesLt (p ++ x) (p ++ y) = bytesLt x y := by
  induction p with
  | nil => rfl
  | cons b p ih => rw [List.cons_append, List.cons_append, bytesLt_cons_self, ih]

/-- Strings of equal length decide the order of what they start. -/
theorem bytesLt_append_of_lt : ∀ (x y r1 r2 : Bytes), x.length = y.length →
    bytesLt x y = true → bytesLt (x ++ r1) (y ++ r2) = true := by
  intro x
  induction x with
  | nil =>
    intro y r1 r2 hl h
    cases y with
    | nil => simp [bytesLt] at h
    | cons b y => simp at hl
  | cons a x ih =>
    intro y r1 r2 hl h
    cases y with
    | nil => simp at hl
    | cons b y =>
      simp only [List.cons_append, bytesLt] at h ⊢
      by_cases h1 : a.toNat < b.toNat
      · simp [h1]
      · by_cases h2 : b.toNat < a.toNat
        · simp [h1, h2] at h
        · simp only [h1, h2, if_false] at h ⊢
          exact ih y r1 r2 (by simpa using hl) h

/-- The byte order of numbers on w bytes is their numeric order. -/
theorem bytesLt_bigEndian (w : Nat) : ∀ a b, a < b → b < 256 ^ w →
    bytesLt (bigEndian w a) (bigEndian w b) = true := by
  induction w with
  | zero => intro a b hab hb; simp at hb; omega
  | succ w ih =>
    intro a b hab hb
    have hpos : 0 < 256 ^ w := Nat.pow_pos (by decide)
    have hqb : b / 256 ^ w < 256 := by
      rw [Nat.div_lt_iff_lt_mul hpos]
      rw [Nat.pow_succ] at hb
      omega
    have hle : a / 256 ^ w ≤ b / 256 ^ w := Nat.div_le_div_right (by omega)
    simp only [bigEndian, bytesLt, u8_toNat_ofNat]
    have hma : a / 256 ^ w % 256 = a / 256 ^ w := Nat.mod_eq_of_lt (by omega)
    have hmb : b / 256 ^ w % 256 = b / 256 ^ w := Nat.mod_eq_of_lt hqb
    simp only [hma, hmb]
    by_cases h1 : a / 256 ^ w < b / 256 ^ w
    · simp [h1]
    · have heq : a / 256 ^ w = b / 256 ^ w := by omega
      have h2 : ¬ b / 256 ^ w < a / 256 ^ w := by omega
      simp only [h1, h2, if_false]
      apply ih _ _ _ (Nat.mod_lt _ hpos)
      have ha := Nat.div_add_mod a (256 ^ w)
      have hb' := Nat.div_add_mod b (256 ^ w)
      rw [heq] at ha
      omega

theorem bigEndian_injective (w : Nat) (a b : Nat) (ha : a < 256 ^ w) (hb : b < 256 ^ w)
    (h : bigEndian w a = bigEndian w b) : a = b := by
  rw [← fromBigEndian_bigEndian w a ha, ← fromBigEndian_bigEndian w b hb, h]

/-! ## The tick key scheme -/

theorem tickOffset_lt (cfg : TickBounds) (s : Side) (t : Int) (h1 : cfg.minTick ≤ t)
    (h2 : t ≤ cfg.maxTick) (h3 : cfg.maxTick - cfg.minTick < 2 ^ 64) :
    tickOffset cfg s t < 256 ^ 8 ∧ ((tickOffset cfg s t : Nat) : Int) ≤ cfg.maxTick - cfg.minTick := by
  have e : (256 : Nat) ^ 8 = 2 ^ 64 := by decide
  cases s <;> simp only [tickOffset] <;> omega

theorem tickOfOffset_tickOffset (cfg : TickBounds) (s : Side) (t : Int) (h1 : cfg.minTick ≤ t)
    (h2 : t ≤ cfg.maxTick) : tickOfOffset cfg s (tickOffset cfg s t) = t := by
  cases s <;> simp only [tickOffset, tickOfOffset] <;> omega

theorem tickOffset_lt_of_precedes (cfg : TickBounds) (s : Side) (t1 t2 : Int)
    (h1 : cfg.minTick ≤ t1) (h2 : t1 ≤ cfg.maxTick) (h3 : cfg.minTick ≤ t2)
    (h4 : t2 ≤ cfg.maxTick) (h : s.precedes t1 t2) :
    tickOffset cfg s t1 < tickOffset cfg s t2 := by
  cases s <;> simp only [tickOffset, Side.precedes] at h ⊢ <;> omega

theorem kind_decode_encode (kind : LiquidityKind)
    (h : match kind with
      | .pooled => True
      | .tranche seq => seq < 2 ^ 64) :
    LiquidityKind.decode kind.encode = .ok kind := by
  cases kind with
  | pooled => rfl
  | tranche seq =>
    simp only at h
    have e : (256 : Nat) ^ 8 = 2 ^ 64 := by decide
    have := readBigEndian_append 8 seq (by omega) []
    rw [List.append_nil] at this
    simp [LiquidityKind.encode, LiquidityKind.decode, this]

/-- Decoding the key of a valid TickLiquidityKey gives it back. -/
theorem keyUnmarshal_keyMarshal (cfg : TickBounds) (k : TickLiquidityKey) (h : k.Valid cfg) :
    KeyUnmarshal cfg (k.KeyMarshal cfg) = .ok k := by
  obtain ⟨h1, h2, h3, h4, h5, h6, h7⟩ := h
  have e : (256 : Nat) ^ 8 = 2 ^ 64 := by decide
  obtain ⟨ho, ho2⟩ := tickOffset_lt cfg k.side k.tick h1 h2 h3
  unfold KeyUnmarshal TickLiquidityKey.KeyMarshal
  have hp : ¬ (k.side.keyPrefix ≠ 1 ∧ k.side.keyPrefix ≠ 2) := by
    cases k.side <;> simp [Side.keyPrefix]
  have hs : (if k.side.keyPrefix = 1 then Side.ascending else Side.descending) = k.side := by
    cases k.side <;> simp [Side.keyPrefix]
  simp only
  rw [if_neg hp, readDenom_append _ h5]
  simp only
  rw [readDenom_append _ h6]
  simp only
  rw [readBigEndian_append 8 _ ho]
  simp only
  rw [readBigEndian_append 8 _ (by omega)]
  simp only
  rw [kind_decode_encode _ h7]
  simp only
  rw [if_neg (by omega), hs, tickOfOffset_tickOffset cfg k.side k.tick h1 h2]

theorem side_precedes_total (s : Side) (t1 t2 : Int) (h : ¬ s.precedes t2 t1) :
    s.precedes t1 t2 ∨ t1 = t2 := by
  cases s <;> simp only [Side.precedes] at h ⊢ <;> omega

/-- Keys of one pair and side: a tick that comes first gives bytes that come first. -/
theorem keyMarshal_lt_of_precedes (cfg : TickBounds) (k1 k2 : TickLiquidityKey)
    (h1 : k1.Valid cfg) (h2 : k2.Valid cfg) (hA : k1.tokenA = k2.tokenA)
    (hB : k1.tokenB = k2.tokenB) (hS : k1.side = k2.side)
    (h : k1.side.precedes k1.tick k2.tick) :
    bytesLt (k1.KeyMarshal cfg) (k2.KeyMarshal cfg) = true := by
  obtain ⟨a1, a2, a3, _⟩ := h1
  obtain ⟨b1, b2, _, _⟩ := h2
  unfold TickLiquidityKey.KeyMarshal
  rw [← hA, ← hB, ← hS, bytesLt_cons_self, bytesLt_append_left, bytesLt_append_left]
  apply bytesLt_append_of_lt
  · rw [bigEndian_length, bigEndian_length]
  · exact bytesLt_bigEndian 8 _ _ (tickOffset_lt_of_precedes cfg k1.side _ _ a1 a2 b1 b2 h)
      (tickOffset_lt cfg k1.side k2.tick b1 b2 a3).1

/-! ## The order of the tick keys -/

/-- C15, as stated, fails: two keys of the same pair, side and tick that differ in the fee
tier have different bytes, so one of them precedes the other in byte order although
neither tick precedes the other. -/
theorem C15_counterexample :
    sampleKeyA.Valid sampleBounds ∧ sampleKeyB.Valid sampleBounds ∧
      sampleKeyA.tokenA = sampleKeyB.tokenA ∧ sampleKeyA.tokenB = sampleKeyB.tokenB ∧
      sampleKeyA.side = sampleKeyB.side ∧
      ¬ (bytesLt (sampleKeyA.KeyMarshal sampleBounds) (sampleKeyB.KeyMarshal sampleBounds) = true
          ↔ sampleKeyA.side.precedes sampleKeyA.tick sampleKeyB.tick) := by
  decide

/-- C15, amended: every valid TickLiquidityKey marshals to a canonical byte key that
follows the order of the ticks. For any two keys k1, k2 of the same pair and side: if the
tick of k1 precedes the tick of k2 in the traversal order of the side, KeyMarshal(k1)
precedes KeyMarshal(k2) in lexicographic byte order; if KeyMarshal(k1) precedes
KeyMarshal(k2), the tick of k1 precedes the tick of k2 or the two ticks are equal; and the
keys marshal to equal bytes exactly when they are equal. -/
theorem C15_key_order (cfg : TickBounds) (k1 k2 : TickLiquidityKey)
    (h1 : k1.Valid cfg) (h2 : k2.Valid cfg) (hA : k1.tokenA = k2.tokenA)
    (hB : k1.tokenB = k2.tokenB) (hS : k1.side = k2.side) :
    (k1.side.precedes k1.tick k2.tick →
        bytesLt (k1.KeyMarshal cfg) (k2.KeyMarshal cfg) = true) ∧
      (bytesLt (k1.KeyMarshal cfg) (k2.KeyMarshal cfg) = true →
        k1.side.precedes k1.tick k2.tick ∨ k1.tick = k2.tick) ∧
      (k1.KeyMarshal cfg = k2.KeyMarshal cfg ↔ k1 = k2) := by
  refine ⟨keyMarshal_lt_of_precedes cfg k1 k2 h1 h2 hA hB hS, ?_, ?_, ?_⟩
  · intro hlt
    apply side_precedes_total
    intro hrev
    rw [hS] at hrev
    have := keyMarshal_lt_of_precedes cfg k2 k1 h2 h1 hA.symm hB.symm hS.symm hrev
    rw [bytesLt_asymm hlt] at this
    exact absurd this (by simp)
  · intro heq
    have e1 := keyUnmarshal_keyMarshal cfg k1 h1
    rw [heq, keyUnmarshal_keyMarshal cfg k2 h2] at e1
    exact (Except.ok.inj e1).symm
  · intro heq
    rw [heq]

/-- C15 witness: on the descending side the key at tick 4 comes before the key at
tick -3. -/
theorem C15_key_order_witness :
    bytesLt (sampleKeyD.KeyMarshal sampleBounds) (sampleKeyC.KeyMarshal sampleBounds) = true :=
  (C15_key_order sampleBounds sampleKeyD sampleKeyC (by decide) (by decide) rfl rfl rfl).1
    (by decide)

/-! ## Round trip of the tick keys -/

/-- C16: tick key round trip. For every valid TickLiquidityKey k (tick within the
configured bound, numbers on eight bytes), decoding the bytes produced by encoding k
succeeds and yields the original key: pair, side, tick, fee tier and kind with its tranche
sequence number. -/
theorem C16_tick_key_roundtrip (cfg : TickBounds) (k : TickLiquidityKey) (h : k.Valid cfg) :
    KeyUnmarshal cfg (k.KeyMarshal cfg) = .ok k :=
  keyUnmarshal_keyMarshal cfg k h

/-- C16 witness: a tranche key at a negative tick on the descending side. -/
theorem C16_tick_key_roundtrip_witness :
    sampleKeyC.Valid sampleBounds ∧
      KeyUnmarshal sampleBounds (sampleKeyC.KeyMarshal sampleBounds) = .ok sampleKeyC :=
  ⟨by decide, C16_tick_key_roundtrip sampleBounds sampleKeyC (by decide)⟩

/-! ## The swap router -/

theorem credited_mono (cfg : RouterConfig) (t : TickRecord)
    (h1 : cfg.feeRate t.key.feeTier ≤ 1) {x y : ℚ} (hxy : x ≤ y) :
    cfg.credited t x ≤ cfg.credited t y := by
  unfold RouterConfig.credited
  nlinarith

theorem credited_nonneg (cfg : RouterConfig) (t : TickRecord)
    (h1 : cfg.feeRate t.key.feeTier ≤ 1) {x : ℚ} (hx : 0 ≤ x) : 0 ≤ cfg.credited t x := by
  unfold RouterConfig.credited
  nlinarith

/-- The output of the scan is at least what was accumulated before it, and the leftover is
not negative. -/
theorem swapWalk_lower (cfg : RouterConfig) (elig : TickRecord → Bool) (ts : List TickRecord)
    (hok : cfg.LedgerOK ts) : ∀ (R O : ℚ), 0 ≤ R →
      O ≤ (cfg.swapWalk elig ts R O).output ∧ 0 ≤ (cfg.swapWalk elig ts R O).leftover := by
  induction ts with
  | nil => intro R O hR; simp [RouterConfig.swapWalk, hR]
  | cons t ts ih =>
    intro R O hR
    obtain ⟨hp, ha, hf0, hf1⟩ := hok t (List.mem_cons_self _ _)
    have ih := ih (fun x hx => hok x (List.mem_cons_of_mem _ hx))
    rw [RouterConfig.swapWalk]
    by_cases h0 : R = 0
    · simp [h0]
    · rw [if_neg h0]
      by_cases he : elig t = true
      · rw [if_pos he]
        by_cases hm : R > cfg.maxInput t
        · rw [if_pos hm]
          obtain ⟨i1, i2⟩ := ih (R - cfg.maxInput t) (O + cfg.credited t t.available)
            (by linarith)
          have := credited_nonneg cfg t hf1 ha
          exact ⟨by linarith, i2⟩
        · rw [if_neg hm]
          have : 0 ≤ R * cfg.price t.key := mul_nonneg hR (le_of_lt hp)
          have := credited_nonneg cfg t hf1 this
          exact ⟨by simp only; linarith, le_refl _⟩
      · rw [if_neg he]
        exact ih R O hR

/-- The output and the leftover of the scan do not decrease when the input grows. -/
theorem swapWalk_mono (cfg : RouterConfig) (elig : TickRecord → Bool) (ts : List TickRecord)
    (hok : cfg.LedgerOK ts) : ∀ (a b O : ℚ), 0 ≤ a → a ≤ b →
      (cfg.swapWalk elig ts a O).output ≤ (cfg.swapWalk elig ts b O).output ∧
      (cfg.swapWalk elig ts a O).leftover ≤ (cfg.swapWalk elig ts b O).leftover := by
  induction ts with
  | nil => intro a b O ha hab; simp [RouterConfig.swapWalk, hab]
  | cons t ts ih =>
    intro a b O ha hab
    obtain ⟨hp, hav, hf0, hf1⟩ := hok t (List.mem_cons_self _ _)
    have hok2 : cfg.LedgerOK ts := fun x hx => hok x (List.mem_cons_of_mem _ hx)
    have ih := ih hok2
    by_cases ha0 : a = 0
    · subst ha0
      have hl := swapWalk_lower cfg elig (t :: ts) hok b O hab
      have e : cfg.swapWalk elig (t :: ts) 0 O = ⟨O, 0, t :: ts⟩ := by
        rw [RouterConfig.swapWalk, if_pos rfl]
      rw [e]
      exact hl
    · have hb0 : b ≠ 0 := fun h => ha0 (by linarith)
      rw [RouterConfig.swapWalk, RouterConfig.swapWalk, if_neg ha0, if_neg hb0]
      by_cases he : elig t = true
      · rw [if_pos he, if_pos he]
        have hmax : cfg.maxInput t * cfg.price t.key = t.available := by
          unfold RouterConfig.maxInput
          field_simp
        by_cases hma : a > cfg.maxInput t
        · have hmb : b > cfg.maxInput t := by linarith
          rw [if_pos hma, if_pos hmb]
          exact ih _ _ _ (by linarith) (by linarith)
        · rw [if_neg hma]
          by_cases hmb : b > cfg.maxInput t
          · rw [if_pos hmb]
            obtain ⟨l1, l2⟩ := swapWalk_lower cfg elig ts hok2 (b - cfg.maxInput t)
              (O + cfg.credited t t.available) (by linarith)
            have h1 : a * cfg.price t.key ≤ t.available := by
              rw [← hmax]
              exact mul_le_mul_of_nonneg_right (by linarith) (le_of_lt hp)
            have := credited_mono cfg t hf1 h1
            exact ⟨by simp only; linarith, l2⟩
          · rw [if_neg hmb]
            have h1 : a * cfg.price t.key ≤ b * cfg.price t.key :=
              mul_le_mul_of_nonneg_right hab (le_of_lt hp)
            have := credited_mono cfg t hf1 h1
            exact ⟨by simp only; linarith, le_refl _⟩
      · rw [if_neg he, if_neg he]
        exact ih a b O ha hab

/-! ## Swap monotonicity -/

/-- C18: swap monotonicity. For every fixed ledger state (prices positive, liquidity not
negative, fee rates between 0 and 1), pair and trade direction, and all input amounts
0 <= a <= b: when swap(b) returns a result, swap(a) returns one too, and the output amount
of swap(a) is less than or equal to the output amount of swap(b). This covers a swap that
requires exact-input fulfilment and one that accepts a partial fill. -/
theorem C18_swap_monotone (cfg : RouterConfig) (ledger : List TickRecord)
    (tokenA tokenB : Bytes) (side : Side) (exactInput : Bool) (a b : ℚ)
    (hok : cfg.LedgerOK ledger) (ha : 0 ≤ a) (hab : a ≤ b) (rb : SwapResult)
    (hb : cfg.swap ledger tokenA tokenB side exactInput b = .ok rb) :
    ∃ ra, cfg.swap ledger tokenA tokenB side exactInput a = .ok ra ∧ ra.output ≤ rb.output := by
  obtain ⟨hout, hleft⟩ := swapWalk_mono cfg (cfg.eligible ledger tokenA tokenB side) ledger hok
    a b 0 ha hab
  unfold RouterConfig.swap at hb ⊢
  simp only at hb ⊢
  by_cases hfail : (cfg.swapWalk (cfg.eligible ledger tokenA tokenB side) ledger b 0).leftover > 0
      ∧ exactInput = true
  · rw [if_pos hfail] at hb
    cases hb
  · rw [if_neg hfail] at hb
    have hrb := Except.ok.inj hb
    subst hrb
    refine ⟨_, if_neg ?_, hout⟩
    intro hfa
    exact hfail ⟨lt_of_lt_of_le hfa.1 hleft, hfa.2⟩

/-- C18 witness: on the sample ledger, with exact-input fulfilment required, an input of 3
is filled at the first tick and an input of 7 drains it and takes from the second. -/
theorem C18_swap_monotone_witness :
    ∃ ra, sampleRouter.swap sampleLedger [97] [98] .ascending true 3 = .ok ra ∧
      ra.output ≤ (SwapResult.mk (119 / 10) 0
        [⟨⟨[97], [98], .ascending, 1, 0, .pooled⟩, 3⟩]).output :=
  C18_swap_monotone sampleRouter sampleLedger [97] [98] .ascending true 3 7
    (by
      simp [RouterConfig.LedgerOK, sampleRouter, sampleLedger, sampleKeyB]
      norm_num)
    (by norm_num) (by norm_num)
    ⟨119 / 10, 0, [⟨⟨[97], [98], .ascending, 1, 0, .pooled⟩, 3⟩]⟩
    (by
      simp [RouterConfig.swap, RouterConfig.swapWalk, RouterConfig.eligible,
        RouterConfig.maxInput, RouterConfig.credited, sampleRouter, sampleLedger, sampleKeyB]
      norm_num)

/-! ## Rounding half to even -/

theorem roundHalfEven_cases (x : ℚ) : roundHalfEven x = ⌊x⌋ ∧ x - ⌊x⌋ ≤ 1 / 2 ∨
    roundHalfEven x = ⌊x⌋ + 1 ∧ 1 / 2 ≤ x - ⌊x⌋ := by
  unfold roundHalfEven
  by_cases h1 : x - ⌊x⌋ < 1 / 2
  · left; rw [if_pos h1]; exact ⟨rfl, le_of_lt h1⟩
  · rw [if_neg h1]
    by_cases h2 : 1 / 2 < x - ⌊x⌋
    · right; rw [if_pos h2]; exact ⟨rfl, le_of_lt h2⟩
    · rw [if_neg h2]
      have h3 : x - ⌊x⌋ = 1 / 2 := le_antisymm (not_lt.mp h2) (not_lt.mp h1)
      by_cases h4 : ⌊x⌋ % 2 = 0
      · left; rw [if_pos h4]; exact ⟨rfl, le_of_eq h3⟩
      · right; rw [if_neg h4]; exact ⟨rfl, le_of_eq h3.symm⟩

theorem roundHalfEven_le_add_half (x : ℚ) : (roundHalfEven x : ℚ) ≤ x + 1 / 2 := by
  have h1 := Int.floor_le x
  rcases roundHalfEven_cases x with ⟨h, _⟩ | ⟨h, h2⟩
  · rw [h]; linarith
  · rw [h]; push_cast; linarith

theorem sub_half_le_roundHalfEven (x : ℚ) : x - 1 / 2 ≤ (roundHalfEven x : ℚ) := by
  have h1 := Int.lt_floor_add_one x
  rcases roundHalfEven_cases x with ⟨h, h2⟩ | ⟨h, _⟩
  · rw [h]; linarith
  · rw [h]; push_cast; linarith

theorem le_roundHalfEven (x : ℚ) (m : Int) (h : (m : ℚ) ≤ x) : m ≤ roundHalfEven x := by
  have h1 : m ≤ ⌊x⌋ := Int.le_floor.mpr h
  rcases roundHalfEven_cases x with ⟨h2, _⟩ | ⟨h2, _⟩ <;> rw [h2] <;> omega

theorem roundHalfEven_le (x : ℚ) (m : Int) (h : x ≤ (m : ℚ)) : roundHalfEven x ≤ m := by
  have h0 := Int.floor_le x
  have h1 : ⌊x⌋ ≤ m := by
    have : ((⌊x⌋ : Int) : ℚ) ≤ (m : ℚ) := le_trans h0 h
    exact_mod_cast this
  rcases roundHalfEven_cases x with ⟨h2, _⟩ | ⟨h2, h3⟩
  · rw [h2]; exact h1
  · rw [h2]
    have : ((⌊x⌋ : Int) : ℚ) < (m : ℚ) := by linarith
    have : ⌊x⌋ < m := by exact_mod_cast this
    omega

theorem roundHalfEven_mono {x y : ℚ} (h : x ≤ y) : roundHalfEven x ≤ roundHalfEven y := by
  have hf : ⌊x⌋ ≤ ⌊y⌋ := Int.floor_mono h
  by_cases hlt : ⌊x⌋ < ⌊y⌋
  · have h1 : roundHalfEven x ≤ ⌊x⌋ + 1 := by
      rcases roundHalfEven_cases x with ⟨h2, _⟩ | ⟨h2, _⟩ <;> omega
    have h2 : ⌊y⌋ ≤ roundHalfEven y := by
      rcases roundHalfEven_cases y with ⟨h2, _⟩ | ⟨h2, _⟩ <;> omega
    omega
  · have heq : ⌊x⌋ = ⌊y⌋ := by omega
    unfold roundHalfEven
    rw [heq]
    have hr : x - ⌊y⌋ ≤ y - ⌊y⌋ := by linarith
    by_cases h1 : y - ⌊y⌋ < 1 / 2
    · rw [if_pos h1, if_pos (lt_of_le_of_lt hr h1)]
    · rw [if_neg h1]
      by_cases h2 : 1 / 2 < y - ⌊y⌋
      · rw [if_pos h2]
        split_ifs <;> omega
      · rw [if_neg h2]
        have h3 : y - ⌊y⌋ = 1 / 2 := le_antisymm (not_lt.mp h2) (not_lt.mp h1)
        by_cases h4 : x - ⌊y⌋ < 1 / 2
        · rw [if_pos h4]
          split_ifs <;> omega
        · rw [if_neg h4, if_neg (by linarith)]

theorem roundHalfEven_lt {x y : ℚ} (h : x + 1 < y) : roundHalfEven x < roundHalfEven y := by
  have h1 := roundHalfEven_le_add_half x
  have h2 := sub_half_le_roundHalfEven y
  have : (roundHalfEven x : ℚ) < (roundHalfEven y : ℚ) := by linarith
  exact_mod_cast this

/-! ## Rounding at a number of significant digits -/

/-- The scaled value of a positive x lies between 10^(digits-1) and 10^digits. -/
theorem lastDigitUnit_facts (d : Nat) (hd : 1 ≤ d) (x : ℚ) (hx : 0 < x) :
    0 < lastDigitUnit d x ∧ (10 : ℚ) ^ (d - 1) * lastDigitUnit d x ≤ x ∧
      x < 10 * (10 : ℚ) ^ (d - 1) * lastDigitUnit d x := by
  have h10 : (10 : ℚ) ≠ 0 := by norm_num
  have hb : (1 : ℕ) < 10 := by decide
  have h1 : ((10 : ℕ) : ℚ) ^ Int.log 10 x ≤ x := Int.zpow_log_le_self hb hx
  have h2 : x < ((10 : ℕ) : ℚ) ^ (Int.log 10 x + 1) := Int.lt_zpow_succ_log_self hb x
  have hc : ((10 : ℕ) : ℚ) = 10 := by norm_num
  rw [hc] at h1 h2
  have hM : (10 : ℚ) ^ (d - 1) * lastDigitUnit d x = (10 : ℚ) ^ Int.log 10 x := by
    unfold lastDigitUnit
    rw [← zpow_natCast, ← zpow_add₀ h10]
    congr 1
    have : ((d - 1 : ℕ) : ℤ) = (d : ℤ) - 1 := by omega
    rw [this]
    ring
  refine ⟨zpow_pos (by norm_num) _, ?_, ?_⟩
  · rw [hM]; exact h1
  · rw [mul_assoc, hM]
    rw [zpow_add_one₀ h10] at h2
    linarith

/-- The units of two positive values: equal, ten times, or at least a hundred times. -/
theorem lastDigitUnit_compare (d : Nat) (x y : ℚ) (hx : 0 < x) (hxy : x ≤ y) :
    lastDigitUnit d y = lastDigitUnit d x ∨ lastDigitUnit d y = 10 * lastDigitUnit d x ∨
      100 * lastDigitUnit d x ≤ lastDigitUnit d y := by
  have h10 : (10 : ℚ) ≠ 0 := by norm_num
  have hle : Int.log 10 x ≤ Int.log 10 y := Int.log_mono_right hx hxy
  have hu : lastDigitUnit d y
      = lastDigitUnit d x * (10 : ℚ) ^ (Int.log 10 y - Int.log 10 x) := by
    unfold lastDigitUnit
    rw [← zpow_add₀ h10]
    congr 1
    ring
  have hpos : 0 < lastDigitUnit d x := zpow_pos (by norm_num) _
  by_cases h0 : Int.log 10 y - Int.log 10 x = 0
  · left
    rw [hu, h0]
    simp
  · by_cases h1 : Int.log 10 y - Int.log 10 x = 1
    · right; left
      rw [hu, h1]
      simp
      ring
    · right; right
      have h2 : (2 : ℤ) ≤ Int.log 10 y - Int.log 10 x := by omega
      have h3 : (10 : ℚ) ^ (2 : ℤ) ≤ (10 : ℚ) ^ (Int.log 10 y - Int.log 10 x) :=
        zpow_le_zpow_right₀ (by norm_num) h2
      have h4 : (10 : ℚ) ^ (2 : ℤ) = 100 := by norm_num
      rw [h4] at h3
      rw [hu]
      nlinarith

/-- The rounded value of a positive x lies between 10^e and 10^(e+1). -/
theorem roundSignificant_bounds (d : Nat) (hd : 1 ≤ d) (x : ℚ) (hx : 0 < x) :
    (10 : ℚ) ^ (d - 1) * lastDigitUnit d x ≤ roundSignificant d x ∧
      roundSignificant d x ≤ 10 * (10 : ℚ) ^ (d - 1) * lastDigitUnit d x := by
  obtain ⟨hu, h1, h2⟩ := lastDigitUnit_facts d hd x hx
  unfold roundSignificant
  have hs1 : (((10 : ℤ) ^ (d - 1) : ℤ) : ℚ) ≤ x / lastDigitUnit d x := by
    rw [le_div_iff₀ hu]
    push_cast
    exact h1
  have hs2 : x / lastDigitUnit d x ≤ (((10 : ℤ) * 10 ^ (d - 1) : ℤ) : ℚ) := by
    rw [div_le_iff₀ hu]
    push_cast
    exact le_of_lt h2
  have r1 := le_roundHalfEven _ _ hs1
  have r2 := roundHalfEven_le _ _ hs2
  have q1 : (((10 : ℤ) ^ (d - 1) : ℤ) : ℚ) ≤ (roundHalfEven (x / lastDigitUnit d x) : ℚ) := by
    exact_mod_cast r1
  have q2 : (roundHalfEven (x / lastDigitUnit d x) : ℚ) ≤ (((10 : ℤ) * 10 ^ (d - 1) : ℤ) : ℚ) := by
    exact_mod_cast r2
  push_cast at q1 q2
  constructor
  · exact mul_le_mul_of_nonneg_right q1 (le_of_lt hu)
  · exact mul_le_mul_of_nonneg_right q2 (le_of_lt hu)

/-- Rounding at a number of significant digits does not reverse the order. -/
theorem roundSignificant_mono (d : Nat) (hd : 1 ≤ d) (x y : ℚ) (hx : 0 < x) (hxy : x ≤ y) :
    roundSignificant d x ≤ roundSignificant d y := by
  have hy : 0 < y := lt_of_lt_of_le hx hxy
  obtain ⟨hux, _, _⟩ := lastDigitUnit_facts d hd x hx
  obtain ⟨_, bx⟩ := roundSignificant_bounds d hd x hx
  obtain ⟨by1, _⟩ := roundSignificant_bounds d hd y hy
  have hM : (0 : ℚ) < 10 ^ (d - 1) := pow_pos (by norm_num) _
  rcases lastDigitUnit_compare d x y hx hxy with h | h | h
  · unfold roundSignificant
    rw [h]
    have : x / lastDigitUnit d x ≤ y / lastDigitUnit d x :=
      div_le_div_of_nonneg_right hxy (le_of_lt hux)
    have r := roundHalfEven_mono this
    have q : (roundHalfEven (x / lastDigitUnit d x) : ℚ)
        ≤ (roundHalfEven (y / lastDigitUnit d x) : ℚ) := by exact_mod_cast r
    exact mul_le_mul_of_nonneg_right q (le_of_lt hux)
  · rw [h] at by1
    linarith
  · have : 10 * (10 : ℚ) ^ (d - 1) * lastDigitUnit d x
        ≤ (10 : ℚ) ^ (d - 1) * lastDigitUnit d y := by nlinarith
    linarith

/-- Two positive values that differ by more than one unit of the last significant digit of
the smaller one, relative to its first digit, round to different values. -/
theorem roundSignificant_lt (d : Nat) (hd : 1 ≤ d) (x y : ℚ) (hx : 0 < x)
    (hxy : x * (10 : ℚ) ^ (d - 1) + x < y * (10 : ℚ) ^ (d - 1)) :
    roundSignificant d x < roundSignificant d y := by
  have hM : (1 : ℚ) ≤ 10 ^ (d - 1) := one_le_pow₀ (by norm_num)
  have hle : x ≤ y := by nlinarith
  have hy : 0 < y := lt_of_lt_of_le hx hle
  obtain ⟨hux, fx1, fx2⟩ := lastDigitUnit_facts d hd x hx
  obtain ⟨huy, fy1, fy2⟩ := lastDigitUnit_facts d hd y hy
  obtain ⟨_, bx⟩ := roundSignificant_bounds d hd x hx
  obtain ⟨by1, _⟩ := roundSignificant_bounds d hd y hy
  rcases lastDigitUnit_compare d x y hx hle with h | h | h
  · -- the same decade
    unfold roundSignificant
    rw [h]
    have hs : x / lastDigitUnit d x + 1 < y / lastDigitUnit d x := by
      rw [div_add_one (ne_of_gt hux), div_lt_div_iff_of_pos_right hux]
      nlinarith
    have r := roundHalfEven_lt hs
    have q : (roundHalfEven (x / lastDigitUnit d x) : ℚ)
        < (roundHalfEven (y / lastDigitUnit d x) : ℚ) := by exact_mod_cast r
    exact mul_lt_mul_of_pos_right q hux
  · -- the next decade
    by_cases hc : x / lastDigitUnit d x + 1 / 2 < 10 * (10 : ℚ) ^ (d - 1)
    · have r := roundHalfEven_le_add_half (x / lastDigitUnit d x)
      have : roundSignificant d x < 10 * (10 : ℚ) ^ (d - 1) * lastDigitUnit d x := by
        unfold roundSignificant
        exact mul_lt_mul_of_pos_right (lt_of_le_of_lt r hc) hux
      rw [h] at by1
      linarith
    · have hsx : 10 * (10 : ℚ) ^ (d - 1) - 1 / 2 ≤ x / lastDigitUnit d x := by linarith
      have hxl : (10 * (10 : ℚ) ^ (d - 1) - 1 / 2) * lastDigitUnit d x ≤ x := by
        rwa [le_div_iff₀ hux] at hsx
      have hyl : ((10 : ℚ) ^ (d - 1) + 9 / 10) * lastDigitUnit d y < y := by
        rw [h]
        have h1 : (10 * (10 : ℚ) ^ (d - 1) - 1 / 2) * lastDigitUnit d x * (10 : ℚ) ^ (d - 1)
            ≤ x * (10 : ℚ) ^ (d - 1) := mul_le_mul_of_nonneg_right hxl (by linarith)
        have h2 : 0 < lastDigitUnit d x * ((10 : ℚ) ^ (d - 1) - 1) + lastDigitUnit d x := by
          nlinarith
        nlinarith
      have hsy : (10 : ℚ) ^ (d - 1) + 9 / 10 < y / lastDigitUnit d y := by
        rwa [lt_div_iff₀ huy]
      have r := sub_half_le_roundHalfEven (y / lastDigitUnit d y)
      have hz : ((10 : ℤ) ^ (d - 1) : ℤ) < roundHalfEven (y / lastDigitUnit d y) := by
        have : (((10 : ℤ) ^ (d - 1) : ℤ) : ℚ) < (roundHalfEven (y / lastDigitUnit d y) : ℚ) := by
          push_cast
          linarith
        exact_mod_cast this
      have hz2 : (((10 : ℤ) ^ (d - 1) + 1 : ℤ) : ℚ)
          ≤ (roundHalfEven (y / lastDigitUnit d y) : ℚ) := by
        have : (10 : ℤ) ^ (d - 1) + 1 ≤ roundHalfEven (y / lastDigitUnit d y) := by omega
        exact_mod_cast this
      push_cast at hz2
      have : ((10 : ℚ) ^ (d - 1) + 1) * lastDigitUnit d y ≤ roundSignificant d y := by
        unfold roundSignificant
        exact mul_le_mul_of_nonneg_right hz2 (le_of_lt huy)
      rw [h] at this
      nlinarith
  · -- a later decade
    have : 10 * (10 : ℚ) ^ (d - 1) * lastDigitUnit d x
        < (10 : ℚ) ^ (d - 1) * lastDigitUnit d y := by nlinarith
    linarith

/-! ## Price monotonicity -/

/-- The power of ten below a value, from the two powers around it. -/
theorem log_eq_of_bounds (e : Int) (x : ℚ) (hx : 0 < x) (h1 : (10 : ℚ) ^ e ≤ x)
    (h2 : x < (10 : ℚ) ^ (e + 1)) : Int.log 10 x = e := by
  have hb : (1 : ℕ) < 10 := by decide
  have hc : ((10 : ℕ) : ℚ) = 10 := by norm_num
  have a1 : e ≤ Int.log 10 x := (Int.zpow_le_iff_le_log hb hx).mp (by rw [hc]; exact h1)
  have a2 : Int.log 10 x < e + 1 := (Int.lt_zpow_iff_log_lt hb hx).mp (by rw [hc]; exact h2)
  omega

/-- C17: price monotonicity. For every configuration of the codec (a base above 1, rounded
half to even at a number of significant digits that resolves one tick step) and all ticks
t1 < t2 within the configured tick bounds, priceFromTick succeeds on both ticks and
priceFromTick(t1) < priceFromTick(t2). -/
theorem C17_price_monotone (cfg : PriceConfig) (hv : cfg.Valid) (t1 t2 : Int)
    (h1 : cfg.bounds.minTick ≤ t1) (h12 : t1 < t2) (h2 : t2 ≤ cfg.bounds.maxTick) :
    ∃ p1 p2, priceFromTick cfg t1 = .ok p1 ∧ priceFromTick cfg t2 = .ok p2 ∧ p1 < p2 := by
  obtain ⟨hb, hd, hp⟩ := hv
  have hb0 : 0 < cfg.base := by linarith
  have hx : 0 < cfg.base ^ t1 := zpow_pos hb0 _
  refine ⟨roundSignificant cfg.digits (cfg.base ^ t1), roundSignificant cfg.digits (cfg.base ^ t2),
    ?_, ?_, ?_⟩
  · unfold priceFromTick
    rw [if_neg (by omega)]
  · unfold priceFromTick
    rw [if_neg (by omega)]
  · apply roundSignificant_lt cfg.digits hd _ _ hx
    have hstep : cfg.base ^ t1 * cfg.base ≤ cfg.base ^ t2 := by
      rw [← zpow_add_one₀ (ne_of_gt hb0)]
      exact zpow_le_zpow_right₀ (le_of_lt hb) (by omega)
    have hM : (0 : ℚ) < 10 ^ (cfg.digits - 1) := pow_pos (by norm_num) _
    have h3 : cfg.base ^ t1 * cfg.base * (10 : ℚ) ^ (cfg.digits - 1)
        ≤ cfg.base ^ t2 * (10 : ℚ) ^ (cfg.digits - 1) :=
      mul_le_mul_of_nonneg_right hstep (le_of_lt hM)
    have h4 : cfg.base ^ t1 * 1 < cfg.base ^ t1 * ((cfg.base - 1) * (10 : ℚ) ^ (cfg.digits - 1)) :=
      mul_lt_mul_of_pos_left hp hx
    nlinarith

/-- C17 witness: base 1.0001 with eight significant digits, ticks -1 and 1. -/
theorem C17_price_monotone_witness :
    ∃ p1 p2, priceFromTick samplePriceConfig (-1) = .ok p1 ∧
      priceFromTick samplePriceConfig 1 = .ok p2 ∧ p1 < p2 :=
  C17_price_monotone samplePriceConfig
    ⟨by norm_num [samplePriceConfig], by decide, by norm_num [samplePriceConfig]⟩ (-1) 1
    (by decide) (by decide) (by decide)

/-! ## The encoder and the wire layout -/

/-- C23: the back-to-front encoder equals the forward wire layout declared by the field
tags. For every Schedule that exists as a Go value, Marshal succeeds and returns the
concatenation, in ascending field number, of [0x0A, varint(len Name), Name] if Name is not
empty; [0x10, varint(Period)] if Period is not 0; for each element e of Msgs in list order
[0x1A, varint(len enc(e)), enc(e)], where enc(e) is [0x0A, varint(len Contract), Contract]
if not empty followed by [0x12, varint(len Msg), Msg] if not empty; and
[0x20, varint(LastExecuteHeight)] if not 0. In particular a Schedule whose fields all have
default values encodes to the empty byte string. -/
theorem C23_marshal_is_wire_layout (m : Schedule) (h : m.Representable) :
    m.Marshal = some
      ((if m.Name.length > 0 then 0x0a :: (varint m.Name.length ++ m.Name) else [])
        ++ ((if m.Period ≠ 0 then 0x10 :: varint m.Period else [])
        ++ ((m.Msgs.map (fun e =>
              0x1a :: (varint
                  ((if e.Contract.length > 0 then
                      0x0a :: (varint e.Contract.length ++ e.Contract) else [])
                    ++ (if e.Msg.length > 0 then
                      0x12 :: (varint e.Msg.length ++ e.Msg) else [])).length
                ++ ((if e.Contract.length > 0 then
                      0x0a :: (varint e.Contract.length ++ e.Contract) else [])
                    ++ (if e.Msg.length > 0 then
                      0x12 :: (varint e.Msg.length ++ e.Msg) else []))))).flatten
        ++ (if m.LastExecuteHeight ≠ 0 then 0x20 :: varint m.LastExecuteHeight else []))))
      ∧ Schedule.Marshal ⟨[], 0, [], 0⟩ = some [] := by
  constructor
  · rw [Schedule.scheduleMarshal_eq_wire m h]
    have hmsgs : ∀ l : List MsgExecuteContract, wireMsgs l = (l.map (fun e =>
              0x1a :: (varint
                  ((if e.Contract.length > 0 then
                      0x0a :: (varint e.Contract.length ++ e.Contract) else [])
                    ++ (if e.Msg.length > 0 then
                      0x12 :: (varint e.Msg.length ++ e.Msg) else [])).length
                ++ ((if e.Contract.length > 0 then
                      0x0a :: (varint e.Contract.length ++ e.Contract) else [])
                    ++ (if e.Msg.length > 0 then
                      0x12 :: (varint e.Msg.length ++ e.Msg) else []))))).flatten := by
      intro l
      induction l with
      | nil => rfl
      | cons e rest ih =>
        rw [wireMsgs, ih, List.map_cons, List.flatten_cons]
        rfl
    rw [Schedule.wire, hmsgs]
    rfl
  · exact Schedule.scheduleMarshal_eq_wire ⟨[], 0, [], 0⟩ (by decide)

/-- C23 witness: a schedule with a name, a two-byte period, three messages (one of them
empty) and the greatest uint64 as last execution height. -/
theorem C23_marshal_is_wire_layout_witness :
    (Schedule.mk [110, 97] 300 [⟨[99], [123, 125]⟩, ⟨[], []⟩, ⟨[], [1]⟩]
        18446744073709551615).Marshal
      = some [10, 2, 110, 97, 16, 172, 2, 26, 7, 10, 1, 99, 18, 2, 123, 125, 26, 0, 26, 3, 18, 1,
          1, 32, 255, 255, 255, 255, 255, 255, 255, 255, 255, 1] :=
  (C23_marshal_is_wire_layout
    (Schedule.mk [110, 97] 300 [⟨[99], [123, 125]⟩, ⟨[], []⟩, ⟨[], [1]⟩] 18446744073709551615)
    (by decide)).1.trans (by decide)

/-! ## Tags the decoder rejects -/

/-- The loop after complete fields that are read without error stands at their end, with
at least as many rounds left as bytes. -/
theorem Schedule.unmarshal_after_fields (xs : List WireField) (hx : ∀ f ∈ xs, f.Complete) :
    ∃ eff : Schedule → Schedule × Option ProtoError,
      (∀ m, (encodeFields xs).length < 2 ^ 63 → Schedule.Unmarshal m (encodeFields xs)
        = if (eff m).2.isNone then ((eff m).1, none) else eff m) ∧
      ∀ (rest : Bytes) (m : Schedule), (encodeFields xs ++ rest).length < 2 ^ 63 →
        ∃ fuel1, rest.length ≤ fuel1 ∧
          Schedule.Unmarshal m (encodeFields xs ++ rest)
            = if (eff m).2.isNone then
                Schedule.unmarshalLoop (encodeFields xs ++ rest) fuel1 (encodeFields xs).length
                  (eff m).1
              else eff m := by
  obtain ⟨eff, he⟩ := Schedule.loop_fields xs hx
  refine ⟨eff, ?_, ?_⟩
  · intro m hl
    have e1 : ([] : Bytes) ++ encodeFields xs ++ [] = encodeFields xs := by simp
    obtain ⟨fuel1, _, hs⟩ := he [] [] m (encodeFields xs).length (by rw [e1]; exact hl)
      (by rw [e1]; simp)
    rw [e1] at hs
    simp only [List.length_nil, Nat.zero_add] at hs
    unfold Schedule.Unmarshal
    rw [hs, Schedule.scheduleLoop_end]
  · intro rest m hlen
    have e1 : ([] : Bytes) ++ encodeFields xs ++ rest = encodeFields xs ++ rest := by simp
    obtain ⟨fuel1, hf, hs⟩ := he [] rest m (encodeFields xs ++ rest).length
      (by rw [e1]; exact hlen) (by rw [e1]; simp)
    rw [e1] at hs hf
    simp only [List.length_nil, Nat.zero_add, List.length_append] at hs hf
    refine ⟨fuel1, by omega, ?_⟩
    unfold Schedule.Unmarshal
    simp only [List.length_append]
    exact hs


/-- The tag check of one round of the loop. -/
theorem Schedule.round_tag_check (D : Bytes) (fuel i : Nat) (m : Schedule) (wire j : Nat)
    (hi : i < D.length) (hdec : decodeVarint D 64 i = (wire, j, none)) :
    (wire &&& 0x7 = 4 →
        Schedule.unmarshalLoop D (fuel + 1) i m = (m, some (.wiretypeEndGroup .Schedule))) ∧
      (wire &&& 0x7 ≠ 4 → int32OfBits ((wire >>> 3) % 2 ^ 32) ≤ 0 →
        Schedule.unmarshalLoop D (fuel + 1) i m
          = (m, some (.illegalTag .Schedule (int32OfBits ((wire >>> 3) % 2 ^ 32)) wire))) := by
  constructor
  · intro h4
    rw [Schedule.unmarshalLoop, if_pos hi]
    simp only [hdec]
    rw [if_pos h4]
  · intro h4 h0
    rw [Schedule.unmarshalLoop, if_pos hi]
    simp only [hdec]
    rw [if_neg h4, if_pos h0]

/-- C26: an illegal tag is rejected. At every tag the loop of Schedule.Unmarshal reads, in
any input and with any receiver: when the tag has wire type 4 (end group) the call returns
the error "wiretype end group for non-group", and otherwise when the field number computed
as int32(wire >> 3) is <= 0 it returns the error "illegal tag"; the receiver is left as it
was and nothing is skipped. In particular, for an input made of complete fields followed by
such a tag, Schedule.Unmarshal into a zero value returns a non-nil error, and this error
whenever the fields in front decode without error. -/
theorem C26_illegal_tag_rejected :
    (∀ (D : Bytes) (fuel i : Nat) (m : Schedule) (wire j : Nat), i < D.length →
      decodeVarint D 64 i = (wire, j, none) →
      (wire &&& 0x7 = 4 →
        Schedule.unmarshalLoop D (fuel + 1) i m = (m, some (.wiretypeEndGroup .Schedule))) ∧
      (wire &&& 0x7 ≠ 4 → int32OfBits ((wire >>> 3) % 2 ^ 32) ≤ 0 →
        Schedule.unmarshalLoop D (fuel + 1) i m
          = (m, some (.illegalTag .Schedule (int32OfBits ((wire >>> 3) % 2 ^ 32)) wire)))) ∧
    (∀ (xs : List WireField) (rest : Bytes) (wire j : Nat), (∀ f ∈ xs, f.Complete) →
      rest ≠ [] → (encodeFields xs ++ rest).length < 2 ^ 63 →
      decodeVarint (encodeFields xs ++ rest) 64 (encodeFields xs).length = (wire, j, none) →
      wire &&& 0x7 = 4 ∨ int32OfBits ((wire >>> 3) % 2 ^ 32) ≤ 0 →
      (Schedule.Unmarshal ⟨[], 0, [], 0⟩ (encodeFields xs ++ rest)).2 ≠ none ∧
      ((Schedule.Unmarshal ⟨[], 0, [], 0⟩ (encodeFields xs)).2 = none →
        (Schedule.Unmarshal ⟨[], 0, [], 0⟩ (encodeFields xs ++ rest)).2
          = some (if wire &&& 0x7 = 4 then .wiretypeEndGroup .Schedule
              else .illegalTag .Schedule (int32OfBits ((wire >>> 3) % 2 ^ 32)) wire))) := by
  refine ⟨fun D fuel i m wire j hi hdec => Schedule.round_tag_check D fuel i m wire j hi hdec, ?_⟩
  intro xs rest wire j hx hrest hlen hdec hbad
  obtain ⟨eff, h1, h2⟩ := Schedule.unmarshal_after_fields xs hx
  have hpos : 0 < rest.length := List.length_pos.mpr hrest
  obtain ⟨fuel1, hf, hs⟩ := h2 rest ⟨[], 0, [], 0⟩ hlen
  have hX := h1 ⟨[], 0, [], 0⟩ (by simp only [List.length_append] at hlen; omega)
  have hi : (encodeFields xs).length < (encodeFields xs ++ rest).length := by
    simp only [List.length_append]; omega
  obtain ⟨fuel2, rfl⟩ : ∃ k, fuel1 = k + 1 := ⟨fuel1 - 1, by omega⟩
  obtain ⟨r4, r0⟩ := Schedule.round_tag_check (encodeFields xs ++ rest) fuel2
    (encodeFields xs).length (eff ⟨[], 0, [], 0⟩).1 wire j hi hdec
  rw [hs, hX]
  by_cases he : (eff ⟨[], 0, [], 0⟩).2.isNone
  · rw [if_pos he, if_pos he]
    by_cases h4 : wire &&& 0x7 = 4
    · rw [r4 h4, if_pos h4]
      exact ⟨by simp, fun _ => rfl⟩
    · have h0 : int32OfBits ((wire >>> 3) % 2 ^ 32) ≤ 0 := by
        rcases hbad with h | h
        · exact absurd h h4
        · exact h
      rw [r0 h4 h0, if_neg h4]
      exact ⟨by simp, fun _ => rfl⟩
  · rw [if_neg he, if_neg he]
    have hne : (eff ⟨[], 0, [], 0⟩).2 ≠ none := by
      intro h
      rw [h] at he
      exact he rfl
    exact ⟨hne, fun h => absurd h hne⟩

/-- C26 witness: after a Period field, the tag 0x0C (field 1, wire type 4) and the tag
0x02 (field 0, wire type 2) are both rejected. -/
theorem C26_illegal_tag_rejected_witness :
    (Schedule.Unmarshal ⟨[], 0, [], 0⟩ (encodeFields [.varintField 2 300] ++ [0x0c, 1])).2
        = some (.wiretypeEndGroup .Schedule) ∧
      (Schedule.Unmarshal ⟨[], 0, [], 0⟩ (encodeFields [.varintField 2 300] ++ [0x02, 0])).2
        = some (.illegalTag .Schedule 0 2) :=
  ⟨((C26_illegal_tag_rejected.2 [.varintField 2 300] [0x0c, 1] 12 4 (by decide) (by decide)
      (by decide) (by decide) (by decide)).2 (by decide)).trans (by decide),
    ((C26_illegal_tag_rejected.2 [.varintField 2 300] [0x02, 0] 2 4 (by decide) (by decide)
      (by decide) (by decide) (by decide)).2 (by decide)).trans (by decide)⟩

/-! ## Known fields with another wire type -/

/-- The wire type check of one round of the loop, on a tag that is not an end group. -/
theorem Schedule.round_wrong_wireType (D : Bytes) (fuel i : Nat) (m : Schedule) (wire j : Nat)
    (hi : i < D.length) (hdec : decodeVarint D 64 i = (wire, j, none))
    (h4 : wire &&& 0x7 ≠ 4) (fld : FieldName)
    (hcase : (int32OfBits ((wire >>> 3) % 2 ^ 32) = 1 ∧ wire &&& 0x7 ≠ 2 ∧ fld = .Name) ∨
      (int32OfBits ((wire >>> 3) % 2 ^ 32) = 2 ∧ wire &&& 0x7 ≠ 0 ∧ fld = .Period) ∨
      (int32OfBits ((wire >>> 3) % 2 ^ 32) = 3 ∧ wire &&& 0x7 ≠ 2 ∧ fld = .Msgs) ∨
      (int32OfBits ((wire >>> 3) % 2 ^ 32) = 4 ∧ wire &&& 0x7 ≠ 0
        ∧ fld = .LastExecuteHeight)) :
    Schedule.unmarshalLoop D (fuel + 1) i m = (m, some (.wrongWireType (wire &&& 0x7) fld)) := by
  rw [Schedule.unmarshalLoop, if_pos hi]
  simp only [hdec]
  rw [if_neg h4]
  rcases hcase with ⟨hf, hw, rfl⟩ | ⟨hf, hw, rfl⟩ | ⟨hf, hw, rfl⟩ | ⟨hf, hw, rfl⟩
  · rw [hf, if_neg (by decide), if_pos rfl, if_pos hw]
  · rw [hf, if_neg (by decide), if_neg (by decide), if_pos rfl, if_pos hw]
  · rw [hf, if_neg (by decide), if_neg (by decide), if_neg (by decide), if_pos rfl, if_pos hw]
  · rw [hf, if_neg (by decide), if_neg (by decide), if_neg (by decide), if_neg (by decide),
      if_pos rfl, if_pos hw]

/-- C25, as stated, fails: the tag 0x0C decodes to field number 1 with wire type 4, which
is not the wire type 2 declared for Name, and Schedule.Unmarshal returns the error
"wiretype end group for non-group", not "wrong wireType = 4 for field Name". -/
theorem C25_counterexample :
    decodeVarint [0x0c] 64 0 = (12, 1, none) ∧ int32OfBits ((12 >>> 3) % 2 ^ 32) = 1 ∧
      (12 : Nat) &&& 0x7 = 4 ∧ (12 : Nat) &&& 0x7 ≠ 2 ∧
      Schedule.Unmarshal ⟨[], 0, [], 0⟩ [0x0c]
        = (⟨[], 0, [], 0⟩, some (.wiretypeEndGroup .Schedule)) ∧
      (Schedule.Unmarshal ⟨[], 0, [], 0⟩ [0x0c]).2 ≠ some (.wrongWireType 4 .Name) := by
  decide

/-- C25, amended: a known field carrying the wrong wire type is rejected. At every tag the
loop of Schedule.Unmarshal reads, in any input and with any receiver, when the tag decodes
to field number 1, 2, 3 or 4 with a wire type different from the one declared for that
field (2 for Name, 0 for Period, 2 for Msgs, 0 for LastExecuteHeight), the call returns a
non-nil error and leaves the receiver as it was, so the field is not assigned: the error
"wrong wireType = ... for field ..." when the wire type is not 4, and the error "wiretype
end group for non-group" when it is 4. In particular, for an input made of complete
fields that decode without error followed by such a tag, Schedule.Unmarshal into a zero
value returns this error and the Schedule decoded from the fields in front. -/
theorem C25_wrong_wire_type_rejected (fld : FieldName) (wire : Nat)
    (hcase : (int32OfBits ((wire >>> 3) % 2 ^ 32) = 1 ∧ wire &&& 0x7 ≠ 2 ∧ fld = .Name) ∨
      (int32OfBits ((wire >>> 3) % 2 ^ 32) = 2 ∧ wire &&& 0x7 ≠ 0 ∧ fld = .Period) ∨
      (int32OfBits ((wire >>> 3) % 2 ^ 32) = 3 ∧ wire &&& 0x7 ≠ 2 ∧ fld = .Msgs) ∨
      (int32OfBits ((wire >>> 3) % 2 ^ 32) = 4 ∧ wire &&& 0x7 ≠ 0
        ∧ fld = .LastExecuteHeight)) :
    (∀ (D : Bytes) (fuel i : Nat) (m : Schedule) (j : Nat), i < D.length →
      decodeVarint D 64 i = (wire, j, none) →
      Schedule.unmarshalLoop D (fuel + 1) i m
        = (m, some (if wire &&& 0x7 = 4 then .wiretypeEndGroup .Schedule
            else .wrongWireType (wire &&& 0x7) fld))) ∧
    (∀ (xs : List WireField) (rest : Bytes) (j : Nat), (∀ f ∈ xs, f.Complete) →
      rest ≠ [] → (encodeFields xs ++ rest).length < 2 ^ 63 →
      decodeVarint (encodeFields xs ++ rest) 64 (encodeFields xs).length = (wire, j, none) →
      (Schedule.Unmarshal ⟨[], 0, [], 0⟩ (encodeFields xs ++ rest)).2 ≠ none ∧
      ((Schedule.Unmarshal ⟨[], 0, [], 0⟩ (encodeFields xs)).2 = none →
        Schedule.Unmarshal ⟨[], 0, [], 0⟩ (encodeFields xs ++ rest)
          = ((Schedule.Unmarshal ⟨[], 0, [], 0⟩ (encodeFields xs)).1,
              some (if wire &&& 0x7 = 4 then .wiretypeEndGroup .Schedule
                else .wrongWireType (wire &&& 0x7) fld)))) := by
  have round : ∀ (D : Bytes) (fuel i : Nat) (m : Schedule) (j : Nat), i < D.length →
      decodeVarint D 64 i = (wire, j, none) →
      Schedule.unmarshalLoop D (fuel + 1) i m
        = (m, some (if wire &&& 0x7 = 4 then .wiretypeEndGroup .Schedule
            else .wrongWireType (wire &&& 0x7) fld)) := by
    intro D fuel i m j hi hdec
    by_cases h4 : wire &&& 0x7 = 4
    · rw [if_pos h4]
      exact (Schedule.round_tag_check D fuel i m wire j hi hdec).1 h4
    · rw [if_neg h4]
      exact Schedule.round_wrong_wireType D fuel i m wire j hi hdec h4 fld hcase
  refine ⟨round, ?_⟩
  intro xs rest j hx hrest hlen hdec
  obtain ⟨eff, h1, h2⟩ := Schedule.unmarshal_after_fields xs hx
  have hpos : 0 < rest.length := List.length_pos.mpr hrest
  obtain ⟨fuel1, hf, hs⟩ := h2 rest ⟨[], 0, [], 0⟩ hlen
  have hX := h1 ⟨[], 0, [], 0⟩ (by simp only [List.length_append] at hlen; omega)
  have hi : (encodeFields xs).length < (encodeFields xs ++ rest).length := by
    simp only [List.length_append]; omega
  obtain ⟨fuel2, rfl⟩ : ∃ k, fuel1 = k + 1 := ⟨fuel1 - 1, by omega⟩
  rw [hs, hX]
  by_cases he : (eff ⟨[], 0, [], 0⟩).2.isNone
  · rw [if_pos he, if_pos he, round _ fuel2 _ _ j hi hdec]
    exact ⟨by simp, fun _ => rfl⟩
  · rw [if_neg he, if_neg he]
    have hne : (eff ⟨[], 0, [], 0⟩).2 ≠ none := by
      intro h
      rw [h] at he
      exact he rfl
    exact ⟨hne, fun h => absurd h hne⟩

/-- C25 witness: after a Name field, a Period tag with wire type 2 (tag 0x12) is rejected
and the Period is not assigned. -/
theorem C25_wrong_wire_type_rejected_witness :
    Schedule.Unmarshal ⟨[], 0, [], 0⟩ (encodeFields [.bytesField 1 [110]] ++ [0x12, 1, 7])
      = (⟨[110], 0, [], 0⟩, some (.wrongWireType 2 .Period)) :=
  (((C25_wrong_wire_type_rejected .Period 18 (by decide)).2 [.bytesField 1 [110]] [0x12, 1, 7] 4
    (by decide) (by decide) (by decide) (by decide)).2 (by decide)).trans (by decide)

/-! ## Truncated input -/

/-- A varint cut before its last byte is an unexpected end of input. -/
theorem decodeVarintLoop_truncated (bits : Nat) (fuel : Nat) :
    ∀ (v shift acc : Nat) (A q : Bytes), v < 2 ^ (7 * (fuel + 1)) → shift + 7 * (fuel + 1) ≤ 70 →
      q <+: varintGroups (fuel + 1) v → q ≠ varintGroups (fuel + 1) v →
      (decodeVarintLoop (A ++ q) bits (fuel + 1) shift A.length acc).2.2
        = some .ErrUnexpectedEOF := by
  induction fuel with
  | zero =>
    intro v shift acc A q hv hs hq hne
    have h : v < 128 := by simpa using hv
    simp only [varintGroups, if_pos h] at hq hne
    cases q with
    | nil =>
      rw [decodeVarintLoop, if_neg (by omega)]
      simp
    | cons b q' =>
      exfalso
      obtain ⟨t, ht⟩ := hq
      simp only [List.cons_append, List.cons.injEq, List.append_eq_nil] at ht
      exact hne (by rw [ht.1, ht.2.1])
  | succ fuel ih =>
    intro v shift acc A q hv hs hq hne
    cases q with
    | nil =>
      rw [decodeVarintLoop, if_neg (by omega)]
      simp
    | cons b q' =>
      rw [varintGroups] at hq hne
      by_cases h : v < 128
      · exfalso
        rw [if_pos h] at hq hne
        obtain ⟨t, ht⟩ := hq
        simp only [List.cons_append, List.cons.injEq, List.append_eq_nil] at ht
        exact hne (by rw [ht.1, ht.2.1])
      · rw [if_neg h] at hq hne
        obtain ⟨t, ht⟩ := hq
        simp only [List.cons_append, List.cons.injEq] at ht
        obtain ⟨hb, hq'⟩ := ht
        have hpre : q' <+: varintGroups (fuel + 1) (v / 128) := ⟨t, hq'⟩
        have hne' : q' ≠ varintGroups (fuel + 1) (v / 128) := by
          intro heq
          exact hne (by rw [hb, heq])
        rw [decodeVarintLoop, if_neg (by omega)]
        have hget : (A ++ b :: q')[A.length]? = some b := getElem?_mid A q' b
        rw [hget]
        have hbn : b.toNat = v % 128 + 128 := by
          rw [hb, u8_toNat_ofNat]; omega
        simp only [hbn]
        rw [if_neg (by omega)]
        have e1 : A ++ b :: q' = (A ++ [b]) ++ q' := by simp
        have e2 : A.length + 1 = (A ++ [b]).length := by simp
        rw [e1, e2]
        exact ih (v / 128) (shift + 7) _ (A ++ [b]) q' (div128_lt hv) (by omega) hpre hne'

theorem decodeVarint_truncated (bits : Nat) (v : Nat) (hv : v < 2 ^ 64) (A q : Bytes)
    (hq : q <+: varint v) (hne : q ≠ varint v) :
    (decodeVarint (A ++ q) bits A.length).2.2 = some .ErrUnexpectedEOF :=
  decodeVarintLoop_truncated bits 9 v 0 0 A q (lt_of_lt_of_le hv (by decide)) (by decide) hq hne

/-- A prefix of a concatenation lies in the first part or covers it. -/
theorem prefix_append_cases (p X Y : Bytes) (h : p <+: X ++ Y) :
    (p <+: X ∧ p ≠ X) ∨ ∃ q, p = X ++ q ∧ q <+: Y := by
  by_cases hl : p.length < X.length
  · left
    have hp : p <+: X := by
      have h1 : p = (X ++ Y).take p.length := (List.prefix_iff_eq_take.mp h)
      rw [List.take_append_of_le_length (le_of_lt hl)] at h1
      rw [h1]
      exact List.take_prefix _ _
    exact ⟨hp, fun heq => by rw [heq] at hl; exact lt_irrefl _ hl⟩
  · right
    have hX : X <+: p := by
      have : X <+: X ++ Y := List.prefix_append X Y
      exact List.prefix_of_prefix_length_le this h (by omega)
    obtain ⟨q, rfl⟩ := hX
    exact ⟨q, rfl, (List.prefix_append_right_inj X).mp h⟩

/-- A length and its bytes, cut short: the length is cut, or it is read and points past
the end of the input. -/
theorem length_prefix_truncated (s A q : Bytes) (hs : s.length < 2 ^ 63)
    (hq : q <+: varint s.length ++ s) (hne : q ≠ varint s.length ++ s) :
    (decodeVarint (A ++ q) 64 A.length).2.2 = some .ErrUnexpectedEOF ∨
      (decodeVarint (A ++ q) 64 A.length
          = (s.length, A.length + (varint s.length).length, none) ∧
        (A ++ q).length < A.length + (varint s.length).length + s.length) := by
  have hlt : (2 : Nat) ^ 63 < 2 ^ 64 := by decide
  rcases prefix_append_cases q (varint s.length) s hq with ⟨h1, h2⟩ | ⟨s1, rfl, hs1⟩
  · left
    exact decodeVarint_truncated 64 s.length (by omega) A q h1 h2
  · right
    have hd := decodeVarint_spec 64 s.length (by omega) A s1
    rw [Nat.mod_eq_of_lt (by omega)] at hd
    have e1 : A ++ (varint s.length ++ s1) = A ++ varint s.length ++ s1 := by simp
    rw [e1]
    refine ⟨hd, ?_⟩
    have hl : s1.length ≤ s.length := hs1.length_le
    have hne1 : s1.length ≠ s.length := by
      intro heq
      have : s1 = s := hs1.eq_of_length heq
      exact hne (by rw [this])
    simp only [List.length_append]
    omega

/-- A nonempty prefix of a field starts with its tag. -/
theorem prefix_cons_cases (t : UInt8) (P q : Bytes) (hq0 : q ≠ []) (hq : q <+: t :: P)
    (hne : q ≠ t :: P) : ∃ q1, q = t :: q1 ∧ q1 <+: P ∧ q1 ≠ P := by
  cases q with
  | nil => exact absurd rfl hq0
  | cons b q1 =>
    obtain ⟨r, hr⟩ := hq
    simp only [List.cons_append, List.cons.injEq] at hr
    obtain ⟨hb, hr⟩ := hr
    subst hb
    exact ⟨q1, rfl, ⟨r, hr⟩, fun h => hne (by rw [h])⟩

/-- The string read behind a tag when the input is cut short. -/
theorem readString_truncated (s A q1 : Bytes) (tag : UInt8) (hs : s.length < 2 ^ 63)
    (hlen : (A ++ tag :: (varint s.length ++ s)).length < 2 ^ 63)
    (hq : q1 <+: varint s.length ++ s) (hne : q1 ≠ varint s.length ++ s) :
    readString (A ++ tag :: q1) (A.length + 1) = .error .ErrUnexpectedEOF := by
  have e1 : A ++ tag :: q1 = (A ++ [tag]) ++ q1 := by simp
  have e2 : A.length + 1 = (A ++ [tag]).length := by simp
  simp only [List.length_append, List.length_cons] at hlen
  unfold readString
  rw [e1, e2]
  rcases length_prefix_truncated s (A ++ [tag]) q1 hs hq hne with h | ⟨h, hl⟩
  · rcases hd : decodeVarint (A ++ [tag] ++ q1) 64 (A ++ [tag]).length with ⟨a, b, e⟩
    rw [hd] at h
    simp only at h
    rw [h]
  · rw [h]
    simp only
    simp only [List.length_append, List.length_cons, List.length_nil] at hl ⊢
    rw [if_neg (by omega), if_neg (by omega), if_pos (by omega)]

/-- The Name field is read as one field. -/
theorem readsField_name (s : Bytes) (hs : s.length < 2 ^ 63) :
    Schedule.ReadsField (0xa :: (varint s.length ++ s)) := by
  refine ⟨by simp, ⟨fun m => { m with Name := s }, ?_⟩, ?_⟩
  · intro A C m fuel hlen
    have := Schedule.loop_name s A C m fuel hlen
    rw [this]
    simp only [List.length_cons, List.length_append]
    congr 1
    omega
  · intro A q m fuel hq0 hq hne hlen
    obtain ⟨q1, rfl, hq1, hne1⟩ := prefix_cons_cases _ _ q hq0 hq hne
    rw [Schedule.unmarshalLoop, if_pos (by simp)]
    have htag := decodeVarint_tag 10 (by decide) A q1
    have hu : UInt8.ofNat 10 = 0xa := rfl
    rw [hu] at htag
    simp only [htag]
    have hf : int32OfBits ((10 >>> 3) % 2 ^ 32) = 1 := by decide
    have hw : (10 : Nat) &&& 0x7 = 2 := by decide
    rw [hf, hw, if_neg (by decide), if_neg (by decide), if_pos rfl, if_neg (by decide),
      readString_truncated s A q1 0xa hs hlen hq1 hne1]

/-- A varint field is read as one field. -/
theorem readsField_period (v : Nat) (hv : v < 2 ^ 64) :
    Schedule.ReadsField (0x10 :: varint v) := by
  refine ⟨by simp, ⟨fun m => { m with Period := v }, ?_⟩, ?_⟩
  · intro A C m fuel _
    have := Schedule.loop_period v hv A C m fuel
    rw [this]
    simp only [List.length_cons]
    congr 1
    omega
  · intro A q m fuel hq0 hq hne _
    obtain ⟨q1, rfl, hq1, hne1⟩ := prefix_cons_cases _ _ q hq0 hq hne
    rw [Schedule.unmarshalLoop, if_pos (by simp)]
    have htag := decodeVarint_tag 16 (by decide) A q1
    have hu : UInt8.ofNat 16 = 0x10 := rfl
    rw [hu] at htag
    simp only [htag]
    have hf : int32OfBits ((16 >>> 3) % 2 ^ 32) = 2 := by decide
    have hw : (16 : Nat) &&& 0x7 = 0 := by decide
    rw [hf, hw, if_neg (by decide), if_neg (by decide), if_neg (by decide), if_pos rfl,
      if_neg (by decide)]
    have h := decodeVarint_truncated 64 v hv (A ++ [0x10]) q1 hq1 hne1
    have e1 : A ++ [0x10] ++ q1 = A ++ 0x10 :: q1 := by simp
    have e2 : (A ++ [(0x10 : UInt8)]).length = A.length + 1 := by simp
    rw [e1, e2] at h
    rcases hd : decodeVarint (A ++ 0x10 :: q1) 64 (A.length + 1) with ⟨a, b, e⟩
    rw [hd] at h
    simp only at h
    rw [h]

/-- The LastExecuteHeight field is read as one field. -/
theorem readsField_height (v : Nat) (hv : v < 2 ^ 64) :
    Schedule.ReadsField (0x20 :: varint v) := by
  refine ⟨by simp, ⟨fun m => { m with LastExecuteHeight := v }, ?_⟩, ?_⟩
  · intro A C m fuel _
    have := Schedule.loop_height v hv A C m fuel
    rw [this]
    simp only [List.length_cons]
    congr 1
    omega
  · intro A q m fuel hq0 hq hne _
    obtain ⟨q1, rfl, hq1, hne1⟩ := prefix_cons_cases _ _ q hq0 hq hne
    rw [Schedule.unmarshalLoop, if_pos (by simp)]
    have htag := decodeVarint_tag 32 (by decide) A q1
    have hu : UInt8.ofNat 32 = 0x20 := rfl
    rw [hu] at htag
    simp only [htag]
    have hf : int32OfBits ((32 >>> 3) % 2 ^ 32) = 4 := by decide
    have hw : (32 : Nat) &&& 0x7 = 0 := by decide
    rw [hf, hw, if_neg (by decide), if_neg (by decide), if_neg (by decide), if_neg (by decide),
      if_neg (by decide), if_pos rfl, if_neg (by decide)]
    have h := decodeVarint_truncated 64 v hv (A ++ [0x20]) q1 hq1 hne1
    have e1 : A ++ [0x20] ++ q1 = A ++ 0x20 :: q1 := by simp
    have e2 : (A ++ [(0x20 : UInt8)]).length = A.length + 1 := by simp
    rw [e1, e2] at h
    rcases hd : decodeVarint (A ++ 0x20 :: q1) 64 (A.length + 1) with ⟨a, b, e⟩
    rw [hd] at h
    simp only at h
    rw [h]

/-- An element of Msgs is read as one field. -/
theorem readsField_msg (e : MsgExecuteContract) (he : e.Representable) :
    Schedule.ReadsField (wireMsg e) := by
  obtain ⟨hc, hm, hw63⟩ := he.bounds
  refine ⟨by simp [wireMsg], ⟨fun m => { m with Msgs := m.Msgs ++ [e] }, ?_⟩, ?_⟩
  · intro A C m fuel hlen
    exact Schedule.loop_element e A C m fuel hlen
  · intro A q m fuel hq0 hq hne hlen
    unfold wireMsg at hq hne hlen
    obtain ⟨q1, rfl, hq1, hne1⟩ := prefix_cons_cases _ _ q hq0 hq hne
    rw [Schedule.unmarshalLoop, if_pos (by simp)]
    have htag := decodeVarint_tag 26 (by decide) A q1
    have hu : UInt8.ofNat 26 = 0x1a := rfl
    rw [hu] at htag
    simp only [htag]
    have hf : int32OfBits ((26 >>> 3) % 2 ^ 32) = 3 := by decide
    have hw : (26 : Nat) &&& 0x7 = 2 := by decide
    rw [hf, hw, if_neg (by decide), if_neg (by decide), if_neg (by decide), if_neg (by decide),
      if_pos rfl, if_neg (by decide)]
    have e1 : A ++ [0x1a] ++ q1 = A ++ 0x1a :: q1 := by simp
    have e2 : (A ++ [(0x1a : UInt8)]).length = A.length + 1 := by simp
    simp only [List.length_append, List.length_cons] at hlen
    rcases length_prefix_truncated e.wire (A ++ [0x1a]) q1 hw63 hq1 hne1 with h | ⟨h, hl⟩
    · rw [e1, e2] at h
      rcases hd : decodeVarint (A ++ 0x1a :: q1) 64 (A.length + 1) with ⟨a, b, er⟩
      rw [hd] at h
      simp only at h
      rw [h]
    · rw [e1, e2] at h hl
      rw [h]
      simp only
      rw [if_neg (by omega), if_neg (by omega), if_pos (by omega)]

/-- The loop on a prefix of a sequence of fields: no error when the prefix ends between two
fields, an unexpected end of input when it ends inside one. -/
theorem Schedule.loop_truncated (Fs : List Bytes) (hF : ∀ F ∈ Fs, Schedule.ReadsField F) :
    ∀ (A p : Bytes) (m : Schedule) (fuel : Nat), p <+: Fs.flatten →
      (A ++ Fs.flatten).length < 2 ^ 63 → p.length ≤ fuel →
      ((∃ k, p = (Fs.take k).flatten) →
        (Schedule.unmarshalLoop (A ++ p) fuel A.length m).2 = none) ∧
      ((¬ ∃ k, p = (Fs.take k).flatten) →
        (Schedule.unmarshalLoop (A ++ p) fuel A.length m).2 = some .ErrUnexpectedEOF) := by
  induction Fs with
  | nil =>
    intro A p m fuel hp _ _
    have hp0 : p = [] := by simpa using hp
    subst hp0
    have hend : Schedule.unmarshalLoop (A ++ []) fuel A.length m = (m, none) := by
      have := Schedule.scheduleLoop_end (A ++ []) fuel m
      simpa using this
    refine ⟨fun _ => by rw [hend], fun h => absurd ⟨0, by simp⟩ h⟩
  | cons F rest ih =>
    intro A p m fuel hp hlen hfuel
    obtain ⟨hF0, ⟨g, hg⟩, htr⟩ := hF F (List.mem_cons_self _ _)
    have hFpos : 0 < F.length := List.length_pos.mpr hF0
    have ih := ih (fun x hx => hF x (List.mem_cons_of_mem _ hx))
    rw [List.flatten_cons] at hp hlen
    simp only [List.length_append] at hlen
    rcases prefix_append_cases p F rest.flatten hp with ⟨h1, h2⟩ | ⟨q, rfl, hq⟩
    · by_cases hp0 : p = []
      · subst hp0
        have hend : Schedule.unmarshalLoop (A ++ []) fuel A.length m = (m, none) := by
          have := Schedule.scheduleLoop_end (A ++ []) fuel m
          simpa using this
        exact ⟨fun _ => by rw [hend], fun h => absurd ⟨0, by simp⟩ h⟩
      · have hppos : 0 < p.length := List.length_pos.mpr hp0
        obtain ⟨fuel1, rfl⟩ : ∃ k, fuel = k + 1 := ⟨fuel - 1, by omega⟩
        have hres := htr A p m fuel1 hp0 h1 h2 (by simp only [List.length_append]; omega)
        have hlt : p.length < F.length := by
          have hle := h1.length_le
          have : p.length ≠ F.length := fun heq => h2 (h1.eq_of_length heq)
          omega
        refine ⟨?_, fun _ => hres⟩
        rintro ⟨k, hk⟩
        exfalso
        cases k with
        | zero => exact hp0 (by simpa using hk)
        | succ k =>
          rw [List.take_succ_cons, List.flatten_cons] at hk
          rw [hk] at hlt
          simp only [List.length_append] at hlt
          omega
    · simp only [List.length_append] at hfuel
      obtain ⟨fuel1, rfl⟩ : ∃ k, fuel = k + 1 := ⟨fuel - 1, by omega⟩
      have hstep := hg A q m fuel1 (by
        have := hq.length_le
        simp only [List.length_append]; omega)
      have e1 : A ++ (F ++ q) = A ++ F ++ q := by simp
      have e2 : A.length + F.length = (A ++ F).length := by simp
      rw [e1, hstep, e2]
      obtain ⟨i1, i2⟩ := ih (A ++ F) q (g m) fuel1 hq
        (by simp only [List.length_append]; omega) (by omega)
      have hiff : (∃ k, F ++ q = ((F :: rest).take k).flatten)
          ↔ ∃ k, q = (rest.take k).flatten := by
        constructor
        · rintro ⟨k, hk⟩
          cases k with
          | zero =>
            exfalso
            have : F ++ q = [] := by simpa using hk
            exact hF0 (List.append_eq_nil.mp this).1
          | succ k =>
            rw [List.take_succ_cons, List.flatten_cons] at hk
            exact ⟨k, List.append_cancel_left hk⟩
        · rintro ⟨k, hk⟩
          exact ⟨k + 1, by rw [List.take_succ_cons, List.flatten_cons, hk]⟩
      exact ⟨fun h => i1 (hiff.mp h), fun h => i2 (fun h2 => h (hiff.mpr h2))⟩

/-- The layout of a Schedule is the concatenation of its top-level fields. -/
theorem Schedule.wire_eq_topFields (m : Schedule) : m.wire = m.topFields.flatten := by
  have hmsgs : ∀ l : List MsgExecuteContract, wireMsgs l = (l.map wireMsg).flatten := by
    intro l
    induction l with
    | nil => rfl
    | cons e rest ih => rw [wireMsgs, ih, List.map_cons, List.flatten_cons]
  unfold Schedule.wire Schedule.topFields wireString wireVarint
  rw [hmsgs]
  simp only [List.flatten_append]
  congr 1
  · split <;> simp
  · congr 1
    · split <;> simp
    · congr 1
      split <;> simp

/-- Every top-level field of a representable Schedule is read as one field. -/
theorem Schedule.topFields_readsField (m : Schedule) (h : m.Representable) :
    ∀ F ∈ m.topFields, Schedule.ReadsField F := by
  obtain ⟨hp, hl, hn, hmsgs, _⟩ := h
  intro F hF
  unfold Schedule.topFields at hF
  simp only [List.mem_append, List.mem_map] at hF
  rcases hF with hF | hF | ⟨e, he, rfl⟩ | hF
  · split at hF
    · have : F = 0xa :: (varint m.Name.length ++ m.Name) := by simpa using hF
      rw [this]
      exact readsField_name m.Name hn
    · simp at hF
  · split at hF
    · have : F = 0x10 :: varint m.Period := by simpa using hF
      rw [this]
      exact readsField_period m.Period hp
    · simp at hF
  · exact readsField_msg e (hmsgs e he)
  · split at hF
    · have : F = 0x20 :: varint m.LastExecuteHeight := by simpa using hF
      rw [this]
      exact readsField_height m.LastExecuteHeight hl
    · simp at hF

theorem Schedule.atFieldBoundary_iff (m : Schedule) (p : Bytes) :
    m.AtFieldBoundary p ↔ ∃ k, p = (m.topFields.take k).flatten := by
  constructor
  · rintro ⟨k, _, hk⟩
    exact ⟨k, hk⟩
  · rintro ⟨k, hk⟩
    by_cases h : k ≤ m.topFields.length
    · exact ⟨k, h, hk⟩
    · refine ⟨m.topFields.length, le_refl _, ?_⟩
      rw [hk, List.take_of_length_le (by omega), List.take_of_length_le (le_refl _)]

/-- C24: truncation is reported only as unexpected end of input. For every Schedule m that
exists as a Go value, Marshal(m) is the concatenation of the top-level fields of m, and for
every prefix p of Marshal(m), Schedule.Unmarshal(p) into a zero value returns nil when p
ends on a top-level field boundary and io.ErrUnexpectedEOF when p ends strictly inside a
field; so it returns nil or io.ErrUnexpectedEOF, never any other error. -/
theorem C24_truncation_is_unexpected_eof (m : Schedule) (h : m.Representable) :
    m.Marshal = some m.topFields.flatten ∧
      ∀ p : Bytes, p <+: m.topFields.flatten →
        (m.AtFieldBoundary p → (Schedule.Unmarshal ⟨[], 0, [], 0⟩ p).2 = none) ∧
        (¬ m.AtFieldBoundary p →
          (Schedule.Unmarshal ⟨[], 0, [], 0⟩ p).2 = some .ErrUnexpectedEOF) ∧
        ((Schedule.Unmarshal ⟨[], 0, [], 0⟩ p).2 = none ∨
          (Schedule.Unmarshal ⟨[], 0, [], 0⟩ p).2 = some .ErrUnexpectedEOF) := by
  have hw := Schedule.wire_eq_topFields m
  have hlen : m.wire.length < 2 ^ 63 := by
    rw [← Schedule.scheduleSize_eq m h]; exact h.2.2.2.2
  refine ⟨by rw [← hw]; exact Schedule.scheduleMarshal_eq_wire m h, ?_⟩
  intro p hp
  obtain ⟨r1, r2⟩ := Schedule.loop_truncated m.topFields (Schedule.topFields_readsField m h) []
    p ⟨[], 0, [], 0⟩ p.length hp (by rw [← hw]; simpa using hlen) (le_refl _)
  simp only [List.nil_append, List.length_nil] at r1 r2
  have a1 : m.AtFieldBoundary p → (Schedule.Unmarshal ⟨[], 0, [], 0⟩ p).2 = none :=
    fun hb => r1 ((Schedule.atFieldBoundary_iff m p).mp hb)
  have a2 : ¬ m.AtFieldBoundary p →
      (Schedule.Unmarshal ⟨[], 0, [], 0⟩ p).2 = some .ErrUnexpectedEOF :=
    fun hb => r2 (fun hk => hb ((Schedule.atFieldBoundary_iff m p).mpr hk))
  refine ⟨a1, a2, ?_⟩
  by_cases hb : m.AtFieldBoundary p
  · exact Or.inl (a1 hb)
  · exact Or.inr (a2 hb)

/-- C24 witness: the sample schedule cut inside its second message, and cut after its
Period field. -/
theorem C24_truncation_is_unexpected_eof_witness :
    (Schedule.Unmarshal ⟨[], 0, [], 0⟩
        [10, 2, 110, 97, 16, 172, 2, 26, 7, 10, 1, 99, 18, 2, 123, 125, 26, 0, 26, 3, 18]).2
      = some .ErrUnexpectedEOF ∧
    (Schedule.Unmarshal ⟨[], 0, [], 0⟩ [10, 2, 110, 97, 16, 172, 2]).2 = none :=
  ⟨((C24_truncation_is_unexpected_eof
      (Schedule.mk [110, 97] 300 [⟨[99], [123, 125]⟩, ⟨[], []⟩, ⟨[], [1]⟩]
        18446744073709551615) (by decide)).2
      [10, 2, 110, 97, 16, 172, 2, 26, 7, 10, 1, 99, 18, 2, 123, 125, 26, 0, 26, 3, 18]
      (by decide)).2.1 (by decide),
    ((C24_truncation_is_unexpected_eof
      (Schedule.mk [110, 97] 300 [⟨[99], [123, 125]⟩, ⟨[], []⟩, ⟨[], [1]⟩]
        18446744073709551615) (by decide)).2
      [10, 2, 110, 97, 16, 172, 2] (by decide)).1 (by decide)⟩

/-! ## Failure ids over the life of an address -/

/-- C21, as stated, fails: from the empty store, AddContractFailure for address [97]
returns id 0; the failure is resubmitted with success, which removes it; the next
AddContractFailure for [97] returns id 0 again. With two failures stored, resubmitting the
one with id 1 makes the next addition return 1 again. -/
theorem C21_counterexample :
    (sampleKeeper.runOps emptyCtx
        [.add [97] (some [5]) [9], .resubmit [97] ⟨[97], 0, some [5], [9]⟩,
          .add [97] none []]).map (fun r => r.1) = some [([97], 0), ([97], 0)] ∧
    (sampleKeeper.runOps emptyCtx
        [.add [97] none [], .add [97] (some [5]) [9], .resubmit [97] ⟨[97], 1, some [5], [9]⟩,
          .add [97] none []]).map (fun r => r.1)
      = some [([97], 0), ([97], 1), ([97], 1)] := by
  decide

theorem deleteKey_insertKey_of_fresh (l : List (Bytes × Bytes)) (key v : Bytes)
    (h : ∀ e ∈ l, e.1 ≠ key) : deleteKey (insertKey l key v) key = l := by
  have hself : ∀ l : List (Bytes × Bytes), (∀ e ∈ l, e.1 ≠ key) → deleteKey l key = l := by
    intro l hl
    unfold deleteKey
    rw [List.filter_eq_self]
    intro e he
    simp [hl e he]
  induction l with
  | nil => simp [insertKey, deleteKey]
  | cons e rest ih =>
    have he : e.1 ≠ key := h e (List.mem_cons_self _ _)
    have hrest : ∀ x ∈ rest, x.1 ≠ key := fun x hx => h x (List.mem_cons_of_mem _ hx)
    simp only [insertKey, if_neg he]
    split
    · have := hself (e :: rest) h
      unfold deleteKey at this ⊢
      rw [List.filter_cons]
      simp only [decide_True, Bool.not_true]
      exact this
    · have := ih hrest
      unfold deleteKey at this ⊢
      rw [List.filter_cons]
      simp only [he, decide_False, Bool.not_false, if_true]
      rw [this]

/-- Deleting a key just written where there was none gives the store back. -/
theorem KVStore.delete_set_of_fresh (s : KVStore) (key v : Bytes) (h : s.Get key = none) :
    (s.Set key v).Delete key = s := by
  have hl := deleteKey_insertKey_of_fresh s.entries key v ((s.get_none_iff key).mp h)
  cases s with
  | mk entries asc =>
    simp only [KVStore.Set, KVStore.Delete] at hl ⊢
    simp only [KVStore.mk.injEq]
    exact hl

/-- The next id depends on the store only. -/
theorem GetNextFailureIDKey_of_store (k : Keeper) (ctx ctx2 : Ctx) (a : Bytes) (id : Nat)
    (hs : ctx2.store = ctx.store) (h : k.GetNextFailureIDKey ctx a = some (id, ctx)) :
    k.GetNextFailureIDKey ctx2 a = some (id, ctx2) := by
  unfold Keeper.GetNextFailureIDKey at h ⊢
  rw [hs]
  cases hit : ctx.store.ReversePrefixIterator (k.GetFailureKeyPrefix a) with
  | nil =>
    rw [hit] at h
    simp only [Option.some.injEq, Prod.mk.injEq] at h ⊢
    exact ⟨h.1, trivial⟩
  | cons x rest =>
    rw [hit] at h
    simp only at h ⊢
    cases hu : k.MustUnmarshal x.2 with
    | none => rw [hu] at h; cases h
    | some val =>
      rw [hu] at h
      simp only [Option.some.injEq, Prod.mk.injEq] at h ⊢
      exact ⟨h.1, trivial⟩

/-- The next id of an address whose key range holds only its own failures, at their own
keys sorted by id: it is above every stored id, its key is free, and it is 0 on an empty
range. -/
theorem nextFailureID_above_stored (k : Keeper) (ctx : Ctx) (a : Bytes) (N : Nat)
    (hN : N ≤ 2 ^ 64)
    (hown : ∀ e ∈ ctx.store.entries, (k.GetFailureKeyPrefix a).isPrefixOf e.1 = true →
      ∃ f, k.MustUnmarshal e.2 = some f ∧ e.1 = k.GetFailureKey a f.Id ∧ f.Id + 1 < N)
    (hord : ∀ j, j < N → ∀ i, i < j →
      bytesLt (k.GetFailureKey a i) (k.GetFailureKey a j) = true) :
    ∃ id, k.GetNextFailureIDKey ctx a = some (id, ctx) ∧
      (∀ x ∈ ctx.store.entries, (k.GetFailureKeyPrefix a).isPrefixOf x.1 = true →
        ∃ g, k.MustUnmarshal x.2 = some g ∧ g.Id < id) ∧
      ((∀ i, (k.GetFailureKeyPrefix a).isPrefixOf (k.GetFailureKey a i) = true) →
        ctx.store.Get (k.GetFailureKey a id) = none) ∧
      ((∀ x ∈ ctx.store.entries, (k.GetFailureKeyPrefix a).isPrefixOf x.1 = false) →
        id = 0) := by
  cases hit : ctx.store.ReversePrefixIterator (k.GetFailureKeyPrefix a) with
  | nil =>
    have hno := (ctx.store.reversePrefixIterator_nil _).mp hit
    refine ⟨0, GetNextFailureIDKey_of_no_entry k ctx a hno, ?_, ?_, fun _ => rfl⟩
    · intro x hx hxp
      rw [hno x hx] at hxp
      exact absurd hxp (by simp)
    · intro hpfx
      rw [KVStore.get_none_iff]
      intro y hy hyk
      have := hno y hy
      rw [hyk, hpfx 0] at this
      exact absurd this (by simp)
  | cons x rest =>
    obtain ⟨hx, hxp, hxmax⟩ := ctx.store.reversePrefixIterator_head _ x rest hit
    obtain ⟨f, hf, hkey, hid⟩ := hown x hx hxp
    have habove : ∀ y ∈ ctx.store.entries, (k.GetFailureKeyPrefix a).isPrefixOf y.1 = true →
        ∃ g, k.MustUnmarshal y.2 = some g ∧ y.1 = k.GetFailureKey a g.Id ∧ g.Id < f.Id + 1 := by
      intro y hy hyp
      obtain ⟨g, hg, hgkey, hgid⟩ := hown y hy hyp
      refine ⟨g, hg, hgkey, ?_⟩
      by_contra hlt
      have h2 : f.Id < g.Id := by omega
      have hb := hord g.Id (by omega) f.Id h2
      rcases hxmax y hy hyp with h1 | h1
      · rw [h1, hf] at hg
        have : f = g := Option.some.inj hg
        rw [this] at h2
        exact absurd h2 (lt_irrefl _)
      · rw [hgkey, hkey] at h1
        have := bytesLt_asymm hb
        rw [h1] at this
        exact absurd this (by simp)
    refine ⟨f.Id + 1, ?_, ?_, ?_, ?_⟩
    · rw [GetNextFailureIDKey_of_greatest k ctx a x hx hxp hxmax, hf]
      simp only [Option.map_some', Option.some.injEq, Prod.mk.injEq, and_true]
      exact Nat.mod_eq_of_lt (by omega)
    · intro y hy hyp
      obtain ⟨g, hg, _, hlt⟩ := habove y hy hyp
      exact ⟨g, hg, hlt⟩
    · intro hpfx
      rw [KVStore.get_none_iff]
      intro y hy hyk
      obtain ⟨g, _, hgkey, hlt⟩ := habove y hy (by rw [hyk]; exact hpfx _)
      have hb := hord (f.Id + 1) hid g.Id hlt
      rw [← hgkey, hyk] at hb
      exact ne_of_bytesLt hb rfl
    · intro hno
      rw [hno x hx] at hxp
      exact absurd hxp (by simp)

/-- C21, amended: a new id is above every stored id of the address, and ids are reused
after removal. When every entry in the key range of the address decodes to a failure
stored at the key of that address and its own Id, with Id + 1 below a bound N of at most
2^64, and the keys of the address for ids below N are sorted by id, AddContractFailure
returns a failure whose Id is above the Id of each of these entries, and is 0 when the key
range holds no entry. When moreover the keys of the address lie in its key range, a
successful ResubmitFailure of the failure just returned, the contract handler having
accepted the payload and left the module store as it was, removes the entry and gives back
the store of before the addition, and every AddContractFailure for the address that
follows returns the same id again. -/
theorem C21_failure_ids (k : Keeper) (ctx : Ctx) (a : Bytes) (N : Nat)
    (hN : N ≤ 2 ^ 64)
    (hown : ∀ e ∈ ctx.store.entries, (k.GetFailureKeyPrefix a).isPrefixOf e.1 = true →
      ∃ f, k.MustUnmarshal e.2 = some f ∧ e.1 = k.GetFailureKey a f.Id ∧ f.Id + 1 < N)
    (hord : ∀ j, j < N → ∀ i, i < j →
      bytesLt (k.GetFailureKey a i) (k.GetFailureKey a j) = true)
    (p : Option Bytes) (e : Bytes) :
    ∃ id ctx1, k.AddContractFailure ctx a p e = some (⟨a, id, p, e⟩, ctx1) ∧
      (∀ x ∈ ctx.store.entries, (k.GetFailureKeyPrefix a).isPrefixOf x.1 = true →
        ∃ g, k.MustUnmarshal x.2 = some g ∧ g.Id < id) ∧
      ((∀ x ∈ ctx.store.entries, (k.GetFailureKeyPrefix a).isPrefixOf x.1 = false) →
        id = 0) ∧
      ((∀ i, (k.GetFailureKeyPrefix a).isPrefixOf (k.GetFailureKey a i) = true) →
        ∀ (c payload r : Bytes), k.AccAddressString c = a → p = some payload →
          k.SudoHandler ctx1.store c payload = (ctx1.store, .ok r) →
          ∃ ctx2, k.ResubmitFailure ctx1 c ⟨a, id, p, e⟩ = (none, ctx2) ∧
            ctx2.store = ctx.store ∧
            ∀ (p2 : Option Bytes) (e2 : Bytes), ∃ ctx3,
              k.AddContractFailure ctx2 a p2 e2 = some (⟨a, id, p2, e2⟩, ctx3)) := by
  obtain ⟨id, hnext, habove, hfresh, hzero⟩ := nextFailureID_above_stored k ctx a N hN hown hord
  refine ⟨id, ?_⟩
  rw [AddContractFailure_eq, hnext]
  refine ⟨_, rfl, habove, hzero, ?_⟩
  intro hpfx c payload r hc hp hs
  subst hp
  have hstore : ((ctx.store.Set (k.GetFailureKey a id)
      (k.MustMarshal ⟨a, id, some payload, e⟩)).Delete (k.GetFailureKey a id)) = ctx.store :=
    KVStore.delete_set_of_fresh ctx.store _ _ (hfresh hpfx)
  simp only at hs
  refine ⟨⟨ctx.store, ctx.sudoCalls ++ [(c, payload)]⟩, ?_, rfl, ?_⟩
  · unfold Keeper.ResubmitFailure
    simp only
    unfold Keeper.Sudo
    simp only [hs]
    unfold Keeper.removeFailure
    simp only [hc, hstore]
  · intro p2 e2
    rw [AddContractFailure_eq,
      GetNextFailureIDKey_of_store k ctx ⟨ctx.store, ctx.sudoCalls ++ [(c, payload)]⟩ a id rfl hnext]
    exact ⟨_, rfl⟩

/-- C21 witness: address [97] in sampleCtx2, which holds its failures 0 and 1. The addition
returns an id above both; its successful resubmission gives back the store of sampleCtx2,
and the addition that follows returns the same id. -/
theorem C21_failure_ids_witness :
    ∃ id ctx1, sampleKeeper.AddContractFailure sampleCtx2 [97] (some [5]) [9]
        = some (⟨[97], id, some [5], [9]⟩, ctx1) ∧
      (∀ x ∈ sampleCtx2.store.entries,
        (sampleKeeper.GetFailureKeyPrefix [97]).isPrefixOf x.1 = true →
        ∃ g, sampleKeeper.MustUnmarshal x.2 = some g ∧ g.Id < id) ∧
      ∃ ctx2, sampleKeeper.ResubmitFailure ctx1 [97] ⟨[97], id, some [5], [9]⟩ = (none, ctx2) ∧
        ctx2.store = sampleCtx2.store ∧
        ∀ (p2 : Option Bytes) (e2 : Bytes), ∃ ctx3,
          sampleKeeper.AddContractFailure ctx2 [97] p2 e2 = some (⟨[97], id, p2, e2⟩, ctx3) := by
  obtain ⟨id, ctx1, hadd, h1, _, h4⟩ :=
    C21_failure_ids sampleKeeper sampleCtx2 [97] 3 (by decide)
      (by
        intro e he _
        have hent : sampleCtx2.store.entries
            = [([1, 97, 0, 0, 0, 0, 0, 0, 0, 0], sampleMarshal ⟨[97], 0, none, []⟩),
               ([1, 97, 0, 0, 0, 0, 0, 0, 0, 1], sampleMarshal ⟨[97], 1, some [5], [9]⟩)] := by
          rfl
        rw [hent] at he
        simp only [List.mem_cons, List.mem_singleton, List.not_mem_nil, or_false] at he
        rcases he with h | h
        · exact ⟨⟨[97], 0, none, []⟩, by rw [h]; rfl, by rw [h]; rfl, by decide⟩
        · exact ⟨⟨[97], 1, some [5], [9]⟩, by rw [h]; rfl, by rw [h]; rfl, by decide⟩)
      (by decide) (some [5]) [9]
  exact ⟨id, ctx1, hadd, h1,
    h4 (fun i => List.isPrefixOf_iff_prefix.mpr ⟨Uint64ToBigEndian i, rfl⟩) [97] [5] [] rfl rfl
      rfl⟩

/-! ## Writes outside a key range -/

theorem filter_insertKey_of_not (pfx : Bytes) (l : List (Bytes × Bytes)) (key v : Bytes)
    (h : pfx.isPrefixOf key = false) :
    (insertKey l key v).filter (fun e => pfx.isPrefixOf e.1)
      = l.filter (fun e => pfx.isPrefixOf e.1) := by
  induction l with
  | nil => simp [insertKey, h]
  | cons e rest ih =>
    simp only [insertKey]
    split
    · rename_i he
      rw [List.filter_cons, List.filter_cons]
      simp only [h, he]
      simp
    · split
      · rw [List.filter_cons]
        simp only [h]
        simp
      · rw [List.filter_cons, List.filter_cons, ih]

theorem filter_deleteKey_of_not (pfx : Bytes) (l : List (Bytes × Bytes)) (key : Bytes)
    (h : pfx.isPrefixOf key = false) :
    (deleteKey l key).filter (fun e => pfx.isPrefixOf e.1)
      = l.filter (fun e => pfx.isPrefixOf e.1) := by
  unfold deleteKey
  rw [List.filter_filter]
  apply List.filter_congr
  intro e _
  by_cases he : e.1 = key
  · simp [he, h]
  · simp [he]

theorem KVStore.reversePrefixIterator_set_of_not (s : KVStore) (pfx key v : Bytes)
    (h : pfx.isPrefixOf key = false) :
    (s.Set key v).ReversePrefixIterator pfx = s.ReversePrefixIterator pfx := by
  unfold KVStore.ReversePrefixIterator KVStore.PrefixIterator KVStore.Set
  simp only
  rw [filter_insertKey_of_not pfx _ key v h]

theorem KVStore.reversePrefixIterator_delete_of_not (s : KVStore) (pfx key : Bytes)
    (h : pfx.isPrefixOf key = false) :
    (s.Delete key).ReversePrefixIterator pfx = s.ReversePrefixIterator pfx := by
  unfold KVStore.ReversePrefixIterator KVStore.PrefixIterator KVStore.Delete
  simp only
  rw [filter_deleteKey_of_not pfx _ key h]

/-- GetNextFailureIDKey reads only the key range of the address. -/
theorem GetNextFailureIDKey_congr (k : Keeper) (ctx1 ctx : Ctx) (b : Bytes)
    (h : ctx1.store.ReversePrefixIterator (k.GetFailureKeyPrefix b)
      = ctx.store.ReversePrefixIterator (k.GetFailureKeyPrefix b)) :
    (k.GetNextFailureIDKey ctx1 b).map (fun r => r.1)
      = (k.GetNextFailureIDKey ctx b).map (fun r => r.1) := by
  unfold Keeper.GetNextFailureIDKey
  rw [h]
  cases ctx.store.ReversePrefixIterator (k.GetFailureKeyPrefix b) with
  | nil => rfl
  | cons e rest =>
    simp only
    cases k.MustUnmarshal e.2 <;> rfl

/-- GetFailure reads only the key of the address and id. -/
theorem GetFailure_congr (k : Keeper) (ctx1 ctx : Ctx) (cb : Bytes) (j : Nat)
    (h : ctx1.store.Get (k.GetFailureKey (k.AccAddressString cb) j)
      = ctx.store.Get (k.GetFailureKey (k.AccAddressString cb) j)) :
    (k.GetFailure ctx1 cb j).map (fun r => r.1) = (k.GetFailure ctx cb j).map (fun r => r.1) := by
  unfold Keeper.GetFailure
  simp only
  rw [h]
  cases ctx.store.Get (k.GetFailureKey (k.AccAddressString cb) j) with
  | none => rfl
  | some bz =>
    simp only
    cases k.MustUnmarshal bz <;> rfl

/-- When neither key prefix of two addresses is a prefix of the other, a key of the first
lies outside the key range of the second. -/
theorem key_outside_range_of (k : Keeper) (a b : Bytes)
    (hfree : (k.GetFailureKeyPrefix a).isPrefixOf (k.GetFailureKeyPrefix b) = false ∧
      (k.GetFailureKeyPrefix b).isPrefixOf (k.GetFailureKeyPrefix a) = false)
    (hunder : ∀ i, (k.GetFailureKeyPrefix a).isPrefixOf (k.GetFailureKey a i) = true)
    (i : Nat) : (k.GetFailureKeyPrefix b).isPrefixOf (k.GetFailureKey a i) = false := by
  rw [Bool.eq_false_iff]
  intro hb
  have h1 := List.isPrefixOf_iff_prefix.mp hb
  have h2 := List.isPrefixOf_iff_prefix.mp (hunder i)
  rcases List.prefix_or_prefix_of_prefix h1 h2 with h | h
  · have := hfree.2
    rw [List.isPrefixOf_iff_prefix.mpr h] at this
    exact absurd this (by simp)
  · have := hfree.1
    rw [List.isPrefixOf_iff_prefix.mpr h] at this
    exact absurd this (by simp)

/-- What a write at a key of address a leaves alone: the failures and the next id of an
address b whose keys and key range are apart from those of a, and every other key. -/
theorem frame_of_write_at (k : Keeper) (ctx ctx1 : Ctx) (a b : Bytes) (i : Nat)
    (hkeys : ∀ j, k.GetFailureKey b j ≠ k.GetFailureKey a i)
    (hout : (k.GetFailureKeyPrefix b).isPrefixOf (k.GetFailureKey a i) = false)
    (hget : ∀ key, key ≠ k.GetFailureKey a i → ctx1.store.Get key = ctx.store.Get key)
    (hit : ∀ pfx, pfx.isPrefixOf (k.GetFailureKey a i) = false →
      ctx1.store.ReversePrefixIterator pfx = ctx.store.ReversePrefixIterator pfx) :
    (∀ cb j, k.AccAddressString cb = b →
        (k.GetFailure ctx1 cb j).map (fun r => r.1) = (k.GetFailure ctx cb j).map (fun r => r.1)) ∧
      (k.GetNextFailureIDKey ctx1 b).map (fun r => r.1)
        = (k.GetNextFailureIDKey ctx b).map (fun r => r.1) ∧
      (∀ key, key ≠ k.GetFailureKey a i → ctx1.store.Get key = ctx.store.Get key) := by
  refine ⟨?_, ?_, hget⟩
  · intro cb j hcb
    apply GetFailure_congr
    apply hget
    rw [hcb]
    exact hkeys j
  · apply GetNextFailureIDKey_congr
    exact hit _ hout

/-- C22: per-address isolation. For distinct addresses a and b, with GetFailureKey
injective on the keys of the two (equal keys have equal addresses), neither key prefix of
the two a prefix of the other, and the keys of a lying under the prefix of a:
AddContractFailure for a leaves GetFailure(b, j) unchanged for every j, leaves
GetNextFailureIDKey(b) unchanged, and leaves the value at every key other than the one
written unchanged; a successful ResubmitFailure for a, the contract handler having left
the module store as it was, leaves the same unchanged with respect to the state before the
call, apart from the key it deletes. -/
theorem C22_per_address_isolation (k : Keeper) (ctx : Ctx) (a b : Bytes) (hab : a ≠ b)
    (hinj : ∀ i j, k.GetFailureKey a i = k.GetFailureKey b j → a = b)
    (hfree : (k.GetFailureKeyPrefix a).isPrefixOf (k.GetFailureKeyPrefix b) = false ∧
      (k.GetFailureKeyPrefix b).isPrefixOf (k.GetFailureKeyPrefix a) = false)
    (hunder : ∀ i, (k.GetFailureKeyPrefix a).isPrefixOf (k.GetFailureKey a i) = true) :
    (∀ (p : Option Bytes) (e : Bytes) (f : Failure) (ctx1 : Ctx),
      k.AddContractFailure ctx a p e = some (f, ctx1) →
      (∀ cb j, k.AccAddressString cb = b →
        (k.GetFailure ctx1 cb j).map (fun r => r.1)
          = (k.GetFailure ctx cb j).map (fun r => r.1)) ∧
      (k.GetNextFailureIDKey ctx1 b).map (fun r => r.1)
        = (k.GetNextFailureIDKey ctx b).map (fun r => r.1) ∧
      (∀ key, key ≠ k.GetFailureKey a f.Id → ctx1.store.Get key = ctx.store.Get key)) ∧
    (∀ (c : Bytes) (f : Failure) (payload : Bytes) (ctx2 : Ctx), k.AccAddressString c = a →
      f.SudoPayload = some payload →
      (k.SudoHandler ctx.store c payload).1 = ctx.store →
      k.ResubmitFailure ctx c f = (none, ctx2) →
      (∀ cb j, k.AccAddressString cb = b →
        (k.GetFailure ctx2 cb j).map (fun r => r.1)
          = (k.GetFailure ctx cb j).map (fun r => r.1)) ∧
      (k.GetNextFailureIDKey ctx2 b).map (fun r => r.1)
        = (k.GetNextFailureIDKey ctx b).map (fun r => r.1) ∧
      (∀ key, key ≠ k.GetFailureKey a f.Id → ctx2.store.Get key = ctx.store.Get key)) := by
  have hkeys : ∀ i j, k.GetFailureKey b j ≠ k.GetFailureKey a i :=
    fun i j h => hab (hinj i j h.symm)
  constructor
  · intro p e f ctx1 hadd
    rw [AddContractFailure_eq] at hadd
    cases hn : k.GetNextFailureIDKey ctx a with
    | none => rw [hn] at hadd; cases hadd
    | some r =>
      obtain ⟨id, c0⟩ := r
      rw [hn] at hadd
      simp only [Option.some.injEq, Prod.mk.injEq] at hadd
      obtain ⟨hf, hc⟩ := hadd
      subst hf
      subst hc
      exact frame_of_write_at k ctx _ a b id (hkeys id)
        (key_outside_range_of k a b hfree hunder id)
        (fun key hne => KVStore.get_set_ne ctx.store _ hne)
        (fun pfx hp => KVStore.reversePrefixIterator_set_of_not ctx.store pfx _ _ hp)
  · intro c f payload ctx2 hc hp hs hres
    unfold Keeper.ResubmitFailure at hres
    rw [hp] at hres
    simp only at hres
    have hsudo : (k.Sudo ctx c payload).2.store = ctx.store := by
      unfold Keeper.Sudo
      simp only
      exact hs
    rcases hsd : k.Sudo ctx c payload with ⟨r, ctxS⟩
    rw [hsd] at hres hsudo
    simp only at hsudo
    cases r with
    | error err =>
      simp only [Prod.mk.injEq] at hres
      exact absurd hres.1 (by simp)
    | ok v =>
      simp only [Prod.mk.injEq, true_and] at hres
      subst hres
      have hkey : k.GetFailureKey (k.AccAddressString c) f.Id = k.GetFailureKey a f.Id := by
        rw [hc]
      exact frame_of_write_at k ctx (k.removeFailure ctxS c f.Id) a b f.Id (hkeys f.Id)
        (key_outside_range_of k a b hfree hunder f.Id)
        (fun key hne => by
          unfold Keeper.removeFailure
          simp only
          rw [hkey, hsudo]
          exact KVStore.get_delete_ne ctx.store hne)
        (fun pfx hpf => by
          unfold Keeper.removeFailure
          simp only
          rw [hkey, hsudo]
          exact KVStore.reversePrefixIterator_delete_of_not ctx.store pfx _ hpf)

theorem sampleKeeper_key_97_98 (i j : Nat)
    (h : sampleKeeper.GetFailureKey [97] i = sampleKeeper.GetFailureKey [98] j) :
    ([97] : Bytes) = [98] := by
  simp [sampleKeeper] at h

/-- C22 witness: the addresses [97] and [98] of the sample keeper in sampleCtx5, where both
have stored failures: the addition of ([97], 2) and the successful resubmission of
([97], 1), whose handler leaves the store alone, leave the failures and the next id of
[98], and every other key, as they were. -/
theorem C22_per_address_isolation_witness :
    sampleCtx5.store.Get (sampleKeeper.GetFailureKey [98] 0)
        = some (sampleMarshal ⟨[98], 0, some [7], [3]⟩) ∧
    (sampleKeeper.GetNextFailureIDKey sampleCtx5 [98]).map (fun r => r.1) = some 1 ∧
    ((∀ cb j, sampleKeeper.AccAddressString cb = [98] →
        (sampleKeeper.GetFailure
            (Ctx.mk (sampleCtx5.store.Set [1, 97, 0, 0, 0, 0, 0, 0, 0, 2]
              (sampleMarshal ⟨[97], 2, none, []⟩)) []) cb j).map (fun r => r.1)
          = (sampleKeeper.GetFailure sampleCtx5 cb j).map (fun r => r.1)) ∧
      (sampleKeeper.GetNextFailureIDKey
            (Ctx.mk (sampleCtx5.store.Set [1, 97, 0, 0, 0, 0, 0, 0, 0, 2]
              (sampleMarshal ⟨[97], 2, none, []⟩)) []) [98]).map (fun r => r.1)
        = (sampleKeeper.GetNextFailureIDKey sampleCtx5 [98]).map (fun r => r.1) ∧
      (∀ key, key ≠ sampleKeeper.GetFailureKey [97] (Failure.mk [97] 2 none []).Id →
        (Ctx.mk (sampleCtx5.store.Set [1, 97, 0, 0, 0, 0, 0, 0, 0, 2]
              (sampleMarshal ⟨[97], 2, none, []⟩)) []).store.Get key
          = sampleCtx5.store.Get key)) ∧
    ((∀ cb j, sampleKeeper.AccAddressString cb = [98] →
        (sampleKeeper.GetFailure
            (Ctx.mk (sampleCtx5.store.Delete [1, 97, 0, 0, 0, 0, 0, 0, 0, 1]) [([97], [5])])
            cb j).map (fun r => r.1)
          = (sampleKeeper.GetFailure sampleCtx5 cb j).map (fun r => r.1)) ∧
      (sampleKeeper.GetNextFailureIDKey
            (Ctx.mk (sampleCtx5.store.Delete [1, 97, 0, 0, 0, 0, 0, 0, 0, 1]) [([97], [5])])
            [98]).map (fun r => r.1)
        = (sampleKeeper.GetNextFailureIDKey sampleCtx5 [98]).map (fun r => r.1) ∧
      (∀ key, key ≠ sampleKeeper.GetFailureKey [97] (Failure.mk [97] 1 (some [5]) [9]).Id →
        (Ctx.mk (sampleCtx5.store.Delete [1, 97, 0, 0, 0, 0, 0, 0, 0, 1]) [([97], [5])]).store.Get
            key
          = sampleCtx5.store.Get key)) :=
  ⟨rfl, rfl,
    (C22_per_address_isolation sampleKeeper sampleCtx5 [97] [98] (by decide) sampleKeeper_key_97_98
      ⟨by decide, by decide⟩
      (fun i => List.isPrefixOf_iff_prefix.mpr ⟨Uint64ToBigEndian i, rfl⟩)).1
      none [] ⟨[97], 2, none, []⟩ _ rfl,
    (C22_per_address_isolation sampleKeeper sampleCtx5 [97] [98] (by decide) sampleKeeper_key_97_98
      ⟨by decide, by decide⟩
      (fun i => List.isPrefixOf_iff_prefix.mpr ⟨Uint64ToBigEndian i, rfl⟩)).2
      [97] ⟨[97], 1, some [5], [9]⟩ [5] _ rfl rfl rfl rfl⟩

end Neutron
